import Mathlib

/-!
A shallow embedding of `mm.c` (segregated free-list allocator)

The allocator is compiled for a 32-bit target (`SET_PTR` stores a pointer in an
`unsigned int`, link fields are one word wide), so `size_t`, `unsigned int` and
pointers are 32 bits wide.  Memory is a flat map from byte addresses to byte
values; words are little-endian.  Values of type `size_t` are natural numbers
reduced modulo `2 ^ 32` wherever the C code can wrap.

A function of the model returns `none` when the C call does not return normally:
a list scan that never ends, or a store through the null pointer.
-/

namespace MM

/-! ## Constants and the header/footer codec -/

/-- The modulus of `size_t` and `unsigned int`. -/
def WORD : Nat := 4294967296

def ALIGNMENT : Nat := 8
def WSIZE : Nat := 4
def DSIZE : Nat := 8
def CHUNKSIZE : Nat := 4096
def LIST_SIZE : Nat := 20

/-- The 32-bit constant `~0x7`. -/
def MASK : Nat := 4294967288

/-- The function `ALIGN(size) = ((size) + (ALIGNMENT - 1)) & ~0x7` on `size_t`. -/
def ALIGN (size : Nat) : Nat := ((size + (ALIGNMENT - 1)) % WORD) &&& MASK

def MAX (x y : Nat) : Nat := if x > y then x else y

/-- The function `PACK(size, alloc) = (size) | (alloc)`. -/
def PACK (size alloc : Nat) : Nat := size ||| alloc

/-! ## Memory -/

/-- Byte-addressed memory. -/
abbrev Mem := Nat → Nat

/-- The definition `GET(p)`: read the little-endian 32-bit word at address `p`. -/
def GET (m : Mem) (p : Nat) : Nat :=
  m p % 256 + 256 * (m (p + 1) % 256) + 65536 * (m (p + 2) % 256)
    + 16777216 * (m (p + 3) % 256)

/-- The definition `PUT(p, val)`: store the 32-bit word `val` at address `p`. -/
def PUT (m : Mem) (p val : Nat) : Mem := fun a =>
  if a = p then val % 256
  else if a = p + 1 then val / 256 % 256
  else if a = p + 2 then val / 65536 % 256
  else if a = p + 3 then val / 16777216 % 256
  else m a

/-- The function `GET_SIZE(p) = GET(p) & ~0x7`. -/
def GET_SIZE (m : Mem) (p : Nat) : Nat := GET m p &&& MASK

/-- The function `GET_ALLOC(p) = GET(p) & 0x1`. -/
def GET_ALLOC (m : Mem) (p : Nat) : Nat := GET m p &&& 1

def HDRP (ptr : Nat) : Nat := ptr - WSIZE
def FTRP (m : Mem) (ptr : Nat) : Nat := ptr + GET_SIZE m (HDRP ptr) - DSIZE
def NEXT_BLKP (m : Mem) (ptr : Nat) : Nat := ptr + GET_SIZE m (ptr - WSIZE)
def PREV_BLKP (m : Mem) (ptr : Nat) : Nat := ptr - GET_SIZE m (ptr - DSIZE)

def GET_PREV (ptr : Nat) : Nat := ptr
def GET_NEXT (ptr : Nat) : Nat := ptr + WSIZE

/-- The function `PREV_NODE(ptr) = *(char **)(ptr)`. -/
def PREV_NODE (m : Mem) (ptr : Nat) : Nat := GET m ptr
/-- The function `NEXT_NODE(ptr) = *(char **)(GET_NEXT(ptr))`. -/
def NEXT_NODE (m : Mem) (ptr : Nat) : Nat := GET m (GET_NEXT ptr)

/-- The definition `SET_PTR(p, ptr)`: store the pointer `ptr`, cast to `unsigned int`, at `p`. -/
def SET_PTR (m : Mem) (p ptr : Nat) : Mem := PUT m p (ptr % WORD)

/-- The function `memcpy(dst, src, n)` as a byte copy in ascending address
order.  The C function is defined only where the `n` bytes at `src` and the `n`
bytes at `dst` do not overlap; there the order does not matter.  Where they
overlap the model gives the result of the ascending copy, one of the results
the C function may give, and the statement about the copied content (claim
C5) leaves such calls out; in both cases the bytes written are the `n` bytes
at `dst`. -/
def memcpy (m : Mem) (dst src : Nat) : Nat → Mem
  | 0 => m
  | n + 1 => memcpy (fun a => if a = dst then m src else m a) (dst + 1) (src + 1) n

/-! ## Allocator state -/

/-- The globals of `mm.c` together with the state of the heap region
(`mem_brk`, `mem_max_addr` and the bytes). -/
structure State where
  mem : Mem
  mem_brk : Nat
  mem_max_addr : Nat
  heap_start : Nat
  segregated_free_list : Nat → Nat

/-- Modelled from the spec: the heap-growth primitive `mem_sbrk` of `memlib`,
which is not part of the sources.  It extends the heap by `incr` bytes and
returns the start of the new region, or reports failure (`none`) when the
region cannot grow that far. -/
def mem_sbrk (s : State) (incr : Nat) : Option (Nat × State) :=
  if s.mem_brk + incr > s.mem_max_addr then none
  else some (s.mem_brk, { s with mem_brk := s.mem_brk + incr })

def setList (s : State) (i v : Nat) : State :=
  { s with segregated_free_list := fun j => if j = i then v else s.segregated_free_list j }

def setMem (s : State) (m : Mem) : State := { s with mem := m }

/-- The bound on list scans: a list of distinct heap addresses is shorter. -/
def scanFuel (s : State) : Nat := s.mem_brk + 1

/-- The definition `getSize`: the block size for a request of `size` bytes. -/
def getSize (size : Nat) : Nat :=
  if size < DSIZE then 2 * DSIZE else ALIGN ((size + DSIZE) % WORD)

/-- The loop `for (; i < LIST_SIZE - 1; i++) size >>= 1;` of `pushNode` and
`popNode`, run for `k` more rounds; it returns the final `(i, size)`. -/
def listIndex : Nat → Nat → Nat → Nat × Nat
  | 0, i, size => (i, size)
  | k + 1, i, size => if i < LIST_SIZE - 1 then listIndex k (i + 1) (size >>> 1) else (i, size)

/-- The position scan of `pushNode`: returns the final `(preNode, node)`. -/
def pushScan (m : Mem) (size : Nat) : Nat → Nat → Nat → Option (Nat × Nat)
  | 0, _, _ => none
  | fuel + 1, preNode, node =>
    if preNode ≠ 0 ∧ size > GET_SIZE m (HDRP preNode) then
      pushScan m size fuel (PREV_NODE m preNode) preNode
    else some (preNode, node)

def pushNode (s : State) (ptr size : Nat) : Option State :=
  let (i, size) := listIndex LIST_SIZE 0 size
  match pushScan s.mem size (scanFuel s) (s.segregated_free_list i) 0 with
  | none => none
  | some (preNode, node) =>
    let m := SET_PTR s.mem (GET_PREV ptr) preNode
    let m := SET_PTR m (GET_NEXT ptr) node
    let m := if preNode ≠ 0 then SET_PTR m (GET_NEXT preNode) ptr else m
    if node ≠ 0 then
      let m := SET_PTR m (GET_NEXT ptr) node
      let m := SET_PTR m (GET_PREV node) ptr
      some (setMem s m)
    else
      let m := SET_PTR m (GET_PREV ptr) preNode
      some (setList (setMem s m) i ptr)

def popNode (s : State) (ptr : Nat) : State :=
  let size := GET_SIZE s.mem (HDRP ptr)
  let m := s.mem
  let m := if PREV_NODE m ptr ≠ 0 then
      SET_PTR m (GET_NEXT (PREV_NODE m ptr)) (NEXT_NODE m ptr) else m
  if NEXT_NODE m ptr ≠ 0 then
    setMem s (SET_PTR m (GET_PREV (NEXT_NODE m ptr)) (PREV_NODE m ptr))
  else
    let (i, _) := listIndex LIST_SIZE 0 size
    setList (setMem s m) i (PREV_NODE m ptr)

def coalesce (s : State) (ptr : Nat) : Option (Nat × State) :=
  let prev_alloc := GET_ALLOC s.mem (HDRP (PREV_BLKP s.mem ptr))
  let next_alloc := GET_ALLOC s.mem (HDRP (NEXT_BLKP s.mem ptr))
  let size := GET_SIZE s.mem (HDRP ptr)
  if prev_alloc ≠ 0 ∧ next_alloc ≠ 0 then some (ptr, s)
  else
    let s := popNode s ptr
    if prev_alloc ≠ 0 ∧ ¬ next_alloc ≠ 0 then
      let s := popNode s (NEXT_BLKP s.mem ptr)
      let size := (size + GET_SIZE s.mem (HDRP (NEXT_BLKP s.mem ptr))) % WORD
      let s := setMem s (PUT s.mem (HDRP ptr) (PACK size 0))
      let s := setMem s (PUT s.mem (FTRP s.mem ptr) (PACK size 0))
      (pushNode s ptr size).map fun s => (ptr, s)
    else if ¬ prev_alloc ≠ 0 ∧ next_alloc ≠ 0 then
      let s := popNode s (PREV_BLKP s.mem ptr)
      let size := (size + GET_SIZE s.mem (HDRP (PREV_BLKP s.mem ptr))) % WORD
      let s := setMem s (PUT s.mem (FTRP s.mem ptr) (PACK size 0))
      let ptr := PREV_BLKP s.mem ptr
      let s := setMem s (PUT s.mem (HDRP ptr) (PACK size 0))
      (pushNode s ptr size).map fun s => (ptr, s)
    else
      let s := popNode s (PREV_BLKP s.mem ptr)
      let s := popNode s (NEXT_BLKP s.mem ptr)
      let size := (size + (GET_SIZE s.mem (HDRP (PREV_BLKP s.mem ptr))
        + GET_SIZE s.mem (HDRP (NEXT_BLKP s.mem ptr))) % WORD) % WORD
      let s := setMem s (PUT s.mem (FTRP s.mem (NEXT_BLKP s.mem ptr)) (PACK size 0))
      let ptr := PREV_BLKP s.mem ptr
      let s := setMem s (PUT s.mem (HDRP ptr) (PACK size 0))
      (pushNode s ptr size).map fun s => (ptr, s)

/-- The definition `extend_heap`: `some (0, s)` is the `NULL` return. -/
def extend_heap (s : State) (size : Nat) : Option (Nat × State) :=
  let size := ALIGN size
  match mem_sbrk s size with
  | none => some (0, s)
  | some (ptr, s) =>
    let s := setMem s (PUT s.mem (HDRP ptr) (PACK size 0))
    let s := setMem s (PUT s.mem (FTRP s.mem ptr) (PACK size 0))
    let s := setMem s (PUT s.mem (HDRP (NEXT_BLKP s.mem ptr)) (PACK 0 1))
    match pushNode s ptr size with
    | none => none
    | some s => coalesce s ptr

def place (s : State) (ptr size : Nat) : Option (Nat × State) :=
  let nodeSize := GET_SIZE s.mem (HDRP ptr)
  let newSize := (nodeSize + WORD - size) % WORD
  let s := popNode s ptr
  if newSize ≤ DSIZE * 2 then
    let s := setMem s (PUT s.mem (HDRP ptr) (PACK nodeSize 1))
    let s := setMem s (PUT s.mem (FTRP s.mem ptr) (PACK nodeSize 1))
    some (ptr, s)
  else
    let s := setMem s (PUT s.mem (HDRP ptr) (PACK size 1))
    let s := setMem s (PUT s.mem (FTRP s.mem ptr) (PACK size 1))
    let s := setMem s (PUT s.mem (HDRP (NEXT_BLKP s.mem ptr)) (PACK newSize 0))
    let s := setMem s (PUT s.mem (FTRP s.mem (NEXT_BLKP s.mem ptr)) (PACK newSize 0))
    (pushNode s (NEXT_BLKP s.mem ptr) newSize).map fun s => (ptr, s)

/-- The definition `mm_init`: the return value (`0` or `-1`) and the state. -/
def mm_init (s : State) : Option (Int × State) :=
  let s := { s with segregated_free_list := fun _ => 0 }
  match mem_sbrk s (4 * WSIZE) with
  | none => some (-1, s)
  | some (p, s) =>
    let s := { s with heap_start := p }
    let s := setMem s (PUT s.mem s.heap_start 0)
    let s := setMem s (PUT s.mem (s.heap_start + WSIZE) (PACK DSIZE 1))
    let s := setMem s (PUT s.mem (s.heap_start + 2 * WSIZE) (PACK DSIZE 1))
    let s := setMem s (PUT s.mem (s.heap_start + 3 * WSIZE) (PACK 0 1))
    match extend_heap s (CHUNKSIZE / DSIZE) with
    | none => none
    | some (r, s) => if r = 0 then some (-1, s) else some (0, s)

/-- The inner `while` of `mm_malloc`: the first node of the list, from `node`
on, whose block is large enough (`0` when there is none). -/
def fitScan (m : Mem) (size : Nat) : Nat → Nat → Option Nat
  | 0, _ => none
  | fuel + 1, node =>
    if node ≠ 0 ∧ size > GET_SIZE m (HDRP node) then fitScan m size fuel (PREV_NODE m node)
    else some node

/-- The `for` loop of `mm_malloc` with `k` rounds left: the fitting node, or `0`. -/
def findFit (s : State) (size : Nat) : Nat → Nat → Nat → Option Nat
  | 0, _, _ => some 0
  | k + 1, i, temp =>
    if s.segregated_free_list i ≠ 0 ∧ temp ≤ 1 then
      match fitScan s.mem size (scanFuel s) (s.segregated_free_list i) with
      | none => none
      | some node => if node ≠ 0 then some node else findFit s size k (i + 1) (temp >>> 1)
    else findFit s size k (i + 1) (temp >>> 1)

def mm_malloc (s : State) (size : Nat) : Option (Nat × State) :=
  if size = 0 then some (0, s)
  else
    let size := getSize size
    match findFit s size LIST_SIZE 0 size with
    | none => none
    | some node =>
      if node ≠ 0 then place s node size
      else
        match extend_heap s (MAX size CHUNKSIZE) with
        | none => none
        | some (node, s1) => if node = 0 then some (0, s1) else place s1 node size

def mm_free (s : State) (ptr : Nat) : Option State :=
  let size := GET_SIZE s.mem (HDRP ptr)
  let s := setMem s (PUT s.mem (HDRP ptr) (PACK size 0))
  let s := setMem s (PUT s.mem (FTRP s.mem ptr) (PACK size 0))
  match pushNode s ptr size with
  | none => none
  | some s => (coalesce s ptr).map fun r => r.2

/-- The definition `realloc_coalesce`: the new block pointer (`0` for `NULL`) and the state. -/
def realloc_coalesce (s : State) (ptr newSize : Nat) : Nat × State :=
  let prev_alloc := GET_ALLOC s.mem (FTRP s.mem (PREV_BLKP s.mem ptr))
  let next_alloc := GET_ALLOC s.mem (HDRP (NEXT_BLKP s.mem ptr))
  let size := GET_SIZE s.mem (HDRP ptr)
  if prev_alloc ≠ 0 ∧ ¬ next_alloc ≠ 0 then
    let size := (size + GET_SIZE s.mem (HDRP (NEXT_BLKP s.mem ptr))) % WORD
    if size ≥ newSize then
      let s := popNode s (NEXT_BLKP s.mem ptr)
      let s := setMem s (PUT s.mem (HDRP ptr) (PACK size 1))
      let s := setMem s (PUT s.mem (FTRP s.mem ptr) (PACK size 1))
      (ptr, s)
    else (0, s)
  else if ¬ prev_alloc ≠ 0 ∧ next_alloc ≠ 0 then
    let size := (size + GET_SIZE s.mem (HDRP (PREV_BLKP s.mem ptr))) % WORD
    if size ≥ newSize then
      let s := popNode s (PREV_BLKP s.mem ptr)
      let s := setMem s (PUT s.mem (FTRP s.mem ptr) (PACK size 1))
      let s := setMem s (PUT s.mem (HDRP (PREV_BLKP s.mem ptr)) (PACK size 1))
      (PREV_BLKP s.mem ptr, s)
    else (0, s)
  else if ¬ prev_alloc ≠ 0 ∧ ¬ next_alloc ≠ 0 then
    let size := (size + (GET_SIZE s.mem (FTRP s.mem (NEXT_BLKP s.mem ptr))
      + GET_SIZE s.mem (HDRP (PREV_BLKP s.mem ptr))) % WORD) % WORD
    if size ≥ newSize then
      let s := popNode s (PREV_BLKP s.mem ptr)
      let s := popNode s (NEXT_BLKP s.mem ptr)
      let s := setMem s (PUT s.mem (FTRP s.mem (NEXT_BLKP s.mem ptr)) (PACK size 1))
      let s := setMem s (PUT s.mem (HDRP (PREV_BLKP s.mem ptr)) (PACK size 1))
      (PREV_BLKP s.mem ptr, s)
    else (0, s)
  else (0, s)

/-- The function `mm_realloc`.  The fallback path copies into the result of `mm_malloc`
without testing it: a `NULL` destination is a store through the null pointer,
and the call does not return (`none`). -/
def mm_realloc (s : State) (ptr size : Nat) : Option (Nat × State) :=
  if ptr = 0 then mm_malloc s size
  else if size = 0 then (mm_free s ptr).map fun s => (0, s)
  else
    let newSize := getSize size
    let oldsize := GET_SIZE s.mem (HDRP ptr)
    if oldsize < newSize then
      let (new, s) := realloc_coalesce s ptr newSize
      if new = 0 then
        match mm_malloc s size with
        | none => none
        | some (new, s) =>
          if new = 0 then none
          else
            let s := setMem s (memcpy s.mem new ptr size)
            (mm_free s ptr).map fun s => (new, s)
      else
        let s := if new ≠ ptr then setMem s (memcpy s.mem new ptr size) else s
        let s := setMem s (PUT s.mem (HDRP new) (PACK (GET_SIZE s.mem (HDRP new)) 1))
        let s := setMem s (PUT s.mem (FTRP s.mem new) (PACK (GET_SIZE s.mem (HDRP new)) 1))
        some (new, s)
    else
      let s := setMem s (PUT s.mem (HDRP ptr) (PACK (GET_SIZE s.mem (HDRP ptr)) 1))
      let s := setMem s (PUT s.mem (FTRP s.mem ptr) (PACK (GET_SIZE s.mem (HDRP ptr)) 1))
      some (ptr, s)

/-- A fresh heap region of `cap` bytes at address `base`, all bytes zero. -/
def emptyState (base cap : Nat) : State :=
  { mem := fun _ => 0, mem_brk := base, mem_max_addr := base + cap,
    heap_start := 0, segregated_free_list := fun _ => 0 }

/-! ## Specification vocabulary -/

/-- A block of the heap: its size and whether it is allocated. -/
abbrev Blk := Nat × Bool

/-- The number of bytes a sequence of blocks takes. -/
def total : List Blk → Nat
  | [] => 0
  | b :: r => b.1 + total r

/-- The header and footer word of a block. -/
def tagOf (b : Blk) : Nat := b.1 + (if b.2 then 1 else 0)

/-- The blocks `bl` lie one after the other in memory, the first with payload
address `bp`, each with its tag in its header and in its footer. -/
def Seg (m : Mem) : Nat → List Blk → Prop
  | _, [] => True
  | bp, b :: r =>
    16 ≤ b.1 ∧ b.1 % 8 = 0 ∧ GET m (bp - 4) = tagOf b ∧ GET m (bp + b.1 - 8) = tagOf b
      ∧ Seg m (bp + b.1) r

/-- The layout `bl`, starting at payload address `bp`, has the block `c` at
payload address `p`. -/
def BlockAt (bp : Nat) (bl : List Blk) (p : Nat) (c : Blk) : Prop :=
  ∃ pre post, bl = pre ++ c :: post ∧ p = bp + total pre

/-- The payload address of the first block. -/
def firstBlock (s : State) : Nat := s.heap_start + 16

/-- The heap region holds the padding word, the prologue, the blocks `bl` and
the epilogue header, which ends at the break. -/
def Heap (s : State) (bl : List Blk) : Prop :=
  s.mem_max_addr < WORD ∧ s.mem_brk ≤ s.mem_max_addr
    ∧ GET s.mem (s.heap_start + 4) = 9 ∧ GET s.mem (s.heap_start + 8) = 9
    ∧ Seg s.mem (firstBlock s) bl
    ∧ firstBlock s + total bl = s.mem_brk
    ∧ GET s.mem (s.mem_brk - 4) = 1

/-- The nodes `l` are linked to one another: each `NEXT_NODE` is the node before
(`nxt` for the first), each `PREV_NODE` the node after (`prv` for the last). -/
def DLL (m : Mem) : Nat → List Nat → Nat → Prop
  | _, [], _ => True
  | nxt, x :: r, prv => NEXT_NODE m x = nxt ∧ PREV_NODE m x = r.headD prv ∧ DLL m x r prv

/-- The nodes of a list are apart: their link fields do not overlap. -/
def Apart (l : List Nat) : Prop :=
  ∀ p ∈ l, ∀ q ∈ l, p ≠ q → p + 8 ≤ q ∨ q + 8 ≤ p

/-- The nodes of a list are non-null pointers. -/
def Ptrs (l : List Nat) : Prop := ∀ p ∈ l, 0 < p ∧ p < WORD

/-- The index holds exactly the list `fl`, in the last bucket, from its head on. -/
def FL (s : State) (fl : List Nat) : Prop :=
  (∀ i, i ≠ LIST_SIZE - 1 → s.segregated_free_list i = 0)
    ∧ s.segregated_free_list (LIST_SIZE - 1) = fl.headD 0
    ∧ DLL s.mem 0 fl 0

/-- The nodes of `fl` are free blocks of the layout `bl`. -/
def FreeNodes (s : State) (bl : List Blk) (fl : List Nat) : Prop :=
  fl.Nodup ∧ ∀ p ∈ fl, ∃ sz, BlockAt (firstBlock s) bl p (sz, false)

/-- The heap and the index are well formed, the index holding some of the free
blocks. -/
def Wf (s : State) (bl : List Blk) (fl : List Nat) : Prop :=
  Heap s bl ∧ FL s fl ∧ FreeNodes s bl fl

/-- The block before the first block of a layout split after `pre`: the last
block of `pre`, or the prologue. -/
def PrevIs (pre : List Blk) (pb : Blk) : Prop :=
  (pre = [] ∧ pb = (8, true)) ∨ ∃ pre', pre = pre' ++ [pb]

/-- The block after a block followed by `post`: the first block of `post`, or
the epilogue. -/
def NextIs (post : List Blk) (nb : Blk) : Prop :=
  (post = [] ∧ nb = (0, true)) ∨ ∃ post', post = nb :: post'

/-- The allocated bit of a block as `GET_ALLOC` reads it. -/
def bit (b : Blk) : Nat := if b.2 then 1 else 0

/-- Every free block of the layout is a node of the index. -/
def Complete (s : State) (bl : List Blk) (fl : List Nat) : Prop :=
  ∀ p sz, BlockAt (firstBlock s) bl p (sz, false) → p ∈ fl

/-- The address `a` is a payload byte of an allocated block of the layout. -/
def AllocByte (s : State) (bl : List Blk) (a : Nat) : Prop :=
  ∃ p sz, BlockAt (firstBlock s) bl p (sz, true) ∧ p ≤ a ∧ a < p + sz - 8

/-- No two neighbouring blocks are both free. -/
def Coalesced (bl : List Blk) : Prop :=
  bl.Chain' fun x y => x.2 = true ∨ y.2 = true

/-- The allocator invariant, for the layout `bl`, the index `fl` and the live
pointers `live`. -/
def InvAt (s : State) (bl : List Blk) (fl live : List Nat) : Prop :=
  Wf s bl fl
    ∧ Complete s bl fl
    ∧ Coalesced bl
    ∧ live.Nodup
    ∧ ∀ p, p ∈ live ↔ ∃ sz, BlockAt (firstBlock s) bl p (sz, true)

def Inv (s : State) (live : List Nat) : Prop := ∃ bl fl, InvAt s bl fl live

/-- A request size the allocator supports: `getSize` does not wrap. -/
def validRequest (n : Nat) : Prop := n + 15 < WORD

/-- The client stores the byte `v` at address `a`. -/
def store (s : State) (a v : Nat) : State :=
  setMem s fun x => if x = a then v else s.mem x

/-- The states a client reaches from a successful `mm_init` on a fresh heap
region whose addresses fit a pointer, together with the pointers that are live
there.  The client calls `mm_malloc`, `mm_free` and `mm_realloc` with supported
sizes, frees and reallocates live pointers only, and stores bytes into the
payloads of live pointers only. -/
inductive Reach : State → List Nat → Prop
  | init (s0 s : State) : s0.mem_max_addr < WORD → mm_init s0 = some (0, s) → Reach s []
  | malloc (s s1 : State) (live : List Nat) (n p : Nat) : Reach s live → validRequest n →
      mm_malloc s n = some (p, s1) → Reach s1 (if p = 0 then live else p :: live)
  | free (s s1 : State) (live : List Nat) (p : Nat) : Reach s live → p ∈ live →
      mm_free s p = some s1 → Reach s1 (live.erase p)
  | realloc (s s1 : State) (live : List Nat) (p n q : Nat) : Reach s live → p ∈ live →
      0 < n → validRequest n → mm_realloc s p n = some (q, s1) → Reach s1 (q :: live.erase p)
  | realloc_null (s s1 : State) (live : List Nat) (n q : Nat) : Reach s live →
      validRequest n → mm_realloc s 0 n = some (q, s1) →
      Reach s1 (if q = 0 then live else q :: live)
  | realloc_zero (s s1 : State) (live : List Nat) (p q : Nat) : Reach s live → p ∈ live →
      mm_realloc s p 0 = some (q, s1) → Reach s1 (live.erase p)
  | store (s : State) (live : List Nat) (p i v : Nat) : Reach s live → p ∈ live →
      i < GET_SIZE s.mem (HDRP p) - DSIZE → Reach (store s (p + i) v) live

end MM

namespace MM

/-! ## The consistency checker and client programs -/

/-- The loop `for (; i < LIST_SIZE; i++) { if (size <= 1) break; size >>= 1; }`
of the checker functions, with `k` rounds of fuel: the final index `i`. -/
def checkIndex : Nat → Nat → Nat → Nat
  | 0, i, _ => i
  | k + 1, i, size =>
    if i < LIST_SIZE then (if size ≤ 1 then i else checkIndex k (i + 1) (size >>> 1)) else i

/-- The function `check_block_overlap`, walking from `ptr`: `some true` when it
returns normally, `some false` when it reports a violation (`assert(0)`). -/
def check_block_overlap_from (m : Mem) : Nat → Nat → Option Bool
  | 0, _ => none
  | fuel + 1, ptr =>
    if GET_SIZE m ptr > 0 then
      if GET_SIZE m (HDRP ptr) ≠ GET_SIZE m (FTRP m ptr) then some false
      else check_block_overlap_from m fuel (NEXT_BLKP m ptr)
    else some true

def check_block_overlap (s : State) : Option Bool :=
  check_block_overlap_from s.mem (scanFuel s) s.heap_start

/-- The nodes of a list of the index in the order `mm_malloc` and `pushNode`
scan it: from `node` along `PREV_NODE` up to `NULL`. -/
def listWalk (m : Mem) : Nat → Nat → List Nat
  | 0, _ => []
  | fuel + 1, node => if node = 0 then [] else node :: listWalk m fuel (PREV_NODE m node)

/-- The nodes of bucket `i`, from its head. -/
def bucketWalk (s : State) (i : Nat) : List Nat :=
  listWalk s.mem (scanFuel s) (s.segregated_free_list i)

/-- The nodes of all `LIST_SIZE` buckets. -/
def indexWalk (s : State) : List Nat :=
  (List.range LIST_SIZE).flatMap (bucketWalk s)

/-- The blocks met walking the heap from the block at `ptr` to the epilogue
(the header of size `0`), each as `(ptr, size, alloc)`. -/
def heapWalk (m : Mem) : Nat → Nat → List (Nat × Nat × Nat)
  | 0, _ => []
  | fuel + 1, ptr =>
    if GET_SIZE m (HDRP ptr) > 0 then
      (ptr, GET_SIZE m (HDRP ptr), GET_ALLOC m (HDRP ptr)) :: heapWalk m fuel (NEXT_BLKP m ptr)
    else []

/-- The blocks of the heap of `s`, from the first block after the prologue. -/
def heapBlocks (s : State) : List (Nat × Nat × Nat) :=
  heapWalk s.mem (scanFuel s) (firstBlock s)

/-- A call of a client program; a pointer argument is named by its position
among the pointers the earlier calls returned. -/
inductive Op where
  | malloc (n : Nat)
  | free (i : Nat)
  | realloc (i n : Nat)
  | store (i off v : Nat)

/-- One call of a client program, from the state `s` with the pointers `ps`
returned so far. -/
def stepOp : State × List Nat → Op → Option (State × List Nat)
  | (s, ps), Op.malloc n => (mm_malloc s n).map fun r => (r.2, ps ++ [r.1])
  | (s, ps), Op.free i => (mm_free s (ps.getD i 0)).map fun s1 => (s1, ps)
  | (s, ps), Op.realloc i n => (mm_realloc s (ps.getD i 0) n).map fun r => (r.2, ps ++ [r.1])
  | (s, ps), Op.store i off v => some (store s (ps.getD i 0 + off) v, ps)

def runOps : State × List Nat → List Op → Option (State × List Nat)
  | c, [] => some c
  | c, op :: ops =>
    match stepOp c op with
    | none => none
    | some c1 => runOps c1 ops

/-- A client program run after `mm_init` on a fresh heap region of `cap` bytes
at address `1024`. -/
def runClient (cap : Nat) (ops : List Op) : Option (State × List Nat) :=
  match mm_init (emptyState 1024 cap) with
  | some (0, s) => runOps (s, []) ops
  | _ => none

/-- One call of a client program that respects the contract of the allocator:
the request size is supported (`validRequest`), a pointer that is freed or
reallocated is live, a store goes into the payload of a live pointer.  The
third component is the list of live pointers. -/
def stepLive : State × List Nat × List Nat → Op → Option (State × List Nat × List Nat)
  | (s, ps, live), Op.malloc n =>
    if n + 15 < WORD then
      (mm_malloc s n).map fun r => (r.2, ps ++ [r.1], if r.1 = 0 then live else r.1 :: live)
    else none
  | (s, ps, live), Op.free i =>
    if ps.getD i 0 ∈ live then
      (mm_free s (ps.getD i 0)).map fun s1 => (s1, ps, live.erase (ps.getD i 0))
    else none
  | (s, ps, live), Op.realloc i n =>
    if ps.getD i 0 ∈ live ∧ 0 < n ∧ n + 15 < WORD then
      (mm_realloc s (ps.getD i 0) n).map fun r =>
        (r.2, ps ++ [r.1], r.1 :: live.erase (ps.getD i 0))
    else none
  | (s, ps, live), Op.store i off v =>
    if ps.getD i 0 ∈ live ∧ off < GET_SIZE s.mem (HDRP (ps.getD i 0)) - DSIZE then
      some (store s (ps.getD i 0 + off) v, ps, live)
    else none

def runLive : State × List Nat × List Nat → List Op → Option (State × List Nat × List Nat)
  | c, [] => some c
  | c, op :: ops =>
    match stepLive c op with
    | none => none
    | some c1 => runLive c1 ops

/-- A client program that respects the contract, run after `mm_init` on a
fresh heap region of `cap` bytes at address `1024`. -/
def runValid (cap : Nat) (ops : List Op) : Option (State × List Nat × List Nat) :=
  if 1024 + cap < WORD then
    match mm_init (emptyState 1024 cap) with
    | some (0, s) => runLive (s, [], []) ops
    | _ => none
  else none

/-- The state, the returned pointers and the live pointers after such a
program (the fresh region when the program does not run to its end). -/
def clientRun (cap : Nat) (ops : List Op) : State × List Nat × List Nat :=
  (runValid cap ops).getD (emptyState 1024 cap, [], [])

/-- The client of scenario 4 up to its reallocation: `p = mm_malloc(16)`, then
the bytes `1, 2, ..., 16` are stored into the 16 bytes at `p`. -/
def scenario4 : List Op :=
  Op.malloc 16 :: (List.range 16).map fun i => Op.store 0 i (i + 1)

/-- The address at which the block of `p` starts once it is merged with its
free neighbours: the address of the predecessor when that is free. -/
def mergedStart (m : Mem) (p : Nat) : Nat :=
  if GET_ALLOC m (HDRP (PREV_BLKP m p)) = 0 then PREV_BLKP m p else p

/-- The size of the block of `p` once it is merged with its free neighbours. -/
def mergedSize (m : Mem) (p : Nat) : Nat :=
  GET_SIZE m (HDRP p)
    + (if GET_ALLOC m (HDRP (PREV_BLKP m p)) = 0 then GET_SIZE m (HDRP (PREV_BLKP m p)) else 0)
    + (if GET_ALLOC m (HDRP (NEXT_BLKP m p)) = 0 then GET_SIZE m (HDRP (NEXT_BLKP m p)) else 0)

/-- The blocks of a layout that starts at `bp`, each as `(ptr, size, alloc)`. -/
def blocksFrom : Nat → List Blk → List (Nat × Nat × Nat)
  | _, [] => []
  | bp, b :: r => (bp, b.1, bit b) :: blocksFrom (bp + b.1) r

end MM

/-! ## `trans.c`: matrix transposes

A matrix is a function from row and column to the entry; the array bounds of
the C declaration are checked at every access (`none` is an access out of
bounds).  The source `A` and the destination `B` are separate arrays, and the
functions return the destination after the call; `A` is never written. -/

namespace TransC

abbrev Mat := Nat → Nat → Int

/-- The read `A[i][j]` of an array declared `int A[rows][cols]`. -/
def rd (rows cols : Nat) (A : Mat) (i j : Nat) : Option Int :=
  if i < rows ∧ j < cols then some (A i j) else none

/-- The write `B[i][j] = v` to an array declared `int B[rows][cols]`. -/
def wr (rows cols : Nat) (B : Mat) (i j : Nat) (v : Int) : Option Mat :=
  if i < rows ∧ j < cols then some (fun a b => if a = i ∧ b = j then v else B a b) else none

/-- The loop `for (i = i0; cond(i); i = next(i)) body`, with `fuel` bounding the
number of tests of `cond`; the state is the destination array. -/
def forLoop (cond : Nat → Bool) (next : Nat → Nat) (body : Nat → Mat → Option Mat) :
    Nat → Nat → Mat → Option Mat
  | 0, _, _ => none
  | fuel + 1, i, B =>
    if cond i then (body i B).bind (forLoop cond next body fuel (next i)) else some B

def transpose_32_32 (A B : Mat) : Option Mat :=
  forLoop (fun i => i < 32) (fun i => i + 8) (fun i B =>
    forLoop (fun j => j < 32) (fun j => j + 1) (fun j B => do
      let temp0 ← rd 32 32 A j i
      let temp1 ← rd 32 32 A j (i + 1)
      let temp2 ← rd 32 32 A j (i + 2)
      let temp3 ← rd 32 32 A j (i + 3)
      let temp4 ← rd 32 32 A j (i + 4)
      let temp5 ← rd 32 32 A j (i + 5)
      let temp6 ← rd 32 32 A j (i + 6)
      let temp7 ← rd 32 32 A j (i + 7)
      let B ← wr 32 32 B i j temp0
      let B ← wr 32 32 B (i + 1) j temp1
      let B ← wr 32 32 B (i + 2) j temp2
      let B ← wr 32 32 B (i + 3) j temp3
      let B ← wr 32 32 B (i + 4) j temp4
      let B ← wr 32 32 B (i + 5) j temp5
      let B ← wr 32 32 B (i + 6) j temp6
      wr 32 32 B (i + 7) j temp7) 33 0 B) 33 0 B

def transpose_64_64 (A B : Mat) : Option Mat :=
  forLoop (fun i => i < 64) (fun i => i + 4) (fun i B =>
    forLoop (fun j => j < 64) (fun j => j + 1) (fun j B => do
      let temp0 ← rd 64 64 A j i
      let temp1 ← rd 64 64 A j (i + 1)
      let temp2 ← rd 64 64 A j (i + 2)
      let temp3 ← rd 64 64 A j (i + 3)
      let B ← wr 64 64 B i j temp0
      let B ← wr 64 64 B (i + 1) j temp1
      let B ← wr 64 64 B (i + 2) j temp2
      wr 64 64 B (i + 3) j temp3) 65 0 B) 65 0 B

def transpose_61_67 (A B : Mat) : Option Mat :=
  forLoop (fun i => i < 61) (fun i => i + 8) (fun i B =>
    forLoop (fun j => j < 67) (fun j => j + 8) (fun j B =>
      forLoop (fun k => k < j + 8 && k < 67) (fun k => k + 1) (fun k B =>
        forLoop (fun l => l < i + 8 && l < 61) (fun l => l + 1) (fun l B => do
          let temp ← rd 67 61 A k l
          wr 61 67 B l k temp) 9 i B) 9 j B) 68 0 B) 62 0 B

/-- The function `transpose_submit(M, N, A, B)`. -/
def transpose_submit (M N : Nat) (A B : Mat) : Option Mat :=
  if M = 32 then transpose_32_32 A B
  else if M = 64 then transpose_64_64 A B
  else transpose_61_67 A B

/-- The baseline `trans(M, N, A, B)`, for `int A[N][M]` and `int B[M][N]`. -/
def trans (M N : Nat) (A B : Mat) : Option Mat :=
  forLoop (fun i => i < N) (fun i => i + 1) (fun i B =>
    forLoop (fun j => j < M) (fun j => j + 1) (fun j B => do
      let tmp ← rd N M A i j
      wr M N B j i tmp) (M + 1) 0 B) (N + 1) 0 B

/-- The function `is_transpose(M, N, A, B)`: `1` when `A[i][j] == B[j][i]` for
all `i < N` and `j < M`, and `0` at the first pair that differs. -/
def is_transpose (M N : Nat) (A B : Mat) : Nat :=
  if (List.range N).all fun i => (List.range M).all fun j => decide (A i j = B j i) then 1
  else 0

end TransC

/-! ## `cache_lab/csim.c`: the cache simulator

The global variables of the program (`cache`, the three counters) are the
fields of `State`.  A pointer to a line of a set is its position in the array
of the set, and `NULL` is `none`.  The array `cache.sets` has `set_num` sets of
`E` lines each; `load_store` with a set index outside the array, or with the
`NULL` of `evict`, does not return a state (`none`).  The printing under
`verbose` is left out. -/

namespace Csim

/-- The number of values of the type `size_t`. -/
def SIZE_T : Nat := 2 ^ 64

/-- The statement `x++` on a counter of type `int`, in two's complement on 32
bits (the step from `2^31 - 1` is undefined in ISO C and wraps on the usual
targets). -/
def incr (x : Int) : Int := (x + 1 + 2 ^ 31) % 2 ^ 32 - 2 ^ 31

/-- The type `Op` of the program. -/
inductive Op where
  | HIT
  | COLD_MISS
  deriving DecidableEq

/-- The type `line_t` of the program. -/
structure line_t where
  v : Int
  tag : Int
  lru : Nat

/-- The global variables: `cache.sets[set].lines[i]` is `sets set i`. -/
structure State where
  sets : Nat → Nat → line_t
  set_num : Nat
  E : Nat
  hit_count : Int
  miss_count : Int
  eviction_count : Int

/-- The assignment of a line of a set. -/
def setLine (s : State) (set line : Nat) (x : line_t) : State :=
  { s with sets := Function.update s.sets set (Function.update (s.sets set) line x) }

/-- The loop `for (i = ..; i < line_num; i++) { if (skip i) continue; return i; }`
with `n` lines left from line `i` on: the first line the loop returns at. -/
def firstLine (stop : Nat → Bool) : Nat → Nat → Option Nat
  | 0, _ => none
  | n + 1, i => if stop i then some i else firstLine stop n (i + 1)

/-- The function `getLRU`: the first valid line of the set with `lru == 0`. -/
def getLRU (s : State) (set : Nat) : Option Nat :=
  firstLine (fun i => decide ((s.sets set i).v ≠ 0 ∧ (s.sets set i).lru = 0)) s.E 0

/-- The loop of `update`, with `n` lines left from line `i` on. -/
def update_loop (set lru : Nat) : Nat → Nat → State → State
  | 0, _, s => s
  | n + 1, i, s =>
    update_loop set lru n (i + 1)
      (if (s.sets set i).v ≠ 0 ∧ (s.sets set i).lru > lru then
        setLine s set i { s.sets set i with lru := ((s.sets set i).lru + SIZE_T - 1) % SIZE_T }
      else s)

/-- The function `update`. -/
def update (s : State) (set line : Nat) : State :=
  let s1 := update_loop set (s.sets set line).lru s.E 0 s
  setLine s1 set line { s1.sets set line with lru := (s.E + SIZE_T - 1) % SIZE_T }

/-- The function `write_allocate`. -/
def write_allocate (s : State) (set line : Nat) (tag : Int) : State :=
  update (setLine s set line { s.sets set line with v := 1, tag := tag }) set line

/-- The function `hit_condition`. -/
def hit_condition (line : line_t) (tag : Int) : Bool :=
  decide (line.v = 0) || decide (line.tag ≠ tag)

/-- The function `cold_miss_condition`. -/
def cold_miss_condition (line : line_t) (_tag : Int) : Bool :=
  decide (line.v ≠ 0)

/-- The function `check`: the line it returns and the state it leaves. -/
def check (s : State) (set : Nat) (tag : Int) (op : Op) : Option Nat × State :=
  let condition := if op = Op.HIT then hit_condition else cold_miss_condition
  match firstLine (fun i => !condition (s.sets set i) tag) s.E 0 with
  | none => (none, s)
  | some i =>
    if op = Op.HIT then (some i, { s with hit_count := incr s.hit_count })
    else (some i, setLine s set i { s.sets set i with lru := 0 })

/-- The function `evict`. -/
def evict (s : State) (set : Nat) (_tag : Int) : Option Nat × State :=
  let s1 := { s with eviction_count := incr s.eviction_count }
  (getLRU s1 set, s1)

/-- The function `load_store`. -/
def load_store (s : State) (set_index : Int) (tag : Int) : Option State :=
  if set_index < 0 ∨ (s.set_num : Int) ≤ set_index then none
  else
    let set := set_index.toNat
    let r1 := check s set tag Op.HIT
    let r2 := if r1.1 = none then
        check { r1.2 with miss_count := incr r1.2.miss_count } set tag Op.COLD_MISS
      else r1
    let r3 := if r2.1 = none then evict r2.2 set tag else r2
    match r3.1 with
    | none => none
    | some line => some (write_allocate r3.2 set line tag)

/-- The calls `load_store(set_index, tag)` for the accesses of a trace, in
order. -/
def replay (s : State) : List (Int × Int) → Option State
  | [] => some s
  | a :: rest => (load_store s a.1 a.2).bind fun s1 => replay s1 rest

/-- The state `main` sets up: `set_num` sets of `E` lines from `calloc`, and
the counters at 0. -/
def initState (set_num E : Nat) : State :=
  { sets := fun _ _ => { v := 0, tag := 0, lru := 0 }
    set_num := set_num
    E := E
    hit_count := 0
    miss_count := 0
    eviction_count := 0 }

/-! ### The reference cache

The reference model follows the words of the specification, not the program:
each set is the list of its resident tags, the most recently accessed first. -/

/-- The reference cache: the resident tags of each set in recency order, and
the three counts. -/
structure RefCache where
  sets : Int → List Int
  hits : Nat
  misses : Nat
  evictions : Nat

/-- An access of the reference cache with `E` tags per set: it hits iff the tag
is resident; the accessed tag becomes the most recent; a miss on a full set
evicts the tag whose last access is the oldest. -/
def refAccess (E : Nat) (r : RefCache) (a : Int × Int) : RefCache :=
  if a.2 ∈ r.sets a.1 then
    { r with sets := Function.update r.sets a.1 (a.2 :: (r.sets a.1).erase a.2)
             hits := r.hits + 1 }
  else if (r.sets a.1).length < E then
    { r with sets := Function.update r.sets a.1 (a.2 :: r.sets a.1)
             misses := r.misses + 1 }
  else
    { r with sets := Function.update r.sets a.1 (a.2 :: (r.sets a.1).dropLast)
             misses := r.misses + 1
             evictions := r.evictions + 1 }

/-- The empty reference cache. -/
def refInit : RefCache :=
  { sets := fun _ => [], hits := 0, misses := 0, evictions := 0 }

/-- The reference cache after the accesses of a trace. -/
def refRun (E : Nat) (trace : List (Int × Int)) : RefCache :=
  trace.foldl (refAccess E) refInit

/-- The value an `int` counter holds after `n` increments from 0. -/
def wrapInt (n : Nat) : Int := ((n : Int) + 2 ^ 31) % 2 ^ 32 - 2 ^ 31

/-- The number of valid lines among the `E` lines of a set. -/
def validCount (E : Nat) (ln : Nat → line_t) : Nat :=
  ((Finset.range E).filter fun i => (ln i).v ≠ 0).card

/-- The relation between the `E` lines of a set and the recency list of the
reference cache: the valid lines carry the resident tags, each once, and the
line of the tag at position `j` of the list has the rank `E - 1 - j`. -/
structure SetRel (E : Nat) (ln : Nat → line_t) (l : List Int) : Prop where
  nodup : l.Nodup
  rank : ∀ i, i < E → (ln i).v ≠ 0 →
    (ln i).tag ∈ l ∧ (ln i).lru + l.indexOf (ln i).tag + 1 = E
  surj : ∀ t, t ∈ l → ∃ i, i < E ∧ (ln i).v ≠ 0 ∧ (ln i).tag = t
  inj : ∀ i k, i < E → k < E → (ln i).v ≠ 0 → (ln k).v ≠ 0 → (ln i).tag = (ln k).tag → i = k

/-- The relation between the program state and the reference cache. -/
structure CacheRel (s : State) (r : RefCache) : Prop where
  sets : ∀ set, set < s.set_num → SetRel s.E (s.sets set) (r.sets (set : Int))
  hits : s.hit_count = wrapInt r.hits
  misses : s.miss_count = wrapInt r.misses
  evictions : s.eviction_count = wrapInt r.evictions

end Csim

namespace MM

theorem testBit_MASK (i : Nat) : MASK.testBit i = (decide (3 ≤ i) && decide (i < 32)) := by
  have h : MASK = 2 ^ 3 * (2 ^ 29 - 1) := by norm_num [MASK]
  rw [h, Nat.testBit_mul_pow_two, Nat.testBit_two_pow_sub_one]
  by_cases h3 : 3 ≤ i
  · simp [h3]; omega
  · simp [h3]

theorem and_MASK (w : Nat) (hw : w < WORD) : w &&& MASK = w / 8 * 8 := by
  apply Nat.eq_of_testBit_eq
  intro i
  have h8 : w / 8 * 8 = 2 ^ 3 * (w >>> 3) := by
    rw [Nat.shiftRight_eq_div_pow]; norm_num [Nat.mul_comm]
  rw [Nat.testBit_and, testBit_MASK, h8, Nat.testBit_mul_pow_two, Nat.testBit_shiftRight]
  by_cases h3 : 3 ≤ i
  · have e : 3 + (i - 3) = i := by omega
    by_cases h32 : i < 32
    · simp [h3, h32, e]
    · have : w.testBit i = false := by
        apply Nat.testBit_lt_two_pow
        calc w < 2 ^ 32 := hw
          _ ≤ 2 ^ i := Nat.pow_le_pow_right (by norm_num) (by omega)
      simp [h3, h32, this, e]
  · simp [h3]

theorem and_one (w : Nat) : w &&& 1 = w % 2 := Nat.and_one_is_mod w

theorem or_eq_add (s a : Nat) (hs : s % 8 = 0) (ha : a ≤ 1) : s ||| a = s + a := by
  obtain ⟨k, rfl⟩ : ∃ k, s = 2 ^ 3 * k := ⟨s / 8, by omega⟩
  have : a < 2 ^ 3 := by omega
  exact (Nat.mul_add_lt_is_or this k).symm

theorem GET_lt (m : Mem) (p : Nat) : GET m p < WORD := by
  unfold GET WORD; omega

theorem GET_PUT_same (m : Mem) (p v : Nat) (hv : v < WORD) : GET (PUT m p v) p = v := by
  unfold WORD at hv
  simp [GET, PUT]; omega

theorem PUT_frame (m : Mem) (p v a : Nat) (h : a < p ∨ p + 4 ≤ a) : PUT m p v a = m a := by
  unfold PUT
  have h0 : a ≠ p := by omega
  have h1 : a ≠ p + 1 := by omega
  have h2 : a ≠ p + 2 := by omega
  have h3 : a ≠ p + 3 := by omega
  simp [h0, h1, h2, h3]

theorem GET_congr (m m' : Mem) (p : Nat) (h : ∀ a, p ≤ a → a < p + 4 → m' a = m a) :
    GET m' p = GET m p := by
  unfold GET
  rw [h p (by omega) (by omega), h (p+1) (by omega) (by omega), h (p+2) (by omega) (by omega),
    h (p+3) (by omega) (by omega)]

theorem GET_PUT_other (m : Mem) (p v q : Nat) (h : q + 4 ≤ p ∨ p + 4 ≤ q) :
    GET (PUT m p v) q = GET m q :=
  GET_congr _ _ _ fun a h1 h2 => PUT_frame m p v a (by omega)

theorem listIndex_eq (size : Nat) : listIndex LIST_SIZE 0 size = (19, size / 524288) := by
  simp [listIndex, LIST_SIZE, Nat.shiftRight_eq_div_pow]
  omega

theorem ALIGN_eq (x : Nat) : ALIGN x = (x + 7) % WORD / 8 * 8 := by
  unfold ALIGN ALIGNMENT
  exact and_MASK _ (Nat.mod_lt _ (by norm_num [WORD]))

/-! ### Tags -/

theorem PACK_zero (sz : Nat) : PACK sz 0 = tagOf (sz, false) := by
  simp [PACK, tagOf]

theorem PACK_one (sz : Nat) (h : sz % 8 = 0) : PACK sz 1 = tagOf (sz, true) := by
  simp [PACK, tagOf, or_eq_add sz 1 h (le_refl 1)]

theorem tagOf_lt_size (m : Mem) (a : Nat) (b : Blk) (h : GET m a = tagOf b) : b.1 < WORD := by
  have := GET_lt m a
  rw [h] at this
  unfold tagOf at this
  omega

theorem GET_SIZE_tag (m : Mem) (a : Nat) (b : Blk) (h : GET m a = tagOf b) (h8 : b.1 % 8 = 0) :
    GET_SIZE m a = b.1 := by
  unfold GET_SIZE
  rw [and_MASK _ (GET_lt m a), h]
  unfold tagOf
  split <;> omega

theorem GET_ALLOC_tag (m : Mem) (a : Nat) (b : Blk) (h : GET m a = tagOf b) (h8 : b.1 % 8 = 0) :
    GET_ALLOC m a = if b.2 then 1 else 0 := by
  unfold GET_ALLOC
  rw [and_one, h]
  unfold tagOf
  split <;> omega

theorem GET_SIZE_eq (m : Mem) (a : Nat) : GET_SIZE m a = GET m a / 8 * 8 :=
  and_MASK _ (GET_lt m a)

theorem GET_SIZE_lt (m : Mem) (a : Nat) : GET_SIZE m a < WORD := by
  rw [GET_SIZE_eq]
  have := GET_lt m a
  omega

theorem GET_SIZE_congr (m m' : Mem) (p : Nat) (h : GET m' p = GET m p) :
    GET_SIZE m' p = GET_SIZE m p := by
  unfold GET_SIZE; rw [h]

theorem GET_ALLOC_congr (m m' : Mem) (p : Nat) (h : GET m' p = GET m p) :
    GET_ALLOC m' p = GET_ALLOC m p := by
  unfold GET_ALLOC; rw [h]

/-! ### Layouts -/

theorem total_append (l1 l2 : List Blk) : total (l1 ++ l2) = total l1 + total l2 := by
  induction l1 with
  | nil => simp [total]
  | cons b r ih => simp [total, ih]; omega

theorem Seg_append (m : Mem) (bp : Nat) (l1 l2 : List Blk) :
    Seg m bp (l1 ++ l2) ↔ Seg m bp l1 ∧ Seg m (bp + total l1) l2 := by
  induction l1 generalizing bp with
  | nil => simp [Seg, total]
  | cons b r ih =>
    have e : b :: r ++ l2 = b :: (r ++ l2) := rfl
    rw [e]
    simp only [Seg, total]
    rw [ih, Nat.add_assoc]
    tauto

theorem BlockAt_cons (bp : Nat) (b : Blk) (r : List Blk) (p : Nat) (c : Blk) :
    BlockAt bp (b :: r) p c ↔ (p = bp ∧ c = b) ∨ BlockAt (bp + b.1) r p c := by
  constructor
  · rintro ⟨pre, post, h, hp⟩
    cases pre with
    | nil =>
      left
      simp at h
      simp [total] at hp
      exact ⟨hp, h.1.symm⟩
    | cons x pre =>
      right
      simp at h
      refine ⟨pre, post, h.2, ?_⟩
      rw [hp, ← h.1]; simp [total]; omega
  · rintro (⟨hp, hc⟩ | ⟨pre, post, h, hp⟩)
    · exact ⟨[], r, by simp [hc], by simp [total, hp]⟩
    · exact ⟨b :: pre, post, by simp [h], by simp [total, hp]; omega⟩

theorem BlockAt_nil (bp p : Nat) (c : Blk) : ¬ BlockAt bp [] p c := by
  rintro ⟨pre, post, h, _⟩
  simp at h

theorem BlockAt_bounds {bp : Nat} {bl : List Blk} {p : Nat} {c : Blk}
    (h : BlockAt bp bl p c) : bp ≤ p ∧ p + c.1 ≤ bp + total bl := by
  obtain ⟨pre, post, rfl, rfl⟩ := h
  simp [total_append, total]
  omega

theorem Seg_block {m : Mem} {bp : Nat} {bl : List Blk} {p : Nat} {c : Blk}
    (hs : Seg m bp bl) (h : BlockAt bp bl p c) :
    16 ≤ c.1 ∧ c.1 % 8 = 0 ∧ GET m (p - 4) = tagOf c ∧ GET m (p + c.1 - 8) = tagOf c := by
  obtain ⟨pre, post, rfl, rfl⟩ := h
  rw [Seg_append] at hs
  obtain ⟨_, h1, h2, h3, h4, _⟩ := hs
  exact ⟨h1, h2, h3, h4⟩

theorem BlockAt_disjoint {bp : Nat} {bl : List Blk} {p q : Nat} {c d : Blk}
    (h1 : BlockAt bp bl p c) (h2 : BlockAt bp bl q d) :
    (p = q ∧ c = d) ∨ p + c.1 ≤ q ∨ q + d.1 ≤ p := by
  obtain ⟨pre1, post1, e1, rfl⟩ := h1
  obtain ⟨pre2, post2, e2, rfl⟩ := h2
  rw [e1, List.append_eq_append_iff] at e2
  rcases e2 with ⟨a, ha, hb⟩ | ⟨a, ha, hb⟩
  · cases a with
    | nil =>
      simp at ha hb
      left; exact ⟨by rw [ha], hb.1⟩
    | cons x a =>
      simp at hb
      right; left
      rw [ha, total_append, ← hb.1]; simp [total]; omega
  · cases a with
    | nil =>
      simp at ha hb
      left; exact ⟨by rw [ha], hb.1.symm⟩
    | cons x a =>
      simp at hb
      right; right
      rw [ha, total_append, ← hb.1]; simp [total]; omega

theorem BlockAt_unique {m : Mem} {bp : Nat} {bl : List Blk} {p : Nat} {c d : Blk}
    (hs : Seg m bp bl) (h1 : BlockAt bp bl p c) (h2 : BlockAt bp bl p d) : c = d := by
  have hc := (Seg_block hs h1).1
  have hd := (Seg_block hs h2).1
  rcases BlockAt_disjoint h1 h2 with h | h | h
  · exact h.2
  · omega
  · omega

/-- A layout survives every change of memory that leaves its tags alone. -/
theorem Seg_frame {m m' : Mem} {bp : Nat} {bl : List Blk}
    (hf : ∀ p c, BlockAt bp bl p c →
      GET m' (p - 4) = GET m (p - 4) ∧ GET m' (p + c.1 - 8) = GET m (p + c.1 - 8))
    (hs : Seg m bp bl) : Seg m' bp bl := by
  induction bl generalizing bp with
  | nil => trivial
  | cons b r ih =>
    obtain ⟨h1, h2, h3, h4, h5⟩ := hs
    have hb := hf bp b ((BlockAt_cons _ _ _ _ _).2 (Or.inl ⟨rfl, rfl⟩))
    refine ⟨h1, h2, by rw [hb.1, h3], by rw [hb.2, h4], ih (fun p c hpc => ?_) h5⟩
    exact hf p c ((BlockAt_cons _ _ _ _ _).2 (Or.inr hpc))

/-- A layout survives every change of memory outside its extent. -/
theorem Seg_frame_range {m m' : Mem} {bp : Nat} {bl : List Blk}
    (hf : ∀ a, bp - 4 ≤ a → a < bp + total bl - 4 → m' a = m a)
    (hs : Seg m bp bl) : Seg m' bp bl := by
  refine Seg_frame (fun p c hpc => ?_) hs
  have hb := BlockAt_bounds hpc
  have hc := (Seg_block hs hpc).1
  constructor
  · exact GET_congr _ _ _ fun a h1 h2 => hf a (by omega) (by omega)
  · exact GET_congr _ _ _ fun a h1 h2 => hf a (by omega) (by omega)

end MM

namespace MM

/-! ### Doubly linked lists -/

theorem headD_append (l1 l2 : List Nat) (d : Nat) :
    (l1 ++ l2).headD d = l1.headD (l2.headD d) := by
  cases l1 <;> simp

theorem getLastD_cons (x : Nat) (r : List Nat) (d : Nat) :
    (x :: r).getLastD d = r.getLastD x := by
  cases r with
  | nil => rfl
  | cons a r => simp [List.getLastD]

theorem getLastD_append (l1 l2 : List Nat) (d : Nat) :
    (l1 ++ l2).getLastD d = l2.getLastD (l1.getLastD d) := by
  induction l1 generalizing d with
  | nil => simp
  | cons x r ih =>
    have e : x :: r ++ l2 = x :: (r ++ l2) := rfl
    rw [e, getLastD_cons, getLastD_cons, ih]

theorem DLL_append (m : Mem) (nxt prv : Nat) (l1 l2 : List Nat) :
    DLL m nxt (l1 ++ l2) prv ↔
      DLL m nxt l1 (l2.headD prv) ∧ DLL m (l1.getLastD nxt) l2 prv := by
  induction l1 generalizing nxt with
  | nil => simp [DLL]
  | cons x r ih =>
    have e : x :: r ++ l2 = x :: (r ++ l2) := rfl
    rw [e]
    simp only [DLL]
    rw [ih, headD_append, getLastD_cons]
    tauto

theorem DLL_frame {m m' : Mem} {nxt prv : Nat} {l : List Nat}
    (hf : ∀ x ∈ l, GET m' x = GET m x ∧ GET m' (x + 4) = GET m (x + 4))
    (h : DLL m nxt l prv) : DLL m' nxt l prv := by
  induction l generalizing nxt with
  | nil => trivial
  | cons x r ih =>
    obtain ⟨h1, h2, h3⟩ := h
    have hx := hf x (List.mem_cons_self _ _)
    refine ⟨?_, ?_, ih (fun y hy => hf y (List.mem_cons_of_mem _ hy)) h3⟩
    · unfold NEXT_NODE GET_NEXT WSIZE at *; rw [hx.2, h1]
    · unfold PREV_NODE at *; rw [hx.1, h2]

theorem pushScan_spec (m : Mem) (size : Nat) (l2 : List Nat) :
    ∀ (l1 : List Nat) (fuel : Nat), l2.length < fuel → (∀ x ∈ l2, x ≠ 0) →
      DLL m (l1.getLastD 0) l2 0 →
      ∃ a b, l2 = a ++ b ∧
        pushScan m size fuel (l2.headD 0) (l1.getLastD 0)
          = some (b.headD 0, (l1 ++ a).getLastD 0) := by
  induction l2 with
  | nil =>
    intro l1 fuel hf _ _
    refine ⟨[], [], rfl, ?_⟩
    cases fuel with
    | zero => simp at hf
    | succ f => simp [pushScan]
  | cons y r ih =>
    intro l1 fuel hf hnz hd
    cases fuel with
    | zero => simp at hf
    | succ f =>
      obtain ⟨_, h2, h3⟩ := hd
      by_cases hc : y ≠ 0 ∧ size > GET_SIZE m (HDRP y)
      · have hr : (l1 ++ [y]).getLastD 0 = y := by simp [getLastD_append]
        obtain ⟨a, b, hab, hres⟩ := ih (l1 ++ [y]) f (by simp at hf; omega)
          (fun x hx => hnz x (List.mem_cons_of_mem _ hx)) (by rw [hr]; exact h3)
        refine ⟨y :: a, b, by simp [hab], ?_⟩
        simp only [List.headD_cons, pushScan, if_pos hc]
        rw [h2, ← hr, hres]
        simp
      · refine ⟨[], y :: r, rfl, ?_⟩
        simp only [List.headD_cons, pushScan, if_neg hc]
        simp

theorem fitScan_total (m : Mem) (size : Nat) (l : List Nat) :
    ∀ (nxt : Nat) (fuel : Nat), l.length < fuel → (∀ x ∈ l, x ≠ 0) → DLL m nxt l 0 →
      ∃ r, fitScan m size fuel (l.headD 0) = some r ∧
        (r = 0 ∨ (r ∈ l ∧ size ≤ GET_SIZE m (HDRP r))) ∧
        (r = 0 → ∀ x ∈ l, size > GET_SIZE m (HDRP x)) := by
  induction l with
  | nil =>
    intro nxt fuel hf _ _
    cases fuel with
    | zero => simp at hf
    | succ f => exact ⟨0, by simp [fitScan], Or.inl rfl, by simp⟩
  | cons y r ih =>
    intro nxt fuel hf hnz hd
    cases fuel with
    | zero => simp at hf
    | succ f =>
      obtain ⟨_, h2, h3⟩ := hd
      have hy : y ≠ 0 := hnz y (List.mem_cons_self _ _)
      by_cases hc : size > GET_SIZE m (HDRP y)
      · obtain ⟨q, hq, hq2, hq3⟩ := ih y f (by simp at hf; omega)
          (fun x hx => hnz x (List.mem_cons_of_mem _ hx)) h3
        refine ⟨q, ?_, ?_, ?_⟩
        · simp only [List.headD_cons, fitScan, if_pos (And.intro hy hc)]
          rw [h2]; exact hq
        · rcases hq2 with h | h
          · exact Or.inl h
          · exact Or.inr ⟨List.mem_cons_of_mem _ h.1, h.2⟩
        · intro h0 x hx
          rcases List.mem_cons.1 hx with rfl | hx
          · exact hc
          · exact hq3 h0 x hx
      · refine ⟨y, ?_, Or.inr ⟨List.mem_cons_self _ _, by omega⟩, fun h0 => absurd h0 hy⟩
        simp only [List.headD_cons, fitScan]
        rw [if_neg (by tauto)]

end MM

namespace MM

theorem SET_PTR_same (m : Mem) (p v : Nat) (hv : v < WORD) : GET (SET_PTR m p v) p = v := by
  unfold SET_PTR
  rw [GET_PUT_same _ _ _ (Nat.mod_lt _ (by norm_num [WORD])), Nat.mod_eq_of_lt hv]

theorem SET_PTR_other (m : Mem) (p v q : Nat) (h : q + 4 ≤ p ∨ p + 4 ≤ q) :
    GET (SET_PTR m p v) q = GET m q := GET_PUT_other _ _ _ _ h

theorem SET_PTR_frame (m : Mem) (p v a : Nat) (h : a < p ∨ p + 4 ≤ a) :
    SET_PTR m p v a = m a := PUT_frame _ _ _ _ h

/-- The memory `pushNode` leaves, for the scan result `(pn, nd)`. -/
theorem push_mem (m : Mem) (ptr pn nd : Nat) (hptr : ptr < WORD) (hpn : pn < WORD)
    (hnd : nd < WORD) (h1 : pn = 0 ∨ pn + 8 ≤ ptr ∨ ptr + 8 ≤ pn)
    (h2 : nd = 0 ∨ nd + 8 ≤ ptr ∨ ptr + 8 ≤ nd)
    (h3 : pn = 0 ∨ nd = 0 ∨ pn + 8 ≤ nd ∨ nd + 8 ≤ pn) (mf : Mem)
    (hmf : mf =
      (if nd ≠ 0 then
        SET_PTR (SET_PTR (if pn ≠ 0 then SET_PTR (SET_PTR (SET_PTR m (GET_PREV ptr) pn)
          (GET_NEXT ptr) nd) (GET_NEXT pn) ptr
          else SET_PTR (SET_PTR m (GET_PREV ptr) pn) (GET_NEXT ptr) nd) (GET_NEXT ptr) nd)
          (GET_PREV nd) ptr
      else
        SET_PTR (if pn ≠ 0 then SET_PTR (SET_PTR (SET_PTR m (GET_PREV ptr) pn)
          (GET_NEXT ptr) nd) (GET_NEXT pn) ptr
          else SET_PTR (SET_PTR m (GET_PREV ptr) pn) (GET_NEXT ptr) nd) (GET_PREV ptr) pn)) :
    GET mf ptr = pn ∧ GET mf (ptr + 4) = nd
      ∧ (pn ≠ 0 → GET mf (pn + 4) = ptr ∧ GET mf pn = GET m pn)
      ∧ (nd ≠ 0 → GET mf nd = ptr ∧ GET mf (nd + 4) = GET m (nd + 4))
      ∧ (∀ a, (a < ptr ∨ ptr + 8 ≤ a) → (pn = 0 ∨ a < pn + 4 ∨ pn + 8 ≤ a) →
          (nd = 0 ∨ a < nd ∨ nd + 4 ≤ a) → mf a = m a) := by
  subst hmf
  unfold GET_PREV GET_NEXT WSIZE
  by_cases hp0 : pn = 0 <;> by_cases hn0 : nd = 0
  · subst hp0; subst hn0
    simp only [ne_eq, not_true_eq_false, if_false]
    refine ⟨?_, ?_, by simp, by simp, ?_⟩
    · repeat (first | rw [SET_PTR_same _ _ _ (by omega)] | rw [SET_PTR_other _ _ _ _ (by omega)])
    · repeat (first | rw [SET_PTR_same _ _ _ (by omega)] | rw [SET_PTR_other _ _ _ _ (by omega)])
    · intro a ha _ _
      repeat rw [SET_PTR_frame _ _ _ _ (by omega)]
  · subst hp0
    simp only [ne_eq, not_true_eq_false, if_false, hn0, not_false_eq_true, if_true]
    refine ⟨?_, ?_, by simp, fun _ => ⟨?_, ?_⟩, ?_⟩
    · repeat (first | rw [SET_PTR_same _ _ _ (by omega)] | rw [SET_PTR_other _ _ _ _ (by omega)])
    · repeat (first | rw [SET_PTR_same _ _ _ (by omega)] | rw [SET_PTR_other _ _ _ _ (by omega)])
    · repeat (first | rw [SET_PTR_same _ _ _ (by omega)] | rw [SET_PTR_other _ _ _ _ (by omega)])
    · repeat (first | rw [SET_PTR_same _ _ _ (by omega)] | rw [SET_PTR_other _ _ _ _ (by omega)])
    · intro a ha _ hb
      have hb : a < nd ∨ nd + 4 ≤ a := hb.resolve_left fun h => h
      repeat rw [SET_PTR_frame _ _ _ _ (by omega)]
  · subst hn0
    simp only [ne_eq, not_true_eq_false, if_false, hp0, not_false_eq_true, if_true]
    refine ⟨?_, ?_, fun _ => ⟨?_, ?_⟩, by simp, ?_⟩
    · repeat (first | rw [SET_PTR_same _ _ _ (by omega)] | rw [SET_PTR_other _ _ _ _ (by omega)])
    · repeat (first | rw [SET_PTR_same _ _ _ (by omega)] | rw [SET_PTR_other _ _ _ _ (by omega)])
    · repeat (first | rw [SET_PTR_same _ _ _ (by omega)] | rw [SET_PTR_other _ _ _ _ (by omega)])
    · repeat (first | rw [SET_PTR_same _ _ _ (by omega)] | rw [SET_PTR_other _ _ _ _ (by omega)])
    · intro a ha hb _
      have hb : a < pn + 4 ∨ pn + 8 ≤ a := hb.resolve_left fun h => h
      repeat rw [SET_PTR_frame _ _ _ _ (by omega)]
  · simp only [ne_eq, hp0, hn0, not_false_eq_true, if_true]
    refine ⟨?_, ?_, fun _ => ⟨?_, ?_⟩, fun _ => ⟨?_, ?_⟩, ?_⟩
    · repeat (first | rw [SET_PTR_same _ _ _ (by omega)] | rw [SET_PTR_other _ _ _ _ (by omega)])
    · repeat (first | rw [SET_PTR_same _ _ _ (by omega)] | rw [SET_PTR_other _ _ _ _ (by omega)])
    · repeat (first | rw [SET_PTR_same _ _ _ (by omega)] | rw [SET_PTR_other _ _ _ _ (by omega)])
    · repeat (first | rw [SET_PTR_same _ _ _ (by omega)] | rw [SET_PTR_other _ _ _ _ (by omega)])
    · repeat (first | rw [SET_PTR_same _ _ _ (by omega)] | rw [SET_PTR_other _ _ _ _ (by omega)])
    · repeat (first | rw [SET_PTR_same _ _ _ (by omega)] | rw [SET_PTR_other _ _ _ _ (by omega)])
    · intro a ha hb hc
      have hb : a < pn + 4 ∨ pn + 8 ≤ a := hb.resolve_left fun h => h
      have hc : a < nd ∨ nd + 4 ≤ a := hc.resolve_left fun h => h
      repeat rw [SET_PTR_frame _ _ _ _ (by omega)]

theorem nil_or_snoc (l : List Nat) : l = [] ∨ ∃ l' z, l = l' ++ [z] := by
  rcases List.eq_nil_or_concat l with h | ⟨l', z, h⟩
  · exact Or.inl h
  · exact Or.inr ⟨l', z, by rw [h, List.concat_eq_append]⟩

theorem DLL_insert {m mf : Mem} {a b : List Nat} {ptr : Nat}
    (hd : DLL m 0 (a ++ b) 0) (hnd : (ptr :: (a ++ b)).Nodup) (hap : Apart (ptr :: (a ++ b)))
    (hnz : ∀ x ∈ a ++ b, x ≠ 0)
    (f1 : GET mf ptr = b.headD 0) (f2 : GET mf (ptr + 4) = a.getLastD 0)
    (f3 : b.headD 0 ≠ 0 → GET mf (b.headD 0 + 4) = ptr ∧ GET mf (b.headD 0) = GET m (b.headD 0))
    (f4 : a.getLastD 0 ≠ 0 →
      GET mf (a.getLastD 0) = ptr ∧ GET mf (a.getLastD 0 + 4) = GET m (a.getLastD 0 + 4))
    (f5 : ∀ x, (x < ptr ∨ ptr + 8 ≤ x) → (b.headD 0 = 0 ∨ x < b.headD 0 + 4 ∨ b.headD 0 + 8 ≤ x) →
      (a.getLastD 0 = 0 ∨ x < a.getLastD 0 ∨ a.getLastD 0 + 4 ≤ x) → mf x = m x) :
    DLL mf 0 (a ++ ptr :: b) 0 := by
  -- a node other than `ptr`, the scan's `preNode` and `node` keeps its links
  have keep : ∀ x ∈ a ++ b, x ≠ b.headD 0 → x ≠ a.getLastD 0 →
      GET mf x = GET m x ∧ GET mf (x + 4) = GET m (x + 4) := by
    intro x hx hxb hxa
    have hxp : x ≠ ptr := by
      rintro rfl
      exact (List.nodup_cons.1 hnd).1 hx
    have s1 := hap x (List.mem_cons_of_mem _ hx) ptr (List.mem_cons_self _ _) hxp
    have s2 : b.headD 0 = 0 ∨ x + 8 ≤ b.headD 0 ∨ b.headD 0 + 8 ≤ x := by
      cases b with
      | nil => left; rfl
      | cons y b' =>
        right
        exact hap x (List.mem_cons_of_mem _ hx) y
          (List.mem_cons_of_mem _ (by simp)) (by simpa using hxb)
    have s3 : a.getLastD 0 = 0 ∨ x + 8 ≤ a.getLastD 0 ∨ a.getLastD 0 + 8 ≤ x := by
      rcases nil_or_snoc a with rfl | ⟨a', z, rfl⟩
      · left; rfl
      · right
        have hz : (a' ++ [z]).getLastD 0 = z := by simp [getLastD_append]
        rw [hz] at hxa ⊢
        exact hap x (List.mem_cons_of_mem _ hx) z (List.mem_cons_of_mem _ (by simp)) hxa
    constructor
    · exact GET_congr _ _ _ fun y h1 h2 => f5 y (by omega) (by omega) (by omega)
    · exact GET_congr _ _ _ fun y h1 h2 => f5 y (by omega) (by omega) (by omega)
  have hnd' : (a ++ b).Nodup := (List.nodup_cons.1 hnd).2
  rw [DLL_append] at hd ⊢
  obtain ⟨h1, h2⟩ := hd
  refine ⟨?_, ?_, ?_, ?_⟩
  · -- the nodes before `ptr`
    rcases nil_or_snoc a with rfl | ⟨a', z, rfl⟩
    · trivial
    · have hz : (a' ++ [z]).getLastD 0 = z := by simp [getLastD_append]
      rw [hz] at f4 keep
      have hz0 : z ≠ 0 := hnz z (by simp)
      rw [DLL_append] at h1 ⊢
      obtain ⟨h1a, h1b, _, _⟩ := h1
      refine ⟨DLL_frame (fun x hx => ?_) h1a, ?_, ?_, trivial⟩
      · have hxz : x ≠ z := by
          rintro rfl
          have := List.nodup_append.1 (List.nodup_append.1 hnd').1
          exact this.2.2 hx (by simp)
        have hxb : x ≠ b.headD 0 := by
          cases b with
          | nil => simpa using hnz x (by simp [hx])
          | cons y b' =>
            rintro rfl
            have := List.nodup_append.1 hnd'
            exact this.2.2 (List.mem_append_left _ hx) (by simp)
        exact keep x (by simp [hx]) hxb hxz
      · unfold NEXT_NODE GET_NEXT WSIZE at *
        rw [(f4 hz0).2, h1b]
      · unfold PREV_NODE
        simpa using (f4 hz0).1
  · unfold NEXT_NODE GET_NEXT WSIZE
    exact f2
  · unfold PREV_NODE
    exact f1
  · -- the nodes after `ptr`
    cases b with
    | nil => trivial
    | cons y b' =>
      have hy0 : y ≠ 0 := hnz y (by simp)
      simp only [List.headD_cons] at f3 keep
      obtain ⟨h2a, h2b, h2c⟩ := h2
      refine ⟨?_, ?_, DLL_frame (fun x hx => ?_) h2c⟩
      · unfold NEXT_NODE GET_NEXT WSIZE
        exact (f3 hy0).1
      · unfold PREV_NODE at *
        rw [(f3 hy0).2, h2b]
      · have hxy : x ≠ y := by
          rintro rfl
          have := (List.nodup_append.1 hnd').2.1
          exact (List.nodup_cons.1 this).1 hx
        have hxa : x ≠ a.getLastD 0 := by
          rcases nil_or_snoc a with rfl | ⟨a', z, rfl⟩
          · simpa using hnz x (by simp [hx])
          · have hz : (a' ++ [z]).getLastD 0 = z := by simp [getLastD_append]
            rw [hz]
            rintro rfl
            have := List.nodup_append.1 hnd'
            exact this.2.2 (by simp) (List.mem_cons_of_mem _ hx)
        exact keep x (by simp [hx]) hxy hxa

end MM

namespace MM

theorem headD_mem_or (l : List Nat) : l.headD 0 = 0 ∨ l.headD 0 ∈ l := by
  cases l <;> simp

theorem getLastD_mem_or (l : List Nat) : l.getLastD 0 = 0 ∨ l.getLastD 0 ∈ l := by
  rcases nil_or_snoc l with rfl | ⟨l', z, rfl⟩
  · left; rfl
  · right; simp [getLastD_append]

/-- Two different nodes of a list of distinct nodes that are apart. -/
theorem apart_of {l : List Nat} (hap : Apart l) {p q : Nat} (hp : p ∈ l) (hq : q ∈ l)
    (h : p ≠ q) : p + 8 ≤ q ∨ q + 8 ≤ p := hap p hp q hq h

theorem head_ne_last {a b : List Nat} (hnd : (a ++ b).Nodup) (hnz : ∀ x ∈ a ++ b, x ≠ 0) :
    b.headD 0 = 0 ∨ a.getLastD 0 = 0 ∨ b.headD 0 ≠ a.getLastD 0 := by
  rcases headD_mem_or b with h | h
  · exact Or.inl h
  · rcases getLastD_mem_or a with h' | h'
    · exact Or.inr (Or.inl h')
    · right; right
      intro e
      rw [e] at h
      exact (List.nodup_append.1 hnd).2.2 h' h

/-- The function `pushNode` on a well-formed index: the node is linked in at the place the
scan stops, and only link fields of the nodes and of `ptr` change. -/
theorem pushNode_list (s : State) (fl : List Nat) (ptr size : Nat)
    (hfl : FL s fl) (hnd : (ptr :: fl).Nodup) (hap : Apart (ptr :: fl))
    (hpt : Ptrs (ptr :: fl)) (hfuel : fl.length < scanFuel s) :
    ∃ s' l1 l2, pushNode s ptr size = some s' ∧ fl = l1 ++ l2 ∧ FL s' (l1 ++ ptr :: l2)
      ∧ s'.mem_brk = s.mem_brk ∧ s'.mem_max_addr = s.mem_max_addr
      ∧ s'.heap_start = s.heap_start
      ∧ ∀ a, (∀ p ∈ ptr :: fl, a < p ∨ p + 8 ≤ a) → s'.mem a = s.mem a := by
  obtain ⟨h0, hhead, hdll⟩ := hfl
  have hnz : ∀ x ∈ fl, x ≠ 0 := fun x hx =>
    Nat.pos_iff_ne_zero.1 (hpt x (List.mem_cons_of_mem _ hx)).1
  obtain ⟨a, b, hab, hres⟩ := pushScan_spec s.mem (size / 524288) fl [] (scanFuel s) hfuel hnz
    (by simpa using hdll)
  simp only [List.nil_append] at hres
  have hnil : ([] : List Nat).getLastD 0 = 0 := rfl
  rw [hnil] at hres
  subst hab
  have hw0 : (0 : Nat) < WORD := by norm_num [WORD]
  have inb : ∀ x, x ∈ b → x ∈ ptr :: (a ++ b) := fun x hx =>
    List.mem_cons_of_mem _ (List.mem_append_right _ hx)
  have ina : ∀ x, x ∈ a → x ∈ ptr :: (a ++ b) := fun x hx =>
    List.mem_cons_of_mem _ (List.mem_append_left _ hx)
  have hpn : b.headD 0 < WORD := by
    rcases headD_mem_or b with h | h
    · rw [h]; exact hw0
    · exact (hpt _ (inb _ h)).2
  have hndw : a.getLastD 0 < WORD := by
    rcases getLastD_mem_or a with h | h
    · rw [h]; exact hw0
    · exact (hpt _ (ina _ h)).2
  have hptr := (hpt ptr (List.mem_cons_self _ _))
  have hnotin : ptr ∉ a ++ b := (List.nodup_cons.1 hnd).1
  have s1 : b.headD 0 = 0 ∨ b.headD 0 + 8 ≤ ptr ∨ ptr + 8 ≤ b.headD 0 := by
    rcases headD_mem_or b with h | h
    · exact Or.inl h
    · right
      refine apart_of hap (inb _ h) (List.mem_cons_self _ _) ?_
      rintro e; rw [e] at h; exact hnotin (List.mem_append_right _ h)
  have s2 : a.getLastD 0 = 0 ∨ a.getLastD 0 + 8 ≤ ptr ∨ ptr + 8 ≤ a.getLastD 0 := by
    rcases getLastD_mem_or a with h | h
    · exact Or.inl h
    · right
      refine apart_of hap (ina _ h) (List.mem_cons_self _ _) ?_
      rintro e; rw [e] at h; exact hnotin (List.mem_append_left _ h)
  have s3 : b.headD 0 = 0 ∨ a.getLastD 0 = 0 ∨ b.headD 0 + 8 ≤ a.getLastD 0
      ∨ a.getLastD 0 + 8 ≤ b.headD 0 := by
    rcases headD_mem_or b with h1 | h1
    · exact Or.inl h1
    · rcases getLastD_mem_or a with h2 | h2
      · exact Or.inr (Or.inl h2)
      · right; right
        refine apart_of hap (inb _ h1) (ina _ h2) ?_
        intro e
        rw [e] at h1
        exact (List.nodup_append.1 (List.nodup_cons.1 hnd).2).2.2 h2 h1
  obtain ⟨mf, hmf⟩ : ∃ mf : Mem, mf =
      (if a.getLastD 0 ≠ 0 then
        SET_PTR (SET_PTR (if b.headD 0 ≠ 0 then SET_PTR (SET_PTR (SET_PTR s.mem (GET_PREV ptr)
          (b.headD 0)) (GET_NEXT ptr) (a.getLastD 0)) (GET_NEXT (b.headD 0)) ptr
          else SET_PTR (SET_PTR s.mem (GET_PREV ptr) (b.headD 0)) (GET_NEXT ptr) (a.getLastD 0))
          (GET_NEXT ptr) (a.getLastD 0)) (GET_PREV (a.getLastD 0)) ptr
      else
        SET_PTR (if b.headD 0 ≠ 0 then SET_PTR (SET_PTR (SET_PTR s.mem (GET_PREV ptr)
          (b.headD 0)) (GET_NEXT ptr) (a.getLastD 0)) (GET_NEXT (b.headD 0)) ptr
          else SET_PTR (SET_PTR s.mem (GET_PREV ptr) (b.headD 0)) (GET_NEXT ptr) (a.getLastD 0))
          (GET_PREV ptr) (b.headD 0)) := ⟨_, rfl⟩
  obtain ⟨f1, f2, f3, f4, f5⟩ := push_mem s.mem ptr (b.headD 0) (a.getLastD 0) hptr.2 hpn hndw
    s1 s2 s3 mf hmf
  have hd' := DLL_insert hdll hnd hap hnz f1 f2 f3 f4 f5
  have hhead' : s.segregated_free_list 19 = (a ++ b).headD 0 := hhead
  have hframe : ∀ x, (∀ p ∈ ptr :: (a ++ b), x < p ∨ p + 8 ≤ x) → mf x = s.mem x := by
    intro x hx
    refine f5 x (hx ptr (List.mem_cons_self _ _)) ?_ ?_
    · rcases headD_mem_or b with h | h
      · exact Or.inl h
      · have := hx _ (inb _ h); omega
    · rcases getLastD_mem_or a with h | h
      · exact Or.inl h
      · have := hx _ (ina _ h); omega
  simp only [pushNode, listIndex_eq, hhead', hres]
  by_cases hn0 : a.getLastD 0 = 0
  · have ha : a = [] := by
      rcases nil_or_snoc a with h | ⟨a', z, h⟩
      · exact h
      · exfalso
        rw [h, getLastD_append] at hn0
        exact hnz z (by rw [h]; simp) (by simpa using hn0)
    rw [if_neg (not_not.2 hn0)] at hmf ⊢
    rw [← hmf]
    refine ⟨_, a, b, rfl, rfl, ⟨?_, ?_, ?_⟩, rfl, rfl, rfl, hframe⟩
    · intro i hi
      have hi' : i ≠ 19 := hi
      simp only [setList, setMem, if_neg hi']
      exact h0 i hi
    · subst ha
      simp [setList, setMem, LIST_SIZE]
    · exact hd'
  · rw [if_pos hn0] at hmf ⊢
    rw [← hmf]
    refine ⟨_, a, b, rfl, rfl, ⟨?_, ?_, ?_⟩, rfl, rfl, rfl, hframe⟩
    · exact h0
    · have ha : a ≠ [] := by
        rintro rfl
        exact hn0 rfl
      obtain ⟨x, a', rfl⟩ := List.exists_cons_of_ne_nil ha
      simpa [setMem] using hhead
    · exact hd'

end MM

namespace MM

theorem popNode_eq (s : State) (ptr pv nx : Nat) (hpv : GET s.mem ptr = pv)
    (hnx : GET s.mem (ptr + 4) = nx) (sep : pv = 0 ∨ pv + 8 ≤ ptr ∨ ptr + 8 ≤ pv) :
    popNode s ptr =
      if nx ≠ 0 then
        setMem s (SET_PTR (if pv ≠ 0 then SET_PTR s.mem (pv + 4) nx else s.mem) nx pv)
      else setList (setMem s (if pv ≠ 0 then SET_PTR s.mem (pv + 4) nx else s.mem)) 19 pv := by
  have e1 : GET (if pv ≠ 0 then SET_PTR s.mem (pv + 4) nx else s.mem) (ptr + 4) = nx := by
    by_cases h : pv = 0
    · simp [h, hnx]
    · rw [if_pos h, SET_PTR_other _ _ _ _ (by omega), hnx]
  have e2 : GET (if pv ≠ 0 then SET_PTR s.mem (pv + 4) nx else s.mem) ptr = pv := by
    by_cases h : pv = 0
    · simp [h]; rw [hpv, h]
    · rw [if_pos h, SET_PTR_other _ _ _ _ (by omega), hpv]
  simp only [popNode, listIndex_eq, PREV_NODE, NEXT_NODE, GET_NEXT, GET_PREV, WSIZE, hpv, hnx,
    e1, e2]

theorem pop_mem (m : Mem) (pv nx : Nat) (hpv : pv < WORD) (hnx : nx < WORD)
    (h3 : pv = 0 ∨ nx = 0 ∨ pv + 8 ≤ nx ∨ nx + 8 ≤ pv) (mf : Mem)
    (hmf : mf = if nx ≠ 0 then SET_PTR (if pv ≠ 0 then SET_PTR m (pv + 4) nx else m) nx pv
      else (if pv ≠ 0 then SET_PTR m (pv + 4) nx else m)) :
    (pv ≠ 0 → GET mf (pv + 4) = nx ∧ GET mf pv = GET m pv)
      ∧ (nx ≠ 0 → GET mf nx = pv ∧ GET mf (nx + 4) = GET m (nx + 4))
      ∧ (∀ a, (pv = 0 ∨ a < pv + 4 ∨ pv + 8 ≤ a) → (nx = 0 ∨ a < nx ∨ nx + 4 ≤ a) →
          mf a = m a) := by
  subst hmf
  by_cases hp0 : pv = 0 <;> by_cases hn0 : nx = 0
  · subst hp0; subst hn0
    simp
  · subst hp0
    simp only [ne_eq, not_true_eq_false, if_false, hn0, not_false_eq_true, if_true]
    refine ⟨by simp, fun _ => ⟨?_, ?_⟩, ?_⟩
    · rw [SET_PTR_same _ _ _ (by omega)]
    · rw [SET_PTR_other _ _ _ _ (by omega)]
    · intro a _ hb
      have hb : a < nx ∨ nx + 4 ≤ a := hb.resolve_left fun h => h
      rw [SET_PTR_frame _ _ _ _ (by omega)]
  · subst hn0
    simp only [ne_eq, not_true_eq_false, if_false, hp0, not_false_eq_true, if_true]
    refine ⟨fun _ => ⟨?_, ?_⟩, by simp, ?_⟩
    · rw [SET_PTR_same _ _ _ (by omega)]
    · rw [SET_PTR_other _ _ _ _ (by omega)]
    · intro a hb _
      have hb : a < pv + 4 ∨ pv + 8 ≤ a := hb.resolve_left fun h => h
      rw [SET_PTR_frame _ _ _ _ (by omega)]
  · simp only [ne_eq, hp0, hn0, not_false_eq_true, if_true]
    refine ⟨fun _ => ⟨?_, ?_⟩, fun _ => ⟨?_, ?_⟩, ?_⟩
    · rw [SET_PTR_other _ _ _ _ (by omega), SET_PTR_same _ _ _ (by omega)]
    · rw [SET_PTR_other _ _ _ _ (by omega), SET_PTR_other _ _ _ _ (by omega)]
    · rw [SET_PTR_same _ _ _ (by omega)]
    · rw [SET_PTR_other _ _ _ _ (by omega), SET_PTR_other _ _ _ _ (by omega)]
    · intro a hb hc
      have hb : a < pv + 4 ∨ pv + 8 ≤ a := hb.resolve_left fun h => h
      have hc : a < nx ∨ nx + 4 ≤ a := hc.resolve_left fun h => h
      rw [SET_PTR_frame _ _ _ _ (by omega), SET_PTR_frame _ _ _ _ (by omega)]

theorem DLL_remove {m mf : Mem} {a b : List Nat} {ptr : Nat}
    (hd : DLL m 0 (a ++ ptr :: b) 0) (hnd : (a ++ ptr :: b).Nodup)
    (hap : Apart (a ++ ptr :: b)) (hnz : ∀ x ∈ a ++ ptr :: b, x ≠ 0)
    (f3 : b.headD 0 ≠ 0 →
      GET mf (b.headD 0 + 4) = a.getLastD 0 ∧ GET mf (b.headD 0) = GET m (b.headD 0))
    (f4 : a.getLastD 0 ≠ 0 →
      GET mf (a.getLastD 0) = b.headD 0 ∧ GET mf (a.getLastD 0 + 4) = GET m (a.getLastD 0 + 4))
    (f5 : ∀ x, (b.headD 0 = 0 ∨ x < b.headD 0 + 4 ∨ b.headD 0 + 8 ≤ x) →
      (a.getLastD 0 = 0 ∨ x < a.getLastD 0 ∨ a.getLastD 0 + 4 ≤ x) → mf x = m x) :
    DLL mf 0 (a ++ b) 0 := by
  have ina : ∀ x, x ∈ a → x ∈ a ++ ptr :: b := fun x hx => List.mem_append_left _ hx
  have inb : ∀ x, x ∈ b → x ∈ a ++ ptr :: b := fun x hx =>
    List.mem_append_right _ (List.mem_cons_of_mem _ hx)
  have hdis := (List.nodup_append.1 hnd)
  have hndb := List.nodup_cons.1 hdis.2.1
  have keep : ∀ x ∈ a ++ ptr :: b, x ≠ b.headD 0 → x ≠ a.getLastD 0 →
      GET mf x = GET m x ∧ GET mf (x + 4) = GET m (x + 4) := by
    intro x hx hxb hxa
    have s2 : b.headD 0 = 0 ∨ x + 8 ≤ b.headD 0 ∨ b.headD 0 + 8 ≤ x := by
      rcases headD_mem_or b with h | h
      · exact Or.inl h
      · exact Or.inr (apart_of hap hx (inb _ h) hxb)
    have s3 : a.getLastD 0 = 0 ∨ x + 8 ≤ a.getLastD 0 ∨ a.getLastD 0 + 8 ≤ x := by
      rcases getLastD_mem_or a with h | h
      · exact Or.inl h
      · exact Or.inr (apart_of hap hx (ina _ h) hxa)
    constructor
    · exact GET_congr _ _ _ fun y h1 h2 => f5 y (by omega) (by omega)
    · exact GET_congr _ _ _ fun y h1 h2 => f5 y (by omega) (by omega)
  rw [DLL_append] at hd ⊢
  obtain ⟨h1, h2a, h2b, h2c⟩ := hd
  simp only [List.headD_cons] at h1
  constructor
  · rcases nil_or_snoc a with rfl | ⟨a', z, rfl⟩
    · trivial
    · have hz : (a' ++ [z]).getLastD 0 = z := by simp [getLastD_append]
      rw [hz] at f4 keep
      have hz0 : z ≠ 0 := hnz z (ina _ (by simp))
      rw [DLL_append] at h1 ⊢
      obtain ⟨h1a, h1b, _, _⟩ := h1
      refine ⟨DLL_frame (fun x hx => ?_) h1a, ?_, ?_, trivial⟩
      · have hxz : x ≠ z := by
          rintro rfl
          exact (List.nodup_append.1 hdis.1).2.2 hx (by simp)
        have hxb : x ≠ b.headD 0 := by
          rcases headD_mem_or b with h | h
          · rw [h]; exact hnz x (ina _ (by simp [hx]))
          · intro e
            rw [← e] at h
            exact hdis.2.2 (List.mem_append_left _ hx) (List.mem_cons_of_mem _ h)
        exact keep x (ina _ (by simp [hx])) hxb hxz
      · unfold NEXT_NODE GET_NEXT WSIZE at *
        rw [(f4 hz0).2, h1b]
      · unfold PREV_NODE
        simpa using (f4 hz0).1
  · cases b with
    | nil => trivial
    | cons y b' =>
      have hy0 : y ≠ 0 := hnz y (inb _ (by simp))
      simp only [List.headD_cons] at f3 keep
      obtain ⟨h3a, h3b, h3c⟩ := h2c
      refine ⟨?_, ?_, DLL_frame (fun x hx => ?_) h3c⟩
      · unfold NEXT_NODE GET_NEXT WSIZE
        exact (f3 hy0).1
      · unfold PREV_NODE at *
        rw [(f3 hy0).2, h3b]
      · have hxy : x ≠ y := by
          rintro rfl
          exact (List.nodup_cons.1 hndb.2).1 hx
        have hxa : x ≠ a.getLastD 0 := by
          rcases getLastD_mem_or a with h | h
          · rw [h]; exact hnz x (inb _ (List.mem_cons_of_mem _ hx))
          · intro e
            rw [← e] at h
            exact hdis.2.2 h (List.mem_cons_of_mem _ (List.mem_cons_of_mem _ hx))
        exact keep x (inb _ (List.mem_cons_of_mem _ hx)) hxy hxa

end MM

namespace MM

/-- The function `popNode` on a well-formed index: the node is unlinked, and only link fields
of nodes change. -/
theorem popNode_list (s : State) (a b : List Nat) (ptr : Nat)
    (hfl : FL s (a ++ ptr :: b)) (hnd : (a ++ ptr :: b).Nodup) (hap : Apart (a ++ ptr :: b))
    (hpt : Ptrs (a ++ ptr :: b)) :
    FL (popNode s ptr) (a ++ b)
      ∧ (popNode s ptr).mem_brk = s.mem_brk ∧ (popNode s ptr).mem_max_addr = s.mem_max_addr
      ∧ (popNode s ptr).heap_start = s.heap_start
      ∧ ∀ x, (∀ p ∈ a ++ ptr :: b, x < p ∨ p + 8 ≤ x) → (popNode s ptr).mem x = s.mem x := by
  obtain ⟨h0, hhead, hdll⟩ := hfl
  have hnz : ∀ x ∈ a ++ ptr :: b, x ≠ 0 := fun x hx => Nat.pos_iff_ne_zero.1 (hpt x hx).1
  have ina : ∀ x, x ∈ a → x ∈ a ++ ptr :: b := fun x hx => List.mem_append_left _ hx
  have inb : ∀ x, x ∈ b → x ∈ a ++ ptr :: b := fun x hx =>
    List.mem_append_right _ (List.mem_cons_of_mem _ hx)
  have inp : ptr ∈ a ++ ptr :: b := List.mem_append_right _ (List.mem_cons_self _ _)
  have hdis := List.nodup_append.1 hnd
  have hndb := List.nodup_cons.1 hdis.2.1
  have hd2 := hdll
  rw [DLL_append] at hd2
  obtain ⟨_, hnx, hpv, _⟩ := hd2
  unfold NEXT_NODE GET_NEXT WSIZE at hnx
  unfold PREV_NODE at hpv
  have s1 : b.headD 0 = 0 ∨ b.headD 0 + 8 ≤ ptr ∨ ptr + 8 ≤ b.headD 0 := by
    rcases headD_mem_or b with h | h
    · exact Or.inl h
    · right
      refine apart_of hap (inb _ h) inp ?_
      intro e; rw [e] at h; exact hndb.1 h
  have s3 : b.headD 0 = 0 ∨ a.getLastD 0 = 0 ∨ b.headD 0 + 8 ≤ a.getLastD 0
      ∨ a.getLastD 0 + 8 ≤ b.headD 0 := by
    rcases headD_mem_or b with h1 | h1
    · exact Or.inl h1
    · rcases getLastD_mem_or a with h2 | h2
      · exact Or.inr (Or.inl h2)
      · right; right
        refine apart_of hap (inb _ h1) (ina _ h2) ?_
        intro e
        rw [e] at h1
        exact hdis.2.2 h2 (List.mem_cons_of_mem _ h1)
  have hw0 : (0 : Nat) < WORD := by norm_num [WORD]
  have hpvw : b.headD 0 < WORD := by rw [← hpv]; exact GET_lt _ _
  have hnxw : a.getLastD 0 < WORD := by rw [← hnx]; exact GET_lt _ _
  rw [popNode_eq s ptr _ _ hpv hnx s1]
  obtain ⟨mf, hmf⟩ : ∃ mf : Mem, mf =
      if a.getLastD 0 ≠ 0 then
        SET_PTR (if b.headD 0 ≠ 0 then SET_PTR s.mem (b.headD 0 + 4) (a.getLastD 0) else s.mem)
          (a.getLastD 0) (b.headD 0)
      else (if b.headD 0 ≠ 0 then SET_PTR s.mem (b.headD 0 + 4) (a.getLastD 0) else s.mem) :=
    ⟨_, rfl⟩
  obtain ⟨f3, f4, f5⟩ := pop_mem s.mem _ _ hpvw hnxw s3 mf hmf
  have hd' := DLL_remove hdll hnd hap hnz f3 f4 f5
  have hframe : ∀ x, (∀ p ∈ a ++ ptr :: b, x < p ∨ p + 8 ≤ x) → mf x = s.mem x := by
    intro x hx
    refine f5 x ?_ ?_
    · rcases headD_mem_or b with h | h
      · exact Or.inl h
      · have := hx _ (inb _ h); omega
    · rcases getLastD_mem_or a with h | h
      · exact Or.inl h
      · have := hx _ (ina _ h); omega
  by_cases hn0 : a.getLastD 0 = 0
  · have ha : a = [] := by
      rcases nil_or_snoc a with h | ⟨a', z, h⟩
      · exact h
      · exfalso
        rw [h, getLastD_append] at hn0
        exact hnz z (ina _ (by rw [h]; simp)) (by simpa using hn0)
    rw [if_neg (not_not.2 hn0)] at hmf ⊢
    rw [← hmf]
    refine ⟨⟨?_, ?_, hd'⟩, rfl, rfl, rfl, hframe⟩
    · intro i hi
      have hi' : i ≠ 19 := hi
      simp only [setList, setMem, if_neg hi']
      exact h0 i hi
    · subst ha
      simp [setList, setMem, LIST_SIZE]
  · rw [if_pos hn0] at hmf ⊢
    rw [← hmf]
    refine ⟨⟨h0, ?_, hd'⟩, rfl, rfl, rfl, hframe⟩
    have ha : a ≠ [] := by
      rintro rfl
      exact hn0 rfl
    obtain ⟨x, a', rfl⟩ := List.exists_cons_of_ne_nil ha
    simpa [setMem] using hhead

theorem BlockAt_append (bp : Nat) (l1 l2 : List Blk) (p : Nat) (c : Blk) :
    BlockAt bp (l1 ++ l2) p c ↔ BlockAt bp l1 p c ∨ BlockAt (bp + total l1) l2 p c := by
  induction l1 generalizing bp with
  | nil => simp [BlockAt_nil, total]
  | cons b r ih =>
    have e : b :: r ++ l2 = b :: (r ++ l2) := rfl
    rw [e, BlockAt_cons, BlockAt_cons, ih]
    simp only [total, Nat.add_assoc]
    tauto

theorem nodup_length_le (l : List Nat) (n : Nat) (hnd : l.Nodup) (h : ∀ x ∈ l, x < n) :
    l.length ≤ n := by
  have h1 : l.toFinset ⊆ Finset.range n := by
    intro x hx
    rw [List.mem_toFinset] at hx
    exact Finset.mem_range.2 (h x hx)
  have h2 := Finset.card_le_card h1
  rw [List.toFinset_card_of_nodup hnd, Finset.card_range] at h2
  exact h2

/-- The nodes of the index of a well-formed state are apart, are pointers, and
are fewer than the scan bound. -/
theorem nodes_facts {s : State} {bl : List Blk} {fl : List Nat}
    (hh : Heap s bl) (hf : FreeNodes s bl fl) :
    Apart fl ∧ Ptrs fl ∧ fl.length < scanFuel s := by
  obtain ⟨hmax, hbrk, _, _, hseg, htot, _⟩ := hh
  obtain ⟨hnd, hblk⟩ := hf
  refine ⟨?_, ?_, ?_⟩
  · intro p hp q hq hpq
    obtain ⟨sp, h1⟩ := hblk p hp
    obtain ⟨sq, h2⟩ := hblk q hq
    have b1 := (Seg_block hseg h1).1
    have b2 := (Seg_block hseg h2).1
    rcases BlockAt_disjoint h1 h2 with h | h | h
    · exact absurd h.1 hpq
    · left; simp at b1 h; omega
    · right; simp at b2 h; omega
  · intro p hp
    obtain ⟨sp, h1⟩ := hblk p hp
    have := BlockAt_bounds h1
    have b1 := (Seg_block hseg h1).1
    unfold firstBlock at *
    simp at this b1
    omega
  · have := nodup_length_le fl s.mem_brk hnd (fun p hp => by
      obtain ⟨sp, h1⟩ := hblk p hp
      have := BlockAt_bounds h1
      have b1 := (Seg_block hseg h1).1
      simp at this b1
      omega)
    unfold scanFuel
    omega

/-- The heap layout survives every change of memory confined to the link
fields of free blocks. -/
theorem Heap_frame_links {s s' : State} {bl : List Blk} (hh : Heap s bl)
    (e1 : s'.mem_brk = s.mem_brk) (e2 : s'.mem_max_addr = s.mem_max_addr)
    (e3 : s'.heap_start = s.heap_start)
    (hf : ∀ a, (∀ p sz, BlockAt (firstBlock s) bl p (sz, false) → a < p ∨ p + 8 ≤ a) →
      s'.mem a = s.mem a) : Heap s' bl := by
  obtain ⟨hmax, hbrk, hp1, hp2, hseg, htot, hep⟩ := hh
  have hfb : firstBlock s' = firstBlock s := by unfold firstBlock; rw [e3]
  -- a byte outside the payloads of the blocks is unchanged
  have key : ∀ a, (∀ p c, BlockAt (firstBlock s) bl p c → a < p ∨ p + c.1 - 8 ≤ a) →
      s'.mem a = s.mem a := by
    intro a ha
    refine hf a fun p sz hb => ?_
    have := ha p _ hb
    have b1 := (Seg_block hseg hb).1
    simp at this b1
    omega
  refine ⟨by rw [e2]; exact hmax, by rw [e1, e2]; exact hbrk, ?_, ?_, ?_, by rw [hfb, e1]; exact htot, ?_⟩
  · rw [e3, ← hp1]
    refine GET_congr _ _ _ fun a h1 h2 => key a fun p c hb => ?_
    have := BlockAt_bounds hb
    unfold firstBlock at this
    omega
  · rw [e3, ← hp2]
    refine GET_congr _ _ _ fun a h1 h2 => key a fun p c hb => ?_
    have := BlockAt_bounds hb
    unfold firstBlock at this
    omega
  · rw [hfb]
    refine Seg_frame (fun q d hq => ?_) hseg
    have bq := (Seg_block hseg hq).1
    have bdq := BlockAt_bounds hq
    unfold firstBlock at bdq
    constructor
    · refine GET_congr _ _ _ fun a h1 h2 => key a fun p c hb => ?_
      have bp := (Seg_block hseg hb).1
      rcases BlockAt_disjoint hb hq with h | h | h
      · rw [h.1]; omega
      · omega
      · omega
    · refine GET_congr _ _ _ fun a h1 h2 => key a fun p c hb => ?_
      have bp := (Seg_block hseg hb).1
      rcases BlockAt_disjoint hb hq with h | h | h
      · rw [h.1, h.2]; omega
      · omega
      · omega
  · rw [e1, ← hep]
    refine GET_congr _ _ _ fun a h1 h2 => key a fun p c hb => ?_
    have := BlockAt_bounds hb
    have bp := (Seg_block hseg hb).1
    omega

end MM

namespace MM

theorem pushNode_wf {s : State} {bl : List Blk} {fl : List Nat} (hw : Wf s bl fl)
    {ptr sz : Nat} (hb : BlockAt (firstBlock s) bl ptr (sz, false)) (hn : ptr ∉ fl)
    (size : Nat) :
    ∃ s' fl', pushNode s ptr size = some s' ∧ Wf s' bl fl'
      ∧ (∀ x, x ∈ fl' ↔ x = ptr ∨ x ∈ fl)
      ∧ s'.mem_brk = s.mem_brk ∧ s'.mem_max_addr = s.mem_max_addr
      ∧ s'.heap_start = s.heap_start
      ∧ ∀ a, (∀ p sz, BlockAt (firstBlock s) bl p (sz, false) → a < p ∨ p + 8 ≤ a) →
          s'.mem a = s.mem a := by
  obtain ⟨hh, hfl, hnd, hblk⟩ := hw
  have hfn : FreeNodes s bl (ptr :: fl) := by
    refine ⟨List.nodup_cons.2 ⟨hn, hnd⟩, fun p hp => ?_⟩
    rcases List.mem_cons.1 hp with rfl | hp
    · exact ⟨sz, hb⟩
    · exact hblk p hp
  obtain ⟨hap, hpt, hlen⟩ := nodes_facts hh hfn
  obtain ⟨s', l1, l2, hpush, hsplit, hfl', e1, e2, e3, hfr⟩ :=
    pushNode_list s fl ptr size hfl hfn.1 hap hpt (by simp at hlen; omega)
  have hfr' : ∀ a, (∀ p sz, BlockAt (firstBlock s) bl p (sz, false) → a < p ∨ p + 8 ≤ a) →
      s'.mem a = s.mem a := by
    intro a ha
    refine hfr a fun p hp => ?_
    obtain ⟨sp, h1⟩ := hfn.2 p hp
    exact ha p sp h1
  have hmem : ∀ x, x ∈ l1 ++ ptr :: l2 ↔ x = ptr ∨ x ∈ fl := by
    intro x
    rw [hsplit]
    simp only [List.mem_append, List.mem_cons]
    tauto
  have hfb : firstBlock s' = firstBlock s := by unfold firstBlock; rw [e3]
  refine ⟨s', l1 ++ ptr :: l2, hpush, ⟨Heap_frame_links hh e1 e2 e3 hfr', hfl', ?_, ?_⟩, hmem,
    e1, e2, e3, hfr'⟩
  · have : (l1 ++ ptr :: l2).Perm (ptr :: (l1 ++ l2)) := List.perm_middle
    rw [this.nodup_iff, ← hsplit]
    exact hfn.1
  · intro p hp
    rw [hfb]
    exact hfn.2 p (List.mem_cons.2 ((hmem p).1 hp))

theorem popNode_wf {s : State} {bl : List Blk} {fl : List Nat} (hw : Wf s bl fl)
    {ptr : Nat} (hp : ptr ∈ fl) :
    ∃ fl', Wf (popNode s ptr) bl fl'
      ∧ (∀ x, x ∈ fl' ↔ x ∈ fl ∧ x ≠ ptr)
      ∧ (popNode s ptr).mem_brk = s.mem_brk ∧ (popNode s ptr).mem_max_addr = s.mem_max_addr
      ∧ (popNode s ptr).heap_start = s.heap_start
      ∧ ∀ a, (∀ p sz, BlockAt (firstBlock s) bl p (sz, false) → a < p ∨ p + 8 ≤ a) →
          (popNode s ptr).mem a = s.mem a := by
  obtain ⟨hh, hfl, hnd, hblk⟩ := hw
  obtain ⟨hap, hpt, _⟩ := nodes_facts hh ⟨hnd, hblk⟩
  obtain ⟨a, b, rfl⟩ := List.append_of_mem hp
  obtain ⟨hfl', e1, e2, e3, hfr⟩ := popNode_list s a b ptr hfl hnd hap hpt
  have hfr' : ∀ x, (∀ p sz, BlockAt (firstBlock s) bl p (sz, false) → x < p ∨ p + 8 ≤ x) →
      (popNode s ptr).mem x = s.mem x := by
    intro x hx
    refine hfr x fun p hp => ?_
    obtain ⟨sp, h1⟩ := hblk p hp
    exact hx p sp h1
  have hdis := List.nodup_append.1 hnd
  have hndb := List.nodup_cons.1 hdis.2.1
  have hmem : ∀ x, x ∈ a ++ b ↔ x ∈ a ++ ptr :: b ∧ x ≠ ptr := by
    intro x
    simp only [List.mem_append, List.mem_cons]
    constructor
    · rintro (h | h)
      · exact ⟨Or.inl h, fun e => hdis.2.2 h (by rw [e]; exact List.mem_cons_self _ _)⟩
      · exact ⟨Or.inr (Or.inr h), fun e => hndb.1 (by rw [← e]; exact h)⟩
    · rintro ⟨h | h | h, hne⟩
      · exact Or.inl h
      · exact absurd h hne
      · exact Or.inr h
  have hfb : firstBlock (popNode s ptr) = firstBlock s := by unfold firstBlock; rw [e3]
  refine ⟨a ++ b, ⟨Heap_frame_links hh e1 e2 e3 hfr', hfl', ?_, ?_⟩, hmem, e1, e2, e3, hfr'⟩
  · have : (a ++ ptr :: b).Perm (ptr :: (a ++ b)) := List.perm_middle
    rw [this.nodup_iff] at hnd
    exact (List.nodup_cons.1 hnd).2
  · intro p hp'
    rw [hfb]
    exact hblk p ((hmem p).1 hp').1

/-- Rewriting the tags inside a run `mid` of blocks, into the run `mid'` of the
same extent, keeps the state well formed when no node of the index lies in the
run. -/
theorem Wf_retag {s : State} {pre mid post : List Blk} {fl : List Nat}
    (hw : Wf s (pre ++ mid ++ post) fl) (m' : Mem) (mid' : List Blk)
    (htot : total mid' = total mid)
    (hseg : Seg m' (firstBlock s + total pre) mid')
    (hfr : ∀ a, a < firstBlock s + total pre - 4 ∨ firstBlock s + total pre + total mid - 4 ≤ a →
      m' a = s.mem a)
    (hout : ∀ p ∈ fl, p < firstBlock s + total pre ∨ firstBlock s + total pre + total mid ≤ p) :
    Wf (setMem s m') (pre ++ mid' ++ post) fl := by
  obtain ⟨⟨hmax, hbrk, hp1, hp2, hsg, htl, hep⟩, ⟨h0, hhead, hdll⟩, hnd, hblk⟩ := hw
  rw [Seg_append, Seg_append] at hsg
  obtain ⟨⟨sg1, sg2⟩, sg3⟩ := hsg
  simp only [total_append] at htl sg3
  have hfb : firstBlock (setMem s m') = firstBlock s := rfl
  -- where the nodes of the index lie
  have hnode : ∀ p ∈ fl, ∃ sz, 16 ≤ sz ∧
      ((BlockAt (firstBlock s) pre p (sz, false))
        ∨ BlockAt (firstBlock s + total pre + total mid) post p (sz, false)) := by
    intro p hp
    obtain ⟨sz, hb⟩ := hblk p hp
    have hsz : 16 ≤ sz := by
      have := (Seg_block (by rw [Seg_append, Seg_append]; exact ⟨⟨sg1, sg2⟩, by
        simp only [total_append]; exact sg3⟩) hb).1
      simpa using this
    refine ⟨sz, hsz, ?_⟩
    rw [BlockAt_append, BlockAt_append] at hb
    rcases hb with (hb | hb) | hb
    · exact Or.inl hb
    · exfalso
      have := BlockAt_bounds hb
      have := hout p hp
      simp at *
      omega
    · right
      simpa [total_append, Nat.add_assoc] using hb
  refine ⟨⟨hmax, hbrk, ?_, ?_, ?_, ?_, ?_⟩, ⟨h0, hhead, ?_⟩, hnd, ?_⟩
  · show GET m' (s.heap_start + 4) = 9
    rw [← hp1]
    exact GET_congr _ _ _ fun a h1 h2 => hfr a (by unfold firstBlock; omega)
  · show GET m' (s.heap_start + 8) = 9
    rw [← hp2]
    exact GET_congr _ _ _ fun a h1 h2 => hfr a (by unfold firstBlock; omega)
  · show Seg m' (firstBlock s) _
    rw [Seg_append, Seg_append]
    refine ⟨⟨Seg_frame_range (fun a h1 h2 => hfr a (by omega)) sg1, hseg⟩, ?_⟩
    simp only [total_append, htot]
    exact Seg_frame_range (fun a h1 h2 => hfr a (by omega)) sg3
  · show firstBlock s + _ = s.mem_brk
    simp only [total_append, htot]
    exact htl
  · show GET m' (s.mem_brk - 4) = 1
    rw [← hep]
    exact GET_congr _ _ _ fun a h1 h2 => hfr a (by
      have : s.mem_brk = firstBlock s + (total pre + total mid + total post) := htl.symm
      omega)
  · show DLL m' 0 fl 0
    refine DLL_frame (fun p hp => ?_) hdll
    obtain ⟨sz, hsz, hb⟩ := hnode p hp
    rcases hb with hb | hb
    · have := BlockAt_bounds hb
      simp at this
      constructor
      · exact GET_congr _ _ _ fun a h1 h2 => hfr a (by omega)
      · exact GET_congr _ _ _ fun a h1 h2 => hfr a (by omega)
    · have := BlockAt_bounds hb
      constructor
      · exact GET_congr _ _ _ fun a h1 h2 => hfr a (by omega)
      · exact GET_congr _ _ _ fun a h1 h2 => hfr a (by omega)
  · intro p hp
    obtain ⟨sz, _, hb⟩ := hnode p hp
    refine ⟨sz, ?_⟩
    rw [hfb, BlockAt_append, BlockAt_append]
    rcases hb with hb | hb
    · exact Or.inl (Or.inl hb)
    · right
      simpa [total_append, htot, Nat.add_assoc] using hb

end MM

namespace MM

theorem exists_PrevIs (pre : List Blk) : ∃ pb, PrevIs pre pb := by
  rcases List.eq_nil_or_concat pre with h | ⟨l, b, h⟩
  · exact ⟨(8, true), Or.inl ⟨h, rfl⟩⟩
  · exact ⟨b, Or.inr ⟨l, by rw [h, List.concat_eq_append]⟩⟩

theorem exists_NextIs (post : List Blk) : ∃ nb, NextIs post nb := by
  cases post with
  | nil => exact ⟨(0, true), Or.inl ⟨rfl, rfl⟩⟩
  | cons b r => exact ⟨b, Or.inr ⟨r, rfl⟩⟩

/-- The tags of a block and of its two neighbours, as the code reads them. -/
theorem tags_at {s : State} {pre post : List Blk} {c pb nb : Blk} {ptr : Nat}
    (hh : Heap s (pre ++ c :: post)) (hptr : ptr = firstBlock s + total pre)
    (hp : PrevIs pre pb) (hn : NextIs post nb) :
    (16 ≤ c.1 ∧ c.1 % 8 = 0 ∧ 8 ≤ pb.1 ∧ pb.1 % 8 = 0 ∧ nb.1 % 8 = 0
      ∧ pb.1 + 8 ≤ ptr ∧ s.heap_start + 16 ≤ ptr ∧ ptr + c.1 + nb.1 ≤ s.mem_brk
      ∧ s.mem_brk < WORD)
    ∧ GET s.mem (ptr - 4) = tagOf c ∧ GET s.mem (ptr + c.1 - 8) = tagOf c
    ∧ GET s.mem (ptr - 8) = tagOf pb ∧ GET s.mem (ptr - pb.1 - 4) = tagOf pb
    ∧ GET s.mem (ptr + c.1 - 4) = tagOf nb
    ∧ (nb.1 ≠ 0 → 16 ≤ nb.1 ∧ GET s.mem (ptr + c.1 + nb.1 - 8) = tagOf nb) := by
  obtain ⟨hmax, hbrk, hp1, hp2, hsg, htl, hep⟩ := hh
  rw [Seg_append] at hsg
  obtain ⟨sg1, c1, c2, c3, c4, sg3⟩ := hsg
  rw [← hptr] at c3 c4 sg3
  simp only [total_append, total] at htl
  have hfb : firstBlock s = s.heap_start + 16 := rfl
  have hprev : 8 ≤ pb.1 ∧ pb.1 % 8 = 0 ∧ pb.1 + 8 ≤ ptr ∧ GET s.mem (ptr - 8) = tagOf pb
      ∧ GET s.mem (ptr - pb.1 - 4) = tagOf pb := by
    rcases hp with ⟨rfl, rfl⟩ | ⟨pre', rfl⟩
    · simp only [total, Nat.add_zero] at hptr
      have e1 : ptr - 8 = s.heap_start + 8 := by omega
      have e2 : ptr - 8 - 4 = s.heap_start + 4 := by omega
      refine ⟨le_refl _, rfl, by simp; omega, ?_, ?_⟩
      · rw [e1, hp2]; rfl
      · show GET s.mem (ptr - 8 - 4) = _
        rw [e2, hp1]; rfl
    · rw [Seg_append] at sg1
      obtain ⟨_, d1, d2, d3, d4, _⟩ := sg1
      simp only [total_append, total, Nat.add_zero] at hptr
      have e1 : ptr - 8 = firstBlock s + total pre' + pb.1 - 8 := by omega
      have e2 : ptr - pb.1 - 4 = firstBlock s + total pre' - 4 := by omega
      refine ⟨by omega, d2, by omega, ?_, ?_⟩
      · rw [e1, d4]
      · rw [e2, d3]
  have hnext : nb.1 % 8 = 0 ∧ ptr + c.1 + nb.1 ≤ s.mem_brk
      ∧ GET s.mem (ptr + c.1 - 4) = tagOf nb
      ∧ (nb.1 ≠ 0 → 16 ≤ nb.1 ∧ GET s.mem (ptr + c.1 + nb.1 - 8) = tagOf nb) := by
    rcases hn with ⟨rfl, rfl⟩ | ⟨post', rfl⟩
    · simp only [total, Nat.add_zero] at htl
      have e1 : ptr + c.1 - 4 = s.mem_brk - 4 := by omega
      refine ⟨rfl, by simp; omega, ?_, fun h => absurd rfl h⟩
      rw [e1, hep]; rfl
    · obtain ⟨d1, d2, d3, d4, _⟩ := sg3
      simp only [total] at htl
      refine ⟨d2, by omega, d3, fun _ => ⟨d1, d4⟩⟩
  have hb : ptr + c.1 + nb.1 ≤ s.mem_brk := hnext.2.1
  exact ⟨⟨c1, c2, hprev.1, hprev.2.1, hnext.1, hprev.2.2.1, by omega, hb, by omega⟩, c3, c4,
    hprev.2.2.2.1, hprev.2.2.2.2, hnext.2.2.1, hnext.2.2.2⟩

theorem bit_ne_zero (b : Blk) : bit b ≠ 0 ↔ b.2 = true := by
  unfold bit; split <;> simp_all

/-- What the macros of `mm.c` compute at a block of a well-formed heap. -/
theorem macros_at {s : State} {pre post : List Blk} {c pb nb : Blk} {ptr : Nat}
    (hh : Heap s (pre ++ c :: post)) (hptr : ptr = firstBlock s + total pre)
    (hp : PrevIs pre pb) (hn : NextIs post nb) :
    GET_SIZE s.mem (HDRP ptr) = c.1 ∧ GET_ALLOC s.mem (HDRP ptr) = bit c
    ∧ FTRP s.mem ptr = ptr + c.1 - 8
    ∧ NEXT_BLKP s.mem ptr = ptr + c.1 ∧ PREV_BLKP s.mem ptr = ptr - pb.1
    ∧ GET_SIZE s.mem (HDRP (ptr - pb.1)) = pb.1 ∧ GET_ALLOC s.mem (HDRP (ptr - pb.1)) = bit pb
    ∧ FTRP s.mem (ptr - pb.1) = ptr - 8 ∧ GET_ALLOC s.mem (ptr - 8) = bit pb
    ∧ GET_SIZE s.mem (HDRP (ptr + c.1)) = nb.1 ∧ GET_ALLOC s.mem (HDRP (ptr + c.1)) = bit nb
    ∧ FTRP s.mem (ptr + c.1) = ptr + c.1 + nb.1 - 8
    ∧ (nb.1 ≠ 0 → GET_SIZE s.mem (ptr + c.1 + nb.1 - 8) = nb.1) := by
  obtain ⟨⟨b1, b2, b3, b4, b5, b6, b7, b8, b9⟩, t1, t2, t3, t4, t5, t6⟩ := tags_at hh hptr hp hn
  have e1 : HDRP ptr = ptr - 4 := rfl
  have e2 : HDRP (ptr - pb.1) = ptr - pb.1 - 4 := rfl
  have e3 : HDRP (ptr + c.1) = ptr + c.1 - 4 := rfl
  have r1 := GET_SIZE_tag _ _ _ t1 b2
  have r2 := GET_SIZE_tag _ _ _ t4 b4
  have r3 := GET_SIZE_tag _ _ _ t5 b5
  have r4 := GET_SIZE_tag _ _ _ t3 b4
  refine ⟨by rw [e1, r1], by rw [e1]; exact GET_ALLOC_tag _ _ _ t1 b2, ?_, ?_, ?_, by rw [e2, r2],
    by rw [e2]; exact GET_ALLOC_tag _ _ _ t4 b4, ?_, GET_ALLOC_tag _ _ _ t3 b4, by rw [e3, r3],
    by rw [e3]; exact GET_ALLOC_tag _ _ _ t5 b5, ?_, fun h => GET_SIZE_tag _ _ _ (t6 h).2 b5⟩
  · unfold FTRP DSIZE; rw [e1, r1]
  · unfold NEXT_BLKP WSIZE; rw [r1]
  · unfold PREV_BLKP DSIZE; rw [r4]
  · unfold FTRP DSIZE; rw [e2, r2]; omega
  · unfold FTRP DSIZE; rw [e3, r3]

end MM

namespace MM

/-- One block whose header is written first, then its footer. -/
theorem Seg_one_hf (m : Mem) (P : Nat) (b : Blk) (h16 : 16 ≤ b.1) (h8 : b.1 % 8 = 0)
    (hw : b.1 + 1 < WORD) (hP : 4 ≤ P) :
    Seg (PUT (PUT m (P - 4) (tagOf b)) (P + b.1 - 8) (tagOf b)) P [b] := by
  have ht : tagOf b < WORD := by unfold tagOf; split <;> omega
  refine ⟨h16, h8, ?_, ?_, trivial⟩
  · rw [GET_PUT_other _ _ _ _ (by omega), GET_PUT_same _ _ _ ht]
  · rw [GET_PUT_same _ _ _ ht]

/-- One block whose footer is written first, then its header. -/
theorem Seg_one_fh (m : Mem) (P : Nat) (b : Blk) (h16 : 16 ≤ b.1) (h8 : b.1 % 8 = 0)
    (hw : b.1 + 1 < WORD) (hP : 4 ≤ P) :
    Seg (PUT (PUT m (P + b.1 - 8) (tagOf b)) (P - 4) (tagOf b)) P [b] := by
  have ht : tagOf b < WORD := by unfold tagOf; split <;> omega
  refine ⟨h16, h8, ?_, ?_, trivial⟩
  · rw [GET_PUT_same _ _ _ ht]
  · rw [GET_PUT_other _ _ _ _ (by omega), GET_PUT_same _ _ _ ht]

theorem setMem_setMem (s : State) (m1 m2 : Mem) : setMem (setMem s m1) m2 = setMem s m2 := rfl

theorem setMem_mem (s : State) (m : Mem) : (setMem s m).mem = m := rfl

theorem firstBlock_setMem (s : State) (m : Mem) : firstBlock (setMem s m) = firstBlock s := rfl

/-- Once the free blocks of the run `mid` are out of the index and one tag pair
covers the run, `pushNode` of the merged block restores a well-formed state
whose index again holds every free block. -/
theorem merge_spec {s : State} {pre mid post : List Blk} {fl : List Nat} {P : Nat}
    (hw : Wf s (pre ++ mid ++ post) fl) (hP : P = firstBlock s + total pre)
    (hout : ∀ p ∈ fl, p < P ∨ P + total mid ≤ p)
    (hcomp : ∀ p sz, BlockAt (firstBlock s) (pre ++ mid ++ post) p (sz, false) →
      p < P ∨ P + total mid ≤ p → p ∈ fl)
    (m' : Mem) (hseg : Seg m' P [(total mid, false)])
    (hfr : ∀ a, a < P - 4 ∨ P + total mid - 4 ≤ a → m' a = s.mem a) (size : Nat) :
    ∃ s' fl', pushNode (setMem s m') P size = some s'
      ∧ Wf s' (pre ++ (total mid, false) :: post) fl'
      ∧ Complete s' (pre ++ (total mid, false) :: post) fl'
      ∧ s'.mem_brk = s.mem_brk ∧ s'.mem_max_addr = s.mem_max_addr
      ∧ s'.heap_start = s.heap_start
      ∧ ∀ a, a < P - 4 ∨ P + total mid - 4 ≤ a →
          (∀ p sz, BlockAt (firstBlock s) (pre ++ mid ++ post) p (sz, false) →
            a < p ∨ p + 8 ≤ a) → s'.mem a = s.mem a := by
  have h16 : 16 ≤ total mid := hseg.1
  have hre : Wf (setMem s m') (pre ++ [(total mid, false)] ++ post) fl :=
    Wf_retag hw m' [(total mid, false)] (by simp [total]) (by rw [← hP]; exact hseg)
      (by rw [← hP]; exact hfr) (by rw [← hP]; exact hout)
  have hblk : BlockAt (firstBlock (setMem s m')) (pre ++ [(total mid, false)] ++ post) P
      (total mid, false) := ⟨pre, post, by simp, hP⟩
  have hnin : P ∉ fl := fun h => by
    have := hout P h
    omega
  obtain ⟨s', fl', hpush, hw', hm', e1, e2, e3, fr⟩ := pushNode_wf hre hblk hnin size
  have hfb : firstBlock s' = firstBlock s := by unfold firstBlock; rw [e3]; rfl
  have hl : pre ++ [(total mid, false)] ++ post = pre ++ (total mid, false) :: post := by simp
  rw [hl] at hw' fr
  -- free blocks of the new layout, outside the merged block, are old free blocks
  have old : ∀ p sz, BlockAt (firstBlock s) (pre ++ (total mid, false) :: post) p (sz, false) →
      p = P ∨ ((p < P ∨ P + total mid ≤ p)
        ∧ BlockAt (firstBlock s) (pre ++ mid ++ post) p (sz, false)) := by
    intro p sz hb
    rw [BlockAt_append, BlockAt_cons] at hb
    rcases hb with hb | ⟨hb, -⟩ | hb
    · right
      have := BlockAt_bounds hb
      have h0 : 16 ≤ sz := by
        have := (Seg_block hw'.1.2.2.2.2.1 (by
          rw [hfb, BlockAt_append]; exact Or.inl hb)).1
        simpa using this
      simp at this
      exact ⟨by omega, by rw [BlockAt_append, BlockAt_append]; exact Or.inl (Or.inl hb)⟩
    · left; rw [hb, hP]
    · right
      have := BlockAt_bounds hb
      simp at this
      exact ⟨by omega, by
        rw [BlockAt_append, total_append, ← Nat.add_assoc]; exact Or.inr hb⟩
  refine ⟨s', fl', hpush, hw', ?_, e1, e2, e3, ?_⟩
  · intro p sz hb
    rw [hfb] at hb
    rcases old p sz hb with h | ⟨h1, h2⟩
    · exact (hm' p).2 (Or.inl h)
    · exact (hm' p).2 (Or.inr (hcomp p sz h2 h1))
  · intro a ha hl
    rw [fr a, setMem_mem, hfr a ha]
    intro p sz hb
    rw [firstBlock_setMem] at hb
    rcases old p sz hb with h | ⟨-, h2⟩
    · omega
    · exact hl p sz h2

end MM

namespace MM

theorem coalesce_rel_both (s s1 s2 s3 s4 s5 : State) (ptr q size : Nat)
    (h1 : GET_ALLOC s.mem (HDRP (PREV_BLKP s.mem ptr)) = 0)
    (h2 : GET_ALLOC s.mem (HDRP (NEXT_BLKP s.mem ptr)) = 0)
    (e1 : popNode s ptr = s1) (e2 : popNode s1 (PREV_BLKP s1.mem ptr) = s2)
    (e3 : popNode s2 (NEXT_BLKP s2.mem ptr) = s3)
    (e4 : (GET_SIZE s.mem (HDRP ptr) + (GET_SIZE s3.mem (HDRP (PREV_BLKP s3.mem ptr))
        + GET_SIZE s3.mem (HDRP (NEXT_BLKP s3.mem ptr))) % WORD) % WORD = size)
    (e5 : setMem s3 (PUT s3.mem (FTRP s3.mem (NEXT_BLKP s3.mem ptr)) (PACK size 0)) = s4)
    (e6 : PREV_BLKP s4.mem ptr = q)
    (e7 : setMem s4 (PUT s4.mem (HDRP q) (PACK size 0)) = s5) :
    coalesce s ptr = (pushNode s5 q size).map fun s => (q, s) := by
  subst e1 e2 e3 e4 e5 e6 e7
  unfold coalesce
  rw [if_neg (by simp [h1]), if_neg (by simp [h1]), if_neg (by simp [h2])]

theorem coalesce_rel_next (s s1 s2 s3 s4 : State) (ptr size : Nat)
    (h1 : GET_ALLOC s.mem (HDRP (PREV_BLKP s.mem ptr)) ≠ 0)
    (h2 : GET_ALLOC s.mem (HDRP (NEXT_BLKP s.mem ptr)) = 0)
    (e1 : popNode s ptr = s1) (e2 : popNode s1 (NEXT_BLKP s1.mem ptr) = s2)
    (e4 : (GET_SIZE s.mem (HDRP ptr) + GET_SIZE s2.mem (HDRP (NEXT_BLKP s2.mem ptr))) % WORD
      = size)
    (e5 : setMem s2 (PUT s2.mem (HDRP ptr) (PACK size 0)) = s3)
    (e7 : setMem s3 (PUT s3.mem (FTRP s3.mem ptr) (PACK size 0)) = s4) :
    coalesce s ptr = (pushNode s4 ptr size).map fun s => (ptr, s) := by
  subst e1 e2 e4 e5 e7
  unfold coalesce
  rw [if_neg (by simp [h2]), if_pos (by simp [h1, h2])]

theorem coalesce_rel_prev (s s1 s2 s3 s4 : State) (ptr q size : Nat)
    (h1 : GET_ALLOC s.mem (HDRP (PREV_BLKP s.mem ptr)) = 0)
    (h2 : GET_ALLOC s.mem (HDRP (NEXT_BLKP s.mem ptr)) ≠ 0)
    (e1 : popNode s ptr = s1) (e2 : popNode s1 (PREV_BLKP s1.mem ptr) = s2)
    (e4 : (GET_SIZE s.mem (HDRP ptr) + GET_SIZE s2.mem (HDRP (PREV_BLKP s2.mem ptr))) % WORD
      = size)
    (e5 : setMem s2 (PUT s2.mem (FTRP s2.mem ptr) (PACK size 0)) = s3)
    (e6 : PREV_BLKP s3.mem ptr = q)
    (e7 : setMem s3 (PUT s3.mem (HDRP q) (PACK size 0)) = s4) :
    coalesce s ptr = (pushNode s4 q size).map fun s => (q, s) := by
  subst e1 e2 e4 e5 e6 e7
  unfold coalesce
  rw [if_neg (by simp [h1]), if_neg (by simp [h1]), if_pos (by simp [h1, h2])]

theorem coalesce_rel_none (s : State) (ptr : Nat)
    (h1 : GET_ALLOC s.mem (HDRP (PREV_BLKP s.mem ptr)) ≠ 0)
    (h2 : GET_ALLOC s.mem (HDRP (NEXT_BLKP s.mem ptr)) ≠ 0) :
    coalesce s ptr = some (ptr, s) := by
  unfold coalesce
  rw [if_pos ⟨h1, h2⟩]
theorem tagOf_lt (b : Blk) (hw : b.1 + 1 < WORD) : tagOf b < WORD := by
  unfold tagOf; split <;> omega

theorem FTRP_PUT (m : Mem) (ptr : Nat) (b : Blk) (h8 : b.1 % 8 = 0) (hw : b.1 + 1 < WORD) :
    FTRP (PUT m (HDRP ptr) (tagOf b)) ptr = ptr + b.1 - 8 := by
  unfold FTRP DSIZE
  rw [GET_SIZE_tag _ _ b (GET_PUT_same _ _ _ (tagOf_lt b hw)) h8]

/-- Two different blocks of a layout do not overlap. -/
theorem blocks_apart {m : Mem} {bp : Nat} {bl : List Blk} {p q sp sq : Nat} {a b : Bool}
    (hseg : Seg m bp bl) (h1 : BlockAt bp bl p (sp, a)) (h2 : BlockAt bp bl q (sq, b)) :
    16 ≤ sp ∧ 16 ≤ sq ∧ (p = q ∨ p + sp ≤ q ∨ q + sq ≤ p) := by
  have k1 : 16 ≤ sp := (Seg_block hseg h1).1
  have k2 : 16 ≤ sq := (Seg_block hseg h2).1
  refine ⟨k1, k2, ?_⟩
  rcases BlockAt_disjoint h1 h2 with h | h | h
  · exact Or.inl h.1
  · exact Or.inr (Or.inl h)
  · exact Or.inr (Or.inr h)

/-- A byte outside every free block is outside the link fields of the free
blocks. -/
theorem links_of_extents {m : Mem} {bp : Nat} {bl : List Blk} {a : Nat} (hseg : Seg m bp bl)
    (ha : ∀ p c, BlockAt bp bl p c → c.2 = false → a < p - 4 ∨ p + c.1 - 4 ≤ a) :
    ∀ p sz, BlockAt bp bl p (sz, false) → a < p ∨ p + 8 ≤ a := by
  intro p sp hbp
  have h1 : a < p - 4 ∨ p + sp - 4 ≤ a := ha p _ hbp rfl
  have h2 : 16 ≤ sp := (Seg_block hseg hbp).1
  omega

/-- The two tag writes of a block leave every byte outside the block alone. -/
theorem PUT2_frame (m : Mem) (p1 v1 p2 v2 a : Nat) (h1 : a < p1 ∨ p1 + 4 ≤ a)
    (h2 : a < p2 ∨ p2 + 4 ≤ a) : PUT (PUT m p1 v1) p2 v2 a = m a := by
  rw [PUT_frame _ _ _ _ h2, PUT_frame _ _ _ _ h1]

theorem popNode_wf' {s : State} {bl : List Blk} {fl : List Nat} (hw : Wf s bl fl)
    {ptr : Nat} (hp : ptr ∈ fl) :
    ∃ s1 fl', popNode s ptr = s1 ∧ Wf s1 bl fl'
      ∧ (∀ x, x ∈ fl' ↔ x ∈ fl ∧ x ≠ ptr)
      ∧ s1.mem_brk = s.mem_brk ∧ s1.mem_max_addr = s.mem_max_addr
      ∧ s1.heap_start = s.heap_start ∧ firstBlock s1 = firstBlock s
      ∧ ∀ a, (∀ p sz, BlockAt (firstBlock s) bl p (sz, false) → a < p ∨ p + 8 ≤ a) →
          s1.mem a = s.mem a := by
  obtain ⟨fl', h1, h2, h3, h4, h5, h6⟩ := popNode_wf hw hp
  exact ⟨_, fl', rfl, h1, h2, h3, h4, h5, by unfold firstBlock; rw [h5], h6⟩

theorem coalesce_next_free {s : State} {pre post' : List Blk} {sz : Nat} {fl : List Nat}
    {ptr : Nat} {pb nb : Blk}
    (hw : Wf s (pre ++ (sz, false) :: nb :: post') fl)
    (hptr : ptr = firstBlock s + total pre) (hin : ptr ∈ fl)
    (hc : Complete s (pre ++ (sz, false) :: nb :: post') fl)
    (hp : PrevIs pre pb) (hpa : pb.2 = true) (hna : nb.2 = false) :
    ∃ s' fl', coalesce s ptr = some (ptr, s')
      ∧ Wf s' (pre ++ (sz + nb.1, false) :: post') fl'
      ∧ Complete s' (pre ++ (sz + nb.1, false) :: post') fl'
      ∧ s'.mem_brk = s.mem_brk ∧ s'.mem_max_addr = s.mem_max_addr
      ∧ s'.heap_start = s.heap_start
      ∧ ∀ a, (∀ p c, BlockAt (firstBlock s) (pre ++ (sz, false) :: nb :: post') p c →
          c.2 = false → a < p - 4 ∨ p + c.1 - 4 ≤ a) → s'.mem a = s.mem a := by
  have hn : NextIs (nb :: post') nb := Or.inr ⟨post', rfl⟩
  have T := (tags_at hw.1 hptr hp hn).1
  have b1 : 16 ≤ sz := T.1
  have b7 : s.heap_start + 16 ≤ ptr := T.2.2.2.2.2.2.1
  have b8 : ptr + sz + nb.1 ≤ s.mem_brk := T.2.2.2.2.2.2.2.1
  have b9 : s.mem_brk < WORD := T.2.2.2.2.2.2.2.2
  have b2 : sz % 8 = 0 := T.2.1
  have b5 : nb.1 % 8 = 0 := T.2.2.2.2.1
  have M := macros_at hw.1 hptr hp hn
  have m1 : GET_SIZE s.mem (HDRP ptr) = sz := M.1
  have m4 : NEXT_BLKP s.mem ptr = ptr + sz := M.2.2.2.1
  have m5 := M.2.2.2.2.1
  have m7 := M.2.2.2.2.2.2.1
  have m11 : GET_ALLOC s.mem (HDRP (ptr + sz)) = bit nb := M.2.2.2.2.2.2.2.2.2.2.1
  have hb1 : bit pb ≠ 0 := (bit_ne_zero pb).2 hpa
  have hb2 : bit nb = 0 := by unfold bit; rw [hna]; rfl
  have hnb : nb = (nb.1, false) := by rw [← hna]
  have hblk0 : BlockAt (firstBlock s) (pre ++ (sz, false) :: nb :: post') ptr (sz, false) :=
    ⟨pre, nb :: post', rfl, hptr⟩
  have hblk1 : BlockAt (firstBlock s) (pre ++ (sz, false) :: nb :: post') (ptr + sz)
      (nb.1, false) :=
    ⟨pre ++ [(sz, false)], post', by rw [← hnb]; simp, by
      rw [total_append, hptr]; simp only [total]; clear * -; omega⟩
  have hseg0 := hw.1.2.2.2.2.1
  have hnb16 : 16 ≤ nb.1 := (Seg_block hseg0 hblk1).1
  -- first pop
  obtain ⟨s1, fl1, hs1, hw1, hm1, e11, e12, e13, hfb1, fr1⟩ := popNode_wf' hw hin
  have k4 : NEXT_BLKP s1.mem ptr = ptr + sz :=
    (macros_at hw1.1 (hptr.trans (by rw [hfb1])) hp hn).2.2.2.1
  -- second pop
  have hin1 : ptr + sz ∈ fl1 := (hm1 _).2 ⟨hc _ _ hblk1, by clear * - b1; omega⟩
  obtain ⟨s2, fl2, hs2, hw2, hm2, e21, e22, e23, hfb2', fr2⟩ := popNode_wf' hw1 hin1
  have hfb2 : firstBlock s2 = firstBlock s := hfb2'.trans hfb1
  have J := macros_at hw2.1 (hptr.trans (by rw [hfb2])) hp hn
  have j4 : NEXT_BLKP s2.mem ptr = ptr + sz := J.2.2.2.1
  have j10 : GET_SIZE s2.mem (HDRP (ptr + sz)) = nb.1 := J.2.2.2.2.2.2.2.2.2.1
  clear J M T
  have hlt : sz + nb.1 + 1 < WORD := by clear * - b8 b9 b7; omega
  have hsum : (sz + nb.1) % WORD = sz + nb.1 := Nat.mod_eq_of_lt (by clear * - hlt; omega)
  have hftr : FTRP (PUT s2.mem (HDRP ptr) (PACK (sz + nb.1) 0)) ptr = ptr + (sz + nb.1) - 8 := by
    rw [PACK_zero]
    exact FTRP_PUT _ _ (sz + nb.1, false) (show (sz + nb.1) % 8 = 0 by clear * - b2 b5; omega) hlt
  have hev := coalesce_rel_next s s1 s2 _
    (setMem s2 (PUT (PUT s2.mem (HDRP ptr) (PACK (sz + nb.1) 0)) (ptr + (sz + nb.1) - 8)
      (PACK (sz + nb.1) 0))) ptr (sz + nb.1)
    (by rw [m5, m7]; exact hb1) (by rw [m4, m11]; exact hb2) hs1 (by rw [k4]; exact hs2)
    (by rw [m1, j4, j10, hsum]) rfl (by rw [setMem_mem, hftr, setMem_setMem])
  rw [hev]
  -- the two tags and the push
  have hbl : pre ++ [(sz, false), nb] ++ post' = pre ++ (sz, false) :: nb :: post' := by simp
  have hw2' : Wf s2 (pre ++ [(sz, false), nb] ++ post') fl2 := by rw [hbl]; exact hw2
  have ht : total [(sz, false), nb] = sz + nb.1 := by simp [total]
  have hout : ∀ p ∈ fl2, p < ptr ∨ ptr + total [(sz, false), nb] ≤ p := by
    intro p hp2
    rw [ht]
    obtain ⟨hp1, hne2⟩ := (hm2 p).1 hp2
    obtain ⟨hp0, hne1⟩ := (hm1 p).1 hp1
    obtain ⟨sp, hbp⟩ := hw.2.2.2 p hp0
    have d1 := blocks_apart hseg0 hbp hblk0
    have d2 := blocks_apart hseg0 hbp hblk1
    clear * - d1 d2 hne1 hne2
    omega
  have hcomp : ∀ p sp, BlockAt (firstBlock s2) (pre ++ [(sz, false), nb] ++ post') p
      (sp, false) → p < ptr ∨ ptr + total [(sz, false), nb] ≤ p → p ∈ fl2 := by
    intro p sp hbp hpos
    rw [ht] at hpos
    rw [hfb2, hbl] at hbp
    have n1 : p ≠ ptr := by clear * - hpos b1; omega
    have n2 : p ≠ ptr + sz := by clear * - hpos hnb16; omega
    exact (hm2 p).2 ⟨(hm1 p).2 ⟨hc p sp hbp, n1⟩, n2⟩
  have hsegn : Seg (PUT (PUT s2.mem (HDRP ptr) (PACK (sz + nb.1) 0)) (ptr + (sz + nb.1) - 8)
      (PACK (sz + nb.1) 0)) ptr [(total [(sz, false), nb], false)] := by
    rw [ht, PACK_zero]
    exact Seg_one_hf _ _ (sz + nb.1, false) (show 16 ≤ sz + nb.1 by clear * - b1; omega)
      (show (sz + nb.1) % 8 = 0 by clear * - b2 b5; omega) hlt (by clear * - b7; omega)
  have hfrn : ∀ a, a < ptr - 4 ∨ ptr + total [(sz, false), nb] - 4 ≤ a →
      (PUT (PUT s2.mem (HDRP ptr) (PACK (sz + nb.1) 0)) (ptr + (sz + nb.1) - 8)
        (PACK (sz + nb.1) 0)) a = s2.mem a := by
    intro a ha
    rw [ht] at ha
    exact PUT2_frame _ _ _ _ _ _ (by unfold HDRP WSIZE; clear * - ha b1; omega)
      (by clear * - ha b1; omega)
  obtain ⟨s', fl', hpush, hw', hc', e31, e32, e33, fr3⟩ := merge_spec hw2'
    (hptr.trans (by rw [hfb2])) hout hcomp _ hsegn hfrn (sz + nb.1)
  rw [ht] at hw' hc' fr3
  rw [hpush]
  refine ⟨s', fl', rfl, hw', hc', by rw [e31, e21, e11], by rw [e32, e22, e12],
    by rw [e33, e23, e13], ?_⟩
  intro a ha
  have hlink := links_of_extents hseg0 ha
  have h0 : a < ptr - 4 ∨ ptr + sz - 4 ≤ a := ha _ _ hblk0 rfl
  have h1 : a < ptr + sz - 4 ∨ ptr + sz + nb.1 - 4 ≤ a := ha _ (nb.1, false) hblk1 rfl
  have h2 : a < ptr - 4 ∨ ptr + (sz + nb.1) - 4 ≤ a := by clear * - h0 h1 b1 hnb16; omega
  rw [fr3 a h2 (by rw [hfb2, hbl]; exact hlink), fr2 a (by rw [hfb1]; exact hlink),
    fr1 a hlink]

end MM

namespace MM

theorem PREV_BLKP_PUT (m : Mem) (ptr q v : Nat) (h : q + 4 ≤ ptr - 8 ∨ ptr - 8 + 4 ≤ q) :
    PREV_BLKP (PUT m q v) ptr = PREV_BLKP m ptr := by
  unfold PREV_BLKP DSIZE
  rw [GET_SIZE_congr _ _ _ (GET_PUT_other _ _ _ _ (by omega))]

theorem coalesce_prev_free {s : State} {pre' post : List Blk} {sz : Nat} {fl : List Nat}
    {ptr : Nat} {pb nb : Blk}
    (hw : Wf s (pre' ++ pb :: (sz, false) :: post) fl)
    (hptr : ptr = firstBlock s + total pre' + pb.1) (hin : ptr ∈ fl)
    (hc : Complete s (pre' ++ pb :: (sz, false) :: post) fl)
    (hn : NextIs post nb) (hpa : pb.2 = false) (hna : nb.2 = true) :
    ∃ s' fl', coalesce s ptr = some (ptr - pb.1, s')
      ∧ Wf s' (pre' ++ (pb.1 + sz, false) :: post) fl'
      ∧ Complete s' (pre' ++ (pb.1 + sz, false) :: post) fl'
      ∧ s'.mem_brk = s.mem_brk ∧ s'.mem_max_addr = s.mem_max_addr
      ∧ s'.heap_start = s.heap_start
      ∧ ∀ a, (∀ p c, BlockAt (firstBlock s) (pre' ++ pb :: (sz, false) :: post) p c →
          c.2 = false → a < p - 4 ∨ p + c.1 - 4 ≤ a) → s'.mem a = s.mem a := by
  have hp : PrevIs (pre' ++ [pb]) pb := Or.inr ⟨pre', rfl⟩
  have hbl0 : pre' ++ pb :: (sz, false) :: post = (pre' ++ [pb]) ++ (sz, false) :: post := by simp
  have hptr0 : ptr = firstBlock s + total (pre' ++ [pb]) := by
    rw [hptr, total_append]; simp only [total]; clear * -; omega
  have hh0 := hw.1
  rw [hbl0] at hh0
  have T := (tags_at hh0 hptr0 hp hn).1
  have b1 : 16 ≤ sz := T.1
  have b2 : sz % 8 = 0 := T.2.1
  have b4 : pb.1 % 8 = 0 := T.2.2.2.1
  have b6 : pb.1 + 8 ≤ ptr := T.2.2.2.2.2.1
  have b7 : s.heap_start + 16 ≤ ptr := T.2.2.2.2.2.2.1
  have b8 : ptr + sz + nb.1 ≤ s.mem_brk := T.2.2.2.2.2.2.2.1
  have b9 : s.mem_brk < WORD := T.2.2.2.2.2.2.2.2
  have M := macros_at hh0 hptr0 hp hn
  have m1 : GET_SIZE s.mem (HDRP ptr) = sz := M.1
  have m4 : NEXT_BLKP s.mem ptr = ptr + sz := M.2.2.2.1
  have m5 := M.2.2.2.2.1
  have m7 := M.2.2.2.2.2.2.1
  have m11 : GET_ALLOC s.mem (HDRP (ptr + sz)) = bit nb := M.2.2.2.2.2.2.2.2.2.2.1
  have hb1 : bit pb = 0 := by unfold bit; rw [hpa]; rfl
  have hb2 : bit nb ≠ 0 := (bit_ne_zero nb).2 hna
  have hpb : pb = (pb.1, false) := by rw [← hpa]
  have hblk0 : BlockAt (firstBlock s) (pre' ++ pb :: (sz, false) :: post) ptr (sz, false) :=
    ⟨pre' ++ [pb], post, by simp, hptr0⟩
  have hblk1 : BlockAt (firstBlock s) (pre' ++ pb :: (sz, false) :: post) (ptr - pb.1)
      (pb.1, false) :=
    ⟨pre', (sz, false) :: post, by rw [← hpb], by clear * - hptr; omega⟩
  have hseg0 := hw.1.2.2.2.2.1
  have hpb16 : 16 ≤ pb.1 := (Seg_block hseg0 hblk1).1
  -- first pop
  obtain ⟨s1, fl1, hs1, hw1, hm1, e11, e12, e13, hfb1, fr1⟩ := popNode_wf' hw hin
  have hh1 := hw1.1
  rw [hbl0] at hh1
  have k5 : PREV_BLKP s1.mem ptr = ptr - pb.1 :=
    (macros_at hh1 (hptr0.trans (by rw [hfb1])) hp hn).2.2.2.2.1
  -- second pop
  have hin1 : ptr - pb.1 ∈ fl1 := (hm1 _).2 ⟨hc _ _ hblk1, by clear * - hpb16 b6; omega⟩
  obtain ⟨s2, fl2, hs2, hw2, hm2, e21, e22, e23, hfb2', fr2⟩ := popNode_wf' hw1 hin1
  have hfb2 : firstBlock s2 = firstBlock s := hfb2'.trans hfb1
  have hh2 := hw2.1
  rw [hbl0] at hh2
  have J := macros_at hh2 (hptr0.trans (by rw [hfb2])) hp hn
  have j3 : FTRP s2.mem ptr = ptr + sz - 8 := J.2.2.1
  have j5 : PREV_BLKP s2.mem ptr = ptr - pb.1 := J.2.2.2.2.1
  have j6 : GET_SIZE s2.mem (HDRP (ptr - pb.1)) = pb.1 := J.2.2.2.2.2.1
  clear J M T
  have hlt : pb.1 + sz + 1 < WORD := by clear * - b8 b9 b6; omega
  have hsum : (sz + pb.1) % WORD = pb.1 + sz := by
    rw [Nat.mod_eq_of_lt (by clear * - hlt; omega)]; clear * -; omega
  have hprev : PREV_BLKP (PUT s2.mem (ptr + sz - 8) (PACK (pb.1 + sz) 0)) ptr = ptr - pb.1 := by
    rw [PREV_BLKP_PUT _ _ _ _ (by clear * - b1; omega), j5]
  have hev := coalesce_rel_prev s s1 s2 _
    (setMem s2 (PUT (PUT s2.mem (ptr + sz - 8) (PACK (pb.1 + sz) 0)) (HDRP (ptr - pb.1))
      (PACK (pb.1 + sz) 0))) ptr (ptr - pb.1) (pb.1 + sz)
    (by rw [m5, m7]; exact hb1) (by rw [m4, m11]; exact hb2) hs1 (by rw [k5]; exact hs2)
    (by rw [m1, j5, j6, hsum]) rfl (by rw [setMem_mem, j3]; exact hprev)
    (by rw [setMem_mem, j3, setMem_setMem])
  rw [hev]
  -- the two tags and the push
  have hbl : pre' ++ [pb, (sz, false)] ++ post = pre' ++ pb :: (sz, false) :: post := by simp
  have hw2' : Wf s2 (pre' ++ [pb, (sz, false)] ++ post) fl2 := by rw [hbl]; exact hw2
  have ht : total [pb, (sz, false)] = pb.1 + sz := by simp [total]
  have hP : ptr - pb.1 = firstBlock s2 + total pre' := by rw [hfb2]; clear * - hptr; omega
  have hout : ∀ p ∈ fl2, p < ptr - pb.1 ∨ ptr - pb.1 + total [pb, (sz, false)] ≤ p := by
    intro p hp2
    rw [ht]
    obtain ⟨hp1, hne2⟩ := (hm2 p).1 hp2
    obtain ⟨hp0, hne1⟩ := (hm1 p).1 hp1
    obtain ⟨sp, hbp⟩ := hw.2.2.2 p hp0
    have d1 := blocks_apart hseg0 hbp hblk0
    have d2 := blocks_apart hseg0 hbp hblk1
    clear * - d1 d2 hne1 hne2 b6
    omega
  have hcomp : ∀ p sp, BlockAt (firstBlock s2) (pre' ++ [pb, (sz, false)] ++ post) p
      (sp, false) → p < ptr - pb.1 ∨ ptr - pb.1 + total [pb, (sz, false)] ≤ p → p ∈ fl2 := by
    intro p sp hbp hpos
    rw [ht] at hpos
    rw [hfb2, hbl] at hbp
    have n1 : p ≠ ptr := by clear * - hpos b1 b6 hpb16; omega
    have n2 : p ≠ ptr - pb.1 := by clear * - hpos b1 b6 hpb16; omega
    exact (hm2 p).2 ⟨(hm1 p).2 ⟨hc p sp hbp, n1⟩, n2⟩
  have hfa : ptr + sz - 8 = ptr - pb.1 + (pb.1 + sz, false).1 - 8 := by
    show ptr + sz - 8 = ptr - pb.1 + (pb.1 + sz) - 8
    clear * - b6; omega
  have hsegn : Seg (PUT (PUT s2.mem (ptr + sz - 8) (PACK (pb.1 + sz) 0)) (HDRP (ptr - pb.1))
      (PACK (pb.1 + sz) 0)) (ptr - pb.1) [(total [pb, (sz, false)], false)] := by
    rw [ht, PACK_zero, hfa]
    exact Seg_one_fh _ _ (pb.1 + sz, false) (show 16 ≤ pb.1 + sz by clear * - b1; omega)
      (show (pb.1 + sz) % 8 = 0 by clear * - b2 b4; omega) hlt (by clear * - b6; omega)
  have hfrn : ∀ a, a < ptr - pb.1 - 4 ∨ ptr - pb.1 + total [pb, (sz, false)] - 4 ≤ a →
      (PUT (PUT s2.mem (ptr + sz - 8) (PACK (pb.1 + sz) 0)) (HDRP (ptr - pb.1))
        (PACK (pb.1 + sz) 0)) a = s2.mem a := by
    intro a ha
    rw [ht] at ha
    exact PUT2_frame _ _ _ _ _ _ (by clear * - ha b1 b6 hpb16; omega)
      (by unfold HDRP WSIZE; clear * - ha b1 b6 hpb16; omega)
  obtain ⟨s', fl', hpush, hw', hc', e31, e32, e33, fr3⟩ := merge_spec hw2' hP hout hcomp _ hsegn
    hfrn (pb.1 + sz)
  rw [ht] at hw' hc' fr3
  rw [hpush]
  refine ⟨s', fl', rfl, hw', hc', by rw [e31, e21, e11], by rw [e32, e22, e12],
    by rw [e33, e23, e13], ?_⟩
  intro a ha
  have hlink := links_of_extents hseg0 ha
  have h0 : a < ptr - 4 ∨ ptr + sz - 4 ≤ a := ha _ _ hblk0 rfl
  have h1 : a < ptr - pb.1 - 4 ∨ ptr - pb.1 + pb.1 - 4 ≤ a := ha _ (pb.1, false) hblk1 rfl
  have h2 : a < ptr - pb.1 - 4 ∨ ptr - pb.1 + (pb.1 + sz) - 4 ≤ a := by
    clear * - h0 h1 b1 hpb16 b6; omega
  rw [fr3 a h2 (by rw [hfb2, hbl]; exact hlink), fr2 a (by rw [hfb1]; exact hlink),
    fr1 a hlink]

theorem coalesce_both_free {s : State} {pre' post' : List Blk} {sz : Nat} {fl : List Nat}
    {ptr : Nat} {pb nb : Blk}
    (hw : Wf s (pre' ++ pb :: (sz, false) :: nb :: post') fl)
    (hptr : ptr = firstBlock s + total pre' + pb.1) (hin : ptr ∈ fl)
    (hc : Complete s (pre' ++ pb :: (sz, false) :: nb :: post') fl)
    (hpa : pb.2 = false) (hna : nb.2 = false) :
    ∃ s' fl', coalesce s ptr = some (ptr - pb.1, s')
      ∧ Wf s' (pre' ++ (pb.1 + sz + nb.1, false) :: post') fl'
      ∧ Complete s' (pre' ++ (pb.1 + sz + nb.1, false) :: post') fl'
      ∧ s'.mem_brk = s.mem_brk ∧ s'.mem_max_addr = s.mem_max_addr
      ∧ s'.heap_start = s.heap_start
      ∧ ∀ a, (∀ p c, BlockAt (firstBlock s) (pre' ++ pb :: (sz, false) :: nb :: post') p c →
          c.2 = false → a < p - 4 ∨ p + c.1 - 4 ≤ a) → s'.mem a = s.mem a := by
  have hp : PrevIs (pre' ++ [pb]) pb := Or.inr ⟨pre', rfl⟩
  have hn : NextIs (nb :: post') nb := Or.inr ⟨post', rfl⟩
  have hbl0 : pre' ++ pb :: (sz, false) :: nb :: post'
      = (pre' ++ [pb]) ++ (sz, false) :: nb :: post' := by simp
  have hptr0 : ptr = firstBlock s + total (pre' ++ [pb]) := by
    rw [hptr, total_append]; simp only [total]; clear * -; omega
  have hh0 := hw.1
  rw [hbl0] at hh0
  have T := (tags_at hh0 hptr0 hp hn).1
  have b1 : 16 ≤ sz := T.1
  have b2 : sz % 8 = 0 := T.2.1
  have b4 : pb.1 % 8 = 0 := T.2.2.2.1
  have b5 : nb.1 % 8 = 0 := T.2.2.2.2.1
  have b6 : pb.1 + 8 ≤ ptr := T.2.2.2.2.2.1
  have b7 : s.heap_start + 16 ≤ ptr := T.2.2.2.2.2.2.1
  have b8 : ptr + sz + nb.1 ≤ s.mem_brk := T.2.2.2.2.2.2.2.1
  have b9 : s.mem_brk < WORD := T.2.2.2.2.2.2.2.2
  have M := macros_at hh0 hptr0 hp hn
  have m1 : GET_SIZE s.mem (HDRP ptr) = sz := M.1
  have m4 : NEXT_BLKP s.mem ptr = ptr + sz := M.2.2.2.1
  have m5 := M.2.2.2.2.1
  have m7 := M.2.2.2.2.2.2.1
  have m11 : GET_ALLOC s.mem (HDRP (ptr + sz)) = bit nb := M.2.2.2.2.2.2.2.2.2.2.1
  have hb1 : bit pb = 0 := by unfold bit; rw [hpa]; rfl
  have hb2 : bit nb = 0 := by unfold bit; rw [hna]; rfl
  have hpb : pb = (pb.1, false) := by rw [← hpa]
  have hnb : nb = (nb.1, false) := by rw [← hna]
  have hblk0 : BlockAt (firstBlock s) (pre' ++ pb :: (sz, false) :: nb :: post') ptr
      (sz, false) := ⟨pre' ++ [pb], nb :: post', by simp, hptr0⟩
  have hblk1 : BlockAt (firstBlock s) (pre' ++ pb :: (sz, false) :: nb :: post') (ptr - pb.1)
      (pb.1, false) :=
    ⟨pre', (sz, false) :: nb :: post', by rw [← hpb], by clear * - hptr; omega⟩
  have hblk2 : BlockAt (firstBlock s) (pre' ++ pb :: (sz, false) :: nb :: post') (ptr + sz)
      (nb.1, false) :=
    ⟨pre' ++ [pb, (sz, false)], post', by rw [← hnb]; simp, by
      rw [total_append, hptr]; simp only [total]; clear * -; omega⟩
  have hseg0 := hw.1.2.2.2.2.1
  have hpb16 : 16 ≤ pb.1 := (Seg_block hseg0 hblk1).1
  have hnb16 : 16 ≤ nb.1 := (Seg_block hseg0 hblk2).1
  -- first pop
  obtain ⟨s1, fl1, hs1, hw1, hm1, e11, e12, e13, hfb1, fr1⟩ := popNode_wf' hw hin
  have hh1 := hw1.1
  rw [hbl0] at hh1
  have k5 : PREV_BLKP s1.mem ptr = ptr - pb.1 :=
    (macros_at hh1 (hptr0.trans (by rw [hfb1])) hp hn).2.2.2.2.1
  -- second pop
  have hin1 : ptr - pb.1 ∈ fl1 := (hm1 _).2 ⟨hc _ _ hblk1, by clear * - hpb16 b6; omega⟩
  obtain ⟨s2, fl2, hs2, hw2, hm2, e21, e22, e23, hfb2', fr2⟩ := popNode_wf' hw1 hin1
  have hfb2 : firstBlock s2 = firstBlock s := hfb2'.trans hfb1
  have hh2 := hw2.1
  rw [hbl0] at hh2
  have j4 : NEXT_BLKP s2.mem ptr = ptr + sz :=
    (macros_at hh2 (hptr0.trans (by rw [hfb2])) hp hn).2.2.2.1
  -- third pop
  have hin2 : ptr + sz ∈ fl2 :=
    (hm2 _).2 ⟨(hm1 _).2 ⟨hc _ _ hblk2, by clear * - b1; omega⟩, by clear * - b1 b6; omega⟩
  obtain ⟨s3, fl3, hs3, hw3, hm3, e31, e32, e33, hfb3', fr3⟩ := popNode_wf' hw2 hin2
  have hfb3 : firstBlock s3 = firstBlock s := hfb3'.trans hfb2
  have hh3 := hw3.1
  rw [hbl0] at hh3
  have I := macros_at hh3 (hptr0.trans (by rw [hfb3])) hp hn
  have i4 : NEXT_BLKP s3.mem ptr = ptr + sz := I.2.2.2.1
  have i5 : PREV_BLKP s3.mem ptr = ptr - pb.1 := I.2.2.2.2.1
  have i6 : GET_SIZE s3.mem (HDRP (ptr - pb.1)) = pb.1 := I.2.2.2.2.2.1
  have i10 : GET_SIZE s3.mem (HDRP (ptr + sz)) = nb.1 := I.2.2.2.2.2.2.2.2.2.1
  have i12 : FTRP s3.mem (ptr + sz) = ptr + sz + nb.1 - 8 := I.2.2.2.2.2.2.2.2.2.2.2.1
  clear I M T
  have hlt : pb.1 + sz + nb.1 + 1 < WORD := by clear * - b8 b9 b6; omega
  have hsum : (sz + (pb.1 + nb.1) % WORD) % WORD = pb.1 + sz + nb.1 := by
    rw [Nat.mod_eq_of_lt (a := pb.1 + nb.1) (by clear * - hlt; omega),
      Nat.mod_eq_of_lt (by clear * - hlt; omega)]
    clear * -; omega
  have hprev : PREV_BLKP (PUT s3.mem (ptr + sz + nb.1 - 8) (PACK (pb.1 + sz + nb.1) 0)) ptr
      = ptr - pb.1 := by
    rw [PREV_BLKP_PUT _ _ _ _ (by clear * - b1; omega), i5]
  have hev := coalesce_rel_both s s1 s2 s3 _
    (setMem s3 (PUT (PUT s3.mem (ptr + sz + nb.1 - 8) (PACK (pb.1 + sz + nb.1) 0))
      (HDRP (ptr - pb.1)) (PACK (pb.1 + sz + nb.1) 0))) ptr (ptr - pb.1) (pb.1 + sz + nb.1)
    (by rw [m5, m7]; exact hb1) (by rw [m4, m11]; exact hb2) hs1 (by rw [k5]; exact hs2)
    (by rw [j4]; exact hs3) (by rw [m1, i4, i5, i6, i10, hsum]) rfl
    (by rw [setMem_mem, i4, i12]; exact hprev)
    (by rw [setMem_mem, i4, i12, setMem_setMem])
  rw [hev]
  -- the two tags and the push
  have hbl : pre' ++ [pb, (sz, false), nb] ++ post'
      = pre' ++ pb :: (sz, false) :: nb :: post' := by simp
  have hw3' : Wf s3 (pre' ++ [pb, (sz, false), nb] ++ post') fl3 := by rw [hbl]; exact hw3
  have ht : total [pb, (sz, false), nb] = pb.1 + sz + nb.1 := by
    simp only [total]; clear * -; omega
  have hP : ptr - pb.1 = firstBlock s3 + total pre' := by rw [hfb3]; clear * - hptr; omega
  have hout : ∀ p ∈ fl3, p < ptr - pb.1 ∨ ptr - pb.1 + total [pb, (sz, false), nb] ≤ p := by
    intro p hp3
    rw [ht]
    obtain ⟨hp2, hne3⟩ := (hm3 p).1 hp3
    obtain ⟨hp1, hne2⟩ := (hm2 p).1 hp2
    obtain ⟨hp0, hne1⟩ := (hm1 p).1 hp1
    obtain ⟨sp, hbp⟩ := hw.2.2.2 p hp0
    have d1 := blocks_apart hseg0 hbp hblk0
    have d2 := blocks_apart hseg0 hbp hblk1
    have d3 := blocks_apart hseg0 hbp hblk2
    clear * - d1 d2 d3 hne1 hne2 hne3 b6
    omega
  have hcomp : ∀ p sp, BlockAt (firstBlock s3) (pre' ++ [pb, (sz, false), nb] ++ post') p
      (sp, false) → p < ptr - pb.1 ∨ ptr - pb.1 + total [pb, (sz, false), nb] ≤ p →
      p ∈ fl3 := by
    intro p sp hbp hpos
    rw [ht] at hpos
    rw [hfb3, hbl] at hbp
    have n1 : p ≠ ptr := by clear * - hpos b1 b6 hpb16 hnb16; omega
    have n2 : p ≠ ptr - pb.1 := by clear * - hpos b1 b6 hpb16 hnb16; omega
    have n3 : p ≠ ptr + sz := by clear * - hpos b1 b6 hpb16 hnb16; omega
    exact (hm3 p).2 ⟨(hm2 p).2 ⟨(hm1 p).2 ⟨hc p sp hbp, n1⟩, n2⟩, n3⟩
  have hfa : ptr + sz + nb.1 - 8 = ptr - pb.1 + (pb.1 + sz + nb.1, false).1 - 8 := by
    show ptr + sz + nb.1 - 8 = ptr - pb.1 + (pb.1 + sz + nb.1) - 8
    clear * - b6; omega
  have hsegn : Seg (PUT (PUT s3.mem (ptr + sz + nb.1 - 8) (PACK (pb.1 + sz + nb.1) 0))
      (HDRP (ptr - pb.1)) (PACK (pb.1 + sz + nb.1) 0)) (ptr - pb.1)
      [(total [pb, (sz, false), nb], false)] := by
    rw [ht, PACK_zero, hfa]
    exact Seg_one_fh _ _ (pb.1 + sz + nb.1, false)
      (show 16 ≤ pb.1 + sz + nb.1 by clear * - b1; omega)
      (show (pb.1 + sz + nb.1) % 8 = 0 by clear * - b2 b4 b5; omega) hlt
      (by clear * - b6; omega)
  have hfrn : ∀ a, a < ptr - pb.1 - 4 ∨ ptr - pb.1 + total [pb, (sz, false), nb] - 4 ≤ a →
      (PUT (PUT s3.mem (ptr + sz + nb.1 - 8) (PACK (pb.1 + sz + nb.1) 0))
        (HDRP (ptr - pb.1)) (PACK (pb.1 + sz + nb.1) 0)) a = s3.mem a := by
    intro a ha
    rw [ht] at ha
    exact PUT2_frame _ _ _ _ _ _ (by clear * - ha b1 b6 hpb16 hnb16; omega)
      (by unfold HDRP WSIZE; clear * - ha b1 b6 hpb16; omega)
  obtain ⟨s', fl', hpush, hw', hc', e41, e42, e43, fr4⟩ := merge_spec hw3' hP hout hcomp _ hsegn
    hfrn (pb.1 + sz + nb.1)
  rw [ht] at hw' hc' fr4
  rw [hpush]
  refine ⟨s', fl', rfl, hw', hc', by rw [e41, e31, e21, e11], by rw [e42, e32, e22, e12],
    by rw [e43, e33, e23, e13], ?_⟩
  intro a ha
  have hlink := links_of_extents hseg0 ha
  have h0 : a < ptr - 4 ∨ ptr + sz - 4 ≤ a := ha _ _ hblk0 rfl
  have h1 : a < ptr - pb.1 - 4 ∨ ptr - pb.1 + pb.1 - 4 ≤ a := ha _ (pb.1, false) hblk1 rfl
  have h2 : a < ptr + sz - 4 ∨ ptr + sz + nb.1 - 4 ≤ a := ha _ (nb.1, false) hblk2 rfl
  have h3 : a < ptr - pb.1 - 4 ∨ ptr - pb.1 + (pb.1 + sz + nb.1) - 4 ≤ a := by
    clear * - h0 h1 h2 b1 hpb16 hnb16 b6; omega
  rw [fr4 a h3 (by rw [hfb3, hbl]; exact hlink), fr3 a (by rw [hfb2]; exact hlink),
    fr2 a (by rw [hfb1]; exact hlink), fr1 a hlink]

end MM

namespace MM

/-- The function `coalesce` of a free block that is in the index: the block is merged with
its free neighbours, and only bytes of free blocks change. -/
theorem coalesce_spec {s : State} {pre post : List Blk} {sz : Nat} {fl : List Nat}
    {ptr : Nat} {pb nb : Blk}
    (hw : Wf s (pre ++ (sz, false) :: post) fl)
    (hptr : ptr = firstBlock s + total pre) (hin : ptr ∈ fl)
    (hc : Complete s (pre ++ (sz, false) :: post) fl)
    (hp : PrevIs pre pb) (hn : NextIs post nb) :
    ∃ s' fl' pre' post', coalesce s ptr = some (firstBlock s + total pre', s')
      ∧ Wf s' (pre' ++ ((if pb.2 then 0 else pb.1) + sz + (if nb.2 then 0 else nb.1), false)
          :: post') fl'
      ∧ Complete s' (pre' ++ ((if pb.2 then 0 else pb.1) + sz + (if nb.2 then 0 else nb.1), false)
          :: post') fl'
      ∧ pre = pre' ++ (if pb.2 then [] else [pb])
      ∧ post = (if nb.2 then [] else [nb]) ++ post'
      ∧ s'.mem_brk = s.mem_brk ∧ s'.mem_max_addr = s.mem_max_addr
      ∧ s'.heap_start = s.heap_start
      ∧ ∀ a, (∀ p c, BlockAt (firstBlock s) (pre ++ (sz, false) :: post) p c →
          c.2 = false → a < p - 4 ∨ p + c.1 - 4 ≤ a) → s'.mem a = s.mem a := by
  cases hpa : pb.2 <;> cases hna : nb.2
  · -- both neighbours free
    obtain ⟨pre', rfl⟩ : ∃ pre', pre = pre' ++ [pb] := by
      rcases hp with ⟨-, h⟩ | h
      · rw [h] at hpa; exact absurd hpa (by simp)
      · exact h
    obtain ⟨post', rfl⟩ : ∃ post', post = nb :: post' := by
      rcases hn with ⟨-, h⟩ | h
      · rw [h] at hna; exact absurd hna (by simp)
      · exact h
    have e : pre' ++ [pb] ++ (sz, false) :: nb :: post'
        = pre' ++ pb :: (sz, false) :: nb :: post' := by simp
    rw [e] at hw hc
    have hptr' : ptr = firstBlock s + total pre' + pb.1 := by
      rw [hptr, total_append]; simp only [total]; clear * -; omega
    obtain ⟨s', fl', h1, h2, h3, h4, h5, h6, h7⟩ := coalesce_both_free hw hptr' hin hc hpa hna
    refine ⟨s', fl', pre', post', ?_, by simpa using h2, by simpa using h3, by simp, by simp,
      h4, h5, h6, ?_⟩
    · rw [h1, hptr']; congr 2; clear * -; omega
    · rw [e]; exact h7
  · -- the block before is free
    obtain ⟨pre', rfl⟩ : ∃ pre', pre = pre' ++ [pb] := by
      rcases hp with ⟨-, h⟩ | h
      · rw [h] at hpa; exact absurd hpa (by simp)
      · exact h
    have e : pre' ++ [pb] ++ (sz, false) :: post = pre' ++ pb :: (sz, false) :: post := by simp
    rw [e] at hw hc
    have hptr' : ptr = firstBlock s + total pre' + pb.1 := by
      rw [hptr, total_append]; simp only [total]; clear * -; omega
    obtain ⟨s', fl', h1, h2, h3, h4, h5, h6, h7⟩ := coalesce_prev_free hw hptr' hin hc hn hpa hna
    refine ⟨s', fl', pre', post, ?_, by simpa using h2, by simpa using h3, by simp, by simp,
      h4, h5, h6, ?_⟩
    · rw [h1, hptr']; congr 2; clear * -; omega
    · rw [e]; exact h7
  · -- the block after is free
    obtain ⟨post', rfl⟩ : ∃ post', post = nb :: post' := by
      rcases hn with ⟨-, h⟩ | h
      · rw [h] at hna; exact absurd hna (by simp)
      · exact h
    obtain ⟨s', fl', h1, h2, h3, h4, h5, h6, h7⟩ := coalesce_next_free hw hptr hin hc hp hpa hna
    refine ⟨s', fl', pre, post', ?_, by simpa using h2, by simpa using h3, by simp, by simp,
      h4, h5, h6, h7⟩
    rw [h1, hptr]
  · -- no free neighbour
    have M := macros_at hw.1 hptr hp hn
    have m4 : NEXT_BLKP s.mem ptr = ptr + sz := M.2.2.2.1
    have m5 := M.2.2.2.2.1
    have m7 := M.2.2.2.2.2.2.1
    have m11 : GET_ALLOC s.mem (HDRP (ptr + sz)) = bit nb := M.2.2.2.2.2.2.2.2.2.2.1
    have hev := coalesce_rel_none s ptr (by rw [m5, m7]; exact (bit_ne_zero pb).2 hpa)
      (by rw [m4, m11]; exact (bit_ne_zero nb).2 hna)
    refine ⟨s, fl, pre, post, by rw [hev, hptr], by simpa using hw, by simpa using hc, by simp,
      by simp, rfl, rfl, rfl, fun a _ => rfl⟩

theorem Coalesced_append_cons (l1 l2 : List Blk) (x : Blk) :
    Coalesced (l1 ++ x :: l2) ↔
      Coalesced l1 ∧ Coalesced l2 ∧ (∀ y ∈ l1.getLast?, y.2 = true ∨ x.2 = true)
        ∧ (∀ y ∈ l2.head?, x.2 = true ∨ y.2 = true) := by
  unfold Coalesced
  rw [List.chain'_append, List.chain'_cons']
  simp only [List.head?_cons, Option.mem_def, Option.some.injEq, forall_eq']
  tauto

/-- Merging a freed block with its free neighbours leaves no two neighbouring
free blocks, if there were none while the block was allocated. -/
theorem Coalesced_merge {pre post pre' post' : List Blk} {sz S : Nat} {pb nb : Blk}
    (h : Coalesced (pre ++ (sz, true) :: post)) (hp : PrevIs pre pb) (hn : NextIs post nb)
    (e1 : pre = pre' ++ (if pb.2 then [] else [pb]))
    (e2 : post = (if nb.2 then [] else [nb]) ++ post') :
    Coalesced (pre' ++ (S, false) :: post') := by
  rw [Coalesced_append_cons] at h ⊢
  obtain ⟨h1, h2, -, -⟩ := h
  have A : Coalesced pre' ∧ ∀ y ∈ pre'.getLast?, y.2 = true := by
    cases hpa : pb.2
    · rw [hpa] at e1
      simp only [Bool.false_eq_true, if_false] at e1
      rw [e1] at h1
      have := (Coalesced_append_cons pre' [] pb).1 h1
      refine ⟨this.1, fun y hy => ?_⟩
      rcases this.2.2.1 y hy with h | h
      · exact h
      · rw [hpa] at h; exact absurd h (by simp)
    · rw [hpa] at e1
      simp only [if_true, List.append_nil] at e1
      subst e1
      refine ⟨h1, fun y hy => ?_⟩
      rcases hp with ⟨h, -⟩ | ⟨l, h⟩
      · rw [h] at hy; simp at hy
      · rw [h] at hy
        simp at hy
        rw [← hy]; exact hpa
  have B : Coalesced post' ∧ ∀ y ∈ post'.head?, y.2 = true := by
    cases hna : nb.2
    · rw [hna] at e2
      simp only [Bool.false_eq_true, if_false] at e2
      rw [e2] at h2
      have := (Coalesced_append_cons [] post' nb).1 h2
      refine ⟨this.2.1, fun y hy => ?_⟩
      rcases this.2.2.2 y hy with h | h
      · rw [hna] at h; exact absurd h (by simp)
      · exact h
    · rw [hna] at e2
      simp only [if_true, List.nil_append] at e2
      subst e2
      refine ⟨h2, fun y hy => ?_⟩
      rcases hn with ⟨h, -⟩ | ⟨l, h⟩
      · rw [h] at hy; simp at hy
      · rw [h] at hy
        simp at hy
        rw [← hy]; exact hna
  exact ⟨A.1, B.1, fun y hy => Or.inl (A.2 y hy), fun y hy => Or.inr (B.2 y hy)⟩

/-- Replacing a run of free blocks by one free block of the same extent keeps
the allocated blocks where they are. -/
theorem alloc_blocks_run (bp : Nat) (pre mid mid' post : List Blk)
    (h1 : ∀ b ∈ mid, b.2 = false) (h2 : ∀ b ∈ mid', b.2 = false) (ht : total mid' = total mid)
    (p sz : Nat) :
    BlockAt bp (pre ++ mid' ++ post) p (sz, true) ↔ BlockAt bp (pre ++ mid ++ post) p (sz, true) := by
  have no : ∀ (q : Nat) (l : List Blk), (∀ b ∈ l, b.2 = false) → ¬ BlockAt q l p (sz, true) := by
    rintro q l hl ⟨a, b, rfl, -⟩
    have := hl (sz, true) (by simp)
    exact absurd this (by simp)
  rw [BlockAt_append, BlockAt_append, BlockAt_append, BlockAt_append, total_append,
    total_append, ht]
  constructor
  · rintro ((h | h) | h)
    · exact Or.inl (Or.inl h)
    · exact absurd h (no _ _ h2)
    · exact Or.inr h
  · rintro ((h | h) | h)
    · exact Or.inl (Or.inl h)
    · exact absurd h (no _ _ h1)
    · exact Or.inr h

end MM

namespace MM

theorem place_rel_whole (s s1 s2 s3 : State) (ptr size nodeSize : Nat)
    (e0 : GET_SIZE s.mem (HDRP ptr) = nodeSize)
    (hle : (nodeSize + WORD - size) % WORD ≤ DSIZE * 2)
    (e1 : popNode s ptr = s1)
    (e2 : setMem s1 (PUT s1.mem (HDRP ptr) (PACK nodeSize 1)) = s2)
    (e3 : setMem s2 (PUT s2.mem (FTRP s2.mem ptr) (PACK nodeSize 1)) = s3) :
    place s ptr size = some (ptr, s3) := by
  subst e0 e1 e2 e3
  unfold place
  rw [if_pos hle]

theorem place_rel_split (s s1 s2 s3 s4 s5 : State) (ptr size nodeSize newSize q : Nat)
    (e0 : GET_SIZE s.mem (HDRP ptr) = nodeSize)
    (en : (nodeSize + WORD - size) % WORD = newSize)
    (hgt : ¬ newSize ≤ DSIZE * 2)
    (e1 : popNode s ptr = s1)
    (e2 : setMem s1 (PUT s1.mem (HDRP ptr) (PACK size 1)) = s2)
    (e3 : setMem s2 (PUT s2.mem (FTRP s2.mem ptr) (PACK size 1)) = s3)
    (e4 : setMem s3 (PUT s3.mem (HDRP (NEXT_BLKP s3.mem ptr)) (PACK newSize 0)) = s4)
    (e5 : setMem s4 (PUT s4.mem (FTRP s4.mem (NEXT_BLKP s4.mem ptr)) (PACK newSize 0)) = s5)
    (e6 : NEXT_BLKP s5.mem ptr = q) :
    place s ptr size = (pushNode s5 q newSize).map fun s => (ptr, s) := by
  subst e0 en e1 e2 e3 e4 e5 e6
  unfold place
  rw [if_neg hgt]

theorem NEXT_BLKP_of_tag (m : Mem) (ptr : Nat) (b : Blk) (h : GET m (ptr - 4) = tagOf b)
    (h8 : b.1 % 8 = 0) : NEXT_BLKP m ptr = ptr + b.1 := by
  unfold NEXT_BLKP WSIZE
  rw [GET_SIZE_tag _ _ b h h8]

theorem FTRP_of_tag (m : Mem) (ptr : Nat) (b : Blk) (h : GET m (ptr - 4) = tagOf b)
    (h8 : b.1 % 8 = 0) : FTRP m ptr = ptr + b.1 - 8 := by
  unfold FTRP DSIZE HDRP WSIZE
  rw [GET_SIZE_tag _ _ b h h8]

/-- The four tag writes of a split. -/
theorem split_writes (m : Mem) (P : Nat) (b1 b2 : Blk) (h1 : 16 ≤ b1.1) (h2 : 16 ≤ b2.1)
    (g1 : b1.1 % 8 = 0) (g2 : b2.1 % 8 = 0) (hw : b1.1 + b2.1 + 1 < WORD) (hP : 4 ≤ P) :
    let m1 := PUT m (HDRP P) (tagOf b1)
    let m2 := PUT m1 (FTRP m1 P) (tagOf b1)
    let m3 := PUT m2 (HDRP (NEXT_BLKP m2 P)) (tagOf b2)
    let m4 := PUT m3 (FTRP m3 (NEXT_BLKP m3 P)) (tagOf b2)
    Seg m4 P [b1, b2] ∧ NEXT_BLKP m4 P = P + b1.1
      ∧ ∀ a, a < P - 4 ∨ P + (b1.1 + b2.1) - 4 ≤ a → m4 a = m a := by
  intro m1 m2 m3 m4
  have t1 : tagOf b1 < WORD := tagOf_lt b1 (by omega)
  have t2 : tagOf b2 < WORD := tagOf_lt b2 (by omega)
  have a1 : FTRP m1 P = P + b1.1 - 8 :=
    FTRP_of_tag _ _ b1 (GET_PUT_same _ _ _ t1) g1
  have r2 : GET m2 (P - 4) = tagOf b1 := by
    show GET (PUT m1 (FTRP m1 P) (tagOf b1)) (P - 4) = _
    rw [a1, GET_PUT_other _ _ _ _ (by omega)]
    exact GET_PUT_same _ _ _ t1
  have a2 : NEXT_BLKP m2 P = P + b1.1 := NEXT_BLKP_of_tag _ _ b1 r2 g1
  have r3 : GET m3 (P - 4) = tagOf b1 := by
    show GET (PUT m2 (HDRP (NEXT_BLKP m2 P)) (tagOf b2)) (P - 4) = _
    rw [a2, GET_PUT_other _ _ _ _ (by unfold HDRP WSIZE; omega)]
    exact r2
  have a3 : NEXT_BLKP m3 P = P + b1.1 := NEXT_BLKP_of_tag _ _ b1 r3 g1
  have q3 : GET m3 (P + b1.1 - 4) = tagOf b2 := by
    show GET (PUT m2 (HDRP (NEXT_BLKP m2 P)) (tagOf b2)) (P + b1.1 - 4) = _
    rw [a2]
    exact GET_PUT_same _ _ _ t2
  have a4 : FTRP m3 (P + b1.1) = P + b1.1 + b2.1 - 8 :=
    FTRP_of_tag _ _ b2 q3 g2
  have e4 : m4 = PUT m3 (P + b1.1 + b2.1 - 8) (tagOf b2) := by
    show PUT m3 (FTRP m3 (NEXT_BLKP m3 P)) (tagOf b2) = _
    rw [a3, a4]
  have e3 : m3 = PUT m2 (P + b1.1 - 4) (tagOf b2) := by
    show PUT m2 (HDRP (NEXT_BLKP m2 P)) (tagOf b2) = _
    rw [a2]; rfl
  have e2 : m2 = PUT m1 (P + b1.1 - 8) (tagOf b1) := by
    show PUT m1 (FTRP m1 P) (tagOf b1) = _
    rw [a1]
  have r4 : GET m4 (P - 4) = tagOf b1 := by
    rw [e4, GET_PUT_other _ _ _ _ (by omega)]; exact r3
  refine ⟨⟨h1, g1, r4, ?_, h2, g2, ?_, ?_, trivial⟩, NEXT_BLKP_of_tag _ _ b1 r4 g1, ?_⟩
  · rw [e4, GET_PUT_other _ _ _ _ (by omega), e3, GET_PUT_other _ _ _ _ (by omega), e2]
    exact GET_PUT_same _ _ _ t1
  · have : P + b1.1 - 4 = P + b1.1 - 4 := rfl
    rw [e4, GET_PUT_other _ _ _ _ (by omega)]
    exact q3
  · rw [e4]
    exact GET_PUT_same _ _ _ t2
  · intro a ha
    rw [e4, PUT_frame _ _ _ _ (by omega), e3, PUT_frame _ _ _ _ (by omega), e2,
      PUT_frame _ _ _ _ (by omega)]
    exact PUT_frame _ _ _ _ (by unfold HDRP WSIZE; omega)

/-- The two tag writes that mark a whole block. -/
theorem whole_writes (m : Mem) (P : Nat) (b : Blk) (h1 : 16 ≤ b.1) (g1 : b.1 % 8 = 0)
    (hw : b.1 + 1 < WORD) (hP : 4 ≤ P) :
    let m1 := PUT m (HDRP P) (tagOf b)
    let m2 := PUT m1 (FTRP m1 P) (tagOf b)
    Seg m2 P [b] ∧ (∀ a, a < P - 4 ∨ P + b.1 - 4 ≤ a → m2 a = m a)
      ∧ ∀ a, a < P - 4 ∨ P ≤ a → a < P + b.1 - 8 ∨ P + b.1 - 4 ≤ a → m2 a = m a := by
  intro m1 m2
  have t1 : tagOf b < WORD := tagOf_lt b hw
  have a1 : FTRP m1 P = P + b.1 - 8 := FTRP_of_tag _ _ b (GET_PUT_same _ _ _ t1) g1
  have e2 : m2 = PUT (PUT m (P - 4) (tagOf b)) (P + b.1 - 8) (tagOf b) := by
    show PUT m1 (FTRP m1 P) (tagOf b) = _
    rw [a1]; rfl
  rw [e2]
  exact ⟨Seg_one_hf _ _ b h1 g1 hw hP, fun a ha => PUT2_frame _ _ _ _ _ _ (by omega) (by omega),
    fun a ha hb => PUT2_frame _ _ _ _ _ _ (by omega) (by omega)⟩

end MM

namespace MM

/-- The free blocks of a layout outside a run, seen in the layout with the run
replaced. -/
theorem BlockAt_swap_run {bp : Nat} {pre mid mid' post : List Blk} {p : Nat} {c : Blk}
    (ht : total mid' = total mid) (h : BlockAt bp (pre ++ mid' ++ post) p c)
    (hn : ¬ BlockAt (bp + total pre) mid' p c) : BlockAt bp (pre ++ mid ++ post) p c := by
  rw [BlockAt_append, BlockAt_append, total_append] at h ⊢
  rw [ht] at h
  rcases h with (h | h) | h
  · exact Or.inl (Or.inl h)
  · exact absurd h hn
  · exact Or.inr h

/-- The function `place` on a free block of the index that is large enough: the block is
taken whole, or split into an allocated block and a free remainder that goes
back into the index. -/
theorem place_spec {s : State} {pre post : List Blk} {S : Nat} {fl : List Nat} {ptr : Nat}
    (hw : Wf s (pre ++ (S, false) :: post) fl)
    (hptr : ptr = firstBlock s + total pre) (hin : ptr ∈ fl)
    (hc : Complete s (pre ++ (S, false) :: post) fl)
    (size : Nat) (h16 : 16 ≤ size) (h8 : size % 8 = 0) (hle : size ≤ S) :
    ∃ s' fl' mid', place s ptr size = some (ptr, s')
      ∧ ((mid' = [(S, true)] ∧ S - size ≤ 16)
          ∨ (mid' = [(size, true), (S - size, false)] ∧ 16 < S - size))
      ∧ Wf s' (pre ++ mid' ++ post) fl'
      ∧ Complete s' (pre ++ mid' ++ post) fl'
      ∧ s'.mem_brk = s.mem_brk ∧ s'.mem_max_addr = s.mem_max_addr
      ∧ s'.heap_start = s.heap_start
      ∧ ∀ a, (∀ p c, BlockAt (firstBlock s) (pre ++ (S, false) :: post) p c →
          c.2 = false → a < p - 4 ∨ p + c.1 - 4 ≤ a) → s'.mem a = s.mem a := by
  obtain ⟨pb, hp⟩ := exists_PrevIs pre
  obtain ⟨nb, hn⟩ := exists_NextIs post
  have T := (tags_at hw.1 hptr hp hn).1
  have b1 : 16 ≤ S := T.1
  have b2 : S % 8 = 0 := T.2.1
  have b7 : s.heap_start + 16 ≤ ptr := T.2.2.2.2.2.2.1
  have b8 : ptr + S + nb.1 ≤ s.mem_brk := T.2.2.2.2.2.2.2.1
  have b9 : s.mem_brk < WORD := T.2.2.2.2.2.2.2.2
  have m1 : GET_SIZE s.mem (HDRP ptr) = S := (macros_at hw.1 hptr hp hn).1
  clear T
  have hseg0 := hw.1.2.2.2.2.1
  have hblk0 : BlockAt (firstBlock s) (pre ++ (S, false) :: post) ptr (S, false) :=
    ⟨pre, post, rfl, hptr⟩
  have hSW : S + 1 < WORD := by clear * - b8 b9 b7; omega
  have hns : (S + WORD - size) % WORD = S - size := by
    have e : S + WORD - size = (S - size) + WORD := by clear * - hle; omega
    rw [e, Nat.add_mod_right, Nat.mod_eq_of_lt (by clear * - hSW; omega)]
  obtain ⟨s1, fl1, hs1, hw1, hm1, e11, e12, e13, hfb1, fr1⟩ := popNode_wf' hw hin
  have hbl : pre ++ [(S, false)] ++ post = pre ++ (S, false) :: post := by simp
  have hw1' : Wf s1 (pre ++ [(S, false)] ++ post) fl1 := by rw [hbl]; exact hw1
  have ht1 : total [(S, false)] = S := by simp [total]
  have hout : ∀ p ∈ fl1, p < ptr ∨ ptr + S ≤ p := by
    intro p hp1
    obtain ⟨hp0, hne1⟩ := (hm1 p).1 hp1
    obtain ⟨sp, hbp⟩ := hw.2.2.2 p hp0
    have d1 := blocks_apart hseg0 hbp hblk0
    clear * - d1 hne1
    omega
  -- a free block of the old layout away from `ptr` is in the index
  have hold : ∀ p sp, BlockAt (firstBlock s) (pre ++ (S, false) :: post) p (sp, false) →
      p ≠ ptr → p ∈ fl1 := fun p sp hbp hne => (hm1 p).2 ⟨hc p sp hbp, hne⟩
  have hfinal : ∀ (s' : State) (a : Nat), (∀ p c, BlockAt (firstBlock s)
      (pre ++ (S, false) :: post) p c → c.2 = false → a < p - 4 ∨ p + c.1 - 4 ≤ a) →
      (a < ptr - 4 ∨ ptr + S - 4 ≤ a) ∧
      (∀ p sz, BlockAt (firstBlock s) (pre ++ (S, false) :: post) p (sz, false) →
        a < p ∨ p + 8 ≤ a) := fun s' a ha =>
    ⟨ha _ _ hblk0 rfl, links_of_extents hseg0 ha⟩
  by_cases hcase : S - size ≤ 16
  · -- the whole block
    obtain ⟨W1, W2, -⟩ := whole_writes s1.mem ptr (S, true) b1 b2 hSW (by clear * - b7; omega)
    have hev := place_rel_whole s s1 _
      (setMem s1 (PUT (PUT s1.mem (HDRP ptr) (tagOf (S, true)))
        (FTRP (PUT s1.mem (HDRP ptr) (tagOf (S, true))) ptr) (tagOf (S, true))))
      ptr size S m1 (by rw [hns]; exact hcase) hs1 rfl
      (by rw [setMem_mem, PACK_one S b2, setMem_setMem])
    have hre := Wf_retag hw1' _ [(S, true)] (by simp [total])
      (by rw [hfb1, ← hptr]; exact W1)
      (by
        intro a ha
        rw [hfb1, ← hptr, ht1] at ha
        exact W2 a ha)
      (by
        intro p hp1
        rw [hfb1, ← hptr, ht1]
        exact hout p hp1)
    refine ⟨_, fl1, [(S, true)], hev, Or.inl ⟨rfl, hcase⟩, hre, ?_, e11, e12, e13, ?_⟩
    · intro p sp hbp
      rw [firstBlock_setMem, hfb1] at hbp
      have hno : ¬ BlockAt (firstBlock s + total pre) [(S, true)] p (sp, false) := by
        rintro ⟨a, b, hab, -⟩
        have : (sp, false) ∈ [(S, true)] := by rw [hab]; simp
        simp at this
      have hb' := @BlockAt_swap_run _ _ [(S, false)] _ _ _ _ (by simp [total]) hbp hno
      rw [hbl] at hb'
      refine hold p sp hb' ?_
      intro hpe
      have hbn : BlockAt (firstBlock s) (pre ++ [(S, true)] ++ post) ptr (S, true) :=
        ⟨pre, post, by simp, hptr⟩
      rw [hpe] at hbp
      have := BlockAt_unique (by
        have := hre.1.2.2.2.2.1
        rw [firstBlock_setMem, hfb1] at this
        exact this) hbp hbn
      simp at this
    · intro a ha
      obtain ⟨h1, h2⟩ := hfinal s a ha
      show (PUT _ _ _) a = s.mem a
      rw [W2 a h1, fr1 a h2]
  · -- the split
    have hn16 : 16 ≤ S - size := by clear * - hcase; omega
    have hn8 : (S - size) % 8 = 0 := by clear * - b2 h8 hle; omega
    obtain ⟨W1, W3, W2⟩ := split_writes s1.mem ptr (size, true) (S - size, false) h16 hn16 h8
      hn8 (by show size + (S - size) + 1 < WORD; clear * - hSW hle; omega)
      (by clear * - b7; omega)
    obtain ⟨m4, hm4⟩ : ∃ m4 : Mem, m4 =
        PUT (PUT (PUT (PUT s1.mem (HDRP ptr) (tagOf (size, true)))
          (FTRP (PUT s1.mem (HDRP ptr) (tagOf (size, true))) ptr) (tagOf (size, true)))
          (HDRP (NEXT_BLKP (PUT (PUT s1.mem (HDRP ptr) (tagOf (size, true)))
            (FTRP (PUT s1.mem (HDRP ptr) (tagOf (size, true))) ptr) (tagOf (size, true))) ptr))
          (tagOf (S - size, false)))
          (FTRP (PUT (PUT (PUT s1.mem (HDRP ptr) (tagOf (size, true)))
            (FTRP (PUT s1.mem (HDRP ptr) (tagOf (size, true))) ptr) (tagOf (size, true)))
            (HDRP (NEXT_BLKP (PUT (PUT s1.mem (HDRP ptr) (tagOf (size, true)))
              (FTRP (PUT s1.mem (HDRP ptr) (tagOf (size, true))) ptr) (tagOf (size, true))) ptr))
            (tagOf (S - size, false)))
            (NEXT_BLKP (PUT (PUT (PUT s1.mem (HDRP ptr) (tagOf (size, true)))
              (FTRP (PUT s1.mem (HDRP ptr) (tagOf (size, true))) ptr) (tagOf (size, true)))
              (HDRP (NEXT_BLKP (PUT (PUT s1.mem (HDRP ptr) (tagOf (size, true)))
                (FTRP (PUT s1.mem (HDRP ptr) (tagOf (size, true))) ptr) (tagOf (size, true)))
                ptr)) (tagOf (S - size, false))) ptr)) (tagOf (S - size, false)) := ⟨_, rfl⟩
    rw [← hm4] at W1 W2 W3
    have W3' : NEXT_BLKP m4 ptr = ptr + size := W3
    have W2' : ∀ a, a < ptr - 4 ∨ ptr + S - 4 ≤ a → m4 a = s1.mem a := by
      intro a ha
      refine W2 a ?_
      show a < ptr - 4 ∨ ptr + (size + (S - size)) - 4 ≤ a
      clear * - ha hle; omega
    have hev := place_rel_split s s1 _ _ _ (setMem s1 m4) ptr size S (S - size) (ptr + size)
      m1 hns (by clear * - hcase; unfold DSIZE; omega) hs1 rfl rfl rfl
      (by rw [hm4]; simp only [setMem_mem, setMem_setMem, PACK_one size h8, PACK_zero])
      W3'
    rw [hev]
    have hre := Wf_retag hw1' m4 [(size, true), (S - size, false)]
      (by simp only [total]; clear * - hle; omega)
      (by rw [hfb1, ← hptr]; exact W1)
      (by
        intro a ha
        rw [hfb1, ← hptr, ht1] at ha
        exact W2' a ha)
      (by
        intro p hp1
        rw [hfb1, ← hptr, ht1]
        exact hout p hp1)
    have hbl2 : pre ++ [(size, true), (S - size, false)] ++ post
        = (pre ++ [(size, true)]) ++ [(S - size, false)] ++ post := by simp
    have hbl3 : (pre ++ [(size, true)]) ++ (S - size, false) :: post
        = pre ++ [(size, true), (S - size, false)] ++ post := by simp
    have ht2 : total [(S - size, false)] = S - size := by simp [total]
    rw [hbl2] at hre
    have hP2 : ptr + size = firstBlock (setMem s1 m4) + total (pre ++ [(size, true)]) := by
      rw [firstBlock_setMem, hfb1, total_append, hptr]; simp only [total]; clear * -; omega
    have hseg2 : Seg m4 (ptr + size) [(total [(S - size, false)], false)] := by
      rw [ht2]
      exact W1.2.2.2.2
    obtain ⟨s', fl', hpush, hw', hc', e31, e32, e33, fr3⟩ := merge_spec hre hP2
      (by
        intro p hp1
        rw [ht2]
        have := hout p hp1
        clear * - this hle; omega)
      (by
        intro p sp hbp hpos
        rw [ht2] at hpos
        rw [firstBlock_setMem, hfb1, ← hbl2] at hbp
        have hno : ¬ BlockAt (firstBlock s + total pre) [(size, true), (S - size, false)] p
            (sp, false) := by
          intro h
          rw [BlockAt_cons, BlockAt_cons] at h
          rcases h with ⟨-, h⟩ | ⟨h, -⟩ | h
          · simp at h
          · rw [← hptr] at h
            change p = ptr + size at h
            clear * - h hpos hn16; omega
          · exact BlockAt_nil _ _ _ h
        have hb' := @BlockAt_swap_run _ _ [(S, false)] _ _ _ _
          (by simp only [total]; clear * - hle; omega) hbp hno
        rw [hbl] at hb'
        refine hold p sp hb' ?_
        intro hpe
        have hbn : BlockAt (firstBlock s) (pre ++ [(size, true), (S - size, false)] ++ post) ptr
            (size, true) := ⟨pre, (S - size, false) :: post, by simp, hptr⟩
        rw [hpe] at hbp
        have := BlockAt_unique (by
          have := hre.1.2.2.2.2.1
          rw [firstBlock_setMem, hfb1, ← hbl2] at this
          exact this) hbp hbn
        simp at this)
      m4 hseg2 (fun a _ => rfl) (S - size)
    rw [setMem_setMem] at hpush
    have hm4' : setMem s1 m4 = setMem s1 m4 := rfl
    rw [hpush]
    rw [ht2, hbl3] at hw' hc'
    refine ⟨s', fl', [(size, true), (S - size, false)], rfl,
      Or.inr ⟨rfl, by clear * - hcase; omega⟩, hw', hc', by rw [e31]; exact e11,
      by rw [e32]; exact e12, by rw [e33]; exact e13, ?_⟩
    intro a ha
    obtain ⟨h1, h2⟩ := hfinal s a ha
    have h3 : a < ptr + size - 4 ∨ ptr + size + total [(S - size, false)] - 4 ≤ a := by
      rw [ht2]; clear * - h1 hle; omega
    have h4 : ∀ p sz, BlockAt (firstBlock (setMem s1 m4))
        (pre ++ [(size, true)] ++ [(S - size, false)] ++ post) p (sz, false) →
        a < p ∨ p + 8 ≤ a := by
      intro p sp hbp
      rw [firstBlock_setMem, hfb1, ← hbl2] at hbp
      by_cases hmid : BlockAt (firstBlock s + total pre) [(size, true), (S - size, false)] p
          (sp, false)
      · have k := BlockAt_bounds hmid
        have k1 : firstBlock s + total pre ≤ p := k.1
        have k2 : p + sp ≤ firstBlock s + total pre + total [(size, true), (S - size, false)] :=
          k.2
        simp only [total] at k2
        have k16 : 16 ≤ sp := (Seg_block (by rw [← hptr]; exact W1) hmid).1
        clear * - k1 k2 h1 hptr hle k16; omega
      · have hb' := @BlockAt_swap_run _ _ [(S, false)] _ _ _ _
          (by simp only [total]; clear * - hle; omega) hbp hmid
        rw [hbl] at hb'
        exact h2 p sp hb'
    rw [fr3 a h3 h4]
    show m4 a = s.mem a
    rw [W2' a h1, fr1 a h2]

end MM

namespace MM

theorem extend_heap_fail (s : State) (size : Nat)
    (h : s.mem_brk + ALIGN size > s.mem_max_addr) : extend_heap s size = some (0, s) := by
  unfold extend_heap mem_sbrk
  dsimp only
  rw [if_pos h]

theorem extend_heap_rel (s sb s1 s2 s3 s4 : State) (size : Nat)
    (h : ¬ s.mem_brk + ALIGN size > s.mem_max_addr)
    (eb : { s with mem_brk := s.mem_brk + ALIGN size } = sb)
    (e1 : setMem sb (PUT sb.mem (HDRP s.mem_brk) (PACK (ALIGN size) 0)) = s1)
    (e2 : setMem s1 (PUT s1.mem (FTRP s1.mem s.mem_brk) (PACK (ALIGN size) 0)) = s2)
    (e3 : setMem s2 (PUT s2.mem (HDRP (NEXT_BLKP s2.mem s.mem_brk)) (PACK 0 1)) = s3)
    (e4 : pushNode s3 s.mem_brk (ALIGN size) = some s4) :
    extend_heap s size = coalesce s4 s.mem_brk := by
  subst eb e1 e2 e3
  unfold extend_heap mem_sbrk
  dsimp only
  rw [if_neg h]
  dsimp only
  dsimp only at e4
  rw [e4]

/-- The three tag writes of `extend_heap`. -/
theorem extend_writes (m : Mem) (P sz : Nat) (h1 : 16 ≤ sz) (g1 : sz % 8 = 0)
    (hw : sz + 1 < WORD) (hP : 4 ≤ P) :
    let m1 := PUT m (HDRP P) (PACK sz 0)
    let m2 := PUT m1 (FTRP m1 P) (PACK sz 0)
    let m3 := PUT m2 (HDRP (NEXT_BLKP m2 P)) (PACK 0 1)
    Seg m3 P [(sz, false)] ∧ GET m3 (P + sz - 4) = 1 ∧ ∀ a, a < P - 4 → m3 a = m a := by
  intro m1 m2 m3
  have t1 : tagOf (sz, false) < WORD := tagOf_lt (sz, false) hw
  have a1 : FTRP m1 P = P + sz - 8 := by
    show FTRP (PUT m (HDRP P) (PACK sz 0)) P = _
    rw [PACK_zero]
    exact FTRP_of_tag _ _ (sz, false) (GET_PUT_same _ _ _ t1) g1
  have r2 : GET m2 (P - 4) = tagOf (sz, false) := by
    show GET (PUT m1 (FTRP m1 P) (PACK sz 0)) (P - 4) = _
    rw [a1, GET_PUT_other _ _ _ _ (by omega)]
    show GET (PUT m (HDRP P) (PACK sz 0)) (P - 4) = _
    rw [PACK_zero]
    exact GET_PUT_same _ _ _ t1
  have a2 : NEXT_BLKP m2 P = P + sz := NEXT_BLKP_of_tag _ _ (sz, false) r2 g1
  have e3 : m3 = PUT m2 (P + sz - 4) 1 := by
    show PUT m2 (HDRP (NEXT_BLKP m2 P)) (PACK 0 1) = _
    rw [a2]; rfl
  have e2 : m2 = PUT m1 (P + sz - 8) (tagOf (sz, false)) := by
    show PUT m1 (FTRP m1 P) (PACK sz 0) = _
    rw [a1, PACK_zero]
  have one : (1 : Nat) < WORD := by norm_num [WORD]
  refine ⟨⟨h1, g1, ?_, ?_, trivial⟩, ?_, ?_⟩
  · rw [e3, GET_PUT_other _ _ _ _ (by show P - 4 + 4 ≤ P + sz - 4 ∨ _; omega)]
    exact r2
  · rw [e3, GET_PUT_other _ _ _ _ (by show P + sz - 8 + 4 ≤ P + sz - 4 ∨ _; omega), e2]
    exact GET_PUT_same _ _ _ t1
  · rw [e3]
    exact GET_PUT_same _ _ _ one
  · intro a ha
    rw [e3, PUT_frame _ _ _ _ (by omega), e2, PUT_frame _ _ _ _ (by omega)]
    exact PUT_frame _ _ _ _ (by unfold HDRP WSIZE; omega)

/-- A fresh free block at the break extends a well-formed heap. -/
theorem Wf_extend {s : State} {bl : List Blk} {fl : List Nat} (hw : Wf s bl fl)
    (sz : Nat) (m3 : Mem) (hroom : s.mem_brk + sz ≤ s.mem_max_addr)
    (hseg : Seg m3 s.mem_brk [(sz, false)]) (hep : GET m3 (s.mem_brk + sz - 4) = 1)
    (hfr : ∀ a, a < s.mem_brk - 4 → m3 a = s.mem a) :
    Wf { s with mem_brk := s.mem_brk + sz, mem := m3 } (bl ++ [(sz, false)]) fl := by
  obtain ⟨⟨hmax, hbrk, hp1, hp2, hsg, htl, hep0⟩, ⟨h0, hhead, hdll⟩, hnd, hblk⟩ := hw
  have hfb : firstBlock { s with mem_brk := s.mem_brk + sz, mem := m3 } = firstBlock s := rfl
  have hfbv : firstBlock s = s.heap_start + 16 := rfl
  refine ⟨⟨hmax, hroom, ?_, ?_, ?_, ?_, hep⟩, ⟨h0, hhead, ?_⟩, hnd, ?_⟩
  · show GET m3 (s.heap_start + 4) = 9
    rw [← hp1]
    exact GET_congr _ _ _ fun a h1 h2 => hfr a (by omega)
  · show GET m3 (s.heap_start + 8) = 9
    rw [← hp2]
    exact GET_congr _ _ _ fun a h1 h2 => hfr a (by omega)
  · show Seg m3 (firstBlock s) (bl ++ [(sz, false)])
    rw [Seg_append, htl]
    exact ⟨Seg_frame_range (fun a h1 h2 => hfr a (by omega)) hsg, hseg⟩
  · show firstBlock s + total (bl ++ [(sz, false)]) = s.mem_brk + sz
    rw [total_append]
    simp only [total]
    omega
  · show DLL m3 0 fl 0
    refine DLL_frame (fun p hp => ?_) hdll
    obtain ⟨sp, hb⟩ := hblk p hp
    have k := BlockAt_bounds hb
    have k2 : p + sp ≤ firstBlock s + total bl := k.2
    have k16 : 16 ≤ sp := (Seg_block hsg hb).1
    constructor
    · exact GET_congr _ _ _ fun a h1 h2 => hfr a (by omega)
    · exact GET_congr _ _ _ fun a h1 h2 => hfr a (by omega)
  · intro p hp
    obtain ⟨sp, hb⟩ := hblk p hp
    refine ⟨sp, ?_⟩
    rw [hfb, BlockAt_append]
    exact Or.inl hb

end MM

namespace MM

theorem ALIGN_mod (x : Nat) : ALIGN x % 8 = 0 := by
  rw [ALIGN_eq]; omega

theorem ALIGN_lt (x : Nat) : ALIGN x < WORD := by
  rw [ALIGN_eq]
  have : (x + 7) % WORD < WORD := Nat.mod_lt _ (by norm_num [WORD])
  omega

theorem Coalesced_snoc_alloc (bl : List Blk) (sz : Nat) (h : Coalesced bl) :
    Coalesced (bl ++ (sz, true) :: []) := by
  rw [Coalesced_append_cons]
  exact ⟨h, List.chain'_nil, fun _ _ => Or.inr rfl, fun y hy => by simp at hy⟩

/-- The function `extend_heap` on a well-formed heap: either the heap cannot grow and nothing
changes, or a free block is added at the end and merged with a free last block. -/
theorem extend_heap_spec {s : State} {bl : List Blk} {fl : List Nat}
    (hw : Wf s bl fl) (hc : Complete s bl fl) (hco : Coalesced bl) (size : Nat)
    (h16 : 16 ≤ ALIGN size) :
    (s.mem_brk + ALIGN size > s.mem_max_addr ∧ extend_heap s size = some (0, s)) ∨
    (s.mem_brk + ALIGN size ≤ s.mem_max_addr ∧
      ∃ s' fl' pre' pb, extend_heap s size = some (firstBlock s + total pre', s')
        ∧ Wf s' (pre' ++ [((if pb.2 then 0 else pb.1) + ALIGN size, false)]) fl'
        ∧ Complete s' (pre' ++ [((if pb.2 then 0 else pb.1) + ALIGN size, false)]) fl'
        ∧ Coalesced (pre' ++ [((if pb.2 then 0 else pb.1) + ALIGN size, false)])
        ∧ PrevIs bl pb ∧ bl = pre' ++ (if pb.2 then [] else [pb])
        ∧ s'.mem_brk = s.mem_brk + ALIGN size ∧ s'.mem_max_addr = s.mem_max_addr
        ∧ s'.heap_start = s.heap_start
        ∧ ∀ a, a < s.mem_brk - 4 → (∀ p c, BlockAt (firstBlock s) bl p c →
            c.2 = false → a < p - 4 ∨ p + c.1 - 4 ≤ a) → s'.mem a = s.mem a) := by
  by_cases hfail : s.mem_brk + ALIGN size > s.mem_max_addr
  · exact Or.inl ⟨hfail, extend_heap_fail s size hfail⟩
  right
  have hroom : s.mem_brk + ALIGN size ≤ s.mem_max_addr := by clear * - hfail; omega
  refine ⟨hroom, ?_⟩
  have hmax : s.mem_max_addr < WORD := hw.1.1
  have htl : firstBlock s + total bl = s.mem_brk := hw.1.2.2.2.2.2.1
  have hseg0 := hw.1.2.2.2.2.1
  have hfbv : firstBlock s = s.heap_start + 16 := rfl
  have h8 := ALIGN_mod size
  generalize hsz : ALIGN size = sz at *
  obtain ⟨W1, W2, W3⟩ := extend_writes s.mem s.mem_brk sz h16 h8
    (by clear * - hroom hmax htl hfbv; omega) (by clear * - htl hfbv; omega)
  obtain ⟨m3, hm3⟩ : ∃ m3 : Mem, m3 =
      PUT (PUT (PUT s.mem (HDRP s.mem_brk) (PACK sz 0))
        (FTRP (PUT s.mem (HDRP s.mem_brk) (PACK sz 0)) s.mem_brk) (PACK sz 0))
        (HDRP (NEXT_BLKP (PUT (PUT s.mem (HDRP s.mem_brk) (PACK sz 0))
          (FTRP (PUT s.mem (HDRP s.mem_brk) (PACK sz 0)) s.mem_brk) (PACK sz 0)) s.mem_brk))
        (PACK 0 1) := ⟨_, rfl⟩
  rw [← hm3] at W1 W2 W3
  have hw3 := Wf_extend hw sz m3 hroom W1 W2 W3
  obtain ⟨s3, hs3⟩ : ∃ s3 : State, s3 = { s with mem_brk := s.mem_brk + sz, mem := m3 } :=
    ⟨_, rfl⟩
  rw [← hs3] at hw3
  have hf3 : firstBlock s3 = firstBlock s := by rw [hs3]; rfl
  have hblk : BlockAt (firstBlock s3) (bl ++ [(sz, false)]) s.mem_brk (sz, false) :=
    ⟨bl, [], rfl, by rw [hf3, htl]⟩
  have hnin : s.mem_brk ∉ fl := by
    intro h
    obtain ⟨sp, hb⟩ := hw.2.2.2 _ h
    have k := BlockAt_bounds hb
    have k2 : s.mem_brk + sp ≤ firstBlock s + total bl := k.2
    have k16 : 16 ≤ sp := (Seg_block hseg0 hb).1
    clear * - k2 k16 htl; omega
  obtain ⟨s4, fl4, hpush, hw4, hm4, e41, e42, e43, fr4⟩ := pushNode_wf hw3 hblk hnin sz
  have hev := extend_heap_rel s _ _ _ s3 s4 size (by rw [hsz]; exact hfail) rfl rfl rfl
    (by rw [hsz, hs3, hm3]; rfl) (by rw [hsz]; exact hpush)
  rw [hev]
  have hc4 : Complete s4 (bl ++ [(sz, false)]) fl4 := by
    intro p sp hb
    have hf4 : firstBlock s4 = firstBlock s := by unfold firstBlock; rw [e43, hs3]
    rw [hf4, BlockAt_append, BlockAt_cons] at hb
    rcases hb with hb | ⟨hb, -⟩ | hb
    · exact (hm4 p).2 (Or.inr (hc p sp hb))
    · exact (hm4 p).2 (Or.inl (by rw [hb, htl]))
    · exact absurd hb (BlockAt_nil _ _ _)
  have hf4 : firstBlock s4 = firstBlock s := by unfold firstBlock; rw [e43, hs3]
  obtain ⟨pb, hp⟩ := exists_PrevIs bl
  have hn : NextIs [] ((0, true) : Blk) := Or.inl ⟨rfl, rfl⟩
  obtain ⟨s', fl', pre', post', hco1, hw', hc', e1, e2, e51, e52, e53, fr5⟩ :=
    coalesce_spec hw4 (by rw [hf4, htl]) ((hm4 _).2 (Or.inl rfl)) hc4 hp hn
  have hpost : post' = [] := by simpa using e2.symm
  subst hpost
  have hS : (if pb.2 then 0 else pb.1) + sz + (if ((0, true) : Blk).2 then 0 else
      ((0, true) : Blk).1) = (if pb.2 then 0 else pb.1) + sz := by simp
  rw [hS] at hw' hc'
  refine ⟨s', fl', pre', pb, by rw [hco1, hf4], hw', hc',
    Coalesced_merge (Coalesced_snoc_alloc bl sz hco) hp hn e1 e2, hp, e1,
    by rw [e51, e41, hs3], by rw [e52, e42, hs3], by rw [e53, e43, hs3], ?_⟩
  intro a ha1 ha2
  have hx : ∀ p c, BlockAt (firstBlock s4) (bl ++ [(sz, false)]) p c → c.2 = false →
      a < p - 4 ∨ p + c.1 - 4 ≤ a := by
    intro p c hb hcf
    rw [hf4, BlockAt_append, BlockAt_cons] at hb
    rcases hb with hb | ⟨hb, -⟩ | hb
    · exact ha2 p c hb hcf
    · left; rw [hb, htl]; exact ha1
    · exact absurd hb (BlockAt_nil _ _ _)
  have hy : ∀ p sp, BlockAt (firstBlock s3) (bl ++ [(sz, false)]) p (sp, false) →
      a < p ∨ p + 8 ≤ a := by
    rw [hf3.trans hf4.symm]
    exact links_of_extents hw4.1.2.2.2.2.1 hx
  rw [fr5 a hx, fr4 a hy, hs3]
  exact W3 a ha1

end MM

namespace MM

/-! ### `getSize` and the search of `mm_malloc` -/

theorem getSize_spec (n : Nat) (h : n + 15 < WORD) :
    16 ≤ getSize n ∧ getSize n % 8 = 0 ∧ n + 8 ≤ getSize n ∧ getSize n ≤ n + 16
      ∧ getSize n + 7 < WORD := by
  unfold getSize DSIZE
  have hW : WORD = 4294967296 := rfl
  by_cases h8 : n < 8
  · rw [if_pos h8]; omega
  · rw [if_neg h8, ALIGN_eq, Nat.mod_eq_of_lt (a := n + 8) (by omega),
      Nat.mod_eq_of_lt (by omega)]
    omega

theorem MAX_spec (x y : Nat) : x ≤ MAX x y ∧ y ≤ MAX x y ∧ (MAX x y = x ∨ MAX x y = y) := by
  unfold MAX
  split <;> omega

theorem ALIGN_of_aligned (x : Nat) (h8 : x % 8 = 0) (hw : x + 7 < WORD) : ALIGN x = x := by
  rw [ALIGN_eq, Nat.mod_eq_of_lt hw]
  omega

theorem findFit_skip (s : State) (size : Nat) (h0 : ∀ i, i ≠ LIST_SIZE - 1 →
    s.segregated_free_list i = 0) :
    ∀ (k i temp : Nat), i + k = 19 →
      findFit s size (k + 1) i temp = findFit s size 1 19 (temp >>> k) := by
  intro k
  induction k with
  | zero =>
    intro i temp hi
    have : i = 19 := by omega
    subst this
    rfl
  | succ k ih =>
    intro i temp hi
    have hne : i ≠ LIST_SIZE - 1 := by unfold LIST_SIZE; omega
    have hz := h0 i hne
    rw [findFit, if_neg (by rw [hz]; simp), ih (i + 1) (temp >>> 1) (by omega)]
    congr 1
    rw [← Nat.shiftRight_add, Nat.add_comm]

/-- The search of `mm_malloc` on a well-formed index: it ends, with a node of
the index that is large enough or with `NULL`; and it ends with `NULL` only if
the request is for 1 MiB or more, or no node is large enough. -/
theorem findFit_spec {s : State} {bl : List Blk} {fl : List Nat} (hw : Wf s bl fl)
    (size : Nat) :
    ∃ r, findFit s size LIST_SIZE 0 size = some r
      ∧ (r = 0 ∨ (r ∈ fl ∧ size ≤ GET_SIZE s.mem (HDRP r)))
      ∧ (r = 0 → 1048576 ≤ size ∨ ∀ x ∈ fl, size > GET_SIZE s.mem (HDRP x)) := by
  obtain ⟨hh, ⟨h0, hhead, hdll⟩, hfn⟩ := hw
  obtain ⟨-, hpt, hlen⟩ := nodes_facts hh hfn
  have hnz : ∀ x ∈ fl, x ≠ 0 := fun x hx => Nat.pos_iff_ne_zero.1 (hpt x hx).1
  have e : findFit s size LIST_SIZE 0 size = findFit s size 1 19 (size >>> 19) :=
    findFit_skip s size h0 19 0 size rfl
  rw [e]
  have hhead' : s.segregated_free_list 19 = fl.headD 0 := hhead
  obtain ⟨r, hr, hr1, hr2⟩ := fitScan_total s.mem size fl 0 (scanFuel s) hlen hnz hdll
  rw [Nat.shiftRight_eq_div_pow]
  by_cases hc : s.segregated_free_list 19 ≠ 0 ∧ size / 2 ^ 19 ≤ 1
  · rw [findFit, if_pos hc, hhead', hr]
    by_cases hr0 : r = 0
    · subst hr0
      exact ⟨0, by simp [findFit], Or.inl rfl, fun _ => Or.inr (hr2 rfl)⟩
    · refine ⟨r, by simp [hr0], hr1, fun h => absurd h hr0⟩
  · rw [findFit, if_neg hc]
    refine ⟨0, by simp [findFit], Or.inl rfl, fun _ => ?_⟩
    by_cases h1 : s.segregated_free_list 19 = 0
    · right
      intro x hx
      rw [hhead'] at h1
      cases fl with
      | nil => simp at hx
      | cons y l => exact absurd h1 (hnz y (List.mem_cons_self _ _))
    · left
      have : ¬ size / 2 ^ 19 ≤ 1 := fun h => hc ⟨h1, h⟩
      omega

/-! ### Layout facts for `place` -/

theorem Coalesced_place {pre post : List Blk} {S : Nat}
    (h : Coalesced (pre ++ (S, false) :: post)) (a b : Nat) :
    Coalesced (pre ++ [(a, true)] ++ post)
      ∧ Coalesced (pre ++ [(a, true), (b, false)] ++ post) := by
  rw [Coalesced_append_cons] at h
  obtain ⟨h1, h2, h3, h4⟩ := h
  have e1 : pre ++ [(a, true)] ++ post = pre ++ (a, true) :: post := by simp
  have e2 : pre ++ [(a, true), (b, false)] ++ post = pre ++ (a, true) :: ((b, false) :: post) := by
    simp
  rw [e1, e2, Coalesced_append_cons, Coalesced_append_cons]
  refine ⟨⟨h1, h2, fun _ _ => Or.inr rfl, fun _ _ => Or.inl rfl⟩, h1, ?_,
    fun _ _ => Or.inr rfl, fun _ _ => Or.inl rfl⟩
  have := (Coalesced_append_cons [] post (b, false)).2
    ⟨List.chain'_nil, h2, fun y hy => by simp at hy, fun y hy => by
      rcases h4 y hy with h | h
      · simp at h
      · exact Or.inr h⟩
  simpa using this

/-- The allocated blocks after a block of a layout is replaced by an allocated
block and, possibly, a free one. -/
theorem alloc_after_place (bp : Nat) (pre post rest : List Blk) (S a : Nat)
    (hrest : ∀ b ∈ rest, b.2 = false) (ht : a + total rest = S) (q sz : Nat) :
    BlockAt bp (pre ++ ((a, true) :: rest) ++ post) q (sz, true) ↔
      (q = bp + total pre ∧ sz = a) ∨ BlockAt bp (pre ++ (S, false) :: post) q (sz, true) := by
  have no : ∀ (r : Nat) (l : List Blk), (∀ b ∈ l, b.2 = false) → ¬ BlockAt r l q (sz, true) := by
    rintro r l hl ⟨x, y, rfl, -⟩
    have := hl (sz, true) (by simp)
    exact absurd this (by simp)
  rw [BlockAt_append, BlockAt_append, BlockAt_cons, BlockAt_append, BlockAt_cons]
  simp only [total, Prod.mk.injEq, and_true, Bool.true_eq_false, and_false, false_or]
  rw [← ht]
  constructor
  · rintro ((h | h | h) | h)
    · exact Or.inr (Or.inl h)
    · exact Or.inl ⟨h.1, h.2⟩
    · exact absurd h (no _ _ hrest)
    · right; right
      rw [total_append] at h
      simp only [total] at h
      rw [← Nat.add_assoc] at h
      exact h
  · rintro (h | h | h)
    · exact Or.inl (Or.inr (Or.inl h))
    · exact Or.inl (Or.inl h)
    · right
      rw [total_append]
      simp only [total]
      rw [← Nat.add_assoc]
      exact h

theorem alloc_blocks_tail (bp : Nat) (pre X : List Blk) (hX : ∀ b ∈ X, b.2 = false)
    (q sz : Nat) : BlockAt bp (pre ++ X) q (sz, true) ↔ BlockAt bp pre q (sz, true) := by
  rw [BlockAt_append]
  constructor
  · rintro (h | ⟨x, y, rfl, -⟩)
    · exact h
    · have := hX (sz, true) (by simp)
      exact absurd this (by simp)
  · exact Or.inl

end MM

namespace MM

/-- A payload byte of an allocated block lies outside every free block. -/
theorem allocByte_outside {s : State} {bl : List Blk} {a : Nat}
    (hseg : Seg s.mem (firstBlock s) bl) (h : AllocByte s bl a) :
    a + 8 < firstBlock s + total bl ∧
    ∀ q c, BlockAt (firstBlock s) bl q c → c.2 = false → a < q - 4 ∨ q + c.1 - 4 ≤ a := by
  obtain ⟨p, sz, hb, h1, h2⟩ := h
  have k := (BlockAt_bounds hb).2
  have k' : p + sz ≤ firstBlock s + total bl := k
  refine ⟨by omega, fun q c hq hc => ?_⟩
  obtain ⟨cs, cf⟩ := c
  simp only at hc
  subst hc
  have d := blocks_apart hseg hb hq
  have hne : p ≠ q := by
    rintro rfl
    have := BlockAt_unique hseg hb hq
    simp at this
  show a < q - 4 ∨ q + cs - 4 ≤ a
  omega

/-- The function `place` keeps the allocator invariant (without the live pointers). -/
theorem place_inv {s : State} {bl : List Blk} {fl : List Nat}
    (hw : Wf s bl fl) (hc : Complete s bl fl) (hco : Coalesced bl) {r : Nat} (hr : r ∈ fl)
    (size : Nat) (h16 : 16 ≤ size) (h8 : size % 8 = 0)
    (hfit : size ≤ GET_SIZE s.mem (HDRP r)) :
    ∃ s' bl' fl' S, place s r size = some (r, s')
      ∧ Wf s' bl' fl' ∧ Complete s' bl' fl' ∧ Coalesced bl'
      ∧ BlockAt (firstBlock s') bl' r (S, true) ∧ size ≤ S
      ∧ s'.mem_brk = s.mem_brk ∧ s'.mem_max_addr = s.mem_max_addr
      ∧ s'.heap_start = s.heap_start
      ∧ (∀ q sz, BlockAt (firstBlock s) bl' q (sz, true) ↔
          (q = r ∧ sz = S) ∨ BlockAt (firstBlock s) bl q (sz, true))
      ∧ ∀ a, (∀ p c, BlockAt (firstBlock s) bl p c →
          c.2 = false → a < p - 4 ∨ p + c.1 - 4 ≤ a) → s'.mem a = s.mem a := by
  obtain ⟨S0, pre, post, rfl, hptr⟩ := hw.2.2.2 r hr
  obtain ⟨pb, hp⟩ := exists_PrevIs pre
  obtain ⟨nb, hn⟩ := exists_NextIs post
  have m1 : GET_SIZE s.mem (HDRP r) = S0 := (macros_at hw.1 hptr hp hn).1
  rw [m1] at hfit
  obtain ⟨s', fl', mid', hpl, hmid, hw', hc', e1, e2, e3, fr⟩ :=
    place_spec hw hptr hr hc size h16 h8 hfit
  have hfb : firstBlock s' = firstBlock s := by unfold firstBlock; rw [e3]
  rcases hmid with ⟨rfl, -⟩ | ⟨rfl, -⟩
  · refine ⟨s', _, fl', S0, hpl, hw', hc', (Coalesced_place hco S0 0).1,
      ⟨pre, post, by simp, by rw [hfb]; exact hptr⟩, hfit, e1, e2, e3, ?_, fr⟩
    intro q sz
    have := alloc_after_place (firstBlock s) pre post [] S0 S0 (by simp) (by simp [total]) q sz
    rw [this, hptr]
  · refine ⟨s', _, fl', size, hpl, hw', hc', (Coalesced_place hco size (S0 - size)).2,
      ⟨pre, (S0 - size, false) :: post, by simp, by rw [hfb]; exact hptr⟩, le_refl _, e1, e2, e3,
      ?_, fr⟩
    intro q sz
    have := alloc_after_place (firstBlock s) pre post [(S0 - size, false)] S0 size (by simp)
      (by simp only [total]; clear * - hfit; omega) q sz
    rw [this, hptr]

end MM

namespace MM

theorem malloc_zero (s : State) : mm_malloc s 0 = some (0, s) := by
  unfold mm_malloc
  rw [if_pos rfl]

theorem malloc_fit (s : State) (n r : Nat) (hn : n ≠ 0)
    (hf : findFit s (getSize n) LIST_SIZE 0 (getSize n) = some r) (hr : r ≠ 0) :
    mm_malloc s n = place s r (getSize n) := by
  unfold mm_malloc
  rw [if_neg hn]
  dsimp only
  rw [hf]
  dsimp only
  rw [if_pos hr]

theorem malloc_grow_fail (s s1 : State) (n : Nat) (hn : n ≠ 0)
    (hf : findFit s (getSize n) LIST_SIZE 0 (getSize n) = some 0)
    (he : extend_heap s (MAX (getSize n) CHUNKSIZE) = some (0, s1)) :
    mm_malloc s n = some (0, s1) := by
  unfold mm_malloc
  rw [if_neg hn]
  dsimp only
  rw [hf]
  dsimp only
  rw [if_neg (by simp), he]
  dsimp only
  rw [if_pos rfl]

theorem malloc_grow (s s1 : State) (n q : Nat) (hn : n ≠ 0)
    (hf : findFit s (getSize n) LIST_SIZE 0 (getSize n) = some 0)
    (he : extend_heap s (MAX (getSize n) CHUNKSIZE) = some (q, s1)) (hq : q ≠ 0) :
    mm_malloc s n = place s1 q (getSize n) := by
  unfold mm_malloc
  rw [if_neg hn]
  dsimp only
  rw [hf]
  dsimp only
  rw [if_neg (by simp), he]
  dsimp only
  rw [if_neg hq]

/-- The amount by which `mm_malloc` grows the heap on a miss. -/
theorem grow_amount (n : Nat) (h : validRequest n) :
    ALIGN (MAX (getSize n) CHUNKSIZE) = MAX (getSize n) CHUNKSIZE
      ∧ 16 ≤ MAX (getSize n) CHUNKSIZE ∧ getSize n ≤ MAX (getSize n) CHUNKSIZE := by
  obtain ⟨g1, g2, g3, g4, g5⟩ := getSize_spec n h
  obtain ⟨x1, x2, x3⟩ := MAX_spec (getSize n) CHUNKSIZE
  have hC : CHUNKSIZE = 4096 := rfl
  have hW : WORD = 4294967296 := rfl
  refine ⟨ALIGN_of_aligned _ ?_ ?_, by omega, x1⟩
  · rcases x3 with h | h <;> rw [h] <;> omega
  · rcases x3 with h | h <;> rw [h] <;> omega

/-- The function `mm_malloc` of a supported non-zero size in a state that satisfies the
invariant: either the heap cannot grow and the state is returned untouched, or
a new allocated block is returned. -/
theorem malloc_spec {s : State} {bl : List Blk} {fl live : List Nat}
    (hinv : InvAt s bl fl live) (n : Nat) (hn : n ≠ 0) (hv : validRequest n) :
    (mm_malloc s n = some (0, s)
      ∧ s.mem_brk + ALIGN (MAX (getSize n) CHUNKSIZE) > s.mem_max_addr
      ∧ (1048576 ≤ getSize n ∨ ∀ x ∈ fl, getSize n > GET_SIZE s.mem (HDRP x)))
    ∨ ∃ p s' bl' fl' S, mm_malloc s n = some (p, s') ∧ p ≠ 0
      ∧ InvAt s' bl' fl' (p :: live)
      ∧ BlockAt (firstBlock s') bl' p (S, true) ∧ getSize n ≤ S
      ∧ s'.heap_start = s.heap_start ∧ s'.mem_max_addr = s.mem_max_addr
      ∧ (s'.mem_brk = s.mem_brk
          ∨ (s'.mem_brk = s.mem_brk + ALIGN (MAX (getSize n) CHUNKSIZE)
            ∧ (1048576 ≤ getSize n ∨ ∀ x ∈ fl, getSize n > GET_SIZE s.mem (HDRP x))))
      ∧ (∀ q sz, BlockAt (firstBlock s) bl' q (sz, true) ↔
          (q = p ∧ sz = S) ∨ BlockAt (firstBlock s) bl q (sz, true))
      ∧ ∀ a, AllocByte s bl a → s'.mem a = s.mem a := by
  obtain ⟨hw, hc, hco, hlnd, hlive⟩ := hinv
  obtain ⟨g1, g2, g3, g4, g5⟩ := getSize_spec n hv
  obtain ⟨r, hfind, hr1, hr2⟩ := findFit_spec hw (getSize n)
  have hseg0 := hw.1.2.2.2.2.1
  -- the invariant with the new live pointer, from the facts about `place`
  have finish : ∀ (s' : State) (bl' : List Blk) (fl' : List Nat) (p S : Nat),
      Wf s' bl' fl' → Complete s' bl' fl' → Coalesced bl' → firstBlock s' = firstBlock s →
      (∀ q sz, BlockAt (firstBlock s) bl' q (sz, true) ↔
          (q = p ∧ sz = S) ∨ BlockAt (firstBlock s) bl q (sz, true)) →
      (∀ sz, ¬ BlockAt (firstBlock s) bl p (sz, true)) →
      InvAt s' bl' fl' (p :: live) := by
    intro s' bl' fl' p S hw' hc' hco' hfb hch hnew
    refine ⟨hw', hc', hco', List.nodup_cons.2 ⟨fun h => ?_, hlnd⟩, fun q => ?_⟩
    · obtain ⟨sz, hb⟩ := (hlive p).1 h
      exact hnew sz hb
    · rw [hfb, List.mem_cons, hlive]
      constructor
      · rintro (rfl | ⟨sz, hb⟩)
        · exact ⟨S, (hch _ _).2 (Or.inl ⟨rfl, rfl⟩)⟩
        · exact ⟨sz, (hch _ _).2 (Or.inr hb)⟩
      · rintro ⟨sz, hb⟩
        rcases (hch _ _).1 hb with ⟨h, -⟩ | h
        · exact Or.inl h
        · exact Or.inr ⟨sz, h⟩
  by_cases hr0 : r = 0
  · -- no fit: the heap is extended
    subst hr0
    obtain ⟨a1, a2, a3⟩ := grow_amount n hv
    rcases extend_heap_spec hw hc hco (MAX (getSize n) CHUNKSIZE) (by rw [a1]; exact a2) with
      ⟨hfail, hev⟩ | ⟨hroom, s1, fl1, pre', pb, hev, hw1, hc1, hco1, hp, hbl, e1, e2, e3, fr1⟩
    · exact Or.inl ⟨malloc_grow_fail s s n hn hfind hev, hfail, hr2 rfl⟩
    right
    have hfb1 : firstBlock s1 = firstBlock s := by unfold firstBlock; rw [e3]
    have hq0 : firstBlock s + total pre' ≠ 0 := by unfold firstBlock; clear * -; omega
    have hblk1 : BlockAt (firstBlock s1)
        (pre' ++ [((if pb.2 then 0 else pb.1) + ALIGN (MAX (getSize n) CHUNKSIZE), false)])
        (firstBlock s + total pre')
        ((if pb.2 then 0 else pb.1) + ALIGN (MAX (getSize n) CHUNKSIZE), false) :=
      ⟨pre', [], rfl, by rw [hfb1]⟩
    have hin1 := hc1 _ _ hblk1
    have hsz1 : GET_SIZE s1.mem (HDRP (firstBlock s + total pre'))
        = (if pb.2 then 0 else pb.1) + ALIGN (MAX (getSize n) CHUNKSIZE) := by
      have t := Seg_block hw1.1.2.2.2.2.1 hblk1
      exact GET_SIZE_tag _ _ _ t.2.2.1 t.2.1
    obtain ⟨s', bl', fl', S, hpl, hw', hc', hco', hb', hS, e1', e2', e3', hch, fr2⟩ :=
      place_inv hw1 hc1 hco1 hin1 (getSize n) g1 g2
        (by rw [hsz1, a1]; clear * - a3; omega)
    have hfb' : firstBlock s' = firstBlock s := by unfold firstBlock; rw [e3', e3]
    -- the allocated blocks before and after the extension
    have hX : ∀ b ∈ (if pb.2 then [] else [pb]), b.2 = false := by
      intro b hb
      cases hpa : pb.2
      · rw [hpa] at hb
        simp at hb
        rw [hb]; exact hpa
      · rw [hpa] at hb
        simp at hb
    have hsame : ∀ q sz, BlockAt (firstBlock s)
        (pre' ++ [((if pb.2 then 0 else pb.1) + ALIGN (MAX (getSize n) CHUNKSIZE), false)]) q
        (sz, true) ↔ BlockAt (firstBlock s) bl q (sz, true) := by
      intro q sz
      rw [alloc_blocks_tail _ _ _ (by simp), hbl, alloc_blocks_tail _ _ _ hX]
    have hch' : ∀ q sz, BlockAt (firstBlock s) bl' q (sz, true) ↔
        (q = firstBlock s + total pre' ∧ sz = S) ∨ BlockAt (firstBlock s) bl q (sz, true) := by
      intro q sz
      have := hch q sz
      rw [hfb1, hsame] at this
      exact this
    refine ⟨_, s', bl', fl', S, (malloc_grow s s1 n _ hn hfind hev hq0).trans hpl, hq0,
      finish s' bl' fl' _ S hw' hc' hco' hfb' hch' ?_, hb', hS, by rw [e3', e3],
      by rw [e2', e2], Or.inr ⟨by rw [e1', e1], hr2 rfl⟩, hch', ?_⟩
    · intro sz hb
      have hb1 := (hsame _ _).2 hb
      have hs1 := hw1.1.2.2.2.2.1
      rw [hfb1] at hs1 hblk1
      have := BlockAt_unique hs1 hb1 hblk1
      simp at this
    · intro a ha
      obtain ⟨o1, o2⟩ := allocByte_outside hseg0 ha
      have ha1 : AllocByte s1
          (pre' ++ [((if pb.2 then 0 else pb.1) + ALIGN (MAX (getSize n) CHUNKSIZE), false)])
          a := by
        obtain ⟨p, sz, hb, h1, h2⟩ := ha
        exact ⟨p, sz, by rw [hfb1]; exact (hsame _ _).2 hb, h1, h2⟩
      rw [fr2 a (allocByte_outside hw1.1.2.2.2.2.1 ha1).2,
        fr1 a (by have := hw.1.2.2.2.2.2.1; clear * - o1 this; omega) o2]
  · -- a node of the index fits
    right
    rcases hr1 with h | ⟨hrin, hfit⟩
    · exact absurd h hr0
    obtain ⟨s', bl', fl', S, hpl, hw', hc', hco', hb', hS, e1', e2', e3', hch, fr2⟩ :=
      place_inv hw hc hco hrin (getSize n) g1 g2 hfit
    have hfb' : firstBlock s' = firstBlock s := by unfold firstBlock; rw [e3']
    refine ⟨r, s', bl', fl', S, (malloc_fit s n r hn hfind hr0).trans hpl, hr0,
      finish s' bl' fl' r S hw' hc' hco' hfb' hch ?_, hb', hS, e3', e2', Or.inl e1', hch, ?_⟩
    · intro sz hb
      obtain ⟨S0, hf⟩ := hw.2.2.2 r hrin
      have := BlockAt_unique hseg0 hb hf
      simp at this
    · intro a ha
      exact fr2 a (allocByte_outside hseg0 ha).2

end MM

namespace MM

theorem free_rel (s s1 s2 s3 : State) (ptr size : Nat)
    (e0 : GET_SIZE s.mem (HDRP ptr) = size)
    (e1 : setMem s (PUT s.mem (HDRP ptr) (PACK size 0)) = s1)
    (e2 : setMem s1 (PUT s1.mem (FTRP s1.mem ptr) (PACK size 0)) = s2)
    (e3 : pushNode s2 ptr size = some s3) :
    mm_free s ptr = (coalesce s3 ptr).map fun r => r.2 := by
  subst e0 e1 e2
  unfold mm_free
  dsimp only
  rw [e3]

/-- The free blocks of a layout never start where an allocated block starts. -/
theorem free_ne_alloc {m : Mem} {bp : Nat} {bl : List Blk} {p q a b : Nat}
    (hseg : Seg m bp bl) (h1 : BlockAt bp bl p (a, false)) (h2 : BlockAt bp bl q (b, true)) :
    p ≠ q := by
  rintro rfl
  have := BlockAt_unique hseg h1 h2
  simp at this

/-- The function `mm_free` of a live pointer: the block is marked free, put into the index
and merged with its free neighbours; the invariant holds again, with the
pointer no longer live, and the payloads of the other live pointers are
untouched. -/
theorem free_spec {s : State} {bl : List Blk} {fl live : List Nat}
    (hinv : InvAt s bl fl live) {ptr : Nat} (hl : ptr ∈ live) :
    ∃ s' bl' fl' pre post pre' post' sz pb nb,
      mm_free s ptr = some s' ∧ InvAt s' bl' fl' (live.erase ptr)
      ∧ bl = pre ++ (sz, true) :: post ∧ ptr = firstBlock s + total pre
      ∧ PrevIs pre pb ∧ NextIs post nb
      ∧ pre = pre' ++ (if pb.2 then [] else [pb])
      ∧ post = (if nb.2 then [] else [nb]) ++ post'
      ∧ bl' = pre' ++ ((if pb.2 then 0 else pb.1) + sz + (if nb.2 then 0 else nb.1), false)
          :: post'
      ∧ s'.mem_brk = s.mem_brk ∧ s'.mem_max_addr = s.mem_max_addr
      ∧ s'.heap_start = s.heap_start
      ∧ (∀ p c a, BlockAt (firstBlock s) bl p (c, true) → p ≠ ptr → p ≤ a → a < p + c - 8 →
          s'.mem a = s.mem a)
      ∧ ∀ q c, BlockAt (firstBlock s) bl' q (c, true) ↔
          (q ≠ ptr ∧ BlockAt (firstBlock s) bl q (c, true)) := by
  obtain ⟨hw, hc, hco, hlnd, hlive⟩ := hinv
  obtain ⟨sz, hblk⟩ := (hlive ptr).1 hl
  obtain ⟨pre, post, rfl, hptr⟩ := hblk
  have hblk : BlockAt (firstBlock s) (pre ++ (sz, true) :: post) ptr (sz, true) :=
    ⟨pre, post, rfl, hptr⟩
  obtain ⟨pb, hp⟩ := exists_PrevIs pre
  obtain ⟨nb, hn⟩ := exists_NextIs post
  have hseg0 := hw.1.2.2.2.2.1
  have T := (tags_at hw.1 hptr hp hn).1
  have b1 : 16 ≤ sz := T.1
  have b2 : sz % 8 = 0 := T.2.1
  have b7 : s.heap_start + 16 ≤ ptr := T.2.2.2.2.2.2.1
  have b8 : ptr + sz + nb.1 ≤ s.mem_brk := T.2.2.2.2.2.2.2.1
  have b9 : s.mem_brk < WORD := T.2.2.2.2.2.2.2.2
  have m1 : GET_SIZE s.mem (HDRP ptr) = sz := (macros_at hw.1 hptr hp hn).1
  clear T
  have hSW : sz + 1 < WORD := by clear * - b8 b9 b7; omega
  -- the two tag writes
  obtain ⟨W1, W2, -⟩ := whole_writes s.mem ptr (sz, false) b1 b2 hSW (by clear * - b7; omega)
  obtain ⟨m2, hm2⟩ : ∃ m2 : Mem, m2 = PUT (PUT s.mem (HDRP ptr) (tagOf (sz, false)))
      (FTRP (PUT s.mem (HDRP ptr) (tagOf (sz, false))) ptr) (tagOf (sz, false)) := ⟨_, rfl⟩
  rw [← hm2] at W1 W2
  have hbl : pre ++ [(sz, true)] ++ post = pre ++ (sz, true) :: post := by simp
  have hbl2 : pre ++ [(sz, false)] ++ post = pre ++ (sz, false) :: post := by simp
  have hw0 : Wf s (pre ++ [(sz, true)] ++ post) fl := by rw [hbl]; exact hw
  have ht1 : total [(sz, true)] = sz := by simp [total]
  have hw2 := Wf_retag hw0 m2 [(sz, false)] (by simp [total])
    (by rw [← hptr]; exact W1)
    (by
      intro a ha
      rw [← hptr, ht1] at ha
      exact W2 a ha)
    (by
      intro p hp1
      rw [← hptr, ht1]
      obtain ⟨sp, hbp⟩ := hw.2.2.2 p hp1
      have d1 := blocks_apart hseg0 hbp hblk
      have hne := free_ne_alloc hseg0 hbp hblk
      clear * - d1 hne
      omega)
  rw [hbl2] at hw2
  have hblk2 : BlockAt (firstBlock (setMem s m2)) (pre ++ (sz, false) :: post) ptr (sz, false) :=
    ⟨pre, post, rfl, hptr⟩
  have hnin : ptr ∉ fl := by
    intro h
    obtain ⟨sp, hbp⟩ := hw.2.2.2 ptr h
    exact free_ne_alloc hseg0 hbp hblk rfl
  obtain ⟨s3, fl3, hpush, hw3, hm3, e31, e32, e33, fr3⟩ := pushNode_wf hw2 hblk2 hnin sz
  have hf3 : firstBlock s3 = firstBlock s := by unfold firstBlock; rw [e33]; rfl
  have hev := free_rel s _ (setMem s m2) s3 ptr sz m1 rfl
    (by rw [setMem_mem, setMem_setMem, PACK_zero, hm2]) hpush
  -- the allocated blocks once `ptr` is marked free
  have halloc : ∀ q c, BlockAt (firstBlock s) (pre ++ (sz, true) :: post) q (c, true) ↔
      (q = ptr ∧ c = sz) ∨ BlockAt (firstBlock s) (pre ++ (sz, false) :: post) q (c, true) := by
    intro q c
    have := alloc_after_place (firstBlock s) pre post [] sz sz (by simp) (by simp [total]) q c
    rw [hbl, ← hptr] at this
    exact this
  have hc3 : Complete s3 (pre ++ (sz, false) :: post) fl3 := by
    intro p sp hb
    rw [hf3, BlockAt_append, BlockAt_cons] at hb
    rcases hb with hb | ⟨hb, -⟩ | hb
    · exact (hm3 p).2 (Or.inr (hc p sp (by rw [BlockAt_append]; exact Or.inl hb)))
    · exact (hm3 p).2 (Or.inl (by rw [hb, hptr]))
    · exact (hm3 p).2 (Or.inr (hc p sp (by
        rw [BlockAt_append, BlockAt_cons]; exact Or.inr (Or.inr hb))))
  obtain ⟨s', fl', pre', post', hco1, hw', hc', e1, e2, e51, e52, e53, fr5⟩ :=
    coalesce_spec hw3 (by rw [hf3]; exact hptr) ((hm3 _).2 (Or.inl rfl)) hc3 hp hn
  have hf' : firstBlock s' = firstBlock s := by unfold firstBlock; rw [e53, e33]; rfl
  -- the allocated blocks after the merge
  have hX : ∀ b ∈ (if pb.2 then [] else [pb]) ++ (sz, false) :: (if nb.2 then [] else [nb]),
      b.2 = false := by
    intro b hb
    simp only [List.mem_append, List.mem_cons] at hb
    rcases hb with hb | hb | hb
    · cases hpa : pb.2
      · rw [hpa] at hb; simp at hb; rw [hb]; exact hpa
      · rw [hpa] at hb; simp at hb
    · rw [hb]
    · cases hna : nb.2
      · rw [hna] at hb; simp at hb; rw [hb]; exact hna
      · rw [hna] at hb; simp at hb
  have hmerge : ∀ q c, BlockAt (firstBlock s)
      (pre' ++ ((if pb.2 then 0 else pb.1) + sz + (if nb.2 then 0 else nb.1), false) :: post') q
      (c, true) ↔ BlockAt (firstBlock s) (pre ++ (sz, false) :: post) q (c, true) := by
    intro q c
    have := alloc_blocks_run (firstBlock s) pre'
      ((if pb.2 then [] else [pb]) ++ (sz, false) :: (if nb.2 then [] else [nb]))
      [((if pb.2 then 0 else pb.1) + sz + (if nb.2 then 0 else nb.1), false)] post' hX
      (by simp) (by
        rw [total_append]
        simp only [total]
        cases pb.2 <;> cases nb.2 <;> simp [total] <;> omega) q c
    rw [e1, e2]
    simpa using this
  refine ⟨s', _, fl', pre, post, pre', post', sz, pb, nb, ?_, ⟨hw', hc',
    Coalesced_merge hco hp hn e1 e2, hlnd.erase ptr, fun q => ?_⟩, rfl, hptr, hp, hn, e1, e2, rfl,
    by rw [e51, e31]; rfl, by rw [e52, e32]; rfl, by rw [e53, e33]; rfl, ?_, ?_⟩
  · rw [hev, hco1]; rfl
  · rw [hlnd.mem_erase_iff, hlive, hf']
    constructor
    · rintro ⟨hne, c, hb⟩
      rcases (halloc q c).1 hb with ⟨h, -⟩ | h
      · exact absurd h hne
      · exact ⟨c, (hmerge q c).2 h⟩
    · rintro ⟨c, hb⟩
      have h2 := (hmerge q c).1 hb
      refine ⟨?_, c, (halloc q c).2 (Or.inr h2)⟩
      rintro rfl
      have hs2 := hw2.1.2.2.2.2.1
      exact free_ne_alloc hs2 hblk2 h2 rfl
  · intro p c a hb hne h1 h2
    have hb2 : BlockAt (firstBlock s) (pre ++ (sz, false) :: post) p (c, true) := by
      rcases (halloc p c).1 hb with ⟨h, -⟩ | h
      · exact absurd h hne
      · exact h
    have hs2 : Seg (setMem s m2).mem (firstBlock (setMem s m2)) (pre ++ (sz, false) :: post) :=
      hw2.1.2.2.2.2.1
    have ha2 : AllocByte (setMem s m2) (pre ++ (sz, false) :: post) a := ⟨p, c, hb2, h1, h2⟩
    have o := (allocByte_outside hs2 ha2).2
    have o3 : ∀ q d, BlockAt (firstBlock s3) (pre ++ (sz, false) :: post) q d → d.2 = false →
        a < q - 4 ∨ q + d.1 - 4 ≤ a := by rw [hf3]; exact o
    have hx : a < ptr - 4 ∨ ptr + sz - 4 ≤ a := o ptr (sz, false) hblk2 rfl
    rw [fr5 a o3, fr3 a (links_of_extents hs2 o)]
    show m2 a = s.mem a
    exact W2 a hx
  · intro q c
    rw [hmerge q c]
    constructor
    · intro h2
      refine ⟨?_, (halloc q c).2 (Or.inr h2)⟩
      rintro rfl
      exact free_ne_alloc hw2.1.2.2.2.2.1 hblk2 h2 rfl
    · rintro ⟨hne, hb⟩
      rcases (halloc q c).1 hb with ⟨h, -⟩ | h
      · exact absurd h hne
      · exact h

end MM

namespace MM

/-! ### Writes into the payload of an allocated block -/

/-- A payload byte of an allocated block is in no tag and in no free block. -/
theorem allocByte_not_tag {s : State} {bl : List Blk} {a : Nat}
    (hseg : Seg s.mem (firstBlock s) bl) (h : AllocByte s bl a) :
    ∀ q c, BlockAt (firstBlock s) bl q c →
      (a < q - 4 ∨ q ≤ a) ∧ (a < q + c.1 - 8 ∨ q + c.1 - 4 ≤ a)
        ∧ (c.2 = false → a < q - 4 ∨ q + c.1 - 4 ≤ a) := by
  intro q c hq
  refine ⟨?_, ?_, (allocByte_outside hseg h).2 q c hq⟩
  · obtain ⟨p, sz, hb, h1, h2⟩ := h
    obtain ⟨cs, cf⟩ := c
    have d := blocks_apart hseg hb hq
    clear * - d h1 h2
    omega
  · obtain ⟨p, sz, hb, h1, h2⟩ := h
    obtain ⟨cs, cf⟩ := c
    have d := blocks_apart hseg hb hq
    by_cases hpq : p = q
    · subst hpq
      have := BlockAt_unique hseg hb hq
      simp only [Prod.mk.injEq] at this
      obtain ⟨rfl, -⟩ := this
      show a < p + sz - 8 ∨ p + sz - 4 ≤ a
      clear * - h2; omega
    · show a < q + cs - 8 ∨ q + cs - 4 ≤ a
      clear * - d h1 h2 hpq
      omega

/-- A change of memory confined to payload bytes of allocated blocks keeps the
state well formed. -/
theorem Wf_payload_frame {s : State} {bl : List Blk} {fl : List Nat} (hw : Wf s bl fl)
    (m' : Mem) (hfr : ∀ a, ¬ AllocByte s bl a → m' a = s.mem a) :
    Wf (setMem s m') bl fl := by
  obtain ⟨⟨hmax, hbrk, hp1, hp2, hsg, htl, hep⟩, ⟨h0, hhead, hdll⟩, hnd, hblk⟩ := hw
  have hfbv : firstBlock s = s.heap_start + 16 := rfl
  have inside : ∀ a, AllocByte s bl a → firstBlock s ≤ a ∧ a + 8 < s.mem_brk := by
    intro a ha
    have := (allocByte_outside hsg ha).1
    obtain ⟨p, sz, hb, h1, h2⟩ := ha
    have := (BlockAt_bounds hb).1
    omega
  refine ⟨⟨hmax, hbrk, ?_, ?_, ?_, htl, ?_⟩, ⟨h0, hhead, ?_⟩, hnd, hblk⟩
  · show GET m' (s.heap_start + 4) = 9
    rw [← hp1]
    exact GET_congr _ _ _ fun a h1 h2 => hfr a fun h => by
      have := inside a h; omega
  · show GET m' (s.heap_start + 8) = 9
    rw [← hp2]
    exact GET_congr _ _ _ fun a h1 h2 => hfr a fun h => by
      have := inside a h; omega
  · show Seg m' (firstBlock s) bl
    refine Seg_frame (fun q c hq => ?_) hsg
    have k16 := (Seg_block hsg hq).1
    have kq := (BlockAt_bounds hq).1
    constructor
    · exact GET_congr _ _ _ fun a h1 h2 => hfr a fun h => by
        have := (allocByte_not_tag hsg h q c hq).1; omega
    · exact GET_congr _ _ _ fun a h1 h2 => hfr a fun h => by
        have := (allocByte_not_tag hsg h q c hq).2.1; omega
  · show GET m' (s.mem_brk - 4) = 1
    rw [← hep]
    exact GET_congr _ _ _ fun a h1 h2 => hfr a fun h => by
      have := inside a h; omega
  · show DLL m' 0 fl 0
    refine DLL_frame (fun p hp => ?_) hdll
    obtain ⟨sp, hb⟩ := hblk p hp
    have k16 : 16 ≤ sp := (Seg_block hsg hb).1
    constructor
    · exact GET_congr _ _ _ fun a h1 h2 => hfr a fun h => by
        have := (allocByte_not_tag hsg h p _ hb).2.2 rfl
        simp only at this; omega
    · exact GET_congr _ _ _ fun a h1 h2 => hfr a fun h => by
        have := (allocByte_not_tag hsg h p _ hb).2.2 rfl
        simp only at this; omega

theorem InvAt_payload_frame {s : State} {bl : List Blk} {fl live : List Nat}
    (h : InvAt s bl fl live) (m' : Mem) (hfr : ∀ a, ¬ AllocByte s bl a → m' a = s.mem a) :
    InvAt (setMem s m') bl fl live :=
  ⟨Wf_payload_frame h.1 m' hfr, h.2.1, h.2.2.1, h.2.2.2.1, h.2.2.2.2⟩

/-! ### `memcpy` -/

theorem memcpy_frame (n : Nat) : ∀ (m : Mem) (dst src a : Nat), a < dst ∨ dst + n ≤ a →
    memcpy m dst src n a = m a := by
  induction n with
  | zero => intro m dst src a _; rfl
  | succ n ih =>
    intro m dst src a h
    rw [memcpy, ih _ _ _ _ (by omega)]
    have : a ≠ dst := by omega
    simp [this]

/-- Byte `i` of the destination is byte `i` of the source, if the copy has not
overwritten that source byte before reading it. -/
theorem memcpy_read (n : Nat) : ∀ (m : Mem) (dst src i : Nat), i < n →
    src + i < dst ∨ dst ≤ src → memcpy m dst src n (dst + i) = m (src + i) := by
  induction n with
  | zero => intro m dst src i h; omega
  | succ n ih =>
    intro m dst src i hi h
    rw [memcpy]
    cases i with
    | zero =>
      rw [memcpy_frame _ _ _ _ _ (by omega)]
      simp
    | succ i =>
      have e1 : dst + (i + 1) = dst + 1 + i := by omega
      have e2 : src + (i + 1) = src + 1 + i := by omega
      rw [e1, e2, ih _ _ _ _ (by omega) (by omega)]
      have : src + 1 + i ≠ dst := by omega
      simp [this]

end MM

namespace MM

/-! ### `realloc_coalesce`, unfolded by case -/

theorem rc_rel_none (s : State) (ptr newSize : Nat)
    (h1 : GET_ALLOC s.mem (FTRP s.mem (PREV_BLKP s.mem ptr)) ≠ 0)
    (h2 : GET_ALLOC s.mem (HDRP (NEXT_BLKP s.mem ptr)) ≠ 0) :
    realloc_coalesce s ptr newSize = (0, s) := by
  unfold realloc_coalesce
  dsimp only
  rw [if_neg (by simp [h2]), if_neg (by simp [h1]), if_neg (by simp [h1])]

theorem rc_rel_next (s s1 s2 s3 : State) (ptr newSize size : Nat)
    (h1 : GET_ALLOC s.mem (FTRP s.mem (PREV_BLKP s.mem ptr)) ≠ 0)
    (h2 : GET_ALLOC s.mem (HDRP (NEXT_BLKP s.mem ptr)) = 0)
    (e0 : (GET_SIZE s.mem (HDRP ptr) + GET_SIZE s.mem (HDRP (NEXT_BLKP s.mem ptr))) % WORD
      = size)
    (hge : size ≥ newSize)
    (e1 : popNode s (NEXT_BLKP s.mem ptr) = s1)
    (e2 : setMem s1 (PUT s1.mem (HDRP ptr) (PACK size 1)) = s2)
    (e3 : setMem s2 (PUT s2.mem (FTRP s2.mem ptr) (PACK size 1)) = s3) :
    realloc_coalesce s ptr newSize = (ptr, s3) := by
  subst e0 e1 e2 e3
  unfold realloc_coalesce
  dsimp only
  rw [if_pos (by simp [h1, h2]), if_pos hge]

theorem rc_rel_next_small (s : State) (ptr newSize : Nat)
    (h1 : GET_ALLOC s.mem (FTRP s.mem (PREV_BLKP s.mem ptr)) ≠ 0)
    (h2 : GET_ALLOC s.mem (HDRP (NEXT_BLKP s.mem ptr)) = 0)
    (hlt : ¬ (GET_SIZE s.mem (HDRP ptr) + GET_SIZE s.mem (HDRP (NEXT_BLKP s.mem ptr))) % WORD
      ≥ newSize) :
    realloc_coalesce s ptr newSize = (0, s) := by
  unfold realloc_coalesce
  dsimp only
  rw [if_pos (by simp [h1, h2]), if_neg hlt]

theorem rc_rel_prev (s s1 s2 s3 : State) (ptr newSize size : Nat)
    (h1 : GET_ALLOC s.mem (FTRP s.mem (PREV_BLKP s.mem ptr)) = 0)
    (h2 : GET_ALLOC s.mem (HDRP (NEXT_BLKP s.mem ptr)) ≠ 0)
    (e0 : (GET_SIZE s.mem (HDRP ptr) + GET_SIZE s.mem (HDRP (PREV_BLKP s.mem ptr))) % WORD
      = size)
    (hge : size ≥ newSize)
    (e1 : popNode s (PREV_BLKP s.mem ptr) = s1)
    (e2 : setMem s1 (PUT s1.mem (FTRP s1.mem ptr) (PACK size 1)) = s2)
    (e3 : setMem s2 (PUT s2.mem (HDRP (PREV_BLKP s2.mem ptr)) (PACK size 1)) = s3) :
    realloc_coalesce s ptr newSize = (PREV_BLKP s3.mem ptr, s3) := by
  subst e0 e1 e2 e3
  unfold realloc_coalesce
  dsimp only
  rw [if_neg (by simp [h1]), if_pos (by simp [h1, h2]), if_pos hge]

theorem rc_rel_prev_small (s : State) (ptr newSize : Nat)
    (h1 : GET_ALLOC s.mem (FTRP s.mem (PREV_BLKP s.mem ptr)) = 0)
    (h2 : GET_ALLOC s.mem (HDRP (NEXT_BLKP s.mem ptr)) ≠ 0)
    (hlt : ¬ (GET_SIZE s.mem (HDRP ptr) + GET_SIZE s.mem (HDRP (PREV_BLKP s.mem ptr))) % WORD
      ≥ newSize) :
    realloc_coalesce s ptr newSize = (0, s) := by
  unfold realloc_coalesce
  dsimp only
  rw [if_neg (by simp [h1]), if_pos (by simp [h1, h2]), if_neg hlt]

theorem rc_rel_both (s s1 s2 s3 s4 : State) (ptr newSize size : Nat)
    (h1 : GET_ALLOC s.mem (FTRP s.mem (PREV_BLKP s.mem ptr)) = 0)
    (h2 : GET_ALLOC s.mem (HDRP (NEXT_BLKP s.mem ptr)) = 0)
    (e0 : (GET_SIZE s.mem (HDRP ptr) + (GET_SIZE s.mem (FTRP s.mem (NEXT_BLKP s.mem ptr))
      + GET_SIZE s.mem (HDRP (PREV_BLKP s.mem ptr))) % WORD) % WORD = size)
    (hge : size ≥ newSize)
    (e1 : popNode s (PREV_BLKP s.mem ptr) = s1)
    (e2 : popNode s1 (NEXT_BLKP s1.mem ptr) = s2)
    (e3 : setMem s2 (PUT s2.mem (FTRP s2.mem (NEXT_BLKP s2.mem ptr)) (PACK size 1)) = s3)
    (e4 : setMem s3 (PUT s3.mem (HDRP (PREV_BLKP s3.mem ptr)) (PACK size 1)) = s4) :
    realloc_coalesce s ptr newSize = (PREV_BLKP s4.mem ptr, s4) := by
  subst e0 e1 e2 e3 e4
  unfold realloc_coalesce
  dsimp only
  rw [if_neg (by simp [h1]), if_neg (by simp [h2]), if_pos (by simp [h1, h2]), if_pos hge]

theorem rc_rel_both_small (s : State) (ptr newSize : Nat)
    (h1 : GET_ALLOC s.mem (FTRP s.mem (PREV_BLKP s.mem ptr)) = 0)
    (h2 : GET_ALLOC s.mem (HDRP (NEXT_BLKP s.mem ptr)) = 0)
    (hlt : ¬ (GET_SIZE s.mem (HDRP ptr) + (GET_SIZE s.mem (FTRP s.mem (NEXT_BLKP s.mem ptr))
      + GET_SIZE s.mem (HDRP (PREV_BLKP s.mem ptr))) % WORD) % WORD ≥ newSize) :
    realloc_coalesce s ptr newSize = (0, s) := by
  unfold realloc_coalesce
  dsimp only
  rw [if_neg (by simp [h1]), if_neg (by simp [h2]), if_pos (by simp [h1, h2]), if_neg hlt]

/-- Once the free blocks of the run `mid` are out of the index and one
allocated tag pair covers the run, the state is well formed and the index still
holds every free block. -/
theorem absorb_spec {s : State} {pre mid post : List Blk} {fl : List Nat} {P : Nat}
    (hw : Wf s (pre ++ mid ++ post) fl) (hP : P = firstBlock s + total pre)
    (hout : ∀ p ∈ fl, p < P ∨ P + total mid ≤ p)
    (hcomp : ∀ p sz, BlockAt (firstBlock s) (pre ++ mid ++ post) p (sz, false) →
      p < P ∨ P + total mid ≤ p → p ∈ fl)
    (m' : Mem) (hseg : Seg m' P [(total mid, true)])
    (hfr : ∀ a, a < P - 4 ∨ P + total mid - 4 ≤ a → m' a = s.mem a) :
    Wf (setMem s m') (pre ++ (total mid, true) :: post) fl
      ∧ Complete (setMem s m') (pre ++ (total mid, true) :: post) fl := by
  have h16 : 16 ≤ total mid := hseg.1
  have hre : Wf (setMem s m') (pre ++ [(total mid, true)] ++ post) fl :=
    Wf_retag hw m' [(total mid, true)] (by simp [total]) (by rw [← hP]; exact hseg)
      (by rw [← hP]; exact hfr) (by rw [← hP]; exact hout)
  have hl : pre ++ [(total mid, true)] ++ post = pre ++ (total mid, true) :: post := by simp
  rw [hl] at hre
  refine ⟨hre, fun p sz hb => ?_⟩
  rw [firstBlock_setMem] at hb
  have hs := hre.1.2.2.2.2.1
  have hb0 := hb
  rw [BlockAt_append, BlockAt_cons] at hb
  rcases hb with hb | ⟨-, hb⟩ | hb
  · have k := BlockAt_bounds hb
    have k2 : p + sz ≤ firstBlock s + total pre := k.2
    have h0 : 16 ≤ sz := (Seg_block hs hb0).1
    exact hcomp p sz (by rw [BlockAt_append, BlockAt_append]; exact Or.inl (Or.inl hb))
      (by clear * - k2 h0 hP; omega)
  · simp at hb
  · have k := BlockAt_bounds hb
    have k1 : firstBlock s + total pre + total mid ≤ p := k.1
    exact hcomp p sz (by rw [BlockAt_append, total_append, ← Nat.add_assoc]; exact Or.inr hb)
      (by clear * - k1 hP; omega)

end MM

namespace MM

theorem rc_next {s : State} {pre post' : List Blk} {sz : Nat} {fl : List Nat}
    {ptr : Nat} {pb nb : Blk}
    (hw : Wf s (pre ++ (sz, true) :: nb :: post') fl)
    (hptr : ptr = firstBlock s + total pre)
    (hc : Complete s (pre ++ (sz, true) :: nb :: post') fl)
    (hp : PrevIs pre pb) (hpa : pb.2 = true) (hna : nb.2 = false)
    (newSize : Nat) (hge : newSize ≤ sz + nb.1) :
    ∃ s' fl', realloc_coalesce s ptr newSize = (ptr, s')
      ∧ Wf s' (pre ++ (sz + nb.1, true) :: post') fl'
      ∧ Complete s' (pre ++ (sz + nb.1, true) :: post') fl'
      ∧ s'.mem_brk = s.mem_brk ∧ s'.mem_max_addr = s.mem_max_addr
      ∧ s'.heap_start = s.heap_start
      ∧ ∀ a, (∀ p c, BlockAt (firstBlock s) (pre ++ (sz, true) :: nb :: post') p c →
          c.2 = false → a < p - 4 ∨ p + c.1 - 4 ≤ a) →
          (a < ptr - 4 ∨ ptr ≤ a) → (a < ptr + sz - 8 ∨ ptr + sz - 4 ≤ a) →
          s'.mem a = s.mem a := by
  have hn : NextIs (nb :: post') nb := Or.inr ⟨post', rfl⟩
  have T := (tags_at hw.1 hptr hp hn).1
  have b1 : 16 ≤ sz := T.1
  have b2 : sz % 8 = 0 := T.2.1
  have b5 : nb.1 % 8 = 0 := T.2.2.2.2.1
  have b7 : s.heap_start + 16 ≤ ptr := T.2.2.2.2.2.2.1
  have b8 : ptr + sz + nb.1 ≤ s.mem_brk := T.2.2.2.2.2.2.2.1
  have b9 : s.mem_brk < WORD := T.2.2.2.2.2.2.2.2
  have M := macros_at hw.1 hptr hp hn
  have m1 : GET_SIZE s.mem (HDRP ptr) = sz := M.1
  have m4 : NEXT_BLKP s.mem ptr = ptr + sz := M.2.2.2.1
  have m5 := M.2.2.2.2.1
  have m8 := M.2.2.2.2.2.2.2.1
  have m9 := M.2.2.2.2.2.2.2.2.1
  have m10 : GET_SIZE s.mem (HDRP (ptr + sz)) = nb.1 := M.2.2.2.2.2.2.2.2.2.1
  have m11 : GET_ALLOC s.mem (HDRP (ptr + sz)) = bit nb := M.2.2.2.2.2.2.2.2.2.2.1
  clear M T
  have hb1 : bit pb ≠ 0 := (bit_ne_zero pb).2 hpa
  have hb2 : bit nb = 0 := by unfold bit; rw [hna]; rfl
  have hnb : nb = (nb.1, false) := by rw [← hna]
  have hblk0 : BlockAt (firstBlock s) (pre ++ (sz, true) :: nb :: post') ptr (sz, true) :=
    ⟨pre, nb :: post', rfl, hptr⟩
  have hblk1 : BlockAt (firstBlock s) (pre ++ (sz, true) :: nb :: post') (ptr + sz)
      (nb.1, false) :=
    ⟨pre ++ [(sz, true)], post', by rw [← hnb]; simp, by
      rw [total_append, hptr]; simp only [total]; clear * -; omega⟩
  have hseg0 := hw.1.2.2.2.2.1
  have hnb16 : 16 ≤ nb.1 := (Seg_block hseg0 hblk1).1
  obtain ⟨s1, fl1, hs1, hw1, hm1, e11, e12, e13, hfb1, fr1⟩ := popNode_wf' hw (hc _ _ hblk1)
  have hlt : sz + nb.1 + 1 < WORD := by clear * - b8 b9 b7; omega
  have hsum : (sz + nb.1) % WORD = sz + nb.1 := Nat.mod_eq_of_lt (by clear * - hlt; omega)
  obtain ⟨W1, W2, W3⟩ := whole_writes s1.mem ptr (sz + nb.1, true)
    (show 16 ≤ sz + nb.1 by clear * - b1; omega)
    (show (sz + nb.1) % 8 = 0 by clear * - b2 b5; omega) hlt (by clear * - b7; omega)
  obtain ⟨m2, hm2⟩ : ∃ m2 : Mem, m2 = PUT (PUT s1.mem (HDRP ptr) (tagOf (sz + nb.1, true)))
      (FTRP (PUT s1.mem (HDRP ptr) (tagOf (sz + nb.1, true))) ptr) (tagOf (sz + nb.1, true)) :=
    ⟨_, rfl⟩
  rw [← hm2] at W1 W2 W3
  have hP1 : PACK (sz + nb.1) 1 = tagOf (sz + nb.1, true) :=
    PACK_one _ (by clear * - b2 b5; omega)
  have hev := rc_rel_next s s1 _ (setMem s1 m2) ptr newSize (sz + nb.1)
    (by rw [m5, m8, m9]; exact hb1) (by rw [m4, m11]; exact hb2)
    (by rw [m1, m4, m10, hsum]) hge (by rw [m4]; exact hs1) rfl
    (by rw [setMem_mem, setMem_setMem, hP1, hm2])
  have hbl : pre ++ [(sz, true), nb] ++ post' = pre ++ (sz, true) :: nb :: post' := by simp
  have hw1' : Wf s1 (pre ++ [(sz, true), nb] ++ post') fl1 := by rw [hbl]; exact hw1
  have ht : total [(sz, true), nb] = sz + nb.1 := by simp [total]
  obtain ⟨hw', hc'⟩ := absorb_spec hw1' (hptr.trans (by rw [hfb1]))
    (by
      intro p hp1
      rw [ht]
      obtain ⟨hp0, hne1⟩ := (hm1 p).1 hp1
      obtain ⟨sp, hbp⟩ := hw.2.2.2 p hp0
      have d1 := blocks_apart hseg0 hbp hblk0
      have d2 := blocks_apart hseg0 hbp hblk1
      have hne0 := free_ne_alloc hseg0 hbp hblk0
      clear * - d1 d2 hne1 hne0
      omega)
    (by
      intro p sp hbp hpos
      rw [ht] at hpos
      rw [hfb1, hbl] at hbp
      exact (hm1 p).2 ⟨hc p sp hbp, by clear * - hpos b1 hnb16; omega⟩)
    m2 (by rw [ht]; exact W1)
    (by
      intro a ha
      rw [ht] at ha
      exact W2 a ha)
  rw [ht] at hw' hc'
  refine ⟨_, fl1, hev, hw', hc', e11, e12, e13, ?_⟩
  intro a ha h1 h2
  have hlink := links_of_extents hseg0 ha
  have h3 : a < ptr + sz - 4 ∨ ptr + sz + nb.1 - 4 ≤ a := ha _ (nb.1, false) hblk1 rfl
  show m2 a = s.mem a
  rw [W3 a h1 (by
      show a < ptr + (sz + nb.1) - 8 ∨ ptr + (sz + nb.1) - 4 ≤ a
      clear * - h3 hnb16; omega), fr1 a hlink]

theorem rc_prev {s : State} {pre' post : List Blk} {sz : Nat} {fl : List Nat}
    {ptr : Nat} {pb nb : Blk}
    (hw : Wf s (pre' ++ pb :: (sz, true) :: post) fl)
    (hptr : ptr = firstBlock s + total pre' + pb.1)
    (hc : Complete s (pre' ++ pb :: (sz, true) :: post) fl)
    (hn : NextIs post nb) (hpa : pb.2 = false) (hna : nb.2 = true)
    (newSize : Nat) (hge : newSize ≤ pb.1 + sz) :
    ∃ s' fl', realloc_coalesce s ptr newSize = (ptr - pb.1, s')
      ∧ Wf s' (pre' ++ (pb.1 + sz, true) :: post) fl'
      ∧ Complete s' (pre' ++ (pb.1 + sz, true) :: post) fl'
      ∧ s'.mem_brk = s.mem_brk ∧ s'.mem_max_addr = s.mem_max_addr
      ∧ s'.heap_start = s.heap_start
      ∧ ∀ a, (∀ p c, BlockAt (firstBlock s) (pre' ++ pb :: (sz, true) :: post) p c →
          c.2 = false → a < p - 4 ∨ p + c.1 - 4 ≤ a) →
          (a < ptr - 4 ∨ ptr ≤ a) → (a < ptr + sz - 8 ∨ ptr + sz - 4 ≤ a) →
          s'.mem a = s.mem a := by
  have hp : PrevIs (pre' ++ [pb]) pb := Or.inr ⟨pre', rfl⟩
  have hbl0 : pre' ++ pb :: (sz, true) :: post = (pre' ++ [pb]) ++ (sz, true) :: post := by simp
  have hptr0 : ptr = firstBlock s + total (pre' ++ [pb]) := by
    rw [hptr, total_append]; simp only [total]; clear * -; omega
  have hh0 := hw.1
  rw [hbl0] at hh0
  have T := (tags_at hh0 hptr0 hp hn).1
  have b1 : 16 ≤ sz := T.1
  have b2 : sz % 8 = 0 := T.2.1
  have b4 : pb.1 % 8 = 0 := T.2.2.2.1
  have b6 : pb.1 + 8 ≤ ptr := T.2.2.2.2.2.1
  have b7 : s.heap_start + 16 ≤ ptr := T.2.2.2.2.2.2.1
  have b8 : ptr + sz + nb.1 ≤ s.mem_brk := T.2.2.2.2.2.2.2.1
  have b9 : s.mem_brk < WORD := T.2.2.2.2.2.2.2.2
  have M := macros_at hh0 hptr0 hp hn
  have m1 : GET_SIZE s.mem (HDRP ptr) = sz := M.1
  have m4 : NEXT_BLKP s.mem ptr = ptr + sz := M.2.2.2.1
  have m5 := M.2.2.2.2.1
  have m6 := M.2.2.2.2.2.1
  have m8 := M.2.2.2.2.2.2.2.1
  have m9 := M.2.2.2.2.2.2.2.2.1
  have m11 : GET_ALLOC s.mem (HDRP (ptr + sz)) = bit nb := M.2.2.2.2.2.2.2.2.2.2.1
  clear M T
  have hb1 : bit pb = 0 := by unfold bit; rw [hpa]; rfl
  have hb2 : bit nb ≠ 0 := (bit_ne_zero nb).2 hna
  have hpb : pb = (pb.1, false) := by rw [← hpa]
  have hblk0 : BlockAt (firstBlock s) (pre' ++ pb :: (sz, true) :: post) ptr (sz, true) :=
    ⟨pre' ++ [pb], post, by simp, hptr0⟩
  have hblk1 : BlockAt (firstBlock s) (pre' ++ pb :: (sz, true) :: post) (ptr - pb.1)
      (pb.1, false) :=
    ⟨pre', (sz, true) :: post, by rw [← hpb], by clear * - hptr; omega⟩
  have hseg0 := hw.1.2.2.2.2.1
  have hpb16 : 16 ≤ pb.1 := (Seg_block hseg0 hblk1).1
  obtain ⟨s1, fl1, hs1, hw1, hm1, e11, e12, e13, hfb1, fr1⟩ := popNode_wf' hw (hc _ _ hblk1)
  have hh1 := hw1.1
  rw [hbl0] at hh1
  have J := macros_at hh1 (hptr0.trans (by rw [hfb1])) hp hn
  have j3 : FTRP s1.mem ptr = ptr + sz - 8 := J.2.2.1
  have j5 : PREV_BLKP s1.mem ptr = ptr - pb.1 := J.2.2.2.2.1
  clear J
  have hlt : pb.1 + sz + 1 < WORD := by clear * - b8 b9 b6; omega
  have hsum : (sz + pb.1) % WORD = pb.1 + sz := by
    rw [Nat.mod_eq_of_lt (by clear * - hlt; omega)]; clear * -; omega
  have hP1 : PACK (pb.1 + sz) 1 = tagOf (pb.1 + sz, true) :=
    PACK_one _ (by clear * - b2 b4; omega)
  have hprev : PREV_BLKP (PUT s1.mem (ptr + sz - 8) (tagOf (pb.1 + sz, true))) ptr
      = ptr - pb.1 := by
    rw [PREV_BLKP_PUT _ _ _ _ (by clear * - b1; omega), j5]
  obtain ⟨m2, hm2⟩ : ∃ m2 : Mem, m2 = PUT (PUT s1.mem (ptr + sz - 8) (tagOf (pb.1 + sz, true)))
      (HDRP (ptr - pb.1)) (tagOf (pb.1 + sz, true)) := ⟨_, rfl⟩
  have hfa : ptr + sz - 8 = ptr - pb.1 + (pb.1 + sz, true).1 - 8 := by
    show ptr + sz - 8 = ptr - pb.1 + (pb.1 + sz) - 8
    clear * - b6; omega
  have W1 : Seg m2 (ptr - pb.1) [(pb.1 + sz, true)] := by
    rw [hm2, hfa]
    exact Seg_one_fh _ _ (pb.1 + sz, true) (show 16 ≤ pb.1 + sz by clear * - b1; omega)
      (show (pb.1 + sz) % 8 = 0 by clear * - b2 b4; omega) hlt (by clear * - b6; omega)
  have W2 : ∀ a, a < ptr - pb.1 - 4 ∨ ptr - pb.1 + (pb.1 + sz) - 4 ≤ a → m2 a = s1.mem a := by
    intro a ha
    rw [hm2]
    exact PUT2_frame _ _ _ _ _ _ (by clear * - ha b1 b6 hpb16; omega)
      (by unfold HDRP WSIZE; clear * - ha b1 b6 hpb16; omega)
  have hprev2 : PREV_BLKP m2 ptr = ptr - pb.1 := by
    rw [hm2, PREV_BLKP_PUT _ _ _ _ (by unfold HDRP WSIZE; clear * - b6 hpb16; omega)]
    exact hprev
  have hev := rc_rel_prev s s1 _ (setMem s1 m2) ptr newSize (pb.1 + sz)
    (by rw [m5, m8, m9]; exact hb1) (by rw [m4, m11]; exact hb2)
    (by rw [m1, m5, m6, hsum]) hge (by rw [m5]; exact hs1) rfl
    (by rw [setMem_mem, setMem_setMem, j3, hP1, hprev, hm2])
  rw [setMem_mem, hprev2] at hev
  have hbl : pre' ++ [pb, (sz, true)] ++ post = pre' ++ pb :: (sz, true) :: post := by simp
  have hw1' : Wf s1 (pre' ++ [pb, (sz, true)] ++ post) fl1 := by rw [hbl]; exact hw1
  have ht : total [pb, (sz, true)] = pb.1 + sz := by simp [total]
  have hP : ptr - pb.1 = firstBlock s1 + total pre' := by rw [hfb1]; clear * - hptr; omega
  obtain ⟨hw', hc'⟩ := absorb_spec hw1' hP
    (by
      intro p hp1
      rw [ht]
      obtain ⟨hp0, hne1⟩ := (hm1 p).1 hp1
      obtain ⟨sp, hbp⟩ := hw.2.2.2 p hp0
      have d1 := blocks_apart hseg0 hbp hblk0
      have d2 := blocks_apart hseg0 hbp hblk1
      have hne0 := free_ne_alloc hseg0 hbp hblk0
      clear * - d1 d2 hne1 hne0 b6
      omega)
    (by
      intro p sp hbp hpos
      rw [ht] at hpos
      rw [hfb1, hbl] at hbp
      exact (hm1 p).2 ⟨hc p sp hbp, by clear * - hpos b1 hpb16 b6; omega⟩)
    m2 (by rw [ht]; exact W1)
    (by
      intro a ha
      rw [ht] at ha
      exact W2 a ha)
  rw [ht] at hw' hc'
  refine ⟨_, fl1, hev, hw', hc', e11, e12, e13, ?_⟩
  intro a ha h1 h2
  have hlink := links_of_extents hseg0 ha
  have h3 : a < ptr - pb.1 - 4 ∨ ptr - pb.1 + pb.1 - 4 ≤ a := ha _ (pb.1, false) hblk1 rfl
  show m2 a = s.mem a
  rw [hm2, PUT2_frame _ _ _ _ _ _ (by clear * - h2 b1; omega)
    (by unfold HDRP WSIZE; clear * - h3 b6 hpb16; omega), fr1 a hlink]

end MM

namespace MM

theorem rc_both {s : State} {pre' post' : List Blk} {sz : Nat} {fl : List Nat}
    {ptr : Nat} {pb nb : Blk}
    (hw : Wf s (pre' ++ pb :: (sz, true) :: nb :: post') fl)
    (hptr : ptr = firstBlock s + total pre' + pb.1)
    (hc : Complete s (pre' ++ pb :: (sz, true) :: nb :: post') fl)
    (hpa : pb.2 = false) (hna : nb.2 = false)
    (newSize : Nat) (hge : newSize ≤ pb.1 + sz + nb.1) :
    ∃ s' fl', realloc_coalesce s ptr newSize = (ptr - pb.1, s')
      ∧ Wf s' (pre' ++ (pb.1 + sz + nb.1, true) :: post') fl'
      ∧ Complete s' (pre' ++ (pb.1 + sz + nb.1, true) :: post') fl'
      ∧ s'.mem_brk = s.mem_brk ∧ s'.mem_max_addr = s.mem_max_addr
      ∧ s'.heap_start = s.heap_start
      ∧ ∀ a, (∀ p c, BlockAt (firstBlock s) (pre' ++ pb :: (sz, true) :: nb :: post') p c →
          c.2 = false → a < p - 4 ∨ p + c.1 - 4 ≤ a) →
          (a < ptr - 4 ∨ ptr ≤ a) → (a < ptr + sz - 8 ∨ ptr + sz - 4 ≤ a) →
          s'.mem a = s.mem a := by
  have hp : PrevIs (pre' ++ [pb]) pb := Or.inr ⟨pre', rfl⟩
  have hn : NextIs (nb :: post') nb := Or.inr ⟨post', rfl⟩
  have hbl0 : pre' ++ pb :: (sz, true) :: nb :: post'
      = (pre' ++ [pb]) ++ (sz, true) :: nb :: post' := by simp
  have hptr0 : ptr = firstBlock s + total (pre' ++ [pb]) := by
    rw [hptr, total_append]; simp only [total]; clear * -; omega
  have hh0 := hw.1
  rw [hbl0] at hh0
  have T := (tags_at hh0 hptr0 hp hn).1
  have b1 : 16 ≤ sz := T.1
  have b2 : sz % 8 = 0 := T.2.1
  have b4 : pb.1 % 8 = 0 := T.2.2.2.1
  have b5 : nb.1 % 8 = 0 := T.2.2.2.2.1
  have b6 : pb.1 + 8 ≤ ptr := T.2.2.2.2.2.1
  have b7 : s.heap_start + 16 ≤ ptr := T.2.2.2.2.2.2.1
  have b8 : ptr + sz + nb.1 ≤ s.mem_brk := T.2.2.2.2.2.2.2.1
  have b9 : s.mem_brk < WORD := T.2.2.2.2.2.2.2.2
  have hpb : pb = (pb.1, false) := by rw [← hpa]
  have hnb : nb = (nb.1, false) := by rw [← hna]
  have hblk0 : BlockAt (firstBlock s) (pre' ++ pb :: (sz, true) :: nb :: post') ptr
      (sz, true) := ⟨pre' ++ [pb], nb :: post', by simp, hptr0⟩
  have hblk1 : BlockAt (firstBlock s) (pre' ++ pb :: (sz, true) :: nb :: post') (ptr - pb.1)
      (pb.1, false) :=
    ⟨pre', (sz, true) :: nb :: post', by rw [← hpb], by clear * - hptr; omega⟩
  have hblk2 : BlockAt (firstBlock s) (pre' ++ pb :: (sz, true) :: nb :: post') (ptr + sz)
      (nb.1, false) :=
    ⟨pre' ++ [pb, (sz, true)], post', by rw [← hnb]; simp, by
      rw [total_append, hptr]; simp only [total]; clear * -; omega⟩
  have hseg0 := hw.1.2.2.2.2.1
  have hpb16 : 16 ≤ pb.1 := (Seg_block hseg0 hblk1).1
  have hnb16 : 16 ≤ nb.1 := (Seg_block hseg0 hblk2).1
  have M := macros_at hh0 hptr0 hp hn
  have m1 : GET_SIZE s.mem (HDRP ptr) = sz := M.1
  have m4 : NEXT_BLKP s.mem ptr = ptr + sz := M.2.2.2.1
  have m5 := M.2.2.2.2.1
  have m6 := M.2.2.2.2.2.1
  have m8 := M.2.2.2.2.2.2.2.1
  have m9 := M.2.2.2.2.2.2.2.2.1
  have m11 : GET_ALLOC s.mem (HDRP (ptr + sz)) = bit nb := M.2.2.2.2.2.2.2.2.2.2.1
  have m12 : FTRP s.mem (ptr + sz) = ptr + sz + nb.1 - 8 := M.2.2.2.2.2.2.2.2.2.2.2.1
  have m13 : GET_SIZE s.mem (ptr + sz + nb.1 - 8) = nb.1 :=
    M.2.2.2.2.2.2.2.2.2.2.2.2 (by clear * - hnb16; omega)
  clear M T
  have hb1 : bit pb = 0 := by unfold bit; rw [hpa]; rfl
  have hb2 : bit nb = 0 := by unfold bit; rw [hna]; rfl
  -- the two pops
  obtain ⟨s1, fl1, hs1, hw1, hm1, e11, e12, e13, hfb1, fr1⟩ := popNode_wf' hw (hc _ _ hblk1)
  have hh1 := hw1.1
  rw [hbl0] at hh1
  have k4 : NEXT_BLKP s1.mem ptr = ptr + sz :=
    (macros_at hh1 (hptr0.trans (by rw [hfb1])) hp hn).2.2.2.1
  have hin1 : ptr + sz ∈ fl1 := (hm1 _).2 ⟨hc _ _ hblk2, by clear * - b6 b1; omega⟩
  obtain ⟨s2, fl2, hs2, hw2, hm2, e21, e22, e23, hfb2', fr2⟩ := popNode_wf' hw1 hin1
  have hfb2 : firstBlock s2 = firstBlock s := hfb2'.trans hfb1
  have hh2 := hw2.1
  rw [hbl0] at hh2
  have J := macros_at hh2 (hptr0.trans (by rw [hfb2])) hp hn
  have j4 : NEXT_BLKP s2.mem ptr = ptr + sz := J.2.2.2.1
  have j5 : PREV_BLKP s2.mem ptr = ptr - pb.1 := J.2.2.2.2.1
  have j12 : FTRP s2.mem (ptr + sz) = ptr + sz + nb.1 - 8 := J.2.2.2.2.2.2.2.2.2.2.2.1
  clear J
  have hlt : pb.1 + sz + nb.1 + 1 < WORD := by clear * - b8 b9 b6; omega
  have hsum : (sz + (nb.1 + pb.1) % WORD) % WORD = pb.1 + sz + nb.1 := by
    rw [Nat.mod_eq_of_lt (a := nb.1 + pb.1) (by clear * - hlt; omega),
      Nat.mod_eq_of_lt (by clear * - hlt; omega)]
    clear * -; omega
  have hP1 : PACK (pb.1 + sz + nb.1) 1 = tagOf (pb.1 + sz + nb.1, true) :=
    PACK_one _ (by clear * - b2 b4 b5; omega)
  have hprev : PREV_BLKP (PUT s2.mem (ptr + sz + nb.1 - 8) (tagOf (pb.1 + sz + nb.1, true))) ptr
      = ptr - pb.1 := by
    rw [PREV_BLKP_PUT _ _ _ _ (by clear * - b1; omega), j5]
  obtain ⟨m2, hm2'⟩ : ∃ m2 : Mem, m2 =
      PUT (PUT s2.mem (ptr + sz + nb.1 - 8) (tagOf (pb.1 + sz + nb.1, true)))
      (HDRP (ptr - pb.1)) (tagOf (pb.1 + sz + nb.1, true)) := ⟨_, rfl⟩
  have hfa : ptr + sz + nb.1 - 8 = ptr - pb.1 + (pb.1 + sz + nb.1, true).1 - 8 := by
    show ptr + sz + nb.1 - 8 = ptr - pb.1 + (pb.1 + sz + nb.1) - 8
    clear * - b6; omega
  have W1 : Seg m2 (ptr - pb.1) [(pb.1 + sz + nb.1, true)] := by
    rw [hm2', hfa]
    exact Seg_one_fh _ _ (pb.1 + sz + nb.1, true)
      (show 16 ≤ pb.1 + sz + nb.1 by clear * - b1; omega)
      (show (pb.1 + sz + nb.1) % 8 = 0 by clear * - b2 b4 b5; omega) hlt
      (by clear * - b6; omega)
  have W2 : ∀ a, a < ptr - pb.1 - 4 ∨ ptr - pb.1 + (pb.1 + sz + nb.1) - 4 ≤ a →
      m2 a = s2.mem a := by
    intro a ha
    rw [hm2']
    exact PUT2_frame _ _ _ _ _ _ (by clear * - ha b1 b6 hpb16 hnb16; omega)
      (by unfold HDRP WSIZE; clear * - ha b1 b6 hpb16; omega)
  have hprev2 : PREV_BLKP m2 ptr = ptr - pb.1 := by
    rw [hm2', PREV_BLKP_PUT _ _ _ _ (by unfold HDRP WSIZE; clear * - b6 hpb16; omega)]
    exact hprev
  have hev := rc_rel_both s s1 s2 _ (setMem s2 m2) ptr newSize (pb.1 + sz + nb.1)
    (by rw [m5, m8, m9]; exact hb1) (by rw [m4, m11]; exact hb2)
    (by rw [m1, m4, m12, m13, m5, m6, hsum]) hge (by rw [m5]; exact hs1)
    (by rw [k4]; exact hs2) rfl
    (by rw [setMem_mem, setMem_setMem, j4, j12, hP1, hprev, hm2'])
  rw [setMem_mem, hprev2] at hev
  have hbl : pre' ++ [pb, (sz, true), nb] ++ post'
      = pre' ++ pb :: (sz, true) :: nb :: post' := by simp
  have hw2' : Wf s2 (pre' ++ [pb, (sz, true), nb] ++ post') fl2 := by rw [hbl]; exact hw2
  have ht : total [pb, (sz, true), nb] = pb.1 + sz + nb.1 := by
    simp only [total]; clear * -; omega
  have hP : ptr - pb.1 = firstBlock s2 + total pre' := by rw [hfb2]; clear * - hptr; omega
  obtain ⟨hw', hc'⟩ := absorb_spec hw2' hP
    (by
      intro p hp2
      rw [ht]
      obtain ⟨hp1, hne2⟩ := (hm2 p).1 hp2
      obtain ⟨hp0, hne1⟩ := (hm1 p).1 hp1
      obtain ⟨sp, hbp⟩ := hw.2.2.2 p hp0
      have d1 := blocks_apart hseg0 hbp hblk0
      have d2 := blocks_apart hseg0 hbp hblk1
      have d3 := blocks_apart hseg0 hbp hblk2
      have hne0 := free_ne_alloc hseg0 hbp hblk0
      clear * - d1 d2 d3 hne1 hne2 hne0 b6
      omega)
    (by
      intro p sp hbp hpos
      rw [ht] at hpos
      rw [hfb2, hbl] at hbp
      exact (hm2 p).2 ⟨(hm1 p).2 ⟨hc p sp hbp, by clear * - hpos b1 hpb16 b6; omega⟩,
        by clear * - hpos b1 hpb16 hnb16 b6; omega⟩)
    m2 (by rw [ht]; exact W1)
    (by
      intro a ha
      rw [ht] at ha
      exact W2 a ha)
  rw [ht] at hw' hc'
  refine ⟨_, fl2, hev, hw', hc', by rw [← e11, ← e21]; rfl, by rw [← e12, ← e22]; rfl,
    by rw [← e13, ← e23]; rfl, ?_⟩
  intro a ha h1 h2
  have hlink := links_of_extents hseg0 ha
  have h3 : a < ptr - pb.1 - 4 ∨ ptr - pb.1 + pb.1 - 4 ≤ a := ha _ (pb.1, false) hblk1 rfl
  have h4 : a < ptr + sz - 4 ∨ ptr + sz + nb.1 - 4 ≤ a := ha _ (nb.1, false) hblk2 rfl
  show m2 a = s.mem a
  rw [hm2', PUT2_frame _ _ _ _ _ _ (by clear * - h4 hnb16; omega)
    (by unfold HDRP WSIZE; clear * - h3 b6 hpb16; omega), fr2 a (by rw [hfb1]; exact hlink),
    fr1 a hlink]

/-- The function `realloc_coalesce` on an allocated block: it gives up (`NULL`, nothing
changed) when no neighbour is free or the block with its free neighbours is
too small, and otherwise absorbs the free neighbours. -/
theorem realloc_coalesce_spec {s : State} {pre post : List Blk} {sz : Nat} {fl : List Nat}
    {ptr : Nat} {pb nb : Blk}
    (hw : Wf s (pre ++ (sz, true) :: post) fl)
    (hptr : ptr = firstBlock s + total pre)
    (hc : Complete s (pre ++ (sz, true) :: post) fl)
    (hp : PrevIs pre pb) (hn : NextIs post nb) (newSize : Nat) :
    (((pb.2 = true ∧ nb.2 = true)
        ∨ (if pb.2 then 0 else pb.1) + sz + (if nb.2 then 0 else nb.1) < newSize)
      ∧ realloc_coalesce s ptr newSize = (0, s))
    ∨ (¬ (pb.2 = true ∧ nb.2 = true)
      ∧ newSize ≤ (if pb.2 then 0 else pb.1) + sz + (if nb.2 then 0 else nb.1)
      ∧ ∃ s' fl' pre' post', realloc_coalesce s ptr newSize = (firstBlock s + total pre', s')
        ∧ Wf s' (pre' ++ ((if pb.2 then 0 else pb.1) + sz + (if nb.2 then 0 else nb.1), true)
            :: post') fl'
        ∧ Complete s' (pre' ++ ((if pb.2 then 0 else pb.1) + sz + (if nb.2 then 0 else nb.1),
            true) :: post') fl'
        ∧ pre = pre' ++ (if pb.2 then [] else [pb])
        ∧ post = (if nb.2 then [] else [nb]) ++ post'
        ∧ s'.mem_brk = s.mem_brk ∧ s'.mem_max_addr = s.mem_max_addr
        ∧ s'.heap_start = s.heap_start
        ∧ ∀ a, (∀ p c, BlockAt (firstBlock s) (pre ++ (sz, true) :: post) p c →
            c.2 = false → a < p - 4 ∨ p + c.1 - 4 ≤ a) →
            (a < ptr - 4 ∨ ptr ≤ a) → (a < ptr + sz - 8 ∨ ptr + sz - 4 ≤ a) →
            s'.mem a = s.mem a) := by
  have T := (tags_at hw.1 hptr hp hn).1
  have b6 : pb.1 + 8 ≤ ptr := T.2.2.2.2.2.1
  have b7 : s.heap_start + 16 ≤ ptr := T.2.2.2.2.2.2.1
  have b8 : ptr + sz + nb.1 ≤ s.mem_brk := T.2.2.2.2.2.2.2.1
  have b9 : s.mem_brk < WORD := T.2.2.2.2.2.2.2.2
  have M := macros_at hw.1 hptr hp hn
  have m1 : GET_SIZE s.mem (HDRP ptr) = sz := M.1
  have m4 : NEXT_BLKP s.mem ptr = ptr + sz := M.2.2.2.1
  have m5 := M.2.2.2.2.1
  have m6 := M.2.2.2.2.2.1
  have m8 := M.2.2.2.2.2.2.2.1
  have m9 := M.2.2.2.2.2.2.2.2.1
  have m10 : GET_SIZE s.mem (HDRP (ptr + sz)) = nb.1 := M.2.2.2.2.2.2.2.2.2.1
  have m11 : GET_ALLOC s.mem (HDRP (ptr + sz)) = bit nb := M.2.2.2.2.2.2.2.2.2.2.1
  have m12 : FTRP s.mem (ptr + sz) = ptr + sz + nb.1 - 8 := M.2.2.2.2.2.2.2.2.2.2.2.1
  have m13 := M.2.2.2.2.2.2.2.2.2.2.2.2
  clear M T
  have hlt : pb.1 + sz + nb.1 < WORD := by clear * - b6 b8 b9; omega
  cases hpa : pb.2 <;> cases hna : nb.2
  · -- both neighbours free
    obtain ⟨pre', rfl⟩ : ∃ pre', pre = pre' ++ [pb] := by
      rcases hp with ⟨-, h⟩ | h
      · rw [h] at hpa; exact absurd hpa (by simp)
      · exact h
    obtain ⟨post', rfl⟩ : ∃ post', post = nb :: post' := by
      rcases hn with ⟨-, h⟩ | h
      · rw [h] at hna; exact absurd hna (by simp)
      · exact h
    have e : pre' ++ [pb] ++ (sz, true) :: nb :: post'
        = pre' ++ pb :: (sz, true) :: nb :: post' := by simp
    have hn16 : 16 ≤ nb.1 :=
      (Seg_block hw.1.2.2.2.2.1 ⟨pre' ++ [pb] ++ [(sz, true)], post', by simp, rfl⟩).1
    have hptr' : ptr = firstBlock s + total pre' + pb.1 := by
      rw [hptr, total_append]; simp only [total]; clear * -; omega
    simp only [Bool.false_eq_true, if_false, false_and, not_false_eq_true, true_and, false_or]
    by_cases hfit : newSize ≤ pb.1 + sz + nb.1
    · right
      refine ⟨hfit, ?_⟩
      rw [e] at hw hc
      obtain ⟨s', fl', h1, h2, h3, h4, h5, h6, h7⟩ := rc_both hw hptr' hc hpa hna newSize hfit
      refine ⟨s', fl', pre', post', ?_, h2, h3, by simp, by simp, h4, h5, h6, ?_⟩
      · rw [h1, hptr']; congr 1; clear * -; omega
      · rw [e]; exact h7
    · left
      refine ⟨by clear * - hfit; omega, ?_⟩
      refine rc_rel_both_small s ptr newSize (by rw [m5, m8, m9]; unfold bit; rw [hpa]; rfl)
        (by rw [m4, m11]; unfold bit; rw [hna]; rfl) ?_
      rw [m1, m4, m12, m13 (by clear * - hn16; omega), m5, m6,
        Nat.mod_eq_of_lt (a := nb.1 + pb.1) (by clear * - hlt; omega),
        Nat.mod_eq_of_lt (by clear * - hlt; omega)]
      clear * - hfit; omega
  · -- the block before is free
    obtain ⟨pre', rfl⟩ : ∃ pre', pre = pre' ++ [pb] := by
      rcases hp with ⟨-, h⟩ | h
      · rw [h] at hpa; exact absurd hpa (by simp)
      · exact h
    have e : pre' ++ [pb] ++ (sz, true) :: post = pre' ++ pb :: (sz, true) :: post := by simp
    have hptr' : ptr = firstBlock s + total pre' + pb.1 := by
      rw [hptr, total_append]; simp only [total]; clear * -; omega
    simp only [Bool.false_eq_true, if_false, false_and, not_false_eq_true, true_and, false_or,
      if_true, Nat.add_zero]
    by_cases hfit : newSize ≤ pb.1 + sz
    · right
      refine ⟨hfit, ?_⟩
      rw [e] at hw hc
      obtain ⟨s', fl', h1, h2, h3, h4, h5, h6, h7⟩ := rc_prev hw hptr' hc hn hpa hna newSize hfit
      refine ⟨s', fl', pre', post, ?_, h2, h3, by simp, by simp, h4, h5, h6, ?_⟩
      · rw [h1, hptr']; congr 1; clear * -; omega
      · rw [e]; exact h7
    · left
      refine ⟨by clear * - hfit; omega, ?_⟩
      refine rc_rel_prev_small s ptr newSize (by rw [m5, m8, m9]; unfold bit; rw [hpa]; rfl)
        (by rw [m4, m11]; exact (bit_ne_zero nb).2 hna) ?_
      rw [m1, m5, m6, Nat.mod_eq_of_lt (by clear * - hlt; omega)]
      clear * - hfit; omega
  · -- the block after is free
    obtain ⟨post', rfl⟩ : ∃ post', post = nb :: post' := by
      rcases hn with ⟨-, h⟩ | h
      · rw [h] at hna; exact absurd hna (by simp)
      · exact h
    simp only [Bool.false_eq_true, if_false, and_false, not_false_eq_true, true_and, false_or,
      if_true, Nat.zero_add]
    by_cases hfit : newSize ≤ sz + nb.1
    · right
      refine ⟨hfit, ?_⟩
      obtain ⟨s', fl', h1, h2, h3, h4, h5, h6, h7⟩ := rc_next hw hptr hc hp hpa hna newSize hfit
      refine ⟨s', fl', pre, post', ?_, h2, h3, by simp, by simp, h4, h5, h6, h7⟩
      rw [h1, hptr]
    · left
      refine ⟨by clear * - hfit; omega, ?_⟩
      refine rc_rel_next_small s ptr newSize (by rw [m5, m8, m9]; exact (bit_ne_zero pb).2 hpa)
        (by rw [m4, m11]; unfold bit; rw [hna]; rfl) ?_
      rw [m1, m4, m10, Nat.mod_eq_of_lt (by clear * - hlt; omega)]
      clear * - hfit; omega
  · -- no free neighbour
    left
    exact ⟨Or.inl ⟨rfl, rfl⟩, rc_rel_none s ptr newSize
      (by rw [m5, m8, m9]; exact (bit_ne_zero pb).2 hpa)
      (by rw [m4, m11]; exact (bit_ne_zero nb).2 hna)⟩

end MM

namespace MM

/-! ### `mm_realloc`, unfolded by path -/

theorem realloc_null (s : State) (n : Nat) : mm_realloc s 0 n = mm_malloc s n := by
  unfold mm_realloc
  rw [if_pos rfl]

theorem realloc_zero (s : State) (ptr : Nat) (hp : ptr ≠ 0) :
    mm_realloc s ptr 0 = (mm_free s ptr).map fun s => (0, s) := by
  unfold mm_realloc
  rw [if_neg hp, if_pos rfl]

theorem realloc_keep (s s1 s2 : State) (ptr n : Nat) (hp : ptr ≠ 0) (hn : n ≠ 0)
    (hle : ¬ GET_SIZE s.mem (HDRP ptr) < getSize n)
    (e1 : setMem s (PUT s.mem (HDRP ptr) (PACK (GET_SIZE s.mem (HDRP ptr)) 1)) = s1)
    (e2 : setMem s1 (PUT s1.mem (FTRP s1.mem ptr) (PACK (GET_SIZE s1.mem (HDRP ptr)) 1)) = s2) :
    mm_realloc s ptr n = some (ptr, s2) := by
  subst e1 e2
  unfold mm_realloc
  rw [if_neg hp, if_neg hn]
  dsimp only
  rw [if_neg hle]

theorem realloc_grow (s s1 s2 s3 s4 : State) (ptr n new : Nat) (hp : ptr ≠ 0) (hn : n ≠ 0)
    (hlt : GET_SIZE s.mem (HDRP ptr) < getSize n)
    (e0 : realloc_coalesce s ptr (getSize n) = (new, s1)) (hnew : new ≠ 0)
    (e1 : (if new ≠ ptr then setMem s1 (memcpy s1.mem new ptr n) else s1) = s2)
    (e2 : setMem s2 (PUT s2.mem (HDRP new) (PACK (GET_SIZE s2.mem (HDRP new)) 1)) = s3)
    (e3 : setMem s3 (PUT s3.mem (FTRP s3.mem new) (PACK (GET_SIZE s3.mem (HDRP new)) 1)) = s4) :
    mm_realloc s ptr n = some (new, s4) := by
  subst e1 e2 e3
  unfold mm_realloc
  rw [if_neg hp, if_neg hn]
  dsimp only
  rw [if_pos hlt, e0]
  dsimp only
  rw [if_neg hnew]

theorem realloc_fallback_fail (s s1 s2 : State) (ptr n : Nat) (hp : ptr ≠ 0) (hn : n ≠ 0)
    (hlt : GET_SIZE s.mem (HDRP ptr) < getSize n)
    (e0 : realloc_coalesce s ptr (getSize n) = (0, s1))
    (e1 : mm_malloc s1 n = some (0, s2)) :
    mm_realloc s ptr n = none := by
  unfold mm_realloc
  rw [if_neg hp, if_neg hn]
  dsimp only
  rw [if_pos hlt, e0]
  dsimp only
  rw [if_pos rfl, e1]
  dsimp only
  rw [if_pos rfl]

theorem realloc_fallback (s s1 s2 : State) (ptr n q : Nat) (hp : ptr ≠ 0) (hn : n ≠ 0)
    (hlt : GET_SIZE s.mem (HDRP ptr) < getSize n)
    (e0 : realloc_coalesce s ptr (getSize n) = (0, s1))
    (e1 : mm_malloc s1 n = some (q, s2)) (hq : q ≠ 0) :
    mm_realloc s ptr n
      = (mm_free (setMem s2 (memcpy s2.mem q ptr n)) ptr).map fun s => (q, s) := by
  unfold mm_realloc
  rw [if_neg hp, if_neg hn]
  dsimp only
  rw [if_pos hlt, e0]
  dsimp only
  rw [if_pos rfl, e1]
  dsimp only
  rw [if_neg hq]

/-- Writing the tags of an allocated block once more changes nothing but the
bytes of these tags, and keeps the state well formed. -/
theorem retag_same {s : State} {bl : List Blk} {fl : List Nat} (hw : Wf s bl fl)
    {ptr S : Nat} (hb : BlockAt (firstBlock s) bl ptr (S, true)) :
    Wf (setMem (setMem s (PUT s.mem (HDRP ptr) (PACK (GET_SIZE s.mem (HDRP ptr)) 1)))
        (PUT (setMem s (PUT s.mem (HDRP ptr) (PACK (GET_SIZE s.mem (HDRP ptr)) 1))).mem
          (FTRP (setMem s (PUT s.mem (HDRP ptr) (PACK (GET_SIZE s.mem (HDRP ptr)) 1))).mem ptr)
          (PACK (GET_SIZE (setMem s (PUT s.mem (HDRP ptr)
            (PACK (GET_SIZE s.mem (HDRP ptr)) 1))).mem (HDRP ptr)) 1))) bl fl
    ∧ ∀ a, a < ptr - 4 ∨ ptr ≤ a → a < ptr + S - 8 ∨ ptr + S - 4 ≤ a →
      (PUT (setMem s (PUT s.mem (HDRP ptr) (PACK (GET_SIZE s.mem (HDRP ptr)) 1))).mem
          (FTRP (setMem s (PUT s.mem (HDRP ptr) (PACK (GET_SIZE s.mem (HDRP ptr)) 1))).mem ptr)
          (PACK (GET_SIZE (setMem s (PUT s.mem (HDRP ptr)
            (PACK (GET_SIZE s.mem (HDRP ptr)) 1))).mem (HDRP ptr)) 1)) a = s.mem a := by
  obtain ⟨pre, post, rfl, hptr⟩ := hb
  obtain ⟨pb, hp⟩ := exists_PrevIs pre
  obtain ⟨nb, hn⟩ := exists_NextIs post
  have T := (tags_at hw.1 hptr hp hn).1
  have b1 : 16 ≤ S := T.1
  have b2 : S % 8 = 0 := T.2.1
  have b7 : s.heap_start + 16 ≤ ptr := T.2.2.2.2.2.2.1
  have b8 : ptr + S + nb.1 ≤ s.mem_brk := T.2.2.2.2.2.2.2.1
  have b9 : s.mem_brk < WORD := T.2.2.2.2.2.2.2.2
  have m1 : GET_SIZE s.mem (HDRP ptr) = S := (macros_at hw.1 hptr hp hn).1
  clear T
  have hSW : S + 1 < WORD := by clear * - b8 b9 b7; omega
  obtain ⟨W1, W2, W3⟩ := whole_writes s.mem ptr (S, true) b1 b2 hSW (by clear * - b7; omega)
  have hP1 : PACK S 1 = tagOf (S, true) := PACK_one S b2
  have hg : GET_SIZE (PUT s.mem (HDRP ptr) (tagOf (S, true))) (HDRP ptr) = S :=
    GET_SIZE_tag _ _ (S, true) (GET_PUT_same _ _ _ (tagOf_lt (S, true) hSW)) b2
  simp only [setMem_mem, setMem_setMem, m1, hP1, hg]
  have hbl : pre ++ [(S, true)] ++ post = pre ++ (S, true) :: post := by simp
  have hw0 : Wf s (pre ++ [(S, true)] ++ post) fl := by rw [hbl]; exact hw
  have ht1 : total [(S, true)] = S := by simp [total]
  have hre := Wf_retag hw0 _ [(S, true)] rfl (by rw [← hptr]; exact W1)
    (by
      intro a ha
      rw [← hptr, ht1] at ha
      exact W2 a ha)
    (by
      intro p hp1
      rw [← hptr, ht1]
      obtain ⟨sp, hbp⟩ := hw.2.2.2 p hp1
      have hblk : BlockAt (firstBlock s) (pre ++ (S, true) :: post) ptr (S, true) :=
        ⟨pre, post, rfl, hptr⟩
      have d1 := blocks_apart hw.1.2.2.2.2.1 hbp hblk
      have hne := free_ne_alloc hw.1.2.2.2.2.1 hbp hblk
      clear * - d1 hne
      omega)
  rw [hbl] at hre
  exact ⟨hre, fun a h1 h2 => W3 a h1 h2⟩

/-- The allocated blocks once an allocated block has absorbed its free
neighbours. -/
theorem alloc_blocks_absorb {m : Mem} (bp : Nat) (pre' Xp Xn post' : List Blk) (sz S : Nat)
    (hXp : ∀ b ∈ Xp, b.2 = false) (hXn : ∀ b ∈ Xn, b.2 = false)
    (hS : total Xp + sz + total Xn = S)
    (hseg : Seg m bp (pre' ++ Xp ++ (sz, true) :: (Xn ++ post'))) (q c : Nat) :
    BlockAt bp (pre' ++ (S, true) :: post') q (c, true) ↔
      (q = bp + total pre' ∧ c = S)
        ∨ (q ≠ bp + total pre' + total Xp
          ∧ BlockAt bp (pre' ++ Xp ++ (sz, true) :: (Xn ++ post')) q (c, true)) := by
  have no : ∀ (r : Nat) (l : List Blk), (∀ b ∈ l, b.2 = false) → ¬ BlockAt r l q (c, true) := by
    rintro r l hl ⟨x, y, rfl, -⟩
    have := hl (c, true) (by simp)
    exact absurd this (by simp)
  have h16 : 16 ≤ sz :=
    (Seg_block hseg ⟨pre' ++ Xp, Xn ++ post', rfl, rfl⟩).1
  have hexp : BlockAt bp (pre' ++ Xp ++ (sz, true) :: (Xn ++ post')) q (c, true) ↔
      BlockAt bp pre' q (c, true) ∨ BlockAt (bp + total pre') Xp q (c, true)
        ∨ (q = bp + total pre' + total Xp ∧ c = sz)
        ∨ BlockAt (bp + total pre' + total Xp + sz) Xn q (c, true)
        ∨ BlockAt (bp + total pre' + S) post' q (c, true) := by
    rw [BlockAt_append bp (pre' ++ Xp), BlockAt_append bp pre', BlockAt_cons,
      BlockAt_append _ Xn, total_append]
    have e1 : bp + (total pre' + total Xp) = bp + total pre' + total Xp := by
      clear * - hS; omega
    have e2 : bp + total pre' + total Xp + ((sz, true) : Blk).1 + total Xn
        = bp + total pre' + S := by
      show bp + total pre' + total Xp + sz + total Xn = bp + total pre' + S
      clear * - hS; omega
    rw [e1, e2]
    simp only [Prod.mk.injEq, and_true]
    tauto
  rw [hexp, BlockAt_append, BlockAt_cons]
  simp only [Prod.mk.injEq, and_true]
  constructor
  · rintro (h | ⟨h1, h2⟩ | h)
    · have k : q + c ≤ bp + total pre' := (BlockAt_bounds h).2
      have hb : BlockAt bp (pre' ++ Xp ++ (sz, true) :: (Xn ++ post')) q (c, true) :=
        hexp.2 (Or.inl h)
      have kc : 16 ≤ c := (Seg_block hseg hb).1
      exact Or.inr ⟨by clear * - k kc; omega, Or.inl h⟩
    · exact Or.inl ⟨h1, h2⟩
    · have k : bp + total pre' + S ≤ q := (BlockAt_bounds h).1
      exact Or.inr ⟨by clear * - k hS h16; omega, Or.inr (Or.inr (Or.inr (Or.inr h)))⟩
  · rintro (⟨h1, h2⟩ | ⟨hne, h | h | ⟨h, -⟩ | h | h⟩)
    · exact Or.inr (Or.inl ⟨h1, h2⟩)
    · exact Or.inl h
    · exact absurd h (no _ _ hXp)
    · exact absurd h hne
    · exact absurd h (no _ _ hXn)
    · exact Or.inr (Or.inr h)

end MM

namespace MM

/-- An allocated block that absorbs its neighbours leaves no two neighbouring
free blocks. -/
theorem Coalesced_absorb {pre post pre' post' Xp Xn : List Blk} {sz S : Nat}
    (h : Coalesced (pre ++ (sz, true) :: post))
    (e1 : pre = pre' ++ Xp) (e2 : post = Xn ++ post') :
    Coalesced (pre' ++ (S, true) :: post') := by
  rw [Coalesced_append_cons] at h ⊢
  obtain ⟨h1, h2, -, -⟩ := h
  subst e1 e2
  exact ⟨List.Chain'.left_of_append h1, List.Chain'.right_of_append h2,
    fun _ _ => Or.inr rfl, fun _ _ => Or.inl rfl⟩

/-- The invariant does not depend on the order of the live pointers. -/
theorem InvAt_live {s : State} {bl : List Blk} {fl live live' : List Nat}
    (h : InvAt s bl fl live) (hnd : live'.Nodup) (hm : ∀ p, p ∈ live' ↔ p ∈ live) :
    InvAt s bl fl live' :=
  ⟨h.1, h.2.1, h.2.2.1, hnd, fun p => (hm p).trans (h.2.2.2.2 p)⟩

theorem nodup_cons_erase {live : List Nat} {ptr : Nat} (hnd : live.Nodup) (hl : ptr ∈ live) :
    (ptr :: live.erase ptr).Nodup ∧ ∀ p, p ∈ ptr :: live.erase ptr ↔ p ∈ live := by
  refine ⟨List.nodup_cons.2 ⟨fun h => ?_, hnd.erase ptr⟩, fun p => ?_⟩
  · exact ((List.Nodup.mem_erase_iff hnd).1 h).1 rfl
  · rw [List.mem_cons, List.Nodup.mem_erase_iff hnd]
    constructor
    · rintro (rfl | ⟨-, h⟩)
      · exact hl
      · exact h
    · intro h
      by_cases e : p = ptr
      · exact Or.inl e
      · exact Or.inr ⟨e, h⟩

/-- The path of `mm_realloc` that keeps the block: the block is large enough,
its tags are written once more. -/
theorem realloc_keep_spec {s : State} {bl : List Blk} {fl live : List Nat}
    (hinv : InvAt s bl fl live) {ptr sz : Nat}
    (hb : BlockAt (firstBlock s) bl ptr (sz, true)) (n : Nat) (hn : n ≠ 0)
    (hle : getSize n ≤ sz) :
    ∃ s', mm_realloc s ptr n = some (ptr, s') ∧ InvAt s' bl fl live
      ∧ s'.mem_brk = s.mem_brk ∧ s'.mem_max_addr = s.mem_max_addr
      ∧ s'.heap_start = s.heap_start
      ∧ s'.segregated_free_list = s.segregated_free_list
      ∧ ∀ a, a < ptr - 4 ∨ ptr ≤ a → a < ptr + sz - 8 ∨ ptr + sz - 4 ≤ a →
          s'.mem a = s.mem a := by
  obtain ⟨hw, hc, hco, hlnd, hlive⟩ := hinv
  have hb0 := hb
  obtain ⟨pre, post, rfl, hptr⟩ := hb
  obtain ⟨pb, hp⟩ := exists_PrevIs pre
  obtain ⟨nb, hnx⟩ := exists_NextIs post
  have m1 : GET_SIZE s.mem (HDRP ptr) = sz := (macros_at hw.1 hptr hp hnx).1
  have b7 : s.heap_start + 16 ≤ ptr := (tags_at hw.1 hptr hp hnx).1.2.2.2.2.2.2.1
  obtain ⟨R1, R2⟩ := retag_same hw hb0
  refine ⟨_, realloc_keep s _ _ ptr n (by clear * - b7; omega) hn
    (by rw [m1]; clear * - hle; omega) rfl rfl, ⟨R1, hc, hco, hlnd, hlive⟩, rfl, rfl, rfl, rfl, ?_⟩
  intro a h1 h2
  exact R2 a h1 h2

end MM

namespace MM

theorem run_facts (b : Blk) :
    (∀ x ∈ (if b.2 then ([] : List Blk) else [b]), x.2 = false)
      ∧ total (if b.2 then ([] : List Blk) else [b]) = if b.2 then 0 else b.1 := by
  cases h : b.2
  · simp [total, h]
  · simp [total]

/-- The copy of `mm_realloc` into a block that starts at or before the old
block and holds `n` payload bytes. -/
theorem realloc_copy {s1 : State} {bl1 : List Blk} {fl1 : List Nat} (hw1 : Wf s1 bl1 fl1)
    {q S ptr n : Nat} (hbq : BlockAt (firstBlock s1) bl1 q (S, true)) (hn : n + 8 ≤ S)
    (hqp : q ≤ ptr) :
    ∃ s2, (if q ≠ ptr then setMem s1 (memcpy s1.mem q ptr n) else s1) = s2
      ∧ Wf s2 bl1 fl1 ∧ s2.heap_start = s1.heap_start ∧ s2.mem_brk = s1.mem_brk
      ∧ s2.mem_max_addr = s1.mem_max_addr
      ∧ (∀ a, a < q ∨ q + n ≤ a → s2.mem a = s1.mem a)
      ∧ ∀ i, i < n → s2.mem (q + i) = s1.mem (ptr + i) := by
  by_cases hq : q = ptr
  · refine ⟨s1, by rw [if_neg (not_not.2 hq)], hw1, rfl, rfl, rfl, fun _ _ => rfl, ?_⟩
    intro i _
    rw [hq]
  · refine ⟨setMem s1 (memcpy s1.mem q ptr n), by rw [if_pos hq], ?_, rfl, rfl, rfl, ?_, ?_⟩
    · apply Wf_payload_frame hw1
      intro a ha
      apply memcpy_frame
      by_contra hc
      apply ha
      refine ⟨q, S, hbq, ?_, ?_⟩
      · clear * - hc; omega
      · clear * - hc hn; omega
    · intro a ha
      exact memcpy_frame n _ _ _ _ ha
    · intro i hi
      exact memcpy_read n _ _ _ _ hi (Or.inr hqp)

end MM

namespace MM

/-- The path of `mm_realloc` that grows the block in place: the block absorbs
its free neighbours, the payload is copied when the block moves to the address
of its predecessor, and the whole merged block stays allocated. -/
theorem realloc_inplace_spec {s : State} {pre post : List Blk} {sz : Nat} {fl live : List Nat}
    {ptr : Nat} {pb nb : Blk}
    (hinv : InvAt s (pre ++ (sz, true) :: post) fl live)
    (hptr : ptr = firstBlock s + total pre)
    (hp : PrevIs pre pb) (hn : NextIs post nb) (n : Nat) (hn0 : n ≠ 0) (hv : validRequest n)
    (hlt : sz < getSize n) (hfree : ¬ (pb.2 = true ∧ nb.2 = true))
    (hS : getSize n ≤ (if pb.2 then 0 else pb.1) + sz + (if nb.2 then 0 else nb.1)) :
    ∃ s' fl' pre' post', mm_realloc s ptr n = some (firstBlock s + total pre', s')
      ∧ InvAt s' (pre' ++ ((if pb.2 then 0 else pb.1) + sz + (if nb.2 then 0 else nb.1), true)
          :: post') fl' ((firstBlock s + total pre') :: live.erase ptr)
      ∧ pre = pre' ++ (if pb.2 then [] else [pb])
      ∧ post = (if nb.2 then [] else [nb]) ++ post'
      ∧ s'.mem_brk = s.mem_brk ∧ s'.mem_max_addr = s.mem_max_addr
      ∧ s'.heap_start = s.heap_start
      ∧ (∀ x, x ∈ fl' → x ∈ fl)
      ∧ (∀ p c a, BlockAt (firstBlock s) (pre ++ (sz, true) :: post) p (c, true) → p ≠ ptr →
          p ≤ a → a < p + c - 8 → s'.mem a = s.mem a)
      ∧ ∀ i, i < sz - 8 → i < n → s'.mem (firstBlock s + total pre' + i) = s.mem (ptr + i) := by
  obtain ⟨hw, hc, hco, hlnd, hlive⟩ := hinv
  have hseg : Seg s.mem (firstBlock s) (pre ++ (sz, true) :: post) := hw.1.2.2.2.2.1
  have hblk : BlockAt (firstBlock s) (pre ++ (sz, true) :: post) ptr (sz, true) :=
    ⟨pre, post, rfl, hptr⟩
  have m1 : GET_SIZE s.mem (HDRP ptr) = sz := (macros_at hw.1 hptr hp hn).1
  have T := (tags_at hw.1 hptr hp hn).1
  have b1 : 16 ≤ sz := T.1
  have b7 : s.heap_start + 16 ≤ ptr := T.2.2.2.2.2.2.1
  clear T
  obtain ⟨g1, g2, g3, g4, g5⟩ := getSize_spec n hv
  rcases realloc_coalesce_spec hw hptr hc hp hn (getSize n) with ⟨h, -⟩ | ⟨-, -, H⟩
  · rcases h with h | h
    · exact absurd h hfree
    · exact absurd hS (by clear * - h; omega)
  obtain ⟨s1, fl1, pre', post', e0, hw1, hc1, e1, e2, f1, f2, f3, fr1⟩ := H
  obtain ⟨hXp, htp⟩ := run_facts pb
  obtain ⟨hXn, htn⟩ := run_facts nb
  have hfb1 : firstBlock s1 = firstBlock s := by unfold firstBlock; rw [f3]
  have hSt : total (if pb.2 then ([] : List Blk) else [pb]) + sz
      + total (if nb.2 then ([] : List Blk) else [nb])
      = (if pb.2 then 0 else pb.1) + sz + (if nb.2 then 0 else nb.1) := by rw [htp, htn]
  have hpq : ptr = firstBlock s + total pre' + total (if pb.2 then ([] : List Blk) else [pb]) := by
    rw [hptr, e1, total_append, Nat.add_assoc]
  have hbl : pre ++ (sz, true) :: post
      = pre' ++ (if pb.2 then ([] : List Blk) else [pb]) ++ (sz, true)
        :: ((if nb.2 then ([] : List Blk) else [nb]) ++ post') := by rw [← e1, ← e2]
  have habs := alloc_blocks_absorb (firstBlock s) pre' _ _ post' sz _ hXp hXn hSt
    (by rw [← hbl]; exact hseg)
  rw [← hbl, ← hpq] at habs
  generalize hSdef : (if pb.2 then 0 else pb.1) + sz + (if nb.2 then 0 else nb.1) = S at *
  generalize hqdef : firstBlock s + total pre' = q at *
  have hqp : q ≤ ptr := by rw [hpq]; clear * -; omega
  have hq0 : s.heap_start + 16 ≤ q := by
    rw [← hqdef]; unfold firstBlock; clear * -; omega
  have hbq1 : BlockAt (firstBlock s1) (pre' ++ (S, true) :: post') q (S, true) :=
    ⟨pre', post', rfl, by rw [hfb1, hqdef]⟩
  have hseg1 : Seg s1.mem (firstBlock s1) (pre' ++ (S, true) :: post') := hw1.1.2.2.2.2.1
  -- the new address is no live pointer other than `ptr`
  have hqnl : ∀ c, BlockAt (firstBlock s) (pre ++ (sz, true) :: post) q (c, true) → q = ptr := by
    intro c hb
    by_contra hne
    have h1 := (habs q c).2 (Or.inr ⟨hne, hb⟩)
    rw [← hfb1] at h1
    have hu := BlockAt_unique hseg1 h1 hbq1
    simp only [Prod.mk.injEq, and_true] at hu
    subst hu
    -- then the block at `q` in the old layout spans the old block
    have d := blocks_apart hseg hb hblk
    clear * - d hpq hSt hne
    omega
  obtain ⟨s2, e21, hw2, k1, k2, k3, fr2, ct2⟩ :=
    @realloc_copy _ _ _ hw1 _ _ ptr n hbq1 (by clear * - g3 hS; omega) hqp
  have hfb2 : firstBlock s2 = firstBlock s1 := by unfold firstBlock; rw [k1]
  have hbq2 : BlockAt (firstBlock s2) (pre' ++ (S, true) :: post') q (S, true) := by
    rw [hfb2]; exact hbq1
  obtain ⟨R1, R2⟩ := retag_same hw2 hbq2
  have hother : ∀ p c a, BlockAt (firstBlock s) (pre ++ (sz, true) :: post) p (c, true) →
      p ≠ ptr → p ≤ a → a < p + c - 8 →
      (a < q - 4 ∨ q + S ≤ a) ∧ s1.mem a = s.mem a := by
    intro p c a hb hne h1 h2
    have hb1 := (habs p c).2 (Or.inr ⟨hne, hb⟩)
    have hpq' : p ≠ q := fun h => hne (by rw [h]; exact hqnl c (by rw [← h]; exact hb))
    rw [← hfb1] at hb1
    have d := blocks_apart hseg1 hb1 hbq1
    have hab : AllocByte s (pre ++ (sz, true) :: post) a := ⟨p, c, hb, h1, h2⟩
    refine ⟨by clear * - d hpq' h1 h2; omega, ?_⟩
    have t := allocByte_not_tag hseg hab ptr (sz, true) hblk
    exact fr1 a (fun x cx hx hf => (allocByte_not_tag hseg hab x cx hx).2.2 hf) t.1 t.2.1
  have key : ∃ s', mm_realloc s ptr n = some (q, s')
      ∧ InvAt s' (pre' ++ (S, true) :: post') fl1 (q :: live.erase ptr)
      ∧ s'.mem_brk = s.mem_brk ∧ s'.mem_max_addr = s.mem_max_addr
      ∧ s'.heap_start = s.heap_start
      ∧ (∀ p c a, BlockAt (firstBlock s) (pre ++ (sz, true) :: post) p (c, true) → p ≠ ptr →
          p ≤ a → a < p + c - 8 → s'.mem a = s.mem a)
      ∧ ∀ i, i < sz - 8 → i < n → s'.mem (q + i) = s.mem (ptr + i) := by
    refine ⟨_, realloc_grow s s1 s2 _ _ ptr n q (by clear * - b7; omega) hn0
      (by rw [m1]; exact hlt) e0 (by clear * - hq0; omega) e21 rfl rfl, ?_,
      by rw [← f1, ← k2]; rfl, by rw [← f2, ← k3]; rfl, by rw [← f3, ← k1]; rfl, ?_, ?_⟩
    · refine ⟨R1, ?_, Coalesced_absorb hco e1 e2, ?_, ?_⟩
      · intro p c hb
        exact hc1 p c (by rw [← hfb2]; exact hb)
      · refine List.nodup_cons.2 ⟨fun h => ?_, hlnd.erase ptr⟩
        obtain ⟨hne, hm⟩ := (List.Nodup.mem_erase_iff hlnd).1 h
        obtain ⟨c, hb⟩ := (hlive q).1 hm
        exact hne (hqnl c hb)
      · intro p
        rw [List.mem_cons, List.Nodup.mem_erase_iff hlnd, hlive p]
        have e : ∀ c, BlockAt (firstBlock s2) (pre' ++ (S, true) :: post') p (c, true) ↔
            (p = q ∧ c = S) ∨ (p ≠ ptr ∧
              BlockAt (firstBlock s) (pre ++ (sz, true) :: post) p (c, true)) := by
          intro c
          rw [hfb2, hfb1]
          exact habs p c
        constructor
        · rintro (h | ⟨hne, c, hb⟩)
          · exact ⟨S, (e S).2 (Or.inl ⟨h, rfl⟩)⟩
          · exact ⟨c, (e c).2 (Or.inr ⟨hne, hb⟩)⟩
        · rintro ⟨c, hb⟩
          rcases (e c).1 hb with ⟨h, -⟩ | ⟨hne, hb'⟩
          · exact Or.inl h
          · exact Or.inr ⟨hne, c, hb'⟩
    · intro p c a hb hne h1 h2
      obtain ⟨o1, o2⟩ := hother p c a hb hne h1 h2
      exact (R2 a (by clear * - o1; omega) (by clear * - o1 hq0 g1 hS; omega)).trans
        ((fr2 a (by clear * - o1 g3 hS; omega)).trans o2)
    · intro i hi hin
      refine (R2 (q + i) (by clear * -; omega) (by clear * - hin g3 hS; omega)).trans
        ((ct2 i hin).trans ?_)
      have hab : AllocByte s (pre ++ (sz, true) :: post) (ptr + i) :=
        ⟨ptr, sz, hblk, by clear * -; omega, by clear * - hi; omega⟩
      exact fr1 _ (fun x cx hx hf => (allocByte_not_tag hseg hab x cx hx).2.2 hf)
        (by clear * -; omega) (by clear * - hi; omega)
  have hsub : ∀ x, x ∈ fl1 → x ∈ fl := by
    intro x hx
    obtain ⟨cx, hbx⟩ := hw1.2.2.2 x hx
    rw [hfb1] at hbx
    -- a free block of the new layout is a free block of the old one
    have : BlockAt (firstBlock s) (pre ++ (sz, true) :: post) x (cx, false) := by
      rw [hbl]
      rw [BlockAt_append, BlockAt_cons] at hbx
      rw [BlockAt_append (firstBlock s) (pre' ++ _), BlockAt_append (firstBlock s) pre',
        BlockAt_cons, BlockAt_append _ (if nb.2 then ([] : List Blk) else [nb]), total_append]
      rcases hbx with h | ⟨-, h⟩ | h
      · exact Or.inl (Or.inl h)
      · simp at h
      · right; right; right
        have e : firstBlock s + (total pre' + total (if pb.2 then ([] : List Blk) else [pb]))
            + ((sz, true) : Blk).1 + total (if nb.2 then ([] : List Blk) else [nb])
            = firstBlock s + total pre' + ((S, true) : Blk).1 := by
          show firstBlock s + (total pre' + total (if pb.2 then ([] : List Blk) else [pb]))
            + sz + total (if nb.2 then ([] : List Blk) else [nb]) = firstBlock s + total pre' + S
          clear * - hSt; omega
        rw [e]
        exact h
    exact hc x cx this
  obtain ⟨s', r1, r2, r3, r4, r5, r6, r7⟩ := key
  subst hqdef
  exact ⟨s', fl1, pre', post', r1, r2, e1, e2, r3, r4, r5, hsub, r6, r7⟩

end MM

namespace MM

/-- The path of `mm_realloc` that allocates a new block, copies and frees the
old block.  When `mm_malloc` returns `NULL` the copy stores through the null
pointer and the call does not return. -/
theorem realloc_fallback_spec {s : State} {pre post : List Blk} {sz : Nat} {fl live : List Nat}
    {ptr : Nat} {pb nb : Blk}
    (hinv : InvAt s (pre ++ (sz, true) :: post) fl live)
    (hptr : ptr = firstBlock s + total pre)
    (hp : PrevIs pre pb) (hn : NextIs post nb) (n : Nat) (hn0 : n ≠ 0) (hv : validRequest n)
    (hlt : sz < getSize n)
    (hno : (pb.2 = true ∧ nb.2 = true)
      ∨ (if pb.2 then 0 else pb.1) + sz + (if nb.2 then 0 else nb.1) < getSize n) :
    (mm_realloc s ptr n = none ∧ mm_malloc s n = some (0, s)
        ∧ realloc_coalesce s ptr (getSize n) = (0, s))
    ∨ ∃ q s' bl' fl' S, mm_realloc s ptr n = some (q, s') ∧ q ≠ 0 ∧ q ≠ ptr
      ∧ InvAt s' bl' fl' (q :: live.erase ptr)
      ∧ BlockAt (firstBlock s') bl' q (S, true) ∧ getSize n ≤ S
      ∧ s'.heap_start = s.heap_start ∧ s'.mem_max_addr = s.mem_max_addr
      ∧ s.mem_brk ≤ s'.mem_brk
      ∧ (∀ p c a, BlockAt (firstBlock s) (pre ++ (sz, true) :: post) p (c, true) → p ≠ ptr →
          p ≤ a → a < p + c - 8 → s'.mem a = s.mem a)
      ∧ ∀ i, i < sz - 8 → i < n → s'.mem (q + i) = s.mem (ptr + i) := by
  have hinv0 := hinv
  obtain ⟨hw, hc, hco, hlnd, hlive⟩ := hinv
  have hseg : Seg s.mem (firstBlock s) (pre ++ (sz, true) :: post) := hw.1.2.2.2.2.1
  have hblk : BlockAt (firstBlock s) (pre ++ (sz, true) :: post) ptr (sz, true) :=
    ⟨pre, post, rfl, hptr⟩
  have hl : ptr ∈ live := (hlive ptr).2 ⟨sz, hblk⟩
  have m1 : GET_SIZE s.mem (HDRP ptr) = sz := (macros_at hw.1 hptr hp hn).1
  have b7 : s.heap_start + 16 ≤ ptr := (tags_at hw.1 hptr hp hn).1.2.2.2.2.2.2.1
  have hp0 : ptr ≠ 0 := by clear * - b7; omega
  obtain ⟨g1, g2, g3, g4, g5⟩ := getSize_spec n hv
  have e0 : realloc_coalesce s ptr (getSize n) = (0, s) := by
    rcases realloc_coalesce_spec hw hptr hc hp hn (getSize n) with ⟨-, h⟩ | ⟨h1, h2, -⟩
    · exact h
    · rcases hno with h | h
      · exact absurd h h1
      · exact absurd h2 (by clear * - h; omega)
  have hlt' : GET_SIZE s.mem (HDRP ptr) < getSize n := by rw [m1]; exact hlt
  rcases malloc_spec hinv0 n hn0 hv with ⟨hm, -⟩ | H
  · exact Or.inl ⟨realloc_fallback_fail s s s ptr n hp0 hn0 hlt' e0 hm, hm, e0⟩
  right
  obtain ⟨q, s1, bl1, fl1, S, hm, hq0, hinv1, hbq, hSn, hs1, hmax1, hbrk1, hch, hfr⟩ := H
  have hfb1 : firstBlock s1 = firstBlock s := by unfold firstBlock; rw [hs1]
  have hseg1 : Seg s1.mem (firstBlock s1) bl1 := hinv1.1.1.2.2.2.2.1
  have hqnl : q ∉ live := (List.nodup_cons.1 hinv1.2.2.2.1).1
  have hqp : q ≠ ptr := fun h => hqnl (h ▸ hl)
  have hbp1 : BlockAt (firstBlock s1) bl1 ptr (sz, true) := by
    rw [hfb1]; exact (hch ptr sz).2 (Or.inr hblk)
  -- the copy
  have hinv2 : InvAt (setMem s1 (memcpy s1.mem q ptr n)) bl1 fl1 (q :: live) := by
    apply InvAt_payload_frame hinv1
    intro a ha
    apply memcpy_frame
    by_contra hcon
    apply ha
    exact ⟨q, S, hbq, by clear * - hcon; omega, by clear * - hcon g3 hSn; omega⟩
  obtain ⟨s', bl', fl', -, -, -, -, -, -, -, hfree, hinv', -, -, -, -, -, -, -, fb, fm, fh, ffr, fal⟩ :=
    free_spec hinv2 (List.mem_cons_of_mem q hl)
  have hfb2 : firstBlock (setMem s1 (memcpy s1.mem q ptr n)) = firstBlock s1 := rfl
  have hfb' : firstBlock s' = firstBlock s1 := by
    unfold firstBlock; rw [fh]; rfl
  have herase : (q :: live).erase ptr = q :: live.erase ptr := by
    rw [List.erase_cons_tail]
    simpa using hqp
  rw [herase] at hinv'
  have dq := blocks_apart hseg1 hbp1 hbq
  refine ⟨q, s', bl', fl', S, ?_, hq0, hqp, hinv', ?_, hSn, by rw [fh]; exact hs1,
    by rw [fm]; exact hmax1, ?_, ?_, ?_⟩
  · rw [realloc_fallback s s s1 ptr n q hp0 hn0 hlt' e0 hm hq0, hfree]
    rfl
  · rw [hfb', ← hfb2]
    exact (fal q S).2 ⟨hqp, hbq⟩
  · rw [fb]
    show s.mem_brk ≤ s1.mem_brk
    rcases hbrk1 with h | ⟨h, -⟩
    · rw [h]
    · rw [h]; clear * -; omega
  · intro p c a hb hne h1 h2
    have hb1 : BlockAt (firstBlock s1) bl1 p (c, true) := by
      rw [hfb1]; exact (hch p c).2 (Or.inr hb)
    have hpq : p ≠ q := fun h => hqnl (h ▸ (hlive p).2 ⟨c, hb⟩)
    have d := blocks_apart hseg1 hb1 hbq
    rw [ffr p c a hb1 hne h1 h2]
    show memcpy s1.mem q ptr n a = s.mem a
    rw [memcpy_frame n _ _ _ _ (by clear * - d hpq h1 h2 g3 hSn; omega)]
    exact hfr a ⟨p, c, hb, h1, h2⟩
  · intro i hi hin
    rw [ffr q S (q + i) hbq hqp (by clear * -; omega) (by clear * - hin g3 hSn; omega)]
    show memcpy s1.mem q ptr n (q + i) = s.mem (ptr + i)
    rw [memcpy_read n _ _ _ _ hin (by clear * - dq hqp hi; omega)]
    exact hfr _ ⟨ptr, sz, hblk, by clear * -; omega, by clear * - hi; omega⟩

end MM

namespace MM

/-- The function `mm_realloc` of a live pointer with a supported size `n > 0`.  Either the
block has to move to a new block and `mm_malloc` cannot get one, and the call
does not return; or it returns a live pointer to a block of at least
`getSize n` bytes whose payload starts with the old payload, the payloads of the
other live pointers being untouched. -/
theorem realloc_spec {s : State} {bl : List Blk} {fl live : List Nat}
    (hinv : InvAt s bl fl live) {ptr : Nat} (hl : ptr ∈ live) (n : Nat) (hn0 : n ≠ 0)
    (hv : validRequest n) :
    (mm_realloc s ptr n = none ∧ mm_malloc s n = some (0, s)
        ∧ realloc_coalesce s ptr (getSize n) = (0, s)
        ∧ GET_SIZE s.mem (HDRP ptr) < getSize n)
    ∨ ∃ q s' bl' fl' sz S, mm_realloc s ptr n = some (q, s') ∧ q ≠ 0
      ∧ InvAt s' bl' fl' (q :: live.erase ptr)
      ∧ BlockAt (firstBlock s) bl ptr (sz, true)
      ∧ BlockAt (firstBlock s') bl' q (S, true) ∧ getSize n ≤ S
      ∧ s'.heap_start = s.heap_start ∧ s'.mem_max_addr = s.mem_max_addr
      ∧ s.mem_brk ≤ s'.mem_brk
      ∧ (∀ p c a, BlockAt (firstBlock s) bl p (c, true) → p ≠ ptr →
          p ≤ a → a < p + c - 8 → s'.mem a = s.mem a)
      ∧ ∀ i, i < sz - 8 → i < n → s'.mem (q + i) = s.mem (ptr + i) := by
  have hinv0 := hinv
  obtain ⟨hw, hc, hco, hlnd, hlive⟩ := hinv
  obtain ⟨sz, hblk⟩ := (hlive ptr).1 hl
  have hblk0 := hblk
  have hseg := hw.1.2.2.2.2.1
  obtain ⟨pre, post, rfl, hptr⟩ := hblk
  obtain ⟨pb, hp⟩ := exists_PrevIs pre
  obtain ⟨nb, hn⟩ := exists_NextIs post
  have m1 : GET_SIZE s.mem (HDRP ptr) = sz := (macros_at hw.1 hptr hp hn).1
  have b7 : s.heap_start + 16 ≤ ptr := (tags_at hw.1 hptr hp hn).1.2.2.2.2.2.2.1
  by_cases hlt : sz < getSize n
  · by_cases hfit : ¬ (pb.2 = true ∧ nb.2 = true)
        ∧ getSize n ≤ (if pb.2 then 0 else pb.1) + sz + (if nb.2 then 0 else nb.1)
    · right
      obtain ⟨s', fl', pre', post', r1, r2, -, -, r3, r4, r5, -, r6, r7⟩ :=
        realloc_inplace_spec hinv0 hptr hp hn n hn0 hv hlt hfit.1 hfit.2
      have hfb : firstBlock s' = firstBlock s := by unfold firstBlock; rw [r5]
      exact ⟨_, s', _, fl', sz, _, r1, by unfold firstBlock; clear * -; omega, r2, hblk0,
        ⟨pre', post', rfl, by rw [hfb]⟩, hfit.2, r5, r4, by rw [r3], r6, r7⟩
    · have hno : (pb.2 = true ∧ nb.2 = true)
          ∨ (if pb.2 then 0 else pb.1) + sz + (if nb.2 then 0 else nb.1) < getSize n := by
        by_cases h : pb.2 = true ∧ nb.2 = true
        · exact Or.inl h
        · right
          by_contra h'
          exact hfit ⟨h, by clear * - h'; omega⟩
      rcases realloc_fallback_spec hinv0 hptr hp hn n hn0 hv hlt hno with ⟨h1, h2, h3⟩ | H
      · exact Or.inl ⟨h1, h2, h3, by rw [m1]; exact hlt⟩
      · right
        obtain ⟨q, s', bl', fl', S, r1, r2, -, r3, r4, r5, r6, r7, r8, r9, r10⟩ := H
        exact ⟨q, s', bl', fl', sz, S, r1, r2, r3, hblk0, r4, r5, r6, r7, r8, r9, r10⟩
  · right
    obtain ⟨s', r1, r2, r3, r4, r5, -, r6⟩ :=
      realloc_keep_spec hinv0 hblk0 n hn0 (by clear * - hlt; omega)
    obtain ⟨k1, k2⟩ := nodup_cons_erase hlnd hl
    have hfb : firstBlock s' = firstBlock s := by unfold firstBlock; rw [r5]
    refine ⟨ptr, s', _, fl, sz, sz, r1, by clear * - b7; omega, InvAt_live r2 k1 k2, hblk0,
      by rw [hfb]; exact hblk0, by clear * - hlt; omega, r5, r4, by rw [r3], ?_, ?_⟩
    · intro p c a hb hne h1 h2
      have d := blocks_apart hseg hb hblk0
      exact r6 a (by clear * - d hne h1 h2; omega) (by clear * - d hne h1 h2; omega)
    · intro i hi _
      exact r6 _ (by clear * -; omega) (by clear * - hi; omega)

/-- A store of the client into the payload of a live pointer keeps the
invariant. -/
theorem store_spec {s : State} {bl : List Blk} {fl live : List Nat}
    (hinv : InvAt s bl fl live) {p : Nat} (hl : p ∈ live) (i v : Nat)
    (hi : i < GET_SIZE s.mem (HDRP p) - DSIZE) :
    InvAt (store s (p + i) v) bl fl live := by
  obtain ⟨sz, hblk⟩ := (hinv.2.2.2.2 p).1 hl
  have hblk0 := hblk
  obtain ⟨pre, post, rfl, hptr⟩ := hblk
  obtain ⟨pb, hp⟩ := exists_PrevIs pre
  obtain ⟨nb, hn⟩ := exists_NextIs post
  have m1 : GET_SIZE s.mem (HDRP p) = sz := (macros_at hinv.1.1 hptr hp hn).1
  rw [m1] at hi
  unfold DSIZE at hi
  apply InvAt_payload_frame hinv
  intro a ha
  have : a ≠ p + i := by
    rintro rfl
    exact ha ⟨p, sz, hblk0, by clear * -; omega, by clear * - hi; omega⟩
  simp [this]

end MM

namespace MM

/-- The state of `mm_init` before its call of `extend_heap`. -/
theorem init_rel (s0 s4 : State) (hroom : ¬ s0.mem_brk + 4 * WSIZE > s0.mem_max_addr)
    (e : ({ mem := PUT (PUT (PUT (PUT s0.mem s0.mem_brk 0) (s0.mem_brk + WSIZE) (PACK DSIZE 1))
              (s0.mem_brk + 2 * WSIZE) (PACK DSIZE 1)) (s0.mem_brk + 3 * WSIZE) (PACK 0 1),
            mem_brk := s0.mem_brk + 4 * WSIZE, mem_max_addr := s0.mem_max_addr,
            heap_start := s0.mem_brk, segregated_free_list := fun _ => 0 } : State) = s4) :
    mm_init s0 = match extend_heap s4 (CHUNKSIZE / DSIZE) with
      | none => none
      | some (r, s) => if r = 0 then some (-1, s) else some (0, s) := by
  subst e
  unfold mm_init mem_sbrk
  dsimp only
  rw [if_neg hroom]
  rfl

theorem init_fail (s0 : State) (hroom : s0.mem_brk + 4 * WSIZE > s0.mem_max_addr) :
    mm_init s0 = some (-1, { s0 with segregated_free_list := fun _ => 0 }) := by
  unfold mm_init mem_sbrk
  dsimp only
  rw [if_pos hroom]

/-- The function `mm_init` on a region whose addresses fit a pointer: it returns `-1` when a
growth request fails, and otherwise `0` with a heap of one free block of
`CHUNKSIZE / DSIZE = 512` bytes, which is the only node of the index. -/
theorem init_spec (s0 : State) (hmax : s0.mem_max_addr < WORD) :
    (s0.mem_brk + 16 + 512 > s0.mem_max_addr ∧ ∃ s, mm_init s0 = some (-1, s))
    ∨ (s0.mem_brk + 16 + 512 ≤ s0.mem_max_addr
      ∧ ∃ s fl, mm_init s0 = some (0, s) ∧ InvAt s [(512, false)] fl []
        ∧ s.heap_start = s0.mem_brk ∧ s.mem_brk = s0.mem_brk + 16 + 512
        ∧ s.mem_max_addr = s0.mem_max_addr) := by
  by_cases hroom : s0.mem_brk + 4 * WSIZE > s0.mem_max_addr
  · left
    exact ⟨by unfold WSIZE at hroom; omega, _, init_fail s0 hroom⟩
  have hr : s0.mem_brk + 16 ≤ s0.mem_max_addr := by unfold WSIZE at hroom; omega
  obtain ⟨s4, e4⟩ : ∃ s4 : State,
      ({ mem := PUT (PUT (PUT (PUT s0.mem s0.mem_brk 0) (s0.mem_brk + WSIZE) (PACK DSIZE 1))
              (s0.mem_brk + 2 * WSIZE) (PACK DSIZE 1)) (s0.mem_brk + 3 * WSIZE) (PACK 0 1),
         mem_brk := s0.mem_brk + 4 * WSIZE, mem_max_addr := s0.mem_max_addr,
         heap_start := s0.mem_brk, segregated_free_list := fun _ => 0 } : State) = s4 :=
    ⟨_, rfl⟩
  have hi := init_rel s0 s4 hroom e4
  have q1 : s4.mem_brk = s0.mem_brk + 16 := by rw [← e4]; rfl
  have q2 : s4.mem_max_addr = s0.mem_max_addr := by rw [← e4]
  have q3 : s4.heap_start = s0.mem_brk := by rw [← e4]
  have q4 : s4.segregated_free_list = fun _ => 0 := by rw [← e4]
  have p9 : PACK DSIZE 1 = 9 := by decide
  have p1 : PACK 0 1 = 1 := by decide
  have w9 : (9 : Nat) < WORD := by decide
  have w1 : (1 : Nat) < WORD := by decide
  have g1 : GET s4.mem (s0.mem_brk + 4) = 9 := by
    rw [← e4]
    show GET (PUT (PUT (PUT _ (s0.mem_brk + 4) _) (s0.mem_brk + 8) _) (s0.mem_brk + 12) _)
      (s0.mem_brk + 4) = 9
    rw [GET_PUT_other _ _ _ _ (by omega), GET_PUT_other _ _ _ _ (by omega), p9,
      GET_PUT_same _ _ _ w9]
  have g2 : GET s4.mem (s0.mem_brk + 8) = 9 := by
    rw [← e4]
    show GET (PUT (PUT _ (s0.mem_brk + 8) _) (s0.mem_brk + 12) _) (s0.mem_brk + 8) = 9
    rw [GET_PUT_other _ _ _ _ (by omega), p9, GET_PUT_same _ _ _ w9]
  have g3 : GET s4.mem (s0.mem_brk + 12) = 1 := by
    rw [← e4]
    show GET (PUT _ (s0.mem_brk + 12) _) (s0.mem_brk + 12) = 1
    rw [p1, GET_PUT_same _ _ _ w1]
  have hfb : firstBlock s4 = s0.mem_brk + 16 := by unfold firstBlock; rw [q3]
  have hw : Wf s4 [] [] := by
    refine ⟨⟨by rw [q2]; exact hmax, by rw [q1, q2]; exact hr, by rw [q3]; exact g1,
      by rw [q3]; exact g2, trivial, by rw [hfb, q1]; rfl, ?_⟩, ⟨?_, ?_, trivial⟩,
      List.nodup_nil, ?_⟩
    · rw [q1]
      have : s0.mem_brk + 16 - 4 = s0.mem_brk + 12 := by omega
      rw [this]; exact g3
    · intro i _
      rw [q4]
    · rw [q4]; rfl
    · intro p hp
      simp at hp
  have hc : Complete s4 [] [] := fun p sz hb => absurd hb (BlockAt_nil _ _ _)
  have hco : Coalesced [] := List.chain'_nil
  have hA : ALIGN (CHUNKSIZE / DSIZE) = 512 := by decide
  rcases extend_heap_spec hw hc hco (CHUNKSIZE / DSIZE) (by rw [hA]; omega) with
    ⟨h1, h2⟩ | ⟨h1, s', fl', pre', pb, h2, h3, h4, h5, h6, h7, h8, h9, h10, -⟩
  · left
    rw [hA, q1, q2] at h1
    refine ⟨h1, s4, ?_⟩
    rw [hi, h2]
    rfl
  · right
    rw [hA, q1, q2] at h1
    have hpb : pb.2 = true := by
      rcases h6 with ⟨-, h⟩ | ⟨l, h⟩
      · rw [h]
      · simp at h
    rw [hpb] at h7 h3 h4 h5
    simp only [if_true, List.append_nil] at h7 h3 h4 h5
    subst h7
    rw [hA] at h3 h4 h5 h8
    simp only [List.nil_append, Nat.zero_add] at h3 h4 h5
    refine ⟨h1, s', fl', ?_, ⟨h3, h4, h5, List.nodup_nil, ?_⟩, by rw [h10, q3],
      by rw [h8, q1], by rw [h9, q2]⟩
    · rw [hi, h2]
      have : firstBlock s4 + total [] ≠ 0 := by rw [hfb]; omega
      simp only [this, if_false]
    · intro p
      constructor
      · intro h; simp at h
      · rintro ⟨sz, hb⟩
        rw [BlockAt_cons] at hb
        rcases hb with ⟨-, h⟩ | h
        · simp at h
        · exact absurd h (BlockAt_nil _ _ _)

end MM

namespace MM

/-- Block addresses differ from the address of the first block by a multiple
of 8. -/
theorem block_aligned {m : Mem} : ∀ {bl : List Blk} {bp p : Nat} {c : Blk},
    Seg m bp bl → BlockAt bp bl p c → p % 8 = bp % 8 := by
  intro bl
  induction bl with
  | nil => intro bp p c _ h; exact absurd h (BlockAt_nil _ _ _)
  | cons b r ih =>
    intro bp p c hs h
    rw [BlockAt_cons] at h
    rcases h with ⟨h, -⟩ | h
    · rw [h]
    · obtain ⟨-, h8, -, -, hr⟩ := hs
      rw [ih hr h]
      omega

/-- A live pointer lies after the prologue. -/
theorem live_pos {s : State} {bl : List Blk} {fl live : List Nat}
    (hinv : InvAt s bl fl live) {p : Nat} (hl : p ∈ live) :
    s.heap_start + 16 ≤ p ∧ p % 8 = s.heap_start % 8 := by
  obtain ⟨sz, hb⟩ := (hinv.2.2.2.2 p).1 hl
  have h1 := (BlockAt_bounds hb).1
  have h2 := block_aligned hinv.1.1.2.2.2.2.1 hb
  unfold firstBlock at h1 h2
  omega

/-- Every reachable state satisfies the allocator invariant. -/
theorem reach_inv {s : State} {live : List Nat} (h : Reach s live) : Inv s live := by
  induction h with
  | init s0 s hmax hi =>
    rcases init_spec s0 hmax with ⟨-, s', h⟩ | ⟨-, s', fl, h, hinv, -⟩
    · rw [hi] at h
      simp at h
    · rw [hi] at h
      simp only [Option.some.injEq, Prod.mk.injEq, true_and] at h
      subst h
      exact ⟨_, fl, hinv⟩
  | malloc s s1 live n p _ hv hm ih =>
    obtain ⟨bl, fl, hinv⟩ := ih
    by_cases hn : n = 0
    · subst hn
      rw [malloc_zero] at hm
      simp only [Option.some.injEq, Prod.mk.injEq] at hm
      obtain ⟨rfl, rfl⟩ := hm
      exact ⟨bl, fl, by simpa using hinv⟩
    · rcases malloc_spec hinv n hn hv with ⟨h, -⟩ | ⟨q, s', bl', fl', S, h, hq, hinv', -⟩
      · rw [hm] at h
        simp only [Option.some.injEq, Prod.mk.injEq] at h
        obtain ⟨rfl, rfl⟩ := h
        exact ⟨bl, fl, by simpa using hinv⟩
      · rw [hm] at h
        simp only [Option.some.injEq, Prod.mk.injEq] at h
        obtain ⟨rfl, rfl⟩ := h
        rw [if_neg hq]
        exact ⟨bl', fl', hinv'⟩
  | free s s1 live p _ hl hf ih =>
    obtain ⟨bl, fl, hinv⟩ := ih
    obtain ⟨s', bl', fl', -, -, -, -, -, -, -, h, hinv', -⟩ := free_spec hinv hl
    rw [hf] at h
    simp only [Option.some.injEq] at h
    subst h
    exact ⟨bl', fl', hinv'⟩
  | realloc s s1 live p n q _ hl hn hv hr ih =>
    obtain ⟨bl, fl, hinv⟩ := ih
    rcases realloc_spec hinv hl n (by omega) hv with ⟨h, -⟩ | ⟨q', s', bl', fl', sz, S, h, -, hinv', -⟩
    · rw [hr] at h
      simp at h
    · rw [hr] at h
      simp only [Option.some.injEq, Prod.mk.injEq] at h
      obtain ⟨rfl, rfl⟩ := h
      exact ⟨bl', fl', hinv'⟩
  | realloc_null s s1 live n q _ hv hr ih =>
    obtain ⟨bl, fl, hinv⟩ := ih
    rw [realloc_null] at hr
    by_cases hn : n = 0
    · subst hn
      rw [malloc_zero] at hr
      simp only [Option.some.injEq, Prod.mk.injEq] at hr
      obtain ⟨rfl, rfl⟩ := hr
      exact ⟨bl, fl, by simpa using hinv⟩
    · rcases malloc_spec hinv n hn hv with ⟨h, -⟩ | ⟨q', s', bl', fl', S, h, hq, hinv', -⟩
      · rw [hr] at h
        simp only [Option.some.injEq, Prod.mk.injEq] at h
        obtain ⟨rfl, rfl⟩ := h
        exact ⟨bl, fl, by simpa using hinv⟩
      · rw [hr] at h
        simp only [Option.some.injEq, Prod.mk.injEq] at h
        obtain ⟨rfl, rfl⟩ := h
        rw [if_neg hq]
        exact ⟨bl', fl', hinv'⟩
  | realloc_zero s s1 live p q _ hl hr ih =>
    obtain ⟨bl, fl, hinv⟩ := ih
    have hp := (live_pos hinv hl).1
    rw [realloc_zero s p (by omega)] at hr
    obtain ⟨s', bl', fl', -, -, -, -, -, -, -, h, hinv', -⟩ := free_spec hinv hl
    rw [h] at hr
    simp only [Option.map_some', Option.some.injEq, Prod.mk.injEq] at hr
    obtain ⟨-, rfl⟩ := hr
    exact ⟨bl', fl', hinv'⟩
  | store s live p i v _ hl hi ih =>
    obtain ⟨bl, fl, hinv⟩ := ih
    exact ⟨bl, fl, store_spec hinv hl i v hi⟩

end MM

namespace MM

/-! ### What the walks of the code see -/

theorem listWalk_eq (m : Mem) (l : List Nat) :
    ∀ (nxt : Nat) (fuel : Nat), l.length < fuel → (∀ x ∈ l, x ≠ 0) → DLL m nxt l 0 →
      listWalk m fuel (l.headD 0) = l := by
  induction l with
  | nil =>
    intro nxt fuel hf _ _
    cases fuel with
    | zero => simp at hf
    | succ f => simp [listWalk]
  | cons x r ih =>
    intro nxt fuel hf hnz hd
    cases fuel with
    | zero => simp at hf
    | succ f =>
      obtain ⟨-, h2, h3⟩ := hd
      have hx : x ≠ 0 := hnz x (by simp)
      simp only [listWalk, List.headD_cons, if_neg hx, h2]
      rw [ih x f (by simp at hf; omega) (fun y hy => hnz y (by simp [hy])) h3]

/-- The walk of the index of a well-formed state visits exactly its nodes. -/
theorem indexWalk_eq {s : State} {bl : List Blk} {fl : List Nat} (hw : Wf s bl fl) :
    indexWalk s = fl ∧ bucketWalk s (LIST_SIZE - 1) = fl
      ∧ ∀ i, i ≠ LIST_SIZE - 1 → bucketWalk s i = [] := by
  obtain ⟨-, hp, hlen⟩ := nodes_facts hw.1 hw.2.2
  obtain ⟨h0, hhead, hdll⟩ := hw.2.1
  have hlast : bucketWalk s (LIST_SIZE - 1) = fl := by
    unfold bucketWalk
    rw [hhead]
    exact listWalk_eq s.mem fl 0 _ hlen (fun x hx => by have := (hp x hx).1; omega) hdll
  have hother : ∀ i, i ≠ LIST_SIZE - 1 → bucketWalk s i = [] := by
    intro i hi
    unfold bucketWalk scanFuel
    rw [h0 i hi]
    simp [listWalk]
  refine ⟨?_, hlast, hother⟩
  unfold indexWalk
  have e : List.range LIST_SIZE = List.range (LIST_SIZE - 1) ++ [LIST_SIZE - 1] := by decide
  rw [e, List.flatMap_append]
  have : (List.range (LIST_SIZE - 1)).flatMap (bucketWalk s) = [] := by
    rw [List.flatMap_eq_nil_iff]
    intro i hi
    exact hother i (by rw [List.mem_range] at hi; omega)
  rw [this]
  simp [hlast]

theorem heapWalk_eq (m : Mem) : ∀ (bl : List Blk) (bp fuel : Nat), Seg m bp bl →
    GET m (bp + total bl - 4) = 1 → bl.length < fuel →
    heapWalk m fuel bp = blocksFrom bp bl := by
  intro bl
  induction bl with
  | nil =>
    intro bp fuel _ he hf
    cases fuel with
    | zero => simp at hf
    | succ f =>
      have : GET_SIZE m (HDRP bp) = 0 := by
        rw [GET_SIZE_eq]
        have : bp + total [] - 4 = HDRP bp := rfl
        rw [← this, he]
      simp [heapWalk, blocksFrom, this]
  | cons b r ih =>
    intro bp fuel hs he hf
    cases fuel with
    | zero => simp at hf
    | succ f =>
      obtain ⟨h16, h8, hh, -, hr⟩ := hs
      have e1 : GET_SIZE m (HDRP bp) = b.1 := GET_SIZE_tag m _ b hh h8
      have e2 : GET_ALLOC m (HDRP bp) = bit b := GET_ALLOC_tag m _ b hh h8
      have e3 : NEXT_BLKP m bp = bp + b.1 := by
        unfold NEXT_BLKP
        have : bp - WSIZE = HDRP bp := rfl
        rw [this, e1]
      have e4 : bp + total (b :: r) - 4 = bp + b.1 + total r - 4 := by
        simp only [total]; omega
      rw [e4] at he
      simp only [heapWalk, e1, e2, e3, blocksFrom]
      rw [if_pos (by omega), ih (bp + b.1) f hr he (by simp at hf; omega)]

theorem total_ge (m : Mem) : ∀ (bl : List Blk) (bp : Nat), Seg m bp bl →
    16 * bl.length ≤ total bl := by
  intro bl
  induction bl with
  | nil => intro _ _; simp [total]
  | cons b r ih =>
    intro bp hs
    obtain ⟨h16, -, -, -, hr⟩ := hs
    have := ih _ hr
    simp only [total, List.length_cons]
    omega

/-- The walk of the heap of a well-formed state visits exactly its blocks. -/
theorem heapBlocks_eq {s : State} {bl : List Blk} {fl : List Nat} (hw : Wf s bl fl) :
    heapBlocks s = blocksFrom (firstBlock s) bl := by
  obtain ⟨hmax, hbrk, -, -, hseg, htot, hep⟩ := hw.1
  unfold heapBlocks
  apply heapWalk_eq _ _ _ _ hseg (by rw [htot]; exact hep)
  have := total_ge _ _ _ hseg
  unfold scanFuel
  omega

theorem mem_blocksFrom : ∀ (bl : List Blk) (bp p sz a : Nat),
    (p, sz, a) ∈ blocksFrom bp bl ↔ ∃ c, BlockAt bp bl p c ∧ c.1 = sz ∧ bit c = a := by
  intro bl
  induction bl with
  | nil =>
    intro bp p sz a
    simp [blocksFrom, BlockAt_nil]
  | cons b r ih =>
    intro bp p sz a
    simp only [blocksFrom, List.mem_cons, Prod.mk.injEq, ih, BlockAt_cons]
    constructor
    · rintro (⟨h1, h2, h3⟩ | ⟨c, h1, h2⟩)
      · exact ⟨b, Or.inl ⟨h1, rfl⟩, h2.symm, h3.symm⟩
      · exact ⟨c, Or.inr h1, h2⟩
    · rintro ⟨c, ⟨h1, h2⟩ | h1, h3, h4⟩
      · subst h2
        exact Or.inl ⟨h1, h3.symm, h4.symm⟩
      · exact Or.inr ⟨c, h1, h3, h4⟩

theorem blocksFrom_chain : ∀ (bl : List Blk) (bp : Nat), Coalesced bl →
    (blocksFrom bp bl).Chain' fun x y => x.2.2 = 1 ∨ y.2.2 = 1 := by
  intro bl
  induction bl with
  | nil => intro _ _; exact List.chain'_nil
  | cons b r ih =>
    intro bp h
    cases r with
    | nil => simp [blocksFrom]
    | cons b2 r2 =>
      unfold Coalesced at h
      rw [List.chain'_cons] at h
      have := ih (bp + b.1) h.2
      simp only [blocksFrom] at this ⊢
      rw [List.chain'_cons]
      refine ⟨?_, this⟩
      simp only [bit]
      rcases h.1 with h | h <;> simp [h]

/-- The tags of a block of a well-formed state, as the macros read them. -/
theorem size_at {s : State} {bl : List Blk} {fl : List Nat} (hw : Wf s bl fl)
    {p : Nat} {c : Blk} (hb : BlockAt (firstBlock s) bl p c) :
    GET_SIZE s.mem (HDRP p) = c.1 ∧ GET_ALLOC s.mem (HDRP p) = bit c
      ∧ FTRP s.mem p = p + c.1 - 8
      ∧ GET s.mem (HDRP p) = tagOf c ∧ GET s.mem (FTRP s.mem p) = tagOf c
      ∧ 16 ≤ c.1 ∧ c.1 % 8 = 0 ∧ s.heap_start + 16 ≤ p ∧ p + c.1 ≤ s.mem_brk := by
  obtain ⟨hmax, hbrk, -, -, hseg, htot, hep⟩ := hw.1
  obtain ⟨h16, h8, hh, hf⟩ := Seg_block hseg hb
  have e1 : GET_SIZE s.mem (HDRP p) = c.1 := GET_SIZE_tag _ _ c hh h8
  have e3 : FTRP s.mem p = p + c.1 - 8 := by unfold FTRP; rw [e1]; rfl
  have hbd := BlockAt_bounds hb
  refine ⟨e1, GET_ALLOC_tag _ _ c hh h8, e3, hh, by rw [e3]; exact hf, h16, h8, ?_, ?_⟩
  · have := hbd.1; unfold firstBlock at this; exact this
  · have := hbd.2; rw [htot] at this; exact this

end MM

namespace MM

/-! ### Client programs reach reachable states -/

theorem stepLive_reach {c c1 : State × List Nat × List Nat} {op : Op}
    (h : Reach c.1 c.2.2) (hs : stepLive c op = some c1) : Reach c1.1 c1.2.2 := by
  obtain ⟨s, ps, live⟩ := c
  cases op with
  | malloc n =>
    simp only [stepLive] at hs
    split at hs
    · rename_i hv
      cases hm : mm_malloc s n with
      | none => rw [hm] at hs; simp at hs
      | some r =>
        rw [hm] at hs
        simp only [Option.map_some', Option.some.injEq] at hs
        subst hs
        exact Reach.malloc s r.2 live n r.1 h hv hm
    · simp at hs
  | free i =>
    simp only [stepLive] at hs
    split at hs
    · rename_i hl
      cases hm : mm_free s (ps.getD i 0) with
      | none => rw [hm] at hs; simp at hs
      | some r =>
        rw [hm] at hs
        simp only [Option.map_some', Option.some.injEq] at hs
        subst hs
        exact Reach.free s r live _ h hl hm
    · simp at hs
  | realloc i n =>
    simp only [stepLive] at hs
    split at hs
    · rename_i hl
      cases hm : mm_realloc s (ps.getD i 0) n with
      | none => rw [hm] at hs; simp at hs
      | some r =>
        rw [hm] at hs
        simp only [Option.map_some', Option.some.injEq] at hs
        subst hs
        exact Reach.realloc s r.2 live _ n r.1 h hl.1 hl.2.1 hl.2.2 hm
    · simp at hs
  | store i off v =>
    simp only [stepLive] at hs
    split at hs
    · rename_i hl
      simp only [Option.some.injEq] at hs
      subst hs
      exact Reach.store s live _ off v h hl.1 hl.2
    · simp at hs

theorem runLive_reach : ∀ (ops : List Op) (c c1 : State × List Nat × List Nat),
    Reach c.1 c.2.2 → runLive c ops = some c1 → Reach c1.1 c1.2.2 := by
  intro ops
  induction ops with
  | nil =>
    intro c c1 h hr
    simp only [runLive, Option.some.injEq] at hr
    subst hr
    exact h
  | cons op ops ih =>
    intro c c1 h hr
    simp only [runLive] at hr
    cases hs : stepLive c op with
    | none => rw [hs] at hr; simp at hr
    | some c2 =>
      rw [hs] at hr
      exact ih c2 c1 (stepLive_reach h hs) hr

/-- The state after a client program that respects the contract and runs to
its end is reachable, with the live pointers the run has tracked. -/
theorem clientRun_reach (cap : Nat) (ops : List Op) (h : (runValid cap ops).isSome = true) :
    Reach (clientRun cap ops).1 (clientRun cap ops).2.2 := by
  unfold clientRun
  cases hr : runValid cap ops with
  | none => rw [hr] at h; simp at h
  | some c =>
    simp only [Option.getD_some]
    unfold runValid at hr
    split at hr
    · rename_i hcap
      split at hr
      · rename_i s hi
        exact runLive_reach ops (s, [], []) c
          (Reach.init (emptyState 1024 cap) s hcap hi) hr
      · simp at hr
    · simp at hr

end MM

namespace MM

/-! ### `mm_malloc` for every value of the size type -/

theorem getSize_any (n : Nat) : getSize n % 8 = 0 ∧ getSize n + 8 ≤ WORD := by
  unfold getSize DSIZE
  split
  · unfold WORD; omega
  · rw [ALIGN_eq]
    unfold WORD
    omega

/-- The sizes for which `getSize` wraps around give a block size of 0 or 8. -/
theorem getSize_wrap (n : Nat) (h1 : n < WORD) (h2 : ¬ validRequest n) : getSize n ≤ 8 := by
  unfold validRequest at h2
  unfold getSize DSIZE
  unfold WORD at *
  rw [if_neg (by omega), ALIGN_eq]
  unfold WORD
  omega

/-- The function `place` returns the pointer it is given. -/
theorem place_ret {s s' : State} {ptr size q : Nat} (h : place s ptr size = some (q, s')) :
    q = ptr := by
  by_cases hle : (GET_SIZE s.mem (HDRP ptr) + WORD - size) % WORD ≤ DSIZE * 2
  · rw [place_rel_whole s _ _ _ ptr size _ rfl hle rfl rfl rfl] at h
    simp only [Option.some.injEq, Prod.mk.injEq] at h
    exact h.1.symm
  · rw [place_rel_split s _ _ _ _ _ ptr size _ _ _ rfl rfl hle rfl rfl rfl rfl rfl rfl] at h
    cases hp : pushNode _ _ _ with
    | none => rw [hp] at h; simp at h
    | some s2 =>
      rw [hp] at h
      simp only [Option.map_some', Option.some.injEq, Prod.mk.injEq] at h
      exact h.1.symm

/-- What `mm_malloc` returns for a size `n > 0`, supported or not: `NULL` with
the state untouched when the heap cannot grow, or else the address of a block. -/
theorem malloc_any {s : State} {bl : List Blk} {fl live : List Nat}
    (hinv : InvAt s bl fl live) (n : Nat) (hn : n ≠ 0) {p : Nat} {s1 : State}
    (hm : mm_malloc s n = some (p, s1)) :
    (p = 0 ∧ s1 = s ∧ s.mem_brk + ALIGN (MAX (getSize n) CHUNKSIZE) > s.mem_max_addr)
      ∨ (s.heap_start + 16 ≤ p ∧ p % 8 = s.heap_start % 8) := by
  obtain ⟨hw, hc, hco, -, -⟩ := hinv
  obtain ⟨r, hfind, hr1, -⟩ := findFit_spec hw (getSize n)
  have hfb : firstBlock s = s.heap_start + 16 := rfl
  by_cases hr : r = 0
  · subst hr
    obtain ⟨g8, gW⟩ := getSize_any n
    obtain ⟨x1, x2, x3⟩ := MAX_spec (getSize n) CHUNKSIZE
    have hC : CHUNKSIZE = 4096 := rfl
    have hA : ALIGN (MAX (getSize n) CHUNKSIZE) = MAX (getSize n) CHUNKSIZE := by
      apply ALIGN_of_aligned
      · rcases x3 with h | h <;> rw [h] <;> omega
      · unfold WORD at gW ⊢
        rcases x3 with h | h <;> rw [h] <;> omega
    rcases extend_heap_spec hw hc hco (MAX (getSize n) CHUNKSIZE) (by rw [hA]; omega) with
      ⟨h1, h2⟩ | ⟨-, s', fl', pre', pb, h2, h3, -, -, -, -, -, -, h10, -⟩
    · rw [malloc_grow_fail s s n hn hfind h2] at hm
      simp only [Option.some.injEq, Prod.mk.injEq] at hm
      exact Or.inl ⟨hm.1.symm, hm.2.symm, h1⟩
    · right
      have hq : firstBlock s + total pre' ≠ 0 := by rw [hfb]; omega
      rw [malloc_grow s s' n _ hn hfind h2 hq] at hm
      rw [place_ret hm]
      have hfb' : firstBlock s' = firstBlock s := by unfold firstBlock; rw [h10]
      have hb : BlockAt (firstBlock s') (pre' ++ [((if pb.2 then 0 else pb.1)
          + ALIGN (MAX (getSize n) CHUNKSIZE), false)]) (firstBlock s + total pre')
          ((if pb.2 then 0 else pb.1) + ALIGN (MAX (getSize n) CHUNKSIZE), false) :=
        ⟨pre', [], rfl, by rw [hfb']⟩
      have := block_aligned h3.1.2.2.2.2.1 hb
      rw [hfb', hfb] at this
      rw [hfb]
      omega
  · right
    rcases hr1 with h | ⟨hin, -⟩
    · exact absurd h hr
    rw [malloc_fit s n r hn hfind hr] at hm
    rw [place_ret hm]
    obtain ⟨c, hb⟩ := hw.2.2.2 r hin
    have h1 := (BlockAt_bounds hb).1
    have h2 := block_aligned hw.1.2.2.2.2.1 hb
    rw [hfb] at h1 h2
    omega

end MM

namespace MM

/-- The statement of `realloc_spec` for every value `n > 0` of the size type: a
size for which `getSize` wraps around never needs a larger block. -/
theorem realloc_any {s : State} {bl : List Blk} {fl live : List Nat}
    (hinv : InvAt s bl fl live) {ptr : Nat} (hl : ptr ∈ live) (n : Nat) (hn0 : n ≠ 0)
    (hW : n < WORD) :
    (mm_realloc s ptr n = none ∧ mm_malloc s n = some (0, s)
        ∧ realloc_coalesce s ptr (getSize n) = (0, s)
        ∧ GET_SIZE s.mem (HDRP ptr) < getSize n)
    ∨ ∃ q s' bl' fl' sz S, mm_realloc s ptr n = some (q, s') ∧ q ≠ 0
      ∧ InvAt s' bl' fl' (q :: live.erase ptr)
      ∧ BlockAt (firstBlock s) bl ptr (sz, true)
      ∧ BlockAt (firstBlock s') bl' q (S, true) ∧ getSize n ≤ S
      ∧ s'.heap_start = s.heap_start ∧ s'.mem_max_addr = s.mem_max_addr
      ∧ s.mem_brk ≤ s'.mem_brk
      ∧ (∀ p c a, BlockAt (firstBlock s) bl p (c, true) → p ≠ ptr →
          p ≤ a → a < p + c - 8 → s'.mem a = s.mem a)
      ∧ ∀ i, i < sz - 8 → i < n → s'.mem (q + i) = s.mem (ptr + i) := by
  by_cases hv : validRequest n
  · exact realloc_spec hinv hl n hn0 hv
  right
  have hg := getSize_wrap n hW hv
  obtain ⟨sz, hblk⟩ := (hinv.2.2.2.2 ptr).1 hl
  obtain ⟨-, -, -, -, -, h16, -, hpos, -⟩ := size_at hinv.1 hblk
  have hseg := hinv.1.1.2.2.2.2.1
  obtain ⟨s', r1, r2, r3, r4, r5, -, r6⟩ :=
    realloc_keep_spec hinv hblk n hn0 (by clear * - hg h16; omega)
  obtain ⟨k1, k2⟩ := nodup_cons_erase hinv.2.2.2.1 hl
  have hfb : firstBlock s' = firstBlock s := by unfold firstBlock; rw [r5]
  refine ⟨ptr, s', bl, fl, sz, sz, r1, by clear * - hpos; omega, InvAt_live r2 k1 k2, hblk,
    by rw [hfb]; exact hblk, by clear * - hg h16; omega, r5, r4, by rw [r3], ?_, ?_⟩
  · intro p c a hb hne h1 h2
    have d := blocks_apart hseg hb hblk
    exact r6 a (by clear * - d hne h1 h2; omega) (by clear * - d hne h1 h2; omega)
  · intro i hi _
    exact r6 _ (by clear * -; omega) (by clear * - hi; omega)

/-- The value of an option that is known to hold one. -/
theorem some_getD {α : Type} (x : Option α) (d : α) (h : x.isSome = true) :
    x = some (x.getD d) := by
  cases x with
  | none => simp at h
  | some v => rfl

theorem blocksFrom_sizes : ∀ (bl : List Blk) (bp : Nat),
    ((blocksFrom bp bl).map fun b => b.2.1).sum = total bl := by
  intro bl
  induction bl with
  | nil => intro _; rfl
  | cons b r ih =>
    intro bp
    simp only [blocksFrom, List.map_cons, List.sum_cons, total, ih]

theorem blocksFrom_aligned {m : Mem} : ∀ (bl : List Blk) (bp : Nat), Seg m bp bl →
    ∀ b ∈ blocksFrom bp bl, b.1 % 8 = bp % 8 ∧ b.2.1 % 8 = 0 := by
  intro bl
  induction bl with
  | nil => intro _ _ b hb; simp [blocksFrom] at hb
  | cons c r ih =>
    intro bp hs b hb
    obtain ⟨-, h8, -, -, hr⟩ := hs
    simp only [blocksFrom, List.mem_cons] at hb
    rcases hb with rfl | hb
    · exact ⟨rfl, h8⟩
    · have := ih _ hr b hb
      omega

end MM

namespace MM

/-- An address strictly inside a block is no node of the index. -/
theorem not_in_index_inside {s : State} {bl : List Blk} {fl : List Nat} (hw : Wf s bl fl)
    {R S x : Nat} {a : Bool} (hb : BlockAt (firstBlock s) bl R (S, a)) (h1 : R < x)
    (h2 : x < R + S) : x ∉ fl := by
  intro hx
  obtain ⟨c, hbx⟩ := hw.2.2.2 x hx
  have d := blocks_apart hw.1.2.2.2.2.1 hbx hb
  clear * - d h1 h2
  omega

/-- The free blocks of a layout in which one free block has become allocated. -/
theorem free_blocks_taken {m : Mem} {bp : Nat} {pre post : List Blk} {S : Nat}
    (hseg : Seg m bp (pre ++ (S, false) :: post)) (x c : Nat) :
    BlockAt bp (pre ++ [(S, true)] ++ post) x (c, false) ↔
      (BlockAt bp (pre ++ (S, false) :: post) x (c, false) ∧ x ≠ bp + total pre) := by
  have h16 : 16 ≤ S := (Seg_block hseg ⟨pre, post, rfl, rfl⟩).1
  have e : pre ++ [(S, true)] ++ post = pre ++ (S, true) :: post := by simp
  rw [e, BlockAt_append, BlockAt_cons, BlockAt_append, BlockAt_cons]
  simp only [Prod.mk.injEq, Bool.false_eq_true, and_false, false_or]
  constructor
  · rintro (h | h)
    · have k : x + c ≤ bp + total pre := (BlockAt_bounds h).2
      have hb : BlockAt bp (pre ++ (S, false) :: post) x (c, false) := by
        rw [BlockAt_append]; exact Or.inl h
      have kc := (Seg_block hseg hb).1
      exact ⟨Or.inl h, by simp only at kc; clear * - k kc; omega⟩
    · have k : bp + total pre + S ≤ x := (BlockAt_bounds h).1
      exact ⟨Or.inr (Or.inr h), by clear * - k h16; omega⟩
  · rintro ⟨h | ⟨h, -⟩ | h, hne⟩
    · exact Or.inl h
    · exact absurd h hne
    · exact Or.inr h

end MM

namespace TransC

/-! ### Loops of `trans.c` -/

/-- The invariant rule for a counting loop: with enough fuel the loop ends in
a state that satisfies the invariant at an index at which the test fails. -/
theorem forLoop_rule (cond : Nat → Bool) (next : Nat → Nat) (body : Nat → Mat → Option Mat)
    (I : Nat → Mat → Prop) (hi : Nat) (hcond : ∀ i, cond i = true ↔ i < hi)
    (hnext : ∀ i, i < next i)
    (hbody : ∀ i B, i < hi → I i B → ∃ B', body i B = some B' ∧ I (next i) B') :
    ∀ (fuel i : Nat) (B : Mat), hi ≤ i + fuel → I i B →
      ∃ B' i', forLoop cond next body (fuel + 1) i B = some B' ∧ hi ≤ i' ∧ I i' B' := by
  have hstop : ∀ i, ¬ i < hi → cond i = false := by
    intro i hc
    cases h : cond i
    · rfl
    · exact absurd ((hcond i).1 h) hc
  intro fuel
  induction fuel with
  | zero =>
    intro i B hf hI
    refine ⟨B, i, ?_, by omega, hI⟩
    simp [forLoop, hstop i (by omega)]
  | succ f ih =>
    intro i B hf hI
    by_cases hc : i < hi
    · obtain ⟨B1, hb, hI1⟩ := hbody i B hc hI
      have := hnext i
      obtain ⟨B', i', h1, h2, h3⟩ := ih (next i) B1 (by omega) hI1
      refine ⟨B', i', ?_, h2, h3⟩
      rw [forLoop]
      simp only [(hcond i).2 hc, if_true, hb, Option.some_bind, h1]
    · refine ⟨B, i, ?_, by omega, hI⟩
      simp [forLoop, hstop i hc]

theorem rd_some {rows cols : Nat} (A : Mat) {i j : Nat} (hi : i < rows) (hj : j < cols) :
    rd rows cols A i j = some (A i j) := by
  unfold rd
  rw [if_pos ⟨hi, hj⟩]

theorem wr_some {rows cols : Nat} (B : Mat) {i j : Nat} (v : Int) (hi : i < rows)
    (hj : j < cols) :
    wr rows cols B i j v = some (fun a b => if a = i ∧ b = j then v else B a b) := by
  unfold wr
  rw [if_pos ⟨hi, hj⟩]

/-- What `is_transpose` returns on a transposed matrix. -/
theorem is_transpose_one (M N : Nat) (A B : Mat) (h : ∀ i, i < N → ∀ j, j < M → B j i = A i j) :
    is_transpose M N A B = 1 := by
  unfold is_transpose
  rw [if_pos]
  simp only [List.all_eq_true, List.mem_range, decide_eq_true_eq]
  intro i hi j hj
  exact (h i hi j hj).symm

end TransC

namespace TransC

/-- The baseline `trans` returns the transpose, for all dimensions. -/
theorem trans_spec (M N : Nat) (A B : Mat) :
    ∃ B', trans M N A B = some B' ∧ ∀ i, i < N → ∀ j, j < M → B' j i = A i j := by
  unfold trans
  obtain ⟨B', i', h1, h2, h3⟩ := forLoop_rule (fun i => decide (i < N)) (fun i => i + 1)
    (fun i B =>
      forLoop (fun j => decide (j < M)) (fun j => j + 1) (fun j B => do
        let tmp ← rd N M A i j
        wr M N B j i tmp) (M + 1) 0 B)
    (fun i B => ∀ a b, b < i → b < N → a < M → B a b = A b a) N
    (fun i => by simp) (fun i => by show i < i + 1; omega)
    (by
      intro i B hi hI
      obtain ⟨B1, j', k1, k2, k3⟩ := forLoop_rule (fun j => decide (j < M)) (fun j => j + 1)
        (fun j B => do
          let tmp ← rd N M A i j
          wr M N B j i tmp)
        (fun j B => (∀ a b, b < i → b < N → a < M → B a b = A b a)
          ∧ ∀ a, a < j → a < M → B a i = A i a) M
        (fun j => by simp) (fun j => by show j < j + 1; omega)
        (by
          intro j B hj hJ
          refine ⟨fun a b => if a = j ∧ b = i then A i j else B a b,
            by simp only [rd_some A hi hj, wr_some _ _ hj hi, Option.bind_eq_bind,
              Option.some_bind], ?_, ?_⟩
          · intro a b hb hbN ha
            have : ¬ (a = j ∧ b = i) := by omega
            show (if a = j ∧ b = i then A i j else B a b) = A b a
            rw [if_neg this]
            exact hJ.1 a b hb hbN ha
          · intro a ha haM
            show (if a = j ∧ i = i then A i j else B a i) = A i a
            by_cases e : a = j
            · subst e
              simp
            · have : ¬ (a = j ∧ i = i) := fun h => e h.1
              rw [if_neg this]
              exact hJ.2 a (by change a < j + 1 at ha; omega) haM)
        M 0 B (by omega) ⟨hI, fun a ha => by omega⟩
      refine ⟨B1, k1, ?_⟩
      intro a b hb hbN ha
      change b < i + 1 at hb
      by_cases e : b = i
      · subst e
        exact k3.2 a (by omega) ha
      · exact k3.1 a b (by omega) hbN ha)
    N 0 B (by omega) (fun a b hb => by omega)
  exact ⟨B', h1, fun i hi j hj => h3 j i (by omega) hi hj⟩

end TransC

namespace TransC

/-- The loop over the rows `j < n` of `A`, for a body that copies the entries
`A[j][i .. i + w)` into the column `j` of `B`. -/
theorem inner_block (A : Mat) (i w n : Nat) (body : Nat → Mat → Option Mat)
    (hbody : ∀ j B, j < n → ∃ B1, body j B = some B1
      ∧ (∀ a b, ¬ (b = j ∧ i ≤ a ∧ a < i + w) → B1 a b = B a b)
      ∧ ∀ a, i ≤ a → a < i + w → B1 a j = A j a) (B : Mat) :
    ∃ B', forLoop (fun j => decide (j < n)) (fun j => j + 1) body (n + 1) 0 B = some B'
      ∧ (∀ a b, ¬ (i ≤ a ∧ a < i + w ∧ b < n) → B' a b = B a b)
      ∧ ∀ a b, i ≤ a → a < i + w → b < n → B' a b = A b a := by
  obtain ⟨B', j', h1, h2, h3⟩ := forLoop_rule (fun j => decide (j < n)) (fun j => j + 1) body
    (fun j B0 => j ≤ n ∧ (∀ a b, ¬ (i ≤ a ∧ a < i + w ∧ b < j) → B0 a b = B a b)
      ∧ ∀ a b, i ≤ a → a < i + w → b < j → B0 a b = A b a) n
    (fun j => by simp) (fun j => by show j < j + 1; omega)
    (by
      rintro j B0 hj ⟨-, hI1, hI2⟩
      obtain ⟨B1, e, f1, f2⟩ := hbody j B0 hj
      refine ⟨B1, e, by show j + 1 ≤ n; omega, ?_, ?_⟩
      · intro a b hn
        change ¬ (i ≤ a ∧ a < i + w ∧ b < j + 1) at hn
        rw [f1 a b (by omega), hI1 a b (by omega)]
      · intro a b ha1 ha2 hb
        change b < j + 1 at hb
        by_cases e : b = j
        · subst e
          exact f2 a ha1 ha2
        · rw [f1 a b (by omega)]
          exact hI2 a b ha1 ha2 (by omega))
    n 0 B (by omega) ⟨by omega, fun a b _ => rfl, fun a b _ _ hb => by omega⟩
  have : j' = n := by omega
  subst this
  exact ⟨B', h1, h3.2.1, h3.2.2⟩

/-- The loop over the column blocks `i = 0, w, 2w, ...` below `m`, a multiple
of `w`, for a body that transposes the block of columns `[i, i + w)`. -/
theorem outer_blocks (A : Mat) (w m n : Nat) (hw : 0 < w) (hm : m % w = 0)
    (body : Nat → Mat → Option Mat)
    (hbody : ∀ i B, i + w ≤ m → ∃ B1, body i B = some B1
      ∧ (∀ a b, ¬ (i ≤ a ∧ a < i + w ∧ b < n) → B1 a b = B a b)
      ∧ ∀ a b, i ≤ a → a < i + w → b < n → B1 a b = A b a) (B : Mat) :
    ∃ B', forLoop (fun i => decide (i < m)) (fun i => i + w) body (m + 1) 0 B = some B'
      ∧ ∀ a b, a < m → b < n → B' a b = A b a := by
  obtain ⟨B', i', h1, h2, h3⟩ := forLoop_rule (fun i => decide (i < m)) (fun i => i + w) body
    (fun i B0 => i % w = 0 ∧ ∀ a b, a < i → b < n → B0 a b = A b a) m
    (fun i => by simp) (fun i => by show i < i + w; omega)
    (by
      rintro i B0 hi ⟨hiw, hI⟩
      have hle : i + w ≤ m := by
        obtain ⟨x, hx⟩ : ∃ x, i = w * x := ⟨i / w, by
          have := Nat.div_add_mod i w; omega⟩
        obtain ⟨y, hy⟩ : ∃ y, m = w * y := ⟨m / w, by
          have := Nat.div_add_mod m w; omega⟩
        subst hx hy
        have hxy : x < y := Nat.lt_of_mul_lt_mul_left hi
        calc w * x + w = w * (x + 1) := by ring
          _ ≤ w * y := Nat.mul_le_mul_left w hxy
      obtain ⟨B1, e, f1, f2⟩ := hbody i B0 hle
      refine ⟨B1, e, by show (i + w) % w = 0; simp [hiw], ?_⟩
      intro a b ha hb
      change a < i + w at ha
      by_cases c : i ≤ a
      · exact f2 a b c ha hb
      · rw [f1 a b (by omega)]
        exact hI a b (by omega) hb)
    m 0 B (by omega) ⟨by simp, fun a b ha => by omega⟩
  exact ⟨B', h1, fun a b ha hb => h3.2 a b (by omega) hb⟩

end TransC

namespace TransC

theorem transpose_32_32_spec (A B : Mat) :
    ∃ B', transpose_32_32 A B = some B' ∧ ∀ a b, a < 32 → b < 32 → B' a b = A b a := by
  unfold transpose_32_32
  apply outer_blocks A 8 32 32 (by decide) (by decide)
  intro i B hi
  apply inner_block A i 8 32
  intro j B hj
  simp only [rd_some A hj (show i < 32 by omega), rd_some A hj (show i + 1 < 32 by omega),
    rd_some A hj (show i + 2 < 32 by omega), rd_some A hj (show i + 3 < 32 by omega),
    rd_some A hj (show i + 4 < 32 by omega), rd_some A hj (show i + 5 < 32 by omega),
    rd_some A hj (show i + 6 < 32 by omega), rd_some A hj (show i + 7 < 32 by omega),
    wr_some _ _ (show i < 32 by omega) hj, wr_some _ _ (show i + 1 < 32 by omega) hj,
    wr_some _ _ (show i + 2 < 32 by omega) hj, wr_some _ _ (show i + 3 < 32 by omega) hj,
    wr_some _ _ (show i + 4 < 32 by omega) hj, wr_some _ _ (show i + 5 < 32 by omega) hj,
    wr_some _ _ (show i + 6 < 32 by omega) hj, wr_some _ _ (show i + 7 < 32 by omega) hj,
    Option.bind_eq_bind, Option.some_bind]
  refine ⟨_, rfl, ?_, ?_⟩
  · intro a b hn
    split_ifs <;> first | rfl | omega
  · intro a ha1 ha2
    split_ifs <;> first | omega | (rename_i h; rw [h.1])

theorem transpose_64_64_spec (A B : Mat) :
    ∃ B', transpose_64_64 A B = some B' ∧ ∀ a b, a < 64 → b < 64 → B' a b = A b a := by
  unfold transpose_64_64
  apply outer_blocks A 4 64 64 (by decide) (by decide)
  intro i B hi
  apply inner_block A i 4 64
  intro j B hj
  simp only [rd_some A hj (show i < 64 by omega), rd_some A hj (show i + 1 < 64 by omega),
    rd_some A hj (show i + 2 < 64 by omega), rd_some A hj (show i + 3 < 64 by omega),
    wr_some _ _ (show i < 64 by omega) hj, wr_some _ _ (show i + 1 < 64 by omega) hj,
    wr_some _ _ (show i + 2 < 64 by omega) hj, wr_some _ _ (show i + 3 < 64 by omega) hj,
    Option.bind_eq_bind, Option.some_bind]
  refine ⟨_, rfl, ?_, ?_⟩
  · intro a b hn
    split_ifs <;> first | rfl | omega
  · intro a ha1 ha2
    split_ifs <;> first | omega | (rename_i h; rw [h.1])

end TransC

namespace TransC

/-- A loop over `t = t0, t0 + d, ...` below `hi` whose body at `t` sets the
cells of the region `R t` to the transposed entries and leaves the other cells:
after the loop the cells of all visited regions hold the transposed entries
and the other cells are untouched. -/
theorem sweep (A : Mat) (cond : Nat → Bool) (next : Nat → Nat)
    (body : Nat → Mat → Option Mat) (R : Nat → Nat → Nat → Prop) (t0 hi d : Nat) (hd : 0 < d)
    (hcond : ∀ t, cond t = true ↔ t < hi) (hnext : ∀ t, next t = t + d)
    (hbody : ∀ t B, t < hi → ∃ B1, body t B = some B1
      ∧ (∀ a b, ¬ R t a b → B1 a b = B a b) ∧ (∀ a b, R t a b → B1 a b = A b a))
    (fuel : Nat) (hfuel : hi ≤ t0 + fuel) (B : Mat) :
    ∃ B', forLoop cond next body (fuel + 1) t0 B = some B'
      ∧ (∀ a b, (¬ ∃ m, t0 + d * m < hi ∧ R (t0 + d * m) a b) → B' a b = B a b)
      ∧ (∀ a b, (∃ m, t0 + d * m < hi ∧ R (t0 + d * m) a b) → B' a b = A b a) := by
  obtain ⟨B', t', h1, h2, n, hn, h3, h4⟩ := forLoop_rule cond next body
    (fun t B0 => ∃ n, t = t0 + d * n
      ∧ (∀ a b, (¬ ∃ m, m < n ∧ t0 + d * m < hi ∧ R (t0 + d * m) a b) → B0 a b = B a b)
      ∧ (∀ a b, (∃ m, m < n ∧ t0 + d * m < hi ∧ R (t0 + d * m) a b) → B0 a b = A b a)) hi
    hcond (fun t => by rw [hnext]; omega)
    (by
      rintro t B0 ht ⟨n, rfl, hI1, hI2⟩
      obtain ⟨B1, e, f1, f2⟩ := hbody _ B0 ht
      refine ⟨B1, e, n + 1, by rw [hnext]; ring, ?_, ?_⟩
      · intro a b hno
        have hR : ¬ R (t0 + d * n) a b := fun hr => hno ⟨n, by omega, ht, hr⟩
        rw [f1 a b hR]
        apply hI1
        rintro ⟨m, hm, hr⟩
        exact hno ⟨m, by omega, hr⟩
      · rintro a b ⟨m, hm, hlt, hr⟩
        by_cases hR : R (t0 + d * n) a b
        · exact f2 a b hR
        · rw [f1 a b hR]
          apply hI2
          have : m ≠ n := by
            rintro rfl
            exact hR hr
          exact ⟨m, by omega, hlt, hr⟩)
    fuel t0 B hfuel ⟨0, by simp, fun a b _ => rfl, by
      rintro a b ⟨m, hm, -⟩
      omega⟩
  subst hn
  have hlt : ∀ m, t0 + d * m < hi → m < n := by
    intro m hm
    have : d * m < d * n := by omega
    exact Nat.lt_of_mul_lt_mul_left this
  refine ⟨B', h1, ?_, ?_⟩
  · intro a b hno
    apply h3
    rintro ⟨m, -, hm, hr⟩
    exact hno ⟨m, hm, hr⟩
  · rintro a b ⟨m, hm, hr⟩
    exact h4 a b ⟨m, hlt m hm, hm, hr⟩

end TransC

namespace TransC

/-- The rule `sweep`, with the two facts about the final array handed to a
continuation. -/
theorem sweepQ (A : Mat) (cond : Nat → Bool) (next : Nat → Nat)
    (body : Nat → Mat → Option Mat) (R : Nat → Nat → Nat → Prop) (t0 hi d : Nat) (hd : 0 < d)
    (hcond : ∀ t, cond t = true ↔ t < hi) (hnext : ∀ t, next t = t + d)
    (hbody : ∀ t B, t < hi → ∃ B1, body t B = some B1
      ∧ (∀ a b, ¬ R t a b → B1 a b = B a b) ∧ (∀ a b, R t a b → B1 a b = A b a))
    (fuel : Nat) (hfuel : hi ≤ t0 + fuel) (B : Mat) (Q : Mat → Prop)
    (hQ : ∀ B', (∀ a b, (¬ ∃ m, t0 + d * m < hi ∧ R (t0 + d * m) a b) → B' a b = B a b) →
      (∀ a b, (∃ m, t0 + d * m < hi ∧ R (t0 + d * m) a b) → B' a b = A b a) → Q B') :
    ∃ B', forLoop cond next body (fuel + 1) t0 B = some B' ∧ Q B' := by
  obtain ⟨B', h1, h2, h3⟩ := sweep A cond next body R t0 hi d hd hcond hnext hbody fuel hfuel B
  exact ⟨B', h1, hQ B' h2 h3⟩

theorem transpose_61_67_spec (A B : Mat) :
    ∃ B', transpose_61_67 A B = some B' ∧ ∀ a b, a < 61 → b < 67 → B' a b = A b a := by
  unfold transpose_61_67
  apply sweepQ A _ _ _ (fun i a b => i ≤ a ∧ a < i + 8 ∧ a < 61 ∧ b < 67) 0 61 8 (by decide)
    (fun t => by simp) (fun t => rfl) ?_ 61 (by omega) B
  · intro B' _ h2 a b ha hb
    exact h2 a b ⟨a / 8, by omega, by omega, by omega, ha, hb⟩
  intro i B hi
  apply sweepQ A _ _ _ (fun j a b => j ≤ b ∧ b < j + 8 ∧ b < 67 ∧ i ≤ a ∧ a < i + 8 ∧ a < 61)
    0 67 8 (by decide) (fun t => by simp) (fun t => rfl) ?_ 67 (by omega) B
  · intro B' h1 h2
    refine ⟨fun a b hn => h1 a b ?_, fun a b hr => h2 a b ?_⟩
    · rintro ⟨m, hm, hr⟩
      exact hn ⟨hr.2.2.2.1, hr.2.2.2.2.1, hr.2.2.2.2.2, hr.2.2.1⟩
    · exact ⟨b / 8, by omega, by omega, by omega, hr.2.2.2, hr.1, hr.2.1, hr.2.2.1⟩
  intro j B hj
  apply sweepQ A _ _ _ (fun k a b => b = k ∧ i ≤ a ∧ a < i + 8 ∧ a < 61)
    j (min (j + 8) 67) 1 (by decide) (fun t => by simp) (fun t => rfl) ?_ 8 (by omega) B
  · intro B' h1 h2
    refine ⟨fun a b hn => h1 a b ?_, fun a b hr => h2 a b ?_⟩
    · rintro ⟨m, hm, hr⟩
      exact hn ⟨by omega, by omega, by omega, hr.2⟩
    · exact ⟨b - j, by omega, by omega, hr.2.2.2⟩
  intro k B hk
  apply sweepQ A _ _ _ (fun l a b => a = l ∧ b = k)
    i (min (i + 8) 61) 1 (by decide) (fun t => by simp) (fun t => rfl) ?_ 8 (by omega) B
  · intro B' h1 h2
    refine ⟨fun a b hn => h1 a b ?_, fun a b hr => h2 a b ?_⟩
    · rintro ⟨m, hm, hr⟩
      exact hn ⟨hr.2, by omega, by omega, by omega⟩
    · exact ⟨a - i, by omega, by omega, hr.1⟩
  intro l B hl
  have hk' : k < 67 := by omega
  have hl' : l < 61 := by omega
  simp only [rd_some A hk' hl', wr_some _ _ hl' hk', Option.bind_eq_bind, Option.some_bind]
  refine ⟨_, rfl, ?_, ?_⟩
  · intro a b hn
    rw [if_neg hn]
  · intro a b hr
    rw [if_pos hr, hr.1, hr.2]

end TransC

namespace Csim

theorem indexOf_erase (l : List Int) (t u : Int) (ht : t ∈ l) (hu : u ≠ t) :
    (l.indexOf u < l.indexOf t → (l.erase t).indexOf u = l.indexOf u)
    ∧ (l.indexOf t < l.indexOf u → (l.erase t).indexOf u + 1 = l.indexOf u)
    ∧ l.indexOf u ≠ l.indexOf t := by
  induction l with
  | nil => simp at ht
  | cons x xs ih =>
    by_cases hxt : x = t
    · subst hxt
      rw [List.erase_cons_head, List.indexOf_cons_self, List.indexOf_cons_ne _ (Ne.symm hu)]
      refine ⟨fun h => ?_, fun _ => rfl, by omega⟩
      omega
    · have ht2 : t ∈ xs := by
        rcases List.mem_cons.1 ht with h | h
        · exact absurd h.symm hxt
        · exact h
      obtain ⟨i1, i2, i3⟩ := ih ht2
      rw [List.erase_cons_tail (by simpa using hxt), List.indexOf_cons_ne _ hxt]
      by_cases hxu : x = u
      · subst hxu
        rw [List.indexOf_cons_self, List.indexOf_cons_self]
        refine ⟨fun _ => rfl, fun h => ?_, by omega⟩
        omega
      · rw [List.indexOf_cons_ne _ hxu, List.indexOf_cons_ne _ hxu]
        refine ⟨fun h => ?_, fun h => ?_, ?_⟩
        · rw [i1 (by omega)]
        · have := i2 (by omega)
          omega
        · omega

theorem erase_last (l : List Int) (t : Int) (h : l.indexOf t + 1 = l.length) :
    l.erase t = l.dropLast := by
  induction l with
  | nil => simp at h
  | cons x xs ih =>
    by_cases hxt : x = t
    · subst hxt
      rw [List.indexOf_cons_self] at h
      have : xs = [] := List.eq_nil_of_length_eq_zero (by simpa using h.symm)
      subst this
      simp
    · rw [List.indexOf_cons_ne _ hxt] at h
      have hl : xs.indexOf t + 1 = xs.length := by simpa using h
      have hne : xs ≠ [] := by
        rintro rfl
        simp at hl
      rw [List.erase_cons_tail (by simpa using hxt), ih hl]
      cases xs with
      | nil => exact absurd rfl hne
      | cons y ys => rfl

theorem validCount_eq {E : Nat} {ln : Nat → line_t} {l : List Int} (h : SetRel E ln l) :
    validCount E ln = l.length := by
  unfold validCount
  rw [← Finset.card_range l.length]
  refine Finset.card_nbij (fun i => l.indexOf (ln i).tag) ?_ ?_ ?_
  · intro i hi
    rw [Finset.mem_filter, Finset.mem_range] at hi
    rw [Finset.mem_range]
    exact List.indexOf_lt_length.2 (h.rank i hi.1 hi.2).1
  · intro i hi k hk e
    rw [Finset.mem_coe, Finset.mem_filter, Finset.mem_range] at hi hk
    exact h.inj i k hi.1 hk.1 hi.2 hk.2
      ((List.indexOf_inj (h.rank i hi.1 hi.2).1 (h.rank k hk.1 hk.2).1).1 e)
  · intro j hj
    rw [Finset.mem_coe, Finset.mem_range] at hj
    obtain ⟨i, hi, hv, ht⟩ := h.surj (l.get ⟨j, hj⟩) (List.get_mem _ _ _)
    refine ⟨i, ?_, ?_⟩
    · rw [Finset.mem_coe, Finset.mem_filter, Finset.mem_range]
      exact ⟨hi, hv⟩
    · show l.indexOf (ln i).tag = j
      rw [ht]
      exact List.indexOf_getElem h.nodup j hj

theorem validCount_le (E : Nat) (ln : Nat → line_t) : validCount E ln ≤ E := by
  unfold validCount
  exact (Finset.card_filter_le _ _).trans (by rw [Finset.card_range])

theorem validCount_lt {E : Nat} {ln : Nat → line_t} {c : Nat} (hc : c < E) (hv : (ln c).v = 0) :
    validCount E ln < E := by
  unfold validCount
  have : ((Finset.range E).filter fun i => (ln i).v ≠ 0) ⊂ Finset.range E :=
    (Finset.filter_ssubset).2 ⟨c, Finset.mem_range.2 hc, by simpa using hv⟩
  simpa using Finset.card_lt_card this

theorem validCount_full {E : Nat} {ln : Nat → line_t} (h : ∀ i, i < E → (ln i).v ≠ 0) :
    validCount E ln = E := by
  unfold validCount
  rw [Finset.filter_true_of_mem, Finset.card_range]
  intro i hi
  exact h i (Finset.mem_range.1 hi)

theorem validCount_full_iff {E : Nat} {ln : Nat → line_t} :
    validCount E ln = E ↔ ∀ i, i < E → (ln i).v ≠ 0 := by
  refine ⟨fun h i hi hv => ?_, validCount_full⟩
  have := validCount_lt hi hv
  omega

end Csim

namespace Csim

theorem dec_eq {x : Nat} (h1 : 1 ≤ x) (h2 : x < SIZE_T) : (x + SIZE_T - 1) % SIZE_T = x - 1 := by
  unfold SIZE_T at *
  omega

theorem SetRel_length_le {E : Nat} {ln : Nat → line_t} {l : List Int} (h : SetRel E ln l) :
    l.length ≤ E := by
  rw [← validCount_eq h]
  exact validCount_le E ln

/-- An access through a valid line `c`: the tag of the line leaves the list
and the accessed tag becomes the most recent. -/
theorem SetRel_touch {E : Nat} {ln : Nat → line_t} {l : List Int} (h : SetRel E ln l)
    (hE : E < SIZE_T) {c : Nat} (hc : c < E) (hv : (ln c).v ≠ 0) (tag : Int)
    (htag : tag = (ln c).tag ∨ tag ∉ l) (ln' : Nat → line_t)
    (e : ∀ k, k < E → ln' k =
      if k = c then { v := 1, tag := tag, lru := (E + SIZE_T - 1) % SIZE_T }
      else if (ln k).v ≠ 0 ∧ (ln k).lru > (ln c).lru then
        { ln k with lru := ((ln k).lru + SIZE_T - 1) % SIZE_T }
      else ln k) :
    SetRel E ln' (tag :: l.erase (ln c).tag) := by
  obtain ⟨hct, hcr⟩ := h.rank c hc hv
  have ec : ln' c = { v := 1, tag := tag, lru := (E + SIZE_T - 1) % SIZE_T } := by
    rw [e c hc, if_pos rfl]
  have ek : ∀ k, k < E → k ≠ c → (ln' k).v = (ln k).v ∧ (ln' k).tag = (ln k).tag
      ∧ (ln' k).lru = if (ln k).v ≠ 0 ∧ (ln k).lru > (ln c).lru then
          ((ln k).lru + SIZE_T - 1) % SIZE_T else (ln k).lru := by
    intro k hk hkc
    rw [e k hk, if_neg hkc]
    split_ifs <;> exact ⟨rfl, rfl, rfl⟩
  have hne : ∀ k, k < E → k ≠ c → (ln k).v ≠ 0 →
      (ln k).tag ≠ (ln c).tag ∧ (ln k).tag ≠ tag := by
    intro k hk hkc hkv
    have h1 : (ln k).tag ≠ (ln c).tag := fun e1 => hkc (h.inj k c hk hc hkv hv e1)
    refine ⟨h1, ?_⟩
    rcases htag with h2 | h2
    · rw [h2]; exact h1
    · intro e2
      exact h2 (e2 ▸ (h.rank k hk hkv).1)
  have hnd : tag ∉ l.erase (ln c).tag := by
    rcases htag with h2 | h2
    · rw [h2]; exact h.nodup.not_mem_erase
    · exact fun h3 => h2 (List.mem_of_mem_erase h3)
  refine ⟨List.nodup_cons.2 ⟨hnd, h.nodup.erase _⟩, ?_, ?_, ?_⟩
  · intro k hk hkv
    by_cases hkc : k = c
    · subst hkc
      rw [ec]
      refine ⟨List.mem_cons_self _ _, ?_⟩
      show (E + SIZE_T - 1) % SIZE_T + List.indexOf tag (tag :: l.erase (ln k).tag) + 1 = E
      rw [List.indexOf_cons_self, dec_eq (by omega) hE]
      omega
    · obtain ⟨e1, e2, e3⟩ := ek k hk hkc
      rw [e1] at hkv
      obtain ⟨hkt, hkr⟩ := h.rank k hk hkv
      obtain ⟨n1, n2⟩ := hne k hk hkc hkv
      obtain ⟨i1, i2, i3⟩ := indexOf_erase l (ln c).tag (ln k).tag hct n1
      rw [e2, e3]
      refine ⟨List.mem_cons_of_mem _ ((h.nodup.mem_erase_iff).2 ⟨n1, hkt⟩), ?_⟩
      rw [List.indexOf_cons_ne _ (Ne.symm n2)]
      by_cases hgt : (ln k).lru > (ln c).lru
      · rw [if_pos ⟨hkv, hgt⟩, dec_eq (by omega) (by omega), i1 (by omega)]
        omega
      · rw [if_neg (fun hh => hgt hh.2)]
        have := i2 (by omega)
        omega
  · intro t ht
    rcases List.mem_cons.1 ht with h1 | h1
    · exact ⟨c, hc, by rw [ec]; exact one_ne_zero, by rw [ec, h1]⟩
    · obtain ⟨n1, n2⟩ := (h.nodup.mem_erase_iff).1 h1
      obtain ⟨i, hi, hiv, hit⟩ := h.surj t n2
      have hic : i ≠ c := by
        rintro rfl
        exact n1 hit.symm
      obtain ⟨e1, e2, -⟩ := ek i hi hic
      exact ⟨i, hi, by rw [e1]; exact hiv, by rw [e2]; exact hit⟩
  · intro i k hi hk hiv hkv hik
    by_cases hic : i = c
    · by_cases hkc : k = c
      · rw [hic, hkc]
      · exfalso
        obtain ⟨e1, e2, -⟩ := ek k hk hkc
        rw [e1] at hkv
        rw [hic, ec, e2] at hik
        exact (hne k hk hkc hkv).2 hik.symm
    · obtain ⟨e1, e2, -⟩ := ek i hi hic
      rw [e1] at hiv
      by_cases hkc : k = c
      · exfalso
        rw [hkc, ec, e2] at hik
        exact (hne i hi hic hiv).2 hik
      · obtain ⟨f1, f2, -⟩ := ek k hk hkc
        rw [f1] at hkv
        rw [e2, f2] at hik
        exact h.inj i k hi hk hiv hkv hik

/-- An access that fills the invalid line `c`: the accessed tag joins the list
as the most recent. -/
theorem SetRel_fill {E : Nat} {ln : Nat → line_t} {l : List Int} (h : SetRel E ln l)
    (hE : E < SIZE_T) {c : Nat} (hc : c < E) (hv : (ln c).v = 0) (tag : Int)
    (htag : tag ∉ l) (ln' : Nat → line_t)
    (e : ∀ k, k < E → ln' k =
      if k = c then { v := 1, tag := tag, lru := (E + SIZE_T - 1) % SIZE_T }
      else if (ln k).v ≠ 0 ∧ (ln k).lru > 0 then
        { ln k with lru := ((ln k).lru + SIZE_T - 1) % SIZE_T }
      else ln k) :
    SetRel E ln' (tag :: l) := by
  have hlen : l.length < E := by
    rw [← validCount_eq h]
    exact validCount_lt hc hv
  have ec : ln' c = { v := 1, tag := tag, lru := (E + SIZE_T - 1) % SIZE_T } := by
    rw [e c hc, if_pos rfl]
  have ek : ∀ k, k < E → k ≠ c → (ln' k).v = (ln k).v ∧ (ln' k).tag = (ln k).tag
      ∧ (ln' k).lru = if (ln k).v ≠ 0 ∧ (ln k).lru > 0 then
          ((ln k).lru + SIZE_T - 1) % SIZE_T else (ln k).lru := by
    intro k hk hkc
    rw [e k hk, if_neg hkc]
    split_ifs <;> exact ⟨rfl, rfl, rfl⟩
  have hkc : ∀ k, (ln k).v ≠ 0 → k ≠ c := by
    rintro k hkv rfl
    exact hkv hv
  have hne : ∀ k, k < E → (ln k).v ≠ 0 → (ln k).tag ≠ tag := by
    intro k hk hkv e2
    exact htag (e2 ▸ (h.rank k hk hkv).1)
  refine ⟨List.nodup_cons.2 ⟨htag, h.nodup⟩, ?_, ?_, ?_⟩
  · intro k hk hkv
    by_cases hkc2 : k = c
    · subst hkc2
      rw [ec]
      refine ⟨List.mem_cons_self _ _, ?_⟩
      show (E + SIZE_T - 1) % SIZE_T + List.indexOf tag (tag :: l) + 1 = E
      rw [List.indexOf_cons_self, dec_eq (by omega) hE]
      omega
    · obtain ⟨e1, e2, e3⟩ := ek k hk hkc2
      rw [e1] at hkv
      obtain ⟨hkt, hkr⟩ := h.rank k hk hkv
      have hidx := List.indexOf_lt_length.2 hkt
      rw [e2, e3]
      refine ⟨List.mem_cons_of_mem _ hkt, ?_⟩
      rw [List.indexOf_cons_ne _ (Ne.symm (hne k hk hkv)),
        if_pos ⟨hkv, by omega⟩, dec_eq (by omega) (by omega)]
      omega
  · intro t ht
    rcases List.mem_cons.1 ht with h1 | h1
    · exact ⟨c, hc, by rw [ec]; exact one_ne_zero, by rw [ec, h1]⟩
    · obtain ⟨i, hi, hiv, hit⟩ := h.surj t h1
      obtain ⟨e1, e2, -⟩ := ek i hi (hkc i hiv)
      exact ⟨i, hi, by rw [e1]; exact hiv, by rw [e2]; exact hit⟩
  · intro i k hi hk hiv hkv hik
    by_cases hic : i = c
    · by_cases hkc2 : k = c
      · rw [hic, hkc2]
      · exfalso
        obtain ⟨e1, e2, -⟩ := ek k hk hkc2
        rw [e1] at hkv
        rw [hic, ec, e2] at hik
        exact hne k hk hkv hik.symm
    · obtain ⟨e1, e2, -⟩ := ek i hi hic
      rw [e1] at hiv
      by_cases hkc2 : k = c
      · exfalso
        rw [hkc2, ec, e2] at hik
        exact hne i hi hiv hik
      · obtain ⟨f1, f2, -⟩ := ek k hk hkc2
        rw [f1] at hkv
        rw [e2, f2] at hik
        exact h.inj i k hi hk hiv hkv hik

end Csim

namespace Csim

theorem firstLine_some {stop : Nat → Bool} : ∀ {n i c : Nat}, firstLine stop n i = some c →
    i ≤ c ∧ c < i + n ∧ stop c = true
  | 0, i, c, h => by simp [firstLine] at h
  | n + 1, i, c, h => by
    unfold firstLine at h
    by_cases hs : stop i = true
    · rw [if_pos hs] at h
      cases h
      exact ⟨le_refl _, by omega, hs⟩
    · rw [if_neg hs] at h
      obtain ⟨h1, h2, h3⟩ := firstLine_some h
      exact ⟨by omega, by omega, h3⟩

theorem firstLine_none {stop : Nat → Bool} : ∀ {n i : Nat}, firstLine stop n i = none →
    ∀ k, i ≤ k → k < i + n → stop k = false
  | 0, i, _, k, h1, h2 => by omega
  | n + 1, i, h, k, h1, h2 => by
    unfold firstLine at h
    by_cases hs : stop i = true
    · rw [if_pos hs] at h
      cases h
    · rw [if_neg hs] at h
      by_cases hk : k = i
      · subst hk
        simpa using hs
      · exact firstLine_none h k (by omega) (by omega)

theorem setLine_sets (s : State) (set line : Nat) (x : line_t) (st k : Nat) :
    (setLine s set line x).sets st k = if st = set ∧ k = line then x else s.sets st k := by
  unfold setLine
  show Function.update s.sets set (Function.update (s.sets set) line x) st k = _
  by_cases h1 : st = set
  · subst h1
    rw [Function.update_same]
    by_cases h2 : k = line
    · subst h2
      rw [Function.update_same, if_pos ⟨rfl, rfl⟩]
    · rw [Function.update_noteq h2, if_neg (fun h => h2 h.2)]
  · rw [Function.update_noteq h1, if_neg (fun h => h1 h.1)]

theorem update_loop_spec (set lru : Nat) : ∀ (n i : Nat) (s : State),
    (update_loop set lru n i s).E = s.E
    ∧ (update_loop set lru n i s).set_num = s.set_num
    ∧ (update_loop set lru n i s).hit_count = s.hit_count
    ∧ (update_loop set lru n i s).miss_count = s.miss_count
    ∧ (update_loop set lru n i s).eviction_count = s.eviction_count
    ∧ ∀ st k, (update_loop set lru n i s).sets st k =
        if st = set ∧ i ≤ k ∧ k < i + n ∧ (s.sets set k).v ≠ 0 ∧ (s.sets set k).lru > lru then
          { v := (s.sets set k).v, tag := (s.sets set k).tag,
            lru := ((s.sets set k).lru + SIZE_T - 1) % SIZE_T }
        else s.sets st k
  | 0, i, s => by
    refine ⟨rfl, rfl, rfl, rfl, rfl, fun st k => ?_⟩
    rw [if_neg (by omega)]
    rfl
  | n + 1, i, s => by
    unfold update_loop
    by_cases hc : (s.sets set i).v ≠ 0 ∧ (s.sets set i).lru > lru
    · rw [if_pos hc]
      obtain ⟨h1, h2, h3, h4, h5, h6⟩ := update_loop_spec set lru n (i + 1)
        (setLine s set i { s.sets set i with lru := ((s.sets set i).lru + SIZE_T - 1) % SIZE_T })
      refine ⟨h1, h2, h3, h4, h5, fun st k => ?_⟩
      rw [h6 st k]
      simp only [setLine_sets]
      by_cases hk : k = i
      · subst hk
        rw [if_neg (by omega)]
        by_cases hst : st = set
        · subst hst
          rw [if_pos ⟨rfl, rfl⟩, if_pos ⟨rfl, le_refl _, by omega, hc⟩]
        · rw [if_neg (fun h => hst h.1), if_neg (fun h => hst h.1)]
      · simp only [hk, and_false, if_false]
        refine if_congr ?_ rfl rfl
        constructor <;> rintro ⟨a1, a2, a3, a4⟩ <;> exact ⟨a1, by omega, by omega, a4⟩
    · rw [if_neg hc]
      obtain ⟨h1, h2, h3, h4, h5, h6⟩ := update_loop_spec set lru n (i + 1) s
      refine ⟨h1, h2, h3, h4, h5, fun st k => ?_⟩
      rw [h6 st k]
      refine if_congr ?_ rfl rfl
      constructor
      · rintro ⟨a1, a2, a3, a4⟩
        exact ⟨a1, by omega, by omega, a4⟩
      · rintro ⟨a1, a2, a3, a4⟩
        refine ⟨a1, ?_, by omega, a4⟩
        rcases Nat.eq_or_lt_of_le a2 with e | e
        · subst e
          exact absurd a4 hc
        · exact e

theorem update_spec (s : State) (set c : Nat) :
    (update s set c).E = s.E
    ∧ (update s set c).set_num = s.set_num
    ∧ (update s set c).hit_count = s.hit_count
    ∧ (update s set c).miss_count = s.miss_count
    ∧ (update s set c).eviction_count = s.eviction_count
    ∧ ∀ st k, (update s set c).sets st k =
        if st = set ∧ k = c then
          { v := (s.sets set c).v, tag := (s.sets set c).tag, lru := (s.E + SIZE_T - 1) % SIZE_T }
        else if st = set ∧ k < s.E ∧ (s.sets set k).v ≠ 0
            ∧ (s.sets set k).lru > (s.sets set c).lru then
          { v := (s.sets set k).v, tag := (s.sets set k).tag,
            lru := ((s.sets set k).lru + SIZE_T - 1) % SIZE_T }
        else s.sets st k := by
  obtain ⟨h1, h2, h3, h4, h5, h6⟩ := update_loop_spec set (s.sets set c).lru s.E 0 s
  refine ⟨h1, h2, h3, h4, h5, fun st k => ?_⟩
  unfold update
  dsimp only
  rw [setLine_sets]
  by_cases hk : st = set ∧ k = c
  · obtain ⟨rfl, rfl⟩ := hk
    rw [if_pos ⟨rfl, rfl⟩, if_pos ⟨rfl, rfl⟩, h6 st k,
      if_neg (fun h => absurd h.2.2.2.2 (lt_irrefl _))]
  · rw [if_neg hk, if_neg hk, h6 st k]
    refine if_congr ?_ rfl rfl
    constructor
    · rintro ⟨a1, -, a3, a4⟩
      exact ⟨a1, by omega, a4⟩
    · rintro ⟨a1, a3, a4⟩
      exact ⟨a1, Nat.zero_le _, by omega, a4⟩

theorem write_allocate_spec (s : State) (set c : Nat) (tag : Int) :
    (write_allocate s set c tag).E = s.E
    ∧ (write_allocate s set c tag).set_num = s.set_num
    ∧ (write_allocate s set c tag).hit_count = s.hit_count
    ∧ (write_allocate s set c tag).miss_count = s.miss_count
    ∧ (write_allocate s set c tag).eviction_count = s.eviction_count
    ∧ (∀ st, st ≠ set → (write_allocate s set c tag).sets st = s.sets st)
    ∧ ∀ k, (write_allocate s set c tag).sets set k =
        if k = c then { v := 1, tag := tag, lru := (s.E + SIZE_T - 1) % SIZE_T }
        else if k < s.E ∧ (s.sets set k).v ≠ 0 ∧ (s.sets set k).lru > (s.sets set c).lru then
          { v := (s.sets set k).v, tag := (s.sets set k).tag,
            lru := ((s.sets set k).lru + SIZE_T - 1) % SIZE_T }
        else s.sets set k := by
  obtain ⟨h1, h2, h3, h4, h5, h6⟩ :=
    update_spec (setLine s set c { s.sets set c with v := 1, tag := tag }) set c
  refine ⟨h1, h2, h3, h4, h5, fun st hst => ?_, fun k => ?_⟩
  · funext k
    refine (h6 st k).trans ?_
    rw [if_neg (fun h => hst h.1), if_neg (fun h => hst h.1), setLine_sets,
      if_neg (fun h => hst h.1)]
  · refine (h6 set k).trans ?_
    simp only [setLine_sets]
    by_cases hk : k = c
    · subst hk
      simp
      rfl
    · simp only [hk, and_false, if_false, true_and, and_true, if_true]
      rfl

end Csim

namespace Csim

theorem check_HIT (s : State) (set : Nat) (tag : Int) :
    (∃ c, c < s.E ∧ (s.sets set c).v ≠ 0 ∧ (s.sets set c).tag = tag
        ∧ check s set tag Op.HIT = (some c, { s with hit_count := incr s.hit_count }))
    ∨ ((∀ k, k < s.E → ¬ ((s.sets set k).v ≠ 0 ∧ (s.sets set k).tag = tag))
        ∧ check s set tag Op.HIT = (none, s)) := by
  unfold check
  simp only [if_true]
  cases h : firstLine (fun i => !hit_condition (s.sets set i) tag) s.E 0 with
  | none =>
    right
    refine ⟨fun k hk hh => ?_, rfl⟩
    have := firstLine_none h k (Nat.zero_le _) (by omega)
    simp [hit_condition] at this
    exact this hh.1 hh.2
  | some c =>
    left
    obtain ⟨-, h2, h3⟩ := firstLine_some h
    simp [hit_condition] at h3
    exact ⟨c, by omega, h3.1, h3.2, rfl⟩

theorem check_COLD (s : State) (set : Nat) (tag : Int) :
    (∃ c, c < s.E ∧ (s.sets set c).v = 0
        ∧ check s set tag Op.COLD_MISS
          = (some c, setLine s set c { s.sets set c with lru := 0 }))
    ∨ ((∀ k, k < s.E → (s.sets set k).v ≠ 0) ∧ check s set tag Op.COLD_MISS = (none, s)) := by
  unfold check
  have hop : (Op.COLD_MISS = Op.HIT) = False := by simp
  simp only [hop, if_false]
  cases h : firstLine (fun i => !cold_miss_condition (s.sets set i) tag) s.E 0 with
  | none =>
    right
    refine ⟨fun k hk hh => ?_, rfl⟩
    have := firstLine_none h k (Nat.zero_le _) (by omega)
    simp [cold_miss_condition] at this
    exact this hh
  | some c =>
    left
    obtain ⟨-, h2, h3⟩ := firstLine_some h
    simp [cold_miss_condition] at h3
    exact ⟨c, by omega, h3, rfl⟩

theorem getLRU_spec (s : State) (set : Nat) :
    (∃ c, c < s.E ∧ (s.sets set c).v ≠ 0 ∧ (s.sets set c).lru = 0 ∧ getLRU s set = some c)
    ∨ ((∀ k, k < s.E → ¬ ((s.sets set k).v ≠ 0 ∧ (s.sets set k).lru = 0))
        ∧ getLRU s set = none) := by
  unfold getLRU
  cases h : firstLine (fun i => decide ((s.sets set i).v ≠ 0 ∧ (s.sets set i).lru = 0)) s.E 0 with
  | none =>
    right
    refine ⟨fun k hk hh => ?_, rfl⟩
    have := firstLine_none h k (Nat.zero_le _) (by omega)
    simp at this
    exact absurd hh.2 (this hh.1)
  | some c =>
    left
    obtain ⟨-, h2, h3⟩ := firstLine_some h
    simp at h3
    exact ⟨c, by omega, h3.1, h3.2, rfl⟩

theorem load_store_hit {s s1 : State} {si tag : Int} {c : Nat} (h0 : 0 ≤ si)
    (h1 : si < s.set_num) (e1 : check s si.toNat tag Op.HIT = (some c, s1)) :
    load_store s si tag = some (write_allocate s1 si.toNat c tag) := by
  unfold load_store
  rw [if_neg (by omega)]
  simp [e1]

theorem load_store_cold {s s2 : State} {si tag : Int} {c : Nat} (h0 : 0 ≤ si)
    (h1 : si < s.set_num) (e1 : check s si.toNat tag Op.HIT = (none, s))
    (e2 : check { s with miss_count := incr s.miss_count } si.toNat tag Op.COLD_MISS
      = (some c, s2)) :
    load_store s si tag = some (write_allocate s2 si.toNat c tag) := by
  unfold load_store
  rw [if_neg (by omega)]
  simp [e1, e2]

theorem load_store_evict {s : State} {si tag : Int} (h0 : 0 ≤ si)
    (h1 : si < s.set_num) (e1 : check s si.toNat tag Op.HIT = (none, s))
    (e2 : check { s with miss_count := incr s.miss_count } si.toNat tag Op.COLD_MISS
      = (none, { s with miss_count := incr s.miss_count })) :
    load_store s si tag = (getLRU s si.toNat).map fun c =>
      write_allocate { { s with miss_count := incr s.miss_count } with
        eviction_count := incr s.eviction_count } si.toNat c tag := by
  unfold load_store
  rw [if_neg (by omega)]
  simp only [e1, e2, if_true, evict]
  have : getLRU { { s with miss_count := incr s.miss_count } with
      eviction_count := incr s.eviction_count } si.toNat = getLRU s si.toNat := rfl
  rw [this]
  cases getLRU s si.toNat <;> rfl

theorem incr_wrapInt (n : Nat) : incr (wrapInt n) = wrapInt (n + 1) := by
  unfold incr wrapInt
  push_cast
  omega

end Csim

namespace Csim

theorem refAccess_hit {E : Nat} {r : RefCache} {si tag : Int} (h : tag ∈ r.sets si) :
    refAccess E r (si, tag) =
      { r with sets := Function.update r.sets si (tag :: (r.sets si).erase tag)
               hits := r.hits + 1 } := by
  show (if tag ∈ r.sets si then _ else _) = _
  rw [if_pos h]

theorem refAccess_cold {E : Nat} {r : RefCache} {si tag : Int} (h : tag ∉ r.sets si)
    (hl : (r.sets si).length < E) :
    refAccess E r (si, tag) =
      { r with sets := Function.update r.sets si (tag :: r.sets si)
               misses := r.misses + 1 } := by
  show (if tag ∈ r.sets si then _ else _) = _
  rw [if_neg h]
  show (if (r.sets si).length < E then _ else _) = _
  rw [if_pos hl]

theorem refAccess_evict {E : Nat} {r : RefCache} {si tag : Int} (h : tag ∉ r.sets si)
    (hl : ¬ (r.sets si).length < E) :
    refAccess E r (si, tag) =
      { r with sets := Function.update r.sets si (tag :: (r.sets si).dropLast)
               misses := r.misses + 1
               evictions := r.evictions + 1 } := by
  show (if tag ∈ r.sets si then _ else _) = _
  rw [if_neg h]
  show (if (r.sets si).length < E then _ else _) = _
  rw [if_neg hl]

theorem CacheRel_update {s s1 : State} {r r1 : RefCache} (h : CacheRel s r) {si : Int}
    (h0 : 0 ≤ si) (l1 : List Int) (eE : s1.E = s.E) (eN : s1.set_num = s.set_num)
    (eo : ∀ st, st ≠ si.toNat → s1.sets st = s.sets st)
    (hl : SetRel s.E (s1.sets si.toNat) l1)
    (er : r1.sets = Function.update r.sets si l1)
    (c1 : s1.hit_count = wrapInt r1.hits) (c2 : s1.miss_count = wrapInt r1.misses)
    (c3 : s1.eviction_count = wrapInt r1.evictions) : CacheRel s1 r1 := by
  refine ⟨fun st hst => ?_, c1, c2, c3⟩
  rw [eE, er]
  by_cases hs : st = si.toNat
  · subst hs
    rw [Int.toNat_of_nonneg h0, Function.update_same]
    exact hl
  · have : (st : Int) ≠ si := by
      intro e
      apply hs
      rw [← e]
      rfl
    rw [Function.update_noteq this, eo st hs]
    exact h.sets st (eN ▸ hst)

theorem lines_conv {E c R : Nat} {X : line_t} {ln ln1 : Nat → line_t}
    (w : ∀ k, ln1 k = if k = c then X
      else if k < E ∧ (ln k).v ≠ 0 ∧ (ln k).lru > R then
        { v := (ln k).v, tag := (ln k).tag, lru := ((ln k).lru + SIZE_T - 1) % SIZE_T }
      else ln k) :
    ∀ k, k < E → ln1 k = if k = c then X
      else if (ln k).v ≠ 0 ∧ (ln k).lru > R then
        { ln k with lru := ((ln k).lru + SIZE_T - 1) % SIZE_T }
      else ln k := by
  intro k hk
  rw [w k]
  by_cases hkc : k = c
  · rw [if_pos hkc, if_pos hkc]
  · rw [if_neg hkc, if_neg hkc]
    refine if_congr ?_ rfl rfl
    constructor
    · exact fun h => h.2
    · exact fun h => ⟨hk, h⟩

theorem full_has_lru0 {E : Nat} {ln : Nat → line_t} {l : List Int} (h : SetRel E ln l)
    (hE1 : 1 ≤ E) (hfull : ∀ k, k < E → (ln k).v ≠ 0) :
    ∃ i, i < E ∧ (ln i).v ≠ 0 ∧ (ln i).lru = 0 := by
  have hlen : l.length = E := by
    rw [← validCount_eq h]
    exact validCount_full hfull
  have hj : E - 1 < l.length := by omega
  obtain ⟨i, hi, hv, ht⟩ := h.surj (l.get ⟨E - 1, hj⟩) (List.get_mem _ _ _)
  refine ⟨i, hi, hv, ?_⟩
  have h2 := (h.rank i hi hv).2
  rw [ht] at h2
  have h3 : l.indexOf (l.get ⟨E - 1, hj⟩) = E - 1 := List.indexOf_getElem h.nodup (E - 1) hj
  omega

end Csim

namespace Csim

theorem load_store_sim {s : State} {r : RefCache} (h : CacheRel s r) (hE1 : 1 ≤ s.E)
    (hE : s.E < SIZE_T) {si tag : Int} (h0 : 0 ≤ si) (h1 : si < s.set_num) :
    ∃ s1, load_store s si tag = some s1 ∧ CacheRel s1 (refAccess s.E r (si, tag))
      ∧ s1.E = s.E ∧ s1.set_num = s.set_num := by
  have hset : ((si.toNat : Nat) : Int) = si := Int.toNat_of_nonneg h0
  have hlt : si.toNat < s.set_num := by omega
  have hrel : SetRel s.E (s.sets si.toNat) (r.sets si) := by
    have := h.sets si.toNat hlt
    rwa [hset] at this
  rcases check_HIT s si.toNat tag with ⟨c, hc, hv, ht, e1⟩ | ⟨hn, e1⟩
  · -- hit
    have hmem : tag ∈ r.sets si := ht ▸ (hrel.rank c hc hv).1
    obtain ⟨w1, w2, w3, w4, w5, w6, w7⟩ :=
      write_allocate_spec { s with hit_count := incr s.hit_count } si.toNat c tag
    refine ⟨_, load_store_hit h0 h1 e1, ?_, w1, w2⟩
    rw [refAccess_hit hmem]
    refine CacheRel_update h h0 (tag :: (r.sets si).erase tag) w1 w2 w6 ?_ rfl ?_ ?_ ?_
    · have := SetRel_touch hrel hE hc hv tag (Or.inl ht.symm) _ (lines_conv w7)
      rwa [ht] at this
    · rw [w3]
      show incr s.hit_count = wrapInt (r.hits + 1)
      rw [h.hits, incr_wrapInt]
    · rw [w4]
      exact h.misses
    · rw [w5]
      exact h.evictions
  · have hmem : tag ∉ r.sets si := by
      intro hm
      obtain ⟨i, hi, hiv, hit⟩ := hrel.surj tag hm
      exact hn i hi ⟨hiv, hit⟩
    rcases check_COLD { s with miss_count := incr s.miss_count } si.toNat tag with
      ⟨c, hc, hv, e2⟩ | ⟨hfull, e2⟩
    · -- cold miss
      have hc2 : c < s.E := hc
      have hv2 : (s.sets si.toNat c).v = 0 := hv
      obtain ⟨w1, w2, w3, w4, w5, w6, w7⟩ := write_allocate_spec
        (setLine { s with miss_count := incr s.miss_count } si.toNat c
          { s.sets si.toNat c with lru := 0 }) si.toNat c tag
      refine ⟨_, load_store_cold h0 h1 e1 e2, ?_, w1, w2⟩
      have hlen : (r.sets si).length < s.E := by
        rw [← validCount_eq hrel]
        exact validCount_lt hc2 hv2
      rw [refAccess_cold hmem hlen]
      refine CacheRel_update h h0 (tag :: r.sets si) w1 w2 ?_ ?_ rfl ?_ ?_ ?_
      · intro st hst
        rw [w6 st hst]
        funext k
        rw [setLine_sets, if_neg (fun hh => hst hh.1)]
      · refine SetRel_fill hrel hE hc2 hv2 tag hmem _ (fun k hk => ?_)
        rw [w7 k]
        by_cases hkc : k = c
        · rw [if_pos hkc, if_pos hkc]
          rfl
        · rw [if_neg hkc, if_neg hkc]
          simp only [setLine_sets, hkc, and_false, if_false, and_self, if_true]
          refine if_congr ?_ rfl rfl
          constructor
          · exact fun hh => hh.2
          · exact fun hh => ⟨hk, hh⟩
      · rw [w3]
        exact h.hits
      · rw [w4]
        show incr s.miss_count = wrapInt (r.misses + 1)
        rw [h.misses, incr_wrapInt]
      · rw [w5]
        exact h.evictions
    · -- miss on a full set
      have hfull2 : ∀ k, k < s.E → (s.sets si.toNat k).v ≠ 0 := hfull
      have hlen : (r.sets si).length = s.E := by
        rw [← validCount_eq hrel]
        exact validCount_full hfull2
      have e3 := load_store_evict h0 h1 e1 e2
      rcases getLRU_spec s si.toNat with ⟨c, hc, hv, hz, e4⟩ | ⟨hno, -⟩
      · rw [e4] at e3
        obtain ⟨w1, w2, w3, w4, w5, w6, w7⟩ := write_allocate_spec
          { { s with miss_count := incr s.miss_count } with
            eviction_count := incr s.eviction_count } si.toNat c tag
        refine ⟨_, e3, ?_, w1, w2⟩
        rw [refAccess_evict hmem (by omega)]
        refine CacheRel_update h h0 (tag :: (r.sets si).dropLast) w1 w2 w6 ?_ rfl ?_ ?_ ?_
        · have := SetRel_touch hrel hE hc hv tag (Or.inr hmem) _ (lines_conv w7)
          rwa [erase_last] at this
          have := (hrel.rank c hc hv).2
          omega
        · rw [w3]
          exact h.hits
        · rw [w4]
          show incr s.miss_count = wrapInt (r.misses + 1)
          rw [h.misses, incr_wrapInt]
        · rw [w5]
          show incr s.eviction_count = wrapInt (r.evictions + 1)
          rw [h.evictions, incr_wrapInt]
      · exfalso
        obtain ⟨i, hi, hiv, hiz⟩ := full_has_lru0 hrel hE1 hfull2
        exact hno i hi ⟨hiv, hiz⟩

end Csim

namespace Csim

theorem replay_sim : ∀ (trace : List (Int × Int)) (s : State) (r : RefCache),
    CacheRel s r → 1 ≤ s.E → s.E < SIZE_T →
    (∀ a, a ∈ trace → 0 ≤ a.1 ∧ a.1 < (s.set_num : Int)) →
    ∃ s1, replay s trace = some s1 ∧ CacheRel s1 (trace.foldl (refAccess s.E) r)
      ∧ s1.E = s.E ∧ s1.set_num = s.set_num
  | [], s, r, h, _, _, _ => ⟨s, rfl, h, rfl, rfl⟩
  | a :: rest, s, r, h, hE1, hE, hidx => by
    obtain ⟨h0, h1⟩ := hidx a (List.mem_cons_self _ _)
    obtain ⟨s1, e1, r1, eE, eN⟩ := @load_store_sim _ _ h hE1 hE _ a.2 h0 h1
    obtain ⟨s2, e2, r2, eE2, eN2⟩ := replay_sim rest s1 _ r1 (by omega) (by omega)
      (fun b hb => by
        rw [eN]
        exact hidx b (List.mem_cons_of_mem _ hb))
    refine ⟨s2, ?_, ?_, by omega, by omega⟩
    · show (load_store s a.1 a.2).bind _ = _
      rw [e1]
      exact e2
    · rw [eE] at r2
      exact r2

theorem CacheRel_init (s : State)
    (hv : ∀ set, set < s.set_num → ∀ i, i < s.E → (s.sets set i).v = 0)
    (h1 : s.hit_count = 0) (h2 : s.miss_count = 0) (h3 : s.eviction_count = 0) :
    CacheRel s refInit := by
  refine ⟨fun set hs => ⟨List.nodup_nil, fun i hi hi2 => absurd (hv set hs i hi) hi2,
    fun t ht => absurd ht (List.not_mem_nil t),
    fun i k hi _ hi2 _ _ => absurd (hv set hs i hi) hi2⟩, ?_, ?_, ?_⟩
  · rw [h1]; rfl
  · rw [h2]; rfl
  · rw [h3]; rfl

theorem refAccess_counts (E : Nat) (r : RefCache) (a : Int × Int) :
    (refAccess E r a).hits + (refAccess E r a).misses = r.hits + r.misses + 1
    ∧ (refAccess E r a).evictions + r.misses ≤ (refAccess E r a).misses + r.evictions
    ∧ r.evictions ≤ (refAccess E r a).evictions := by
  unfold refAccess
  split_ifs <;> dsimp only <;> omega

theorem foldl_counts (E : Nat) : ∀ (trace : List (Int × Int)) (r : RefCache),
    (trace.foldl (refAccess E) r).hits + (trace.foldl (refAccess E) r).misses
      = r.hits + r.misses + trace.length
    ∧ (trace.foldl (refAccess E) r).evictions + r.misses
      ≤ (trace.foldl (refAccess E) r).misses + r.evictions
  | [], r => ⟨rfl, by rw [List.foldl_nil, Nat.add_comm]⟩
  | a :: rest, r => by
    obtain ⟨h1, h2⟩ := foldl_counts E rest (refAccess E r a)
    obtain ⟨g1, g2, -⟩ := refAccess_counts E r a
    rw [List.foldl_cons, List.length_cons]
    constructor <;> omega

theorem refRun_counts (E : Nat) (trace : List (Int × Int)) :
    (refRun E trace).hits + (refRun E trace).misses = trace.length
    ∧ (refRun E trace).evictions ≤ (refRun E trace).misses := by
  obtain ⟨h1, h2⟩ := foldl_counts E trace refInit
  have e1 : refInit.hits = 0 := rfl
  have e2 : refInit.misses = 0 := rfl
  have e3 : refInit.evictions = 0 := rfl
  unfold refRun
  rw [e1, e2] at h1
  rw [e2, e3] at h2
  constructor <;> omega

theorem wrapInt_small {n : Nat} (h : n < 2 ^ 31) : wrapInt n = (n : Int) := by
  unfold wrapInt
  omega

theorem SetRel_ranks {E : Nat} {ln : Nat → line_t} {l : List Int} (h : SetRel E ln l) :
    (∀ i, i < E → (ln i).v ≠ 0 → E - validCount E ln ≤ (ln i).lru ∧ (ln i).lru < E)
    ∧ (∀ ρ, E - validCount E ln ≤ ρ → ρ < E → ∃ i, i < E ∧ (ln i).v ≠ 0 ∧ (ln i).lru = ρ)
    ∧ (∀ i k, i < E → k < E → (ln i).v ≠ 0 → (ln k).v ≠ 0 → (ln i).lru = (ln k).lru → i = k) := by
  have hn := validCount_eq h
  have hle := validCount_le E ln
  rw [hn] at hle ⊢
  refine ⟨fun i hi hv => ?_, fun ρ h1 h2 => ?_, fun i k hi hk hiv hkv e => ?_⟩
  · obtain ⟨r1, r2⟩ := h.rank i hi hv
    have := List.indexOf_lt_length.2 r1
    omega
  · have hj : E - 1 - ρ < l.length := by omega
    obtain ⟨i, hi, hv, ht⟩ := h.surj (l.get ⟨E - 1 - ρ, hj⟩) (List.get_mem _ _ _)
    refine ⟨i, hi, hv, ?_⟩
    have h2 := (h.rank i hi hv).2
    rw [ht] at h2
    have h3 : l.indexOf (l.get ⟨E - 1 - ρ, hj⟩) = E - 1 - ρ :=
      List.indexOf_getElem h.nodup (E - 1 - ρ) hj
    omega
  · obtain ⟨r1, r2⟩ := h.rank i hi hiv
    obtain ⟨q1, q2⟩ := h.rank k hk hkv
    exact h.inj i k hi hk hiv hkv ((List.indexOf_inj r1 q1).1 (by omega))

theorem full_getLRU {s : State} {r : RefCache} (h : CacheRel s r) (hE1 : 1 ≤ s.E) {set : Nat}
    (hs : set < s.set_num) (hfull : ∀ i, i < s.E → (s.sets set i).v ≠ 0) :
    ∃ c, getLRU s set = some c ∧ c < s.E ∧ (s.sets set c).v ≠ 0 ∧ (s.sets set c).lru = 0 := by
  rcases getLRU_spec s set with ⟨c, hc, hv, hz, e⟩ | ⟨hno, -⟩
  · exact ⟨c, e, hc, hv, hz⟩
  · exfalso
    obtain ⟨i, hi, hiv, hiz⟩ := full_has_lru0 (h.sets set hs) hE1 hfull
    exact hno i hi ⟨hiv, hiz⟩

theorem refRun_replicate (E : Nat) (hE : 1 ≤ E) : ∀ (n : Nat) (r : RefCache),
    (0 : Int) ∈ r.sets 0 →
    ((List.replicate n ((0 : Int), (0 : Int))).foldl (refAccess E) r).hits = r.hits + n
  | 0, r, _ => rfl
  | n + 1, r, h => by
    rw [List.replicate_succ, List.foldl_cons, refRun_replicate E hE n, refAccess_hit h]
    · show r.hits + 1 + n = r.hits + (n + 1)
      omega
    · rw [refAccess_hit h]
      show (0 : Int) ∈ Function.update r.sets 0 _ 0
      rw [Function.update_same]
      exact List.mem_cons_self _ _

theorem refRun_replicate_hits (E : Nat) (hE : 1 ≤ E) (n : Nat) :
    (refRun E (List.replicate (n + 1) ((0 : Int), (0 : Int)))).hits = n := by
  unfold refRun
  rw [List.replicate_succ, List.foldl_cons]
  have hc : refAccess E refInit ((0 : Int), (0 : Int)) =
      { refInit with sets := Function.update refInit.sets 0 (0 :: refInit.sets 0)
                     misses := refInit.misses + 1 } :=
    refAccess_cold (List.not_mem_nil _) (by
      show 0 < E
      omega)
  rw [refRun_replicate E hE n, hc]
  · show 0 + n = n
    omega
  · rw [hc]
    show (0 : Int) ∈ Function.update refInit.sets 0 _ 0
    rw [Function.update_same]
    exact List.mem_cons_self _ _

end Csim

namespace MM

/-! ## Claims settled by evaluation of the code -/

/-- Claim C15 (codec round trip): for a size `s` that is a multiple of 8 and
fits a 32-bit word and a flag `a` of 0 or 1, a word holding `PACK(s, a)` has
`GET_SIZE` equal to `s` and `GET_ALLOC` equal to `a`, and `PACK(s, a)` and
`PACK(s, 1 - a)` differ in the lowest bit only. -/
theorem codec_round_trip (m : Mem) (p s a : Nat) (hs : s % 8 = 0) (hw : s < WORD)
    (ha : a ≤ 1) :
    GET_SIZE (PUT m p (PACK s a)) p = s ∧ GET_ALLOC (PUT m p (PACK s a)) p = a
      ∧ PACK s a ^^^ PACK s (1 - a) = 1 := by
  have hp : ∀ b, b ≤ 1 → PACK s b = s + b := fun b hb => or_eq_add s b hs hb
  have hlt : PACK s a < WORD := by
    rw [hp a ha]; unfold WORD at hw ⊢; omega
  refine ⟨?_, ?_, ?_⟩
  · unfold GET_SIZE
    rw [GET_PUT_same _ _ _ hlt, and_MASK _ hlt, hp a ha]
    omega
  · unfold GET_ALLOC
    rw [GET_PUT_same _ _ _ hlt, and_one, hp a ha]
    omega
  · rw [hp a ha, hp (1 - a) (by omega)]
    obtain ⟨k, rfl⟩ : ∃ k, s = 2 ^ 3 * k := ⟨s / 8, by omega⟩
    apply Nat.eq_of_testBit_eq
    intro i
    rw [Nat.testBit_xor]
    cases i with
    | zero =>
      simp only [Nat.testBit_zero]
      have h1 : (2 ^ 3 * k + a) % 2 = a := by omega
      have h2 : (2 ^ 3 * k + (1 - a)) % 2 = 1 - a := by omega
      rw [h1, h2]
      interval_cases a <;> simp
    | succ i =>
      simp only [Nat.testBit_succ]
      have h1 : (2 ^ 3 * k + a) / 2 = 4 * k := by omega
      have h2 : (2 ^ 3 * k + (1 - a)) / 2 = 4 * k := by omega
      rw [h1, h2]
      simp

theorem codec_round_trip_witness :
    GET_SIZE (PUT (fun _ => 0) 1036 (PACK 512 1)) 1036 = 512
      ∧ GET_ALLOC (PUT (fun _ => 0) 1036 (PACK 512 1)) 1036 = 1
      ∧ PACK 512 1 ^^^ PACK 512 (1 - 1) = 1 :=
  codec_round_trip (fun _ => 0) 1036 512 1 (by decide) (by decide) (by decide)

set_option maxRecDepth 100000 in
/-- Claim C11 (immediate reuse), evaluated where it fails: on a heap region of
2000000 bytes `mm_malloc(1048576)` returns `1040`; after `mm_free(1040)` the
index holds the free block at `1040` of 1049096 bytes, and the second
`mm_malloc(1048576)` returns `NULL`: the search skips the last bucket for a
block size of `2^20` and more, and the region cannot grow a second time. -/
theorem reuse_fails_for_large_request :
    (runClient 2000000 [Op.malloc 1048576, Op.free 0]).map
        (fun c => (c.2, indexWalk c.1, heapBlocks c.1))
      = some ([1040], [1040], [(1040, 1049096, 0)])
    ∧ getSize 1048576 = 1048584
    ∧ (runClient 2000000 [Op.malloc 1048576, Op.free 0, Op.malloc 1048576]).map
        (fun c => c.2) = some [1040, 0] := by
  decide

set_option maxRecDepth 100000 in
/-- Claim C13 (ascending order within a bucket), evaluated where it fails: after
four allocations and the release of the third and the first block, the last
bucket holds, in scan order, blocks of 112, 16 and 352 bytes. -/
theorem bucket_order_not_ascending :
    (runClient 65536 [Op.malloc 100, Op.malloc 8, Op.malloc 8, Op.malloc 8, Op.free 2,
        Op.free 0]).map
        (fun c => (bucketWalk c.1 19).map fun p => (p, GET_SIZE c.1.mem (HDRP p)))
      = some [(1040, 112), (1168, 16), (1200, 352)] := by
  decide

set_option maxRecDepth 100000 in
/-- Claim C14 (size-class classification), evaluated where it fails: the index
loop of `pushNode` ends at bucket 19 for the sizes 16, 112 and 352, for which
the loop of the checker ends at 4, 6 and 8; and after four allocations and two
releases the free blocks of these sizes all sit in bucket 19, the buckets 4, 6
and 8 being empty. -/
theorem pushNode_bucket_is_last :
    ((listIndex LIST_SIZE 0 16).1, (listIndex LIST_SIZE 0 112).1, (listIndex LIST_SIZE 0 352).1)
      = (19, 19, 19)
    ∧ (checkIndex LIST_SIZE 0 16, checkIndex LIST_SIZE 0 112, checkIndex LIST_SIZE 0 352)
      = (4, 6, 8)
    ∧ (runClient 65536 [Op.malloc 100, Op.malloc 8, Op.malloc 8, Op.malloc 8, Op.free 2,
        Op.free 0]).map
        (fun c => (bucketWalk c.1 19, bucketWalk c.1 4, bucketWalk c.1 6, bucketWalk c.1 8))
      = some ([1040, 1168, 1200], [], [], []) := by
  decide

set_option maxRecDepth 100000 in
/-- Claim C16 (the checker detects a footer that disagrees with its header),
evaluated where it fails: in the heap `mm_init` leaves, once the footer of the
first block is overwritten so that its size reads 0 against 512 in the header,
`check_block_overlap` returns normally.  Its walk starts at `heap_start`, whose
word is the padding word 0, and tests `GET_SIZE(ptr)`, so that it visits no
block. -/
theorem check_block_overlap_misses_footer :
    (runClient 65536 []).map
        (fun c => (c.1.heap_start, GET c.1.mem c.1.heap_start,
          GET_SIZE (store c.1 1545 0).mem (HDRP 1040),
          GET_SIZE (store c.1 1545 0).mem (FTRP (store c.1 1545 0).mem 1040),
          check_block_overlap (store c.1 1545 0)))
      = some (1024, 0, 512, 0, some true) := by
  decide

end MM

namespace MM

/-! ## Claims about reachable states -/

/-- Claim C1 (no overlap): in every state reachable by
requests of supported sizes (`Reach`, `n + 15 < 2^32`) two distinct live pointers
`p` and `q` denote blocks marked allocated whose payload ranges
`[p, p + size(p) - 8)` and `[q, q + size(q) - 8)` share no address, and both
ranges lie after the prologue (`heap_start + 16`) and before the footer and the
epilogue word that end the heap (`mem_brk - 8`). -/
theorem live_payloads_disjoint (s : State) (live : List Nat) (h : Reach s live) (p q : Nat)
    (hp : p ∈ live) (hq : q ∈ live) (hne : p ≠ q) :
    GET_ALLOC s.mem (HDRP p) = 1 ∧ GET_ALLOC s.mem (HDRP q) = 1
      ∧ (∀ a, ¬ (p ≤ a ∧ a < p + GET_SIZE s.mem (HDRP p) - 8
          ∧ q ≤ a ∧ a < q + GET_SIZE s.mem (HDRP q) - 8))
      ∧ s.heap_start + 16 ≤ p ∧ p + GET_SIZE s.mem (HDRP p) - 8 ≤ s.mem_brk - 8
      ∧ s.heap_start + 16 ≤ q ∧ q + GET_SIZE s.mem (HDRP q) - 8 ≤ s.mem_brk - 8 := by
  obtain ⟨bl, fl, hinv⟩ := reach_inv h
  obtain ⟨sp, hbp⟩ := (hinv.2.2.2.2 p).1 hp
  obtain ⟨sq, hbq⟩ := (hinv.2.2.2.2 q).1 hq
  obtain ⟨p1, p2, -, -, -, p3, -, p4, p5⟩ := size_at hinv.1 hbp
  obtain ⟨q1, q2, -, -, -, q3, -, q4, q5⟩ := size_at hinv.1 hbq
  have d := blocks_apart hinv.1.1.2.2.2.2.1 hbp hbq
  rw [p1, q1]
  refine ⟨p2, q2, ?_, p4, ?_, q4, ?_⟩
  · intro a ha
    dsimp only at ha
    clear * - d hne ha
    omega
  · dsimp only; clear * - p5 p3; omega
  · dsimp only; clear * - q5 q3; omega

set_option maxRecDepth 100000 in
theorem live_payloads_disjoint_witness :
    (clientRun 65536 [Op.malloc 1, Op.malloc 1]).2.1 = [1040, 1056]
      ∧ ∀ a, ¬ (1040 ≤ a
          ∧ a < 1040 + GET_SIZE (clientRun 65536 [Op.malloc 1, Op.malloc 1]).1.mem (HDRP 1040) - 8
          ∧ 1056 ≤ a
          ∧ a < 1056 + GET_SIZE (clientRun 65536 [Op.malloc 1, Op.malloc 1]).1.mem (HDRP 1056) - 8) :=
  ⟨by decide,
    (live_payloads_disjoint _ _ (clientRun_reach 65536 [Op.malloc 1, Op.malloc 1] (by decide))
      1040 1056 (by decide) (by decide) (by decide)).2.2.1⟩

end MM

namespace MM

/-- Claim C2 (payload preservation), amended: in every reachable state, for a
live pointer `p` and a byte `a` of its payload `[p, p + size(p) - 8)`, the
byte is the same after a call `mm_malloc(n)` with a supported size
(`n + 15 < 2^32`), after `mm_free(q)` and after `mm_realloc(q, n)` for a live
pointer `q` other than `p` and every `n` of the size type. -/
theorem other_payloads_preserved (s : State) (live : List Nat) (h : Reach s live)
    (p a : Nat) (hp : p ∈ live) (ha1 : p ≤ a) (ha2 : a < p + GET_SIZE s.mem (HDRP p) - 8) :
    (∀ n r s1, validRequest n → mm_malloc s n = some (r, s1) → s1.mem a = s.mem a)
      ∧ (∀ q s1, q ∈ live → q ≠ p → mm_free s q = some s1 → s1.mem a = s.mem a)
      ∧ (∀ q n r s1, q ∈ live → q ≠ p → n < WORD → mm_realloc s q n = some (r, s1) →
          s1.mem a = s.mem a) := by
  obtain ⟨bl, fl, hinv⟩ := reach_inv h
  obtain ⟨sp, hbp⟩ := (hinv.2.2.2.2 p).1 hp
  rw [(size_at hinv.1 hbp).1] at ha2
  have hab : AllocByte s bl a := ⟨p, sp, hbp, ha1, ha2⟩
  have hfree : ∀ q s1, q ∈ live → q ≠ p → mm_free s q = some s1 → s1.mem a = s.mem a := by
    intro q s1 hq hne hf
    obtain ⟨s', -, -, -, -, -, -, -, -, -, e, -, -, -, -, -, -, -, -, -, -, -, fr, -⟩ :=
      free_spec hinv hq
    rw [hf] at e
    simp only [Option.some.injEq] at e
    subst e
    exact fr p sp a hbp (Ne.symm hne) ha1 ha2
  refine ⟨?_, hfree, ?_⟩
  · intro n r s1 hv hm
    by_cases hn : n = 0
    · subst hn
      rw [malloc_zero] at hm
      simp only [Option.some.injEq, Prod.mk.injEq] at hm
      rw [← hm.2]
    · rcases malloc_spec hinv n hn hv with ⟨e, -⟩ | ⟨q, s', bl', fl', S, e, -, -, -, -, -, -, -, -, fr⟩
      · rw [hm] at e
        simp only [Option.some.injEq, Prod.mk.injEq] at e
        rw [e.2]
      · rw [hm] at e
        simp only [Option.some.injEq, Prod.mk.injEq] at e
        rw [e.2]
        exact fr a hab
  · intro q n r s1 hq hne hW hr
    by_cases hn : n = 0
    · subst hn
      have hq0 := (live_pos hinv hq).1
      rw [realloc_zero s q (by omega)] at hr
      cases hf : mm_free s q with
      | none => rw [hf] at hr; simp at hr
      | some s2 =>
        rw [hf] at hr
        simp only [Option.map_some', Option.some.injEq, Prod.mk.injEq] at hr
        rw [← hr.2]
        exact hfree q s2 hq hne hf
    · rcases realloc_any hinv hq n hn hW with ⟨e, -⟩ |
        ⟨q', s', bl', fl', sz, S, e, -, -, -, -, -, -, -, -, fr, -⟩
      · rw [hr] at e
        simp at e
      · rw [hr] at e
        simp only [Option.some.injEq, Prod.mk.injEq] at e
        rw [e.2]
        exact fr p sp a hbp (Ne.symm hne) ha1 ha2

set_option maxRecDepth 100000 in
theorem other_payloads_preserved_witness :
    (clientRun 65536 [Op.malloc 16, Op.malloc 16, Op.store 1 0 255]).2
        = ([1040, 1064], [1064, 1040])
      ∧ ((mm_free (clientRun 65536 [Op.malloc 16, Op.malloc 16, Op.store 1 0 255]).1 1040).getD
            (emptyState 0 0)).mem 1064
        = (clientRun 65536 [Op.malloc 16, Op.malloc 16, Op.store 1 0 255]).1.mem 1064 :=
  ⟨by decide,
    (other_payloads_preserved _ _
      (clientRun_reach 65536 [Op.malloc 16, Op.malloc 16, Op.store 1 0 255] (by decide))
      1064 1064 (by decide) (by decide) (by decide)).2.1 1040 _ (by decide) (by decide)
      (some_getD _ _ (by decide))⟩

set_option maxRecDepth 100000 in
/-- Claim C2 as stated fails for a size at which `getSize` wraps around: after
`p0 = mm_malloc(16)`, `p1 = mm_malloc(16)`, a store of 255 into the first byte
of `p1 = 1064` and `mm_free(p0)`, the pointer `1064` is live with a block of 24
bytes, and `mm_malloc(4294967288)` (block size 0) returns `1040` and leaves 64
in the first byte of the payload at `1064`. -/
theorem malloc_wrap_overwrites_payload :
    (runValid 65536 [Op.malloc 16, Op.malloc 16, Op.store 1 0 255, Op.free 0]).isSome = true
      ∧ (clientRun 65536 [Op.malloc 16, Op.malloc 16, Op.store 1 0 255, Op.free 0]).2.2 = [1064]
      ∧ GET_SIZE (clientRun 65536 [Op.malloc 16, Op.malloc 16, Op.store 1 0 255,
          Op.free 0]).1.mem (HDRP 1064) = 24
      ∧ (clientRun 65536 [Op.malloc 16, Op.malloc 16, Op.store 1 0 255, Op.free 0]).1.mem 1064
          = 255
      ∧ getSize 4294967288 = 0
      ∧ (mm_malloc (clientRun 65536 [Op.malloc 16, Op.malloc 16, Op.store 1 0 255,
          Op.free 0]).1 4294967288).map (fun r => (r.1, r.2.mem 1064)) = some (1040, 64) := by
  decide

end MM

namespace MM

/-- Claim C3 (size sufficiency), amended: in every reachable state, for a
supported request size `n > 0` (`n + 15 < 2^32`, so that `getSize` does not
wrap around), a non-null pointer `p` returned by `mm_malloc(n)` has a block
marked allocated in header and footer whose payload, `GET_SIZE(HDRP(p)) - 8`
bytes, is at least `n`. -/
theorem malloc_size_sufficient (s : State) (live : List Nat) (h : Reach s live)
    (n p : Nat) (s1 : State) (hn : 0 < n) (hv : validRequest n)
    (hm : mm_malloc s n = some (p, s1)) (hp : p ≠ 0) :
    GET_ALLOC s1.mem (HDRP p) = 1 ∧ GET_ALLOC s1.mem (FTRP s1.mem p) = 1
      ∧ n ≤ GET_SIZE s1.mem (HDRP p) - 8 := by
  obtain ⟨bl, fl, hinv⟩ := reach_inv h
  obtain ⟨g1, g2, g3, g4, g5⟩ := getSize_spec n hv
  rcases malloc_spec hinv n (by omega) hv with ⟨e, -⟩ | ⟨q, s', bl', fl', S, e, -, hinv', hb, hS, -⟩
  · rw [hm] at e
    simp only [Option.some.injEq, Prod.mk.injEq] at e
    exact absurd e.1 hp
  · rw [hm] at e
    simp only [Option.some.injEq, Prod.mk.injEq] at e
    obtain ⟨rfl, rfl⟩ := e
    obtain ⟨k1, k2, -, -, k5, -, k7, -⟩ := size_at hinv'.1 hb
    refine ⟨k2, GET_ALLOC_tag _ _ (S, true) k5 k7, ?_⟩
    rw [k1]
    show n ≤ S - 8
    clear * - g3 hS
    omega

set_option maxRecDepth 100000 in
theorem malloc_size_sufficient_witness :
    ((mm_malloc (clientRun 65536 []).1 100).getD (0, emptyState 0 0)).1 = 1040
      ∧ 100 ≤ GET_SIZE ((mm_malloc (clientRun 65536 []).1 100).getD (0, emptyState 0 0)).2.mem
          (HDRP ((mm_malloc (clientRun 65536 []).1 100).getD (0, emptyState 0 0)).1) - 8 :=
  ⟨by decide,
    (malloc_size_sufficient _ _ (clientRun_reach 65536 [] (by decide)) 100 _ _ (by decide)
      (show 100 + 15 < WORD by decide)
      (some_getD (mm_malloc (clientRun 65536 []).1 100) (0, emptyState 0 0) (by decide))
      (by decide)).2.2⟩

set_option maxRecDepth 100000 in
/-- Claim C3 as stated fails for the largest value of the size type: in the
state `mm_init` leaves, `getSize(4294967295)` wraps around to 8 and
`mm_malloc(4294967295)` returns the non-null pointer `1040` to a block of 8
bytes, marked allocated, with a payload of 0 bytes. -/
theorem malloc_size_wraps :
    (runValid 65536 []).isSome = true ∧ getSize 4294967295 = 8
      ∧ (mm_malloc (clientRun 65536 []).1 4294967295).map
          (fun r => (r.1, GET_ALLOC r.2.mem (HDRP r.1), GET_SIZE r.2.mem (HDRP r.1) - 8))
        = some (1040, 1, 0) := by
  decide

/-- Claim C4 (alignment): in every state reachable by
requests of supported sizes (`Reach`, `n + 15 < 2^32`) whose `heap_start`, the
first address the growth primitive returned, is a multiple of 8, every pointer
that `mm_malloc(n)` returns and every pointer that `mm_realloc(q, n)` returns
for `q` null or live is a multiple of 8 (`NULL` is 0); and every block the
heap walk from `heap_start + 16` meets has an address and a size that are
multiples of 8. -/
theorem returned_pointers_aligned (s : State) (live : List Nat) (h : Reach s live)
    (h8 : s.heap_start % 8 = 0) :
    (∀ n p s1, mm_malloc s n = some (p, s1) → p % 8 = 0)
      ∧ (∀ q n r s1, q = 0 ∨ q ∈ live → n < WORD → mm_realloc s q n = some (r, s1) →
          r % 8 = 0)
      ∧ (∀ b ∈ heapBlocks s, b.1 % 8 = 0 ∧ b.2.1 % 8 = 0) := by
  obtain ⟨bl, fl, hinv⟩ := reach_inv h
  have hmal : ∀ n p s1, mm_malloc s n = some (p, s1) → p % 8 = 0 := by
    intro n p s1 hm
    by_cases hn : n = 0
    · subst hn
      rw [malloc_zero] at hm
      simp only [Option.some.injEq, Prod.mk.injEq] at hm
      rw [← hm.1]
    · rcases malloc_any hinv n hn hm with ⟨e, -⟩ | ⟨-, e⟩
      · rw [e]
      · omega
  refine ⟨hmal, ?_, ?_⟩
  · intro q n r s1 hq hW hr
    rcases hq with rfl | hq
    · rw [realloc_null] at hr
      exact hmal n r s1 hr
    · by_cases hn : n = 0
      · subst hn
        have hq0 := (live_pos hinv hq).1
        rw [realloc_zero s q (by omega)] at hr
        cases hf : mm_free s q with
        | none => rw [hf] at hr; simp at hr
        | some s2 =>
          rw [hf] at hr
          simp only [Option.map_some', Option.some.injEq, Prod.mk.injEq] at hr
          rw [← hr.1]
      · rcases realloc_any hinv hq n hn hW with ⟨e, -⟩ |
          ⟨q', s', bl', fl', sz, S, e, -, hinv', -, hb, -, hs, -⟩
        · rw [hr] at e
          simp at e
        · rw [hr] at e
          simp only [Option.some.injEq, Prod.mk.injEq] at e
          obtain ⟨rfl, rfl⟩ := e
          have := block_aligned hinv'.1.1.2.2.2.2.1 hb
          unfold firstBlock at this
          rw [hs] at this
          omega
  · intro b hb
    rw [heapBlocks_eq hinv.1] at hb
    have := blocksFrom_aligned bl _ hinv.1.1.2.2.2.2.1 b hb
    unfold firstBlock at this
    omega

set_option maxRecDepth 100000 in
theorem returned_pointers_aligned_witness :
    (clientRun 65536 [Op.malloc 1]).1.heap_start % 8 = 0
      ∧ ((mm_malloc (clientRun 65536 [Op.malloc 1]).1 1).getD (0, emptyState 0 0)).1 = 1056
      ∧ ((mm_malloc (clientRun 65536 [Op.malloc 1]).1 1).getD (0, emptyState 0 0)).1 % 8 = 0 :=
  ⟨by decide, by decide,
    (returned_pointers_aligned _ _ (clientRun_reach 65536 [Op.malloc 1] (by decide))
      (by decide)).1 1 _ _
      (some_getD (mm_malloc (clientRun 65536 [Op.malloc 1]).1 1) (0, emptyState 0 0)
        (by decide))⟩

end MM

namespace MM

/-- Claim C5 (realloc content preservation): in every state reachable by
requests of supported sizes (`Reach`, `n + 15 < 2^32`), for a
live pointer `p` with payload capacity `c = GET_SIZE(HDRP(p)) - 8` and a size
`n > 0`, when `mm_realloc(p, n)` returns `q` and either `q = p` (nothing is
copied) or the `n` bytes at `q` and the `n` bytes at `p`, the two ranges of
the `memcpy` call, do not overlap, the byte at `q + i` after the call is the
byte at `p + i` before the call for every `i < min(c, n)`. -/
theorem realloc_preserves_content (s : State) (live : List Nat) (h : Reach s live)
    (p n q : Nat) (s1 : State) (hp : p ∈ live) (hn : 0 < n) (hW : n < WORD)
    (hr : mm_realloc s p n = some (q, s1))
    (_hd : q = p ∨ q + n ≤ p ∨ p + n ≤ q) (i : Nat)
    (hi1 : i < GET_SIZE s.mem (HDRP p) - 8) (hi2 : i < n) :
    s1.mem (q + i) = s.mem (p + i) := by
  obtain ⟨bl, fl, hinv⟩ := reach_inv h
  rcases realloc_any hinv hp n (by omega) hW with ⟨e, -⟩ |
    ⟨q', s', bl', fl', sz, S, e, -, -, hb, -, -, -, -, -, -, ct⟩
  · rw [hr] at e
    simp at e
  · rw [hr] at e
    simp only [Option.some.injEq, Prod.mk.injEq] at e
    obtain ⟨rfl, rfl⟩ := e
    rw [(size_at hinv.1 hb).1] at hi1
    exact ct i hi1 hi2

set_option maxRecDepth 100000 in
theorem realloc_preserves_content_witness :
    (mm_realloc (clientRun 65536 scenario4).1 1040 64).map
        (fun r => (r.1, (List.range 16).map fun i => r.2.mem (1040 + i)))
        = some (1040, [1, 2, 3, 4, 5, 6, 7, 8, 9, 10, 11, 12, 13, 14, 15, 16])
      ∧ (clientRun 65536 [Op.malloc 472, Op.malloc 16, Op.free 0, Op.store 1 5 77]).2
        = ([1040, 1520], [1520])
      ∧ (clientRun 65536 [Op.malloc 472, Op.malloc 16, Op.free 0, Op.store 1 5 77]).1.mem 1525
        = 77
      ∧ (mm_realloc (clientRun 65536 [Op.malloc 472, Op.malloc 16, Op.free 0,
            Op.store 1 5 77]).1 1520 300).map (fun r => (r.1, r.2.mem 1045))
        = some (1040, 77)
      ∧ ((mm_realloc (clientRun 65536 [Op.malloc 472, Op.malloc 16, Op.free 0,
            Op.store 1 5 77]).1 1520 300).getD (0, emptyState 0 0)).2.mem
          (((mm_realloc (clientRun 65536 [Op.malloc 472, Op.malloc 16, Op.free 0,
            Op.store 1 5 77]).1 1520 300).getD (0, emptyState 0 0)).1 + 5)
        = (clientRun 65536 [Op.malloc 472, Op.malloc 16, Op.free 0, Op.store 1 5 77]).1.mem
          (1520 + 5) :=
  ⟨by decide, by decide, by decide, by decide,
    realloc_preserves_content _ _
      (clientRun_reach 65536 [Op.malloc 472, Op.malloc 16, Op.free 0, Op.store 1 5 77]
        (by decide)) 1520 300 _ _
      (by decide) (by decide) (by decide)
      (some_getD (mm_realloc (clientRun 65536 [Op.malloc 472, Op.malloc 16, Op.free 0,
        Op.store 1 5 77]).1 1520 300) (0, emptyState 0 0) (by decide))
      (by decide) 5 (by decide) (by decide)⟩

/-- Claim C6 (coalescing completeness): in every state reachable by
requests of supported sizes (`Reach`, `n + 15 < 2^32`) the walk of
the heap from the first block to the epilogue, which covers the heap up to
`mem_brk`, never meets two neighbouring blocks that both have the allocated
bit clear. -/
theorem no_adjacent_free_blocks (s : State) (live : List Nat) (h : Reach s live) :
    (heapBlocks s).Chain' (fun x y => ¬ (x.2.2 = 0 ∧ y.2.2 = 0))
      ∧ firstBlock s + ((heapBlocks s).map fun b => b.2.1).sum = s.mem_brk
      ∧ GET s.mem (s.mem_brk - 4) = PACK 0 1 := by
  obtain ⟨bl, fl, hinv⟩ := reach_inv h
  rw [heapBlocks_eq hinv.1, blocksFrom_sizes]
  refine ⟨?_, hinv.1.1.2.2.2.2.2.1, hinv.1.1.2.2.2.2.2.2⟩
  refine List.Chain'.imp ?_ (blocksFrom_chain bl _ hinv.2.2.1)
  intro x y hxy hc
  omega

set_option maxRecDepth 100000 in
theorem no_adjacent_free_blocks_witness :
    heapBlocks (clientRun 65536 [Op.malloc 16, Op.malloc 16, Op.free 0, Op.free 1]).1
        = [(1040, 512, 0)]
      ∧ (heapBlocks (clientRun 65536 [Op.malloc 16, Op.malloc 16, Op.free 0, Op.free 1]).1).Chain'
          (fun x y => ¬ (x.2.2 = 0 ∧ y.2.2 = 0)) :=
  ⟨by decide,
    (no_adjacent_free_blocks _ _
      (clientRun_reach 65536 [Op.malloc 16, Op.malloc 16, Op.free 0, Op.free 1] (by decide))).1⟩

/-- Claim C7 (list membership): in every state reachable by
requests of supported sizes (`Reach`, `n + 15 < 2^32`) the addresses met by
following every bucket of `segregated_free_list` from its head along the
stored links are exactly the addresses of the blocks with the allocated bit
clear that the walk of the heap meets, and no address occurs twice in the
bucket lists. -/
theorem index_holds_the_free_blocks (s : State) (live : List Nat) (h : Reach s live) :
    (∀ p, p ∈ indexWalk s ↔ ∃ sz, (p, sz, 0) ∈ heapBlocks s) ∧ (indexWalk s).Nodup := by
  obtain ⟨bl, fl, hinv⟩ := reach_inv h
  rw [heapBlocks_eq hinv.1, (indexWalk_eq hinv.1).1]
  refine ⟨fun p => ⟨fun hp => ?_, ?_⟩, hinv.1.2.2.1⟩
  · obtain ⟨sz, hb⟩ := hinv.1.2.2.2 p hp
    exact ⟨sz, (mem_blocksFrom bl _ p sz 0).2 ⟨(sz, false), hb, rfl, rfl⟩⟩
  · rintro ⟨sz, hm⟩
    obtain ⟨c, hb, h1, h2⟩ := (mem_blocksFrom bl _ p sz 0).1 hm
    obtain ⟨c1, c2⟩ := c
    cases c2 with
    | true => simp [bit] at h2
    | false => exact hinv.2.1 p c1 hb

set_option maxRecDepth 100000 in
theorem index_holds_the_free_blocks_witness :
    indexWalk (clientRun 65536 [Op.malloc 16, Op.malloc 16, Op.malloc 16, Op.free 1]).1
        = [1064, 1112]
      ∧ (indexWalk (clientRun 65536 [Op.malloc 16, Op.malloc 16, Op.malloc 16,
          Op.free 1]).1).Nodup :=
  ⟨by decide,
    (index_holds_the_free_blocks _ _
      (clientRun_reach 65536 [Op.malloc 16, Op.malloc 16, Op.malloc 16, Op.free 1]
        (by decide))).2⟩

/-- Claim C8 (allocate failure is clean): in every reachable state and for
every `n`, when `mm_malloc(n)` returns `NULL` the state after the call is the
state before it (memory, break and bucket heads), and `n = 0` or the growth
primitive has reported failure for the requested extension. -/
theorem malloc_null_is_clean (s : State) (live : List Nat) (h : Reach s live)
    (n : Nat) (s1 : State) (hm : mm_malloc s n = some (0, s1)) :
    s1 = s ∧ (n = 0 ∨ mem_sbrk s (ALIGN (MAX (getSize n) CHUNKSIZE)) = none) := by
  obtain ⟨bl, fl, hinv⟩ := reach_inv h
  by_cases hn : n = 0
  · subst hn
    rw [malloc_zero] at hm
    simp only [Option.some.injEq, Prod.mk.injEq, true_and] at hm
    exact ⟨hm.symm, Or.inl rfl⟩
  · rcases malloc_any hinv n hn hm with ⟨-, e, hg⟩ | ⟨e, -⟩
    · refine ⟨e, Or.inr ?_⟩
      unfold mem_sbrk
      rw [if_pos hg]
    · omega

set_option maxRecDepth 100000 in
theorem malloc_null_is_clean_witness :
    (mm_malloc (clientRun 600 []).1 1000).map (fun r => r.1) = some 0
      ∧ ((mm_malloc (clientRun 600 []).1 1000).getD (1, emptyState 0 0)).2 = (clientRun 600 []).1 :=
  ⟨by decide,
    (malloc_null_is_clean _ _ (clientRun_reach 600 [] (by decide)) 1000 _
      (some_getD (mm_malloc (clientRun 600 []).1 1000) (1, emptyState 0 0) (by decide))).1⟩

end MM

namespace MM

set_option maxRecDepth 100000 in
/-- Claim C9 (reallocate failure is clean), evaluated where it fails: on a heap
region of 600 bytes, after `p = mm_malloc(100)` the call `mm_realloc(p, 1000)`
finds no room in the neighbours of `p` (`realloc_coalesce` returns `NULL`),
`mm_malloc(1000)` returns `NULL` because the region cannot grow, and
`mm_realloc` copies to the null pointer without testing it: the call does not
return. -/
theorem realloc_copies_to_null :
    (runValid 600 [Op.malloc 100]).isSome = true
      ∧ (clientRun 600 [Op.malloc 100]).2.2 = [1040]
      ∧ GET_SIZE (clientRun 600 [Op.malloc 100]).1.mem (HDRP 1040) = 112
      ∧ getSize 1000 = 1008
      ∧ (realloc_coalesce (clientRun 600 [Op.malloc 100]).1 1040 (getSize 1000)).1 = 0
      ∧ (mm_malloc (clientRun 600 [Op.malloc 100]).1 1000).map (fun r => r.1) = some 0
      ∧ (mm_realloc (clientRun 600 [Op.malloc 100]).1 1040 1000).isNone = true := by
  decide

set_option maxRecDepth 100000 in
/-- Claim C10 (the heap grows only on a miss), evaluated where it fails: on a
heap region of 4000000 bytes, after `p = mm_malloc(1048576)` and `mm_free(p)`
the break is 1050136 and the index holds the free block at `1040` of 1049096
bytes, at least `getSize(1048576) = 1048584`; a second `mm_malloc(1048576)`
still calls the growth primitive, and after this second repetition the break
is 2098720. -/
theorem large_request_always_grows :
    (runValid 4000000 [Op.malloc 1048576, Op.free 0]).map
        (fun c => (c.1.mem_brk, indexWalk c.1, GET_SIZE c.1.mem (HDRP 1040)))
      = some (1050136, [1040], 1049096)
    ∧ getSize 1048576 = 1048584
    ∧ (runValid 4000000 [Op.malloc 1048576, Op.free 0, Op.malloc 1048576, Op.free 1]).map
        (fun c => (c.2.1, c.1.mem_brk)) = some ([1040, 1040], 2098720) := by
  decide

/-- Claim C12 (degenerate reallocate): in every reachable state,
`mm_realloc(NULL, n)` is `mm_malloc(n)`, pointer and state, for every `n`; and
for every live pointer `p`, `mm_realloc(p, 0)` returns `NULL` and leaves the
state `mm_free(p)` leaves. -/
theorem degenerate_realloc (s : State) (live : List Nat) (h : Reach s live) :
    (∀ n, mm_realloc s 0 n = mm_malloc s n)
      ∧ ∀ p ∈ live, ∃ s1, mm_free s p = some s1 ∧ mm_realloc s p 0 = some (0, s1) := by
  obtain ⟨bl, fl, hinv⟩ := reach_inv h
  refine ⟨fun n => realloc_null s n, fun p hp => ?_⟩
  obtain ⟨s', -, -, -, -, -, -, -, -, -, e, -⟩ := free_spec hinv hp
  have hp0 := (live_pos hinv hp).1
  refine ⟨s', e, ?_⟩
  rw [realloc_zero s p (by omega), e]
  rfl

set_option maxRecDepth 100000 in
theorem degenerate_realloc_witness :
    (clientRun 65536 [Op.malloc 16]).2.2 = [1040]
      ∧ ∃ s1, mm_free (clientRun 65536 [Op.malloc 16]).1 1040 = some s1
          ∧ mm_realloc (clientRun 65536 [Op.malloc 16]).1 1040 0 = some (0, s1) :=
  ⟨by decide,
    (degenerate_realloc _ _ (clientRun_reach 65536 [Op.malloc 16] (by decide))).2 1040
      (by decide)⟩

end MM

namespace MM

/-- Claim C18 (coalesce result): in every state reachable by
requests of supported sizes (`Reach`, `n + 15 < 2^32`), `mm_free(p)` of a
live pointer `p` whose block has size `s`, with a predecessor of size `a` and a
successor of size `b`, returns and leaves at `mergedStart` (the address of the
predecessor if that was free, `p` otherwise) one free block of `mergedSize`
`= s + (a if the predecessor was free) + (b if the successor was free)` bytes
with that size in header and footer; the heap walk meets this block, the block
is in the index, and the addresses of an absorbed successor and of `p` behind
an absorbed predecessor are not in the index. -/
theorem free_merges_neighbours (s : State) (live : List Nat) (h : Reach s live)
    (p : Nat) (hp : p ∈ live) :
    ∃ s1, mm_free s p = some s1
      ∧ GET s1.mem (HDRP (mergedStart s.mem p)) = PACK (mergedSize s.mem p) 0
      ∧ GET s1.mem (FTRP s1.mem (mergedStart s.mem p)) = PACK (mergedSize s.mem p) 0
      ∧ (mergedStart s.mem p, mergedSize s.mem p, 0) ∈ heapBlocks s1
      ∧ mergedStart s.mem p ∈ indexWalk s1
      ∧ (GET_ALLOC s.mem (HDRP (NEXT_BLKP s.mem p)) = 0 → NEXT_BLKP s.mem p ∉ indexWalk s1)
      ∧ (GET_ALLOC s.mem (HDRP (PREV_BLKP s.mem p)) = 0 → p ∉ indexWalk s1) := by
  obtain ⟨bl, fl, hinv⟩ := reach_inv h
  obtain ⟨s', bl', fl', pre, post, pre', post', sz, pb, nb, e, hinv', ebl, hptr, hpv, hnx,
    epre, epost, ebl', -, -, fhs, -, -⟩ := free_spec hinv hp
  subst ebl ebl'
  have M := macros_at hinv.1.1 hptr hpv hnx
  have m1 := M.1
  have m4 := M.2.2.2.1
  have m5 := M.2.2.2.2.1
  have m6 := M.2.2.2.2.2.1
  have m7 := M.2.2.2.2.2.2.1
  have m10 := M.2.2.2.2.2.2.2.2.2.1
  have m11 := M.2.2.2.2.2.2.2.2.2.2.1
  have T := tags_at hinv.1.1 hptr hpv hnx
  have b1 : 16 ≤ sz := T.1.1
  have b3 : 8 ≤ pb.1 := T.1.2.2.1
  have b6 : pb.1 + 8 ≤ p := T.1.2.2.2.2.2.1
  have b10 : nb.1 ≠ 0 → 16 ≤ nb.1 := fun hnz => (T.2.2.2.2.2.2 hnz).1
  clear M T
  obtain ⟨-, htp⟩ := run_facts pb
  obtain ⟨-, htn⟩ := run_facts nb
  have hfb : firstBlock s' = firstBlock s := by unfold firstBlock; rw [fhs]
  have hpq : p = firstBlock s + total pre' + (if pb.2 then 0 else pb.1) := by
    rw [hptr, epre, total_append, htp, Nat.add_assoc]
  have hR : mergedStart s.mem p = firstBlock s + total pre' := by
    unfold mergedStart
    rw [m5, m7]
    cases hb : pb.2
    · rw [hb] at hpq
      simp only [bit, hb, Bool.false_eq_true, if_false, if_true] at hpq ⊢
      clear * - hpq; omega
    · rw [hb] at hpq
      simp only [bit, hb, if_true] at hpq ⊢
      simp only [one_ne_zero, if_false]
      clear * - hpq; omega
  have hS : mergedSize s.mem p
      = (if pb.2 then 0 else pb.1) + sz + (if nb.2 then 0 else nb.1) := by
    unfold mergedSize
    rw [m5, m7, m4, m11, m1, m6, m10]
    have aux : ∀ (x y : Blk) (z : Nat),
        z + (if bit x = 0 then x.1 else 0) + (if bit y = 0 then y.1 else 0)
          = (if x.2 then 0 else x.1) + z + (if y.2 then 0 else y.1) := by
      rintro ⟨x1, x2⟩ ⟨y1, y2⟩ z
      cases x2 <;> cases y2 <;> simp [bit] <;> omega
    exact aux pb nb sz
  have hbR : BlockAt (firstBlock s')
      (pre' ++ ((if pb.2 then 0 else pb.1) + sz + (if nb.2 then 0 else nb.1), false) :: post')
      (firstBlock s + total pre')
      ((if pb.2 then 0 else pb.1) + sz + (if nb.2 then 0 else nb.1), false) :=
    ⟨pre', post', rfl, by rw [hfb]⟩
  obtain ⟨-, -, -, k4, k5, -, -, -, -⟩ := size_at hinv'.1 hbR
  have hidx := (indexWalk_eq hinv'.1).1
  rw [hR, hS, PACK_zero]
  refine ⟨s', e, k4, k5, ?_, ?_, ?_, ?_⟩
  · rw [heapBlocks_eq hinv'.1]
    exact (mem_blocksFrom _ _ _ _ _).2 ⟨_, hbR, rfl, rfl⟩
  · rw [hidx]
    exact hinv'.2.1 _ _ hbR
  · intro hna
    rw [hidx]
    rw [m4] at hna ⊢
    rw [m11] at hna
    have hnf : nb.2 = false := by
      cases hb : nb.2
      · rfl
      · simp [bit, hb] at hna
    have hnz : nb.1 ≠ 0 := by
      rintro h0
      rcases hnx with ⟨-, h⟩ | ⟨r, h⟩
      · rw [h] at hnf; simp at hnf
      · have hbn : BlockAt (firstBlock s) (pre ++ (sz, true) :: post) (p + sz) nb :=
          ⟨pre ++ [(sz, true)], r, by rw [h]; simp, by rw [total_append, hptr]; simp [total]; omega⟩
        have := (Seg_block hinv.1.1.2.2.2.2.1 hbn).1
        omega
    have := b10 hnz
    apply not_in_index_inside hinv'.1 hbR
    · rw [hpq]; clear * - b1; omega
    · rw [hnf]
      simp only [Bool.false_eq_true, if_false]
      rw [hpq]; clear * - this; omega
  · intro hpa
    rw [hidx]
    rw [m5, m7] at hpa
    have hpf : pb.2 = false := by
      cases hb : pb.2
      · rfl
      · simp [bit, hb] at hpa
    apply not_in_index_inside hinv'.1 hbR
    · rw [hpq, hpf]
      simp only [Bool.false_eq_true, if_false]
      clear * - b3; omega
    · rw [hpq, hpf]
      simp only [Bool.false_eq_true, if_false]
      clear * - b1; omega

set_option maxRecDepth 100000 in
theorem free_merges_neighbours_witness :
    (clientRun 65536 [Op.malloc 16, Op.malloc 16, Op.free 0]).2
        = ([1040, 1064], [1064])
      ∧ mergedStart (clientRun 65536 [Op.malloc 16, Op.malloc 16, Op.free 0]).1.mem 1064 = 1040
      ∧ mergedSize (clientRun 65536 [Op.malloc 16, Op.malloc 16, Op.free 0]).1.mem 1064 = 512
      ∧ ∃ s1, mm_free (clientRun 65536 [Op.malloc 16, Op.malloc 16, Op.free 0]).1 1064 = some s1
        ∧ GET s1.mem (HDRP (mergedStart
              (clientRun 65536 [Op.malloc 16, Op.malloc 16, Op.free 0]).1.mem 1064))
            = PACK (mergedSize (clientRun 65536 [Op.malloc 16, Op.malloc 16,
                Op.free 0]).1.mem 1064) 0
        ∧ mergedStart (clientRun 65536 [Op.malloc 16, Op.malloc 16, Op.free 0]).1.mem 1064
            ∈ indexWalk s1 :=
  ⟨by decide, by decide, by decide,
    match free_merges_neighbours _ _
      (clientRun_reach 65536 [Op.malloc 16, Op.malloc 16, Op.free 0] (by decide)) 1064
      (by decide) with
    | ⟨s1, h1, h2, _, _, h5, _⟩ => ⟨s1, h1, h2, h5⟩⟩

end MM

namespace MM

/-- Claim C19 (split threshold), amended: in every reachable state, for a free
block of the index at `ptr` of size `S` and an internal request size `r` with
`16 ≤ r ≤ S`, a multiple of 8, `place` splits the block into an allocated head
of size `r` and a free remainder of size `S - r` that is put into the index if
and only if `S - r` is more than 16 bytes (at least 24); when `S - r ≤ 16` the
whole block of size `S` is marked allocated and the index is what it was
without the block. -/
theorem place_split_threshold (s : State) (live : List Nat) (h : Reach s live)
    (ptr r : Nat) (hin : ptr ∈ indexWalk s) (h16 : 16 ≤ r) (h8 : r % 8 = 0)
    (hle : r ≤ GET_SIZE s.mem (HDRP ptr)) :
    ∃ s1, place s ptr r = some (ptr, s1)
      ∧ (16 < GET_SIZE s.mem (HDRP ptr) - r →
          (ptr, r, 1) ∈ heapBlocks s1
            ∧ (ptr + r, GET_SIZE s.mem (HDRP ptr) - r, 0) ∈ heapBlocks s1
            ∧ ptr + r ∈ indexWalk s1)
      ∧ (GET_SIZE s.mem (HDRP ptr) - r ≤ 16 →
          (ptr, GET_SIZE s.mem (HDRP ptr), 1) ∈ heapBlocks s1
            ∧ ∀ x, x ∈ indexWalk s1 ↔ x ∈ indexWalk s ∧ x ≠ ptr) := by
  obtain ⟨bl, fl, hinv⟩ := reach_inv h
  have hidx := (indexWalk_eq hinv.1).1
  rw [hidx] at hin ⊢
  obtain ⟨S, hb⟩ := hinv.1.2.2.2 ptr hin
  rw [(size_at hinv.1 hb).1] at hle ⊢
  obtain ⟨pre, post, rfl, hptr⟩ := hb
  obtain ⟨s', fl', mid', e, hcase, hw', hc', -, -, hhs, -⟩ :=
    place_spec hinv.1 hptr hin hinv.2.1 r h16 h8 hle
  have hfb : firstBlock s' = firstBlock s := by unfold firstBlock; rw [hhs]
  have hidx' := (indexWalk_eq hw').1
  refine ⟨s', e, ?_, ?_⟩
  · intro hgt
    rcases hcase with ⟨-, hc⟩ | ⟨hm, -⟩
    · exact absurd hgt (by dsimp only; omega)
    subst hm
    rw [heapBlocks_eq hw', hidx', hfb]
    have hb1 : BlockAt (firstBlock s) (pre ++ [(r, true), (S - r, false)] ++ post) ptr
        (r, true) := ⟨pre, (S - r, false) :: post, by simp, hptr⟩
    have hb2 : BlockAt (firstBlock s) (pre ++ [(r, true), (S - r, false)] ++ post) (ptr + r)
        (S - r, false) :=
      ⟨pre ++ [(r, true)], post, by simp, by rw [total_append, hptr]; simp [total]; omega⟩
    refine ⟨(mem_blocksFrom _ _ _ _ _).2 ⟨_, hb1, rfl, rfl⟩,
      (mem_blocksFrom _ _ _ _ _).2 ⟨_, hb2, rfl, rfl⟩, ?_⟩
    exact hc' _ _ (by rw [hfb]; exact hb2)
  · intro hsm
    rcases hcase with ⟨hm, -⟩ | ⟨-, hc⟩
    swap
    · exact absurd hsm (by dsimp only; omega)
    subst hm
    rw [heapBlocks_eq hw', hidx', hfb]
    have hb1 : BlockAt (firstBlock s) (pre ++ [(S, true)] ++ post) ptr (S, true) :=
      ⟨pre, post, by simp, hptr⟩
    refine ⟨(mem_blocksFrom _ _ _ _ _).2 ⟨_, hb1, rfl, rfl⟩, fun x => ?_⟩
    have hft := free_blocks_taken hinv.1.1.2.2.2.2.1 x
    constructor
    · intro hx
      obtain ⟨c, hbx⟩ := hw'.2.2.2 x hx
      rw [hfb] at hbx
      obtain ⟨k1, k2⟩ := (hft c).1 hbx
      exact ⟨hinv.2.1 x c k1, by rw [hptr]; exact k2⟩
    · rintro ⟨hx, hne⟩
      obtain ⟨c, hbx⟩ := hinv.1.2.2.2 x hx
      exact hc' x c (by rw [hfb]; exact (hft c).2 ⟨hbx, by rw [← hptr]; exact hne⟩)

set_option maxRecDepth 100000 in
theorem place_split_threshold_witness :
    indexWalk (clientRun 65536 []).1 = [1040]
      ∧ GET_SIZE (clientRun 65536 []).1.mem (HDRP 1040) = 512
      ∧ ∃ s1, place (clientRun 65536 []).1 1040 488 = some (1040, s1)
        ∧ (16 < GET_SIZE (clientRun 65536 []).1.mem (HDRP 1040) - 488 →
            (1040, 488, 1) ∈ heapBlocks s1
              ∧ (1040 + 488, GET_SIZE (clientRun 65536 []).1.mem (HDRP 1040) - 488, 0)
                  ∈ heapBlocks s1
              ∧ 1040 + 488 ∈ indexWalk s1) :=
  ⟨by decide, by decide,
    match place_split_threshold _ _ (clientRun_reach 65536 [] (by decide)) 1040 488
      (by decide) (by decide) (by decide) (by decide) with
    | ⟨s1, h1, h2, _⟩ => ⟨s1, h1, h2⟩⟩

set_option maxRecDepth 100000 in
/-- Claim C19 as stated fails when the remainder is exactly the minimum block
size: in the state `mm_init` leaves, the free block at `1040` has 512 bytes,
and `place` with the request size 496 (remainder 16) marks the whole block of
512 bytes allocated and puts nothing into the index. -/
theorem place_keeps_remainder_of_16 :
    (runValid 65536 []).isSome = true
      ∧ (indexWalk (clientRun 65536 []).1, heapBlocks (clientRun 65536 []).1)
          = ([1040], [(1040, 512, 0)])
      ∧ (place (clientRun 65536 []).1 1040 496).map
          (fun r => (r.1, heapBlocks r.2, indexWalk r.2)) = some (1040, [(1040, 512, 1)], []) := by
  decide

/-- Claim C20 (in-place forward growth): in every state reachable by
requests of supported sizes (`Reach`, `n + 15 < 2^32`), for a live
pointer `p` of block size `s` and a size `n > 0` with `getSize n > s`, when the
predecessor of `p` is allocated, the successor is free with size `b` and
`s + b ≥ getSize n`, the call `mm_realloc(p, n)` returns `p`, the block at `p`
is allocated with size `s + b` in header and footer, the successor is not in
the index, no payload byte of `p` has changed and the break is the same. -/
theorem realloc_grows_forward (s : State) (live : List Nat) (h : Reach s live)
    (p n : Nat) (hp : p ∈ live) (hn : 0 < n) (hW : n < WORD)
    (hm : GET_SIZE s.mem (HDRP p) < getSize n)
    (hpa : GET_ALLOC s.mem (HDRP (PREV_BLKP s.mem p)) = 1)
    (hna : GET_ALLOC s.mem (HDRP (NEXT_BLKP s.mem p)) = 0)
    (hfit : getSize n ≤ GET_SIZE s.mem (HDRP p) + GET_SIZE s.mem (HDRP (NEXT_BLKP s.mem p))) :
    ∃ s1, mm_realloc s p n = some (p, s1)
      ∧ GET s1.mem (HDRP p)
          = PACK (GET_SIZE s.mem (HDRP p) + GET_SIZE s.mem (HDRP (NEXT_BLKP s.mem p))) 1
      ∧ GET s1.mem (FTRP s1.mem p)
          = PACK (GET_SIZE s.mem (HDRP p) + GET_SIZE s.mem (HDRP (NEXT_BLKP s.mem p))) 1
      ∧ NEXT_BLKP s.mem p ∉ indexWalk s1
      ∧ (∀ a, p ≤ a → a < p + GET_SIZE s.mem (HDRP p) - 8 → s1.mem a = s.mem a)
      ∧ s1.mem_brk = s.mem_brk := by
  obtain ⟨bl, fl, hinv⟩ := reach_inv h
  obtain ⟨sz, hblk⟩ := (hinv.2.2.2.2 p).1 hp
  obtain ⟨pre, post, rfl, hptr⟩ := hblk
  obtain ⟨pb, hpv⟩ := exists_PrevIs pre
  obtain ⟨nb, hnx⟩ := exists_NextIs post
  have M := macros_at hinv.1.1 hptr hpv hnx
  have m1 : GET_SIZE s.mem (HDRP p) = sz := M.1
  have m4 : NEXT_BLKP s.mem p = p + sz := M.2.2.2.1
  have m5 := M.2.2.2.2.1
  have m7 := M.2.2.2.2.2.2.1
  have m10 : GET_SIZE s.mem (HDRP (p + sz)) = nb.1 := M.2.2.2.2.2.2.2.2.2.1
  have m11 : GET_ALLOC s.mem (HDRP (p + sz)) = bit nb := M.2.2.2.2.2.2.2.2.2.2.1
  have T := tags_at hinv.1.1 hptr hpv hnx
  have b1 : 16 ≤ sz := T.1.1
  have b2 : sz % 8 = 0 := T.1.2.1
  clear M T
  rw [m5, m7] at hpa
  rw [m4] at hna hfit ⊢
  rw [m11] at hna
  rw [m1] at hm hfit ⊢
  rw [m10] at hfit ⊢
  have hpt : pb.2 = true := by
    cases hb : pb.2
    · simp [bit, hb] at hpa
    · rfl
  have hnf : nb.2 = false := by
    cases hb : nb.2
    · rfl
    · simp [bit, hb] at hna
  have hv : validRequest n := by
    by_contra hv
    have := getSize_wrap n hW hv
    clear * - this hm b1
    omega
  obtain ⟨g1, g2, g3, g4, g5⟩ := getSize_spec n hv
  obtain ⟨s', fl', pre', post', r1, r2, e1, e2, r3, -, r5, -, -, r7⟩ :=
    realloc_inplace_spec hinv hptr hpv hnx n (by omega) hv hm
      (by rw [hpt, hnf]; simp) (by rw [hpt, hnf]; simpa using hfit)
  simp only [hpt, hnf, if_true, Bool.false_eq_true, if_false, List.append_nil, Nat.zero_add]
    at e1 e2 r2
  subst e1
  rw [← hptr] at r1 r7
  have hfb : firstBlock s' = firstBlock s := by unfold firstBlock; rw [r5]
  have hbR : BlockAt (firstBlock s') (pre ++ (sz + nb.1, true) :: post') p (sz + nb.1, true) :=
    ⟨pre, post', rfl, by rw [hfb]; exact hptr⟩
  obtain ⟨-, -, -, k4, k5, -, k7, -, -⟩ := size_at r2.1 hbR
  have hnz : 16 ≤ nb.1 := by
    have hbn : BlockAt (firstBlock s) (pre ++ (sz, true) :: post) (p + sz) nb :=
      ⟨pre ++ [(sz, true)], post', by rw [e2]; simp,
        by rw [total_append, hptr]; simp [total]; omega⟩
    exact (Seg_block hinv.1.1.2.2.2.2.1 hbn).1
  refine ⟨s', r1, by rw [PACK_one _ k7]; exact k4, by rw [PACK_one _ k7]; exact k5, ?_, ?_, r3⟩
  · rw [(indexWalk_eq r2.1).1]
    exact not_in_index_inside r2.1 hbR (by clear * - b1; omega) (by clear * - hnz; omega)
  · intro a h1 h2
    have e : a = p + (a - p) := by clear * - h1; omega
    rw [e]
    exact r7 (a - p) (by clear * - h1 h2; omega) (by clear * - h1 h2 hm g4 g2 b2; omega)

set_option maxRecDepth 100000 in
theorem realloc_grows_forward_witness :
    (clientRun 65536 [Op.malloc 16]).2.2 = [1040]
      ∧ GET_SIZE (clientRun 65536 [Op.malloc 16]).1.mem (HDRP 1040) = 24
      ∧ GET_SIZE (clientRun 65536 [Op.malloc 16]).1.mem
          (HDRP (NEXT_BLKP (clientRun 65536 [Op.malloc 16]).1.mem 1040)) = 488
      ∧ ∃ s1, mm_realloc (clientRun 65536 [Op.malloc 16]).1 1040 64 = some (1040, s1)
        ∧ s1.mem_brk = (clientRun 65536 [Op.malloc 16]).1.mem_brk :=
  ⟨by decide, by decide, by decide,
    match realloc_grows_forward _ _ (clientRun_reach 65536 [Op.malloc 16] (by decide)) 1040 64
      (by decide) (by decide) (by decide) (by decide) (by decide) (by decide) (by decide) with
    | ⟨s1, h1, _, _, _, _, h6⟩ => ⟨s1, h1, h6⟩⟩

end MM

namespace TransC

/-- Claim C17 (transpose correctness): for each of the shapes `(M, N)` in
`(32, 32)`, `(64, 64)`, `(61, 67)`, every `N x M` matrix `A` and every
destination `B` (a separate array), `transpose_submit(M, N, A, B)` returns
with every array access in bounds and leaves `B[j][i] = A[i][j]` for all
`i < N`, `j < M`, so that `is_transpose` returns 1; and the baseline `trans`
does the same for all `M` and `N`.  The functions only write `B`. -/
theorem transpose_correct (A B : Mat) :
    (∀ M N, (M = 32 ∧ N = 32) ∨ (M = 64 ∧ N = 64) ∨ (M = 61 ∧ N = 67) →
        ∃ B', transpose_submit M N A B = some B'
          ∧ (∀ i, i < N → ∀ j, j < M → B' j i = A i j) ∧ is_transpose M N A B' = 1)
      ∧ ∀ M N, ∃ B', trans M N A B = some B'
          ∧ (∀ i, i < N → ∀ j, j < M → B' j i = A i j) ∧ is_transpose M N A B' = 1 := by
  constructor
  · rintro M N (⟨rfl, rfl⟩ | ⟨rfl, rfl⟩ | ⟨rfl, rfl⟩)
    · obtain ⟨B', h1, h2⟩ := transpose_32_32_spec A B
      have h3 : ∀ i, i < 32 → ∀ j, j < 32 → B' j i = A i j := fun i hi j hj => h2 j i hj hi
      exact ⟨B', by simp [transpose_submit, h1], h3, is_transpose_one _ _ _ _ h3⟩
    · obtain ⟨B', h1, h2⟩ := transpose_64_64_spec A B
      have h3 : ∀ i, i < 64 → ∀ j, j < 64 → B' j i = A i j := fun i hi j hj => h2 j i hj hi
      exact ⟨B', by simp [transpose_submit, h1], h3, is_transpose_one _ _ _ _ h3⟩
    · obtain ⟨B', h1, h2⟩ := transpose_61_67_spec A B
      have h3 : ∀ i, i < 67 → ∀ j, j < 61 → B' j i = A i j := fun i hi j hj => h2 j i hj hi
      exact ⟨B', by simp [transpose_submit, h1], h3, is_transpose_one _ _ _ _ h3⟩
  · intro M N
    obtain ⟨B', h1, h2⟩ := trans_spec M N A B
    exact ⟨B', h1, h2, is_transpose_one _ _ _ _ h2⟩

end TransC

namespace MM

set_option maxRecDepth 100000 in
/-- Claim C21 (the copy of reallocate stays inside the old payload), evaluated
where it fails: on a heap region of 65536 bytes, after `a = mm_malloc(472)`,
`p = mm_malloc(16)` and `mm_free(a)` the heap ends at the break 1552 and the
last block is the one of `p = 1520`, of 32 bytes, with the payload
`[1520, 1544)`.  The call `mm_realloc(p, 300)` absorbs the free predecessor,
returns `1040` and copies the requested 300 bytes from `p`: with the byte 77 at
address 1600, beyond the break, the byte at offset 80 of the new block is 77
after the call. -/
theorem realloc_copy_reads_past_payload :
    (runValid 65536 [Op.malloc 472, Op.malloc 16, Op.free 0]).map
        (fun c => (c.2.2, c.1.mem_brk, heapBlocks c.1))
      = some ([1520], 1552, [(1040, 480, 0), (1520, 32, 1)])
    ∧ (mm_realloc (store (clientRun 65536 [Op.malloc 472, Op.malloc 16, Op.free 0]).1 1600 77)
          1520 300).map (fun r => (r.1, r.2.mem_brk, r.2.mem (1040 + 80)))
      = some (1040, 1552, 77)
    ∧ (mm_realloc (clientRun 65536 [Op.malloc 472, Op.malloc 16, Op.free 0]).1
          1520 300).map (fun r => (r.1, r.2.mem (1040 + 80)))
      = some (1040, 0) :=
  ⟨by decide, by decide, by decide⟩

set_option maxRecDepth 100000 in
/-- Claim C22 (initial heap), evaluated: on a heap region of 65536 bytes at
address 1024, `mm_init` returns 0 and leaves the padding word 0, the prologue
words `PACK(8, 1)`, one free block at `1040` with header and footer
`PACK(512, 0)` and the epilogue word `PACK(0, 1)` in the last 4 bytes below the
break 1552; that block is the only one in the index, in bucket 19.  The free
block has `CHUNKSIZE / DSIZE = 512` bytes, while `CHUNKSIZE` is 4096.  On a
region of 15 or of 527 bytes `mm_init` returns -1. -/
theorem init_block_is_512_bytes :
    (mm_init (emptyState 1024 65536)).map
        (fun r => (r.1, r.2.heap_start, r.2.mem_brk)) = some (0, 1024, 1552)
    ∧ (mm_init (emptyState 1024 65536)).map (fun r => heapBlocks r.2) = some [(1040, 512, 0)]
    ∧ (mm_init (emptyState 1024 65536)).map
        (fun r => (List.range LIST_SIZE).map (bucketWalk r.2))
      = some [[], [], [], [], [], [], [], [], [], [], [], [], [], [], [], [], [], [], [], [1040]]
    ∧ (mm_init (emptyState 1024 65536)).map
        (fun r => [GET r.2.mem 1024, GET r.2.mem 1028, GET r.2.mem 1032, GET r.2.mem 1036,
          GET r.2.mem 1544, GET r.2.mem 1548])
      = some [0, PACK 8 1, PACK 8 1, PACK 512 0, PACK 512 0, PACK 0 1]
    ∧ CHUNKSIZE = 4096 ∧ CHUNKSIZE / DSIZE = 512
    ∧ (mm_init (emptyState 1024 15)).map (fun r => r.1) = some (-1)
    ∧ (mm_init (emptyState 1024 527)).map (fun r => r.1) = some (-1) :=
  ⟨by decide, by decide, by decide, by decide, by decide, by decide, by decide, by decide⟩

end MM

namespace Csim

/-- Claim C23 (the LRU simulation matches a reference LRU cache), for traces of
fewer than `2^31` accesses: for every `E >= 1`, every cache whose lines all
start invalid with the counters at 0, and every trace of accesses whose set
indices lie in the array of sets, the calls of `load_store` all return, and the
final `hit_count`, `miss_count` and `eviction_count` are the hits, misses and
evictions of the reference cache.  After any number `m` of the accesses, in
every set the valid lines carry pairwise distinct `lru` ranks that form
`{E - k, ..., E - 1}` for the number `k` of valid lines, and in a set with `E`
valid lines `getLRU` returns a valid line of rank 0, not `NULL`. -/
theorem lru_simulation_matches_reference (s : State) (trace : List (Int × Int))
    (hE1 : 1 ≤ s.E) (hE : s.E < SIZE_T)
    (hinit : ∀ set, set < s.set_num → ∀ i, i < s.E → (s.sets set i).v = 0)
    (hcnt : s.hit_count = 0 ∧ s.miss_count = 0 ∧ s.eviction_count = 0)
    (hidx : ∀ a, a ∈ trace → 0 ≤ a.1 ∧ a.1 < (s.set_num : Int))
    (hlen : trace.length < 2 ^ 31) :
    (∃ s1, replay s trace = some s1
      ∧ s1.hit_count = ((refRun s.E trace).hits : Int)
      ∧ s1.miss_count = ((refRun s.E trace).misses : Int)
      ∧ s1.eviction_count = ((refRun s.E trace).evictions : Int))
    ∧ ∀ m, ∃ sm, replay s (trace.take m) = some sm
      ∧ ∀ set, set < s.set_num →
        (∀ i, i < s.E → (sm.sets set i).v ≠ 0 →
          s.E - validCount s.E (sm.sets set) ≤ (sm.sets set i).lru ∧ (sm.sets set i).lru < s.E)
        ∧ (∀ ρ, s.E - validCount s.E (sm.sets set) ≤ ρ → ρ < s.E →
          ∃ i, i < s.E ∧ (sm.sets set i).v ≠ 0 ∧ (sm.sets set i).lru = ρ)
        ∧ (∀ i k, i < s.E → k < s.E → (sm.sets set i).v ≠ 0 → (sm.sets set k).v ≠ 0 →
          (sm.sets set i).lru = (sm.sets set k).lru → i = k)
        ∧ ((∀ i, i < s.E → (sm.sets set i).v ≠ 0) →
          ∃ c, getLRU sm set = some c ∧ c < s.E ∧ (sm.sets set c).v ≠ 0
            ∧ (sm.sets set c).lru = 0) := by
  have hrel := CacheRel_init s hinit hcnt.1 hcnt.2.1 hcnt.2.2
  constructor
  · obtain ⟨s1, e1, c1, -, -⟩ := replay_sim trace s refInit hrel hE1 hE hidx
    obtain ⟨k1, k2⟩ := refRun_counts s.E trace
    refine ⟨s1, e1, ?_, ?_, ?_⟩
    · rw [c1.hits]
      exact wrapInt_small (by
        show (refRun s.E trace).hits < 2 ^ 31
        omega)
    · rw [c1.misses]
      exact wrapInt_small (by
        show (refRun s.E trace).misses < 2 ^ 31
        omega)
    · rw [c1.evictions]
      exact wrapInt_small (by
        show (refRun s.E trace).evictions < 2 ^ 31
        omega)
  · intro m
    obtain ⟨sm, e1, c1, eE, eN⟩ := replay_sim (trace.take m) s refInit hrel hE1 hE
      (fun a ha => hidx a (List.mem_of_mem_take ha))
    refine ⟨sm, e1, fun set hs => ?_⟩
    have hs2 : set < sm.set_num := by omega
    have hr := c1.sets set hs2
    rw [eE] at hr
    obtain ⟨r1, r2, r3⟩ := SetRel_ranks hr
    refine ⟨r1, r2, r3, fun hfull => ?_⟩
    have := full_getLRU c1 (by omega) hs2 (by rw [eE]; exact hfull)
    rw [eE] at this
    exact this

set_option maxRecDepth 100000 in
theorem lru_simulation_matches_reference_witness :
    ((refRun 2 [(0, 1), (0, 2), (0, 1), (0, 3), (0, 2), (1, 5), (0, 3)]).hits = 2
      ∧ (refRun 2 [(0, 1), (0, 2), (0, 1), (0, 3), (0, 2), (1, 5), (0, 3)]).misses = 5
      ∧ (refRun 2 [(0, 1), (0, 2), (0, 1), (0, 3), (0, 2), (1, 5), (0, 3)]).evictions = 2)
    ∧ ∃ s1, replay (initState 2 2) [(0, 1), (0, 2), (0, 1), (0, 3), (0, 2), (1, 5), (0, 3)]
        = some s1
      ∧ s1.hit_count
        = ((refRun 2 [(0, 1), (0, 2), (0, 1), (0, 3), (0, 2), (1, 5), (0, 3)]).hits : Int)
      ∧ s1.miss_count
        = ((refRun 2 [(0, 1), (0, 2), (0, 1), (0, 3), (0, 2), (1, 5), (0, 3)]).misses : Int)
      ∧ s1.eviction_count
        = ((refRun 2 [(0, 1), (0, 2), (0, 1), (0, 3), (0, 2), (1, 5), (0, 3)]).evictions : Int) :=
  ⟨by decide,
    (lru_simulation_matches_reference (initState 2 2)
      [(0, 1), (0, 2), (0, 1), (0, 3), (0, 2), (1, 5), (0, 3)] (by decide) (by decide)
      (fun _ _ _ _ => rfl) ⟨rfl, rfl, rfl⟩ (by decide) (by decide)).1⟩

/-- Claim C23 as stated, for every finite trace, fails at the width of the
counters: after `2^31 + 1` accesses of tag 0 in set 0 of a cache with one set of
one line, the reference cache counts `2^31` hits and `hit_count`, an `int`, holds
`-2^31`. -/
theorem hit_count_wraps :
    ∃ s1, replay (initState 1 1) (List.replicate 2147483649 ((0 : Int), (0 : Int))) = some s1
      ∧ s1.hit_count = -2147483648
      ∧ (refRun 1 (List.replicate 2147483649 ((0 : Int), (0 : Int)))).hits = 2147483648 := by
  obtain ⟨s1, e1, c1, -, -⟩ := replay_sim (List.replicate 2147483649 ((0 : Int), (0 : Int)))
    (initState 1 1) refInit
    (CacheRel_init _ (fun _ _ _ _ => rfl) rfl rfl rfl) (by decide) (by decide)
    (fun a ha => by
      rw [List.eq_of_mem_replicate ha]
      decide)
  have hh : (refRun 1 (List.replicate 2147483649 ((0 : Int), (0 : Int)))).hits = 2147483648 :=
    refRun_replicate_hits 1 (le_refl 1) 2147483648
  refine ⟨s1, e1, ?_, hh⟩
  have := c1.hits
  rw [this]
  show wrapInt (refRun 1 (List.replicate 2147483649 ((0 : Int), (0 : Int)))).hits = _
  rw [hh]
  decide

end Csim

namespace MM

/-! ## Request sizes at which `getSize` wraps

The request `4294967288 = 2^32 - 8` has `getSize` 0: `place` splits off an
allocated block of size 0, so the header of the pointer it returns is the
header of the free remainder. -/

set_option maxRecDepth 100000 in
/-- Claim C1 as stated, for every history of calls, fails after a request at
which `getSize` wraps: after `mm_malloc(16) = 1040` and
`mm_malloc(4294967288) = 1064` the live pointer `1064` has the header
`PACK(488, 0)`, a block that is not allocated, and the next `mm_malloc(16)`
returns `1064` a second time. -/
theorem wrapped_request_leaves_live_block_free :
    getSize 4294967288 = 0
    ∧ (runClient 65536 [Op.malloc 16, Op.malloc 4294967288]).map
        (fun c => (c.2, GET c.1.mem (HDRP 1064), GET_ALLOC c.1.mem (HDRP 1064)))
      = some ([1040, 1064], PACK 488 0, 0)
    ∧ (runClient 65536 [Op.malloc 16, Op.malloc 4294967288, Op.malloc 16]).map (fun c => c.2)
      = some [1040, 1064, 1064] :=
  ⟨by decide, by decide, by decide⟩

set_option maxRecDepth 100000 in
/-- Claim C4 as stated, for every history of calls, fails after a request at
which `getSize` wraps: after `mm_malloc(16) = 1040`, `mm_malloc(16) = 1064`,
`mm_free(1040)` and `mm_malloc(4294967288) = 1040` the live pointer `1064` is
in the index; the client stores the words 1070 and 1 into its payload, and
`mm_malloc(100)` returns `1070`, which is not a multiple of 8, on a heap that
starts at the multiple of 8 `1024`. -/
theorem wrapped_request_gives_unaligned_pointer :
    (runClient 65536 [Op.malloc 16, Op.malloc 16, Op.free 0, Op.malloc 4294967288]).map
        (fun c => (c.2, c.1.heap_start % 8, indexWalk c.1))
      = some ([1040, 1064, 1040], 0, [1064, 1088])
    ∧ (runClient 65536 [Op.malloc 16, Op.malloc 16, Op.free 0, Op.malloc 4294967288,
        Op.store 1 0 46, Op.store 1 1 4, Op.store 1 2 0, Op.store 1 3 0,
        Op.store 1 4 1, Op.store 1 5 0, Op.store 1 6 0, Op.store 1 7 0,
        Op.malloc 100]).map (fun c => c.2)
      = some [1040, 1064, 1040, 1070]
    ∧ 1070 % 8 = 6 :=
  ⟨by decide, by decide, by decide⟩

set_option maxRecDepth 100000 in
/-- Claim C5 as stated, for every history of calls, fails after a request at
which `getSize` wraps: after `p = mm_malloc(16) = 1040`, the bytes `1, ..., 16`
stored at `p`, `mm_malloc(4294967288) = 1064` and the word 1040 stored at
`1064`, the call `mm_realloc(p, 64)` returns `p` (forward absorption, nothing
is copied) and the bytes 4 to 7 of the payload, `5, 6, 7, 8` before the call,
are 0 after it. -/
theorem wrapped_request_loses_realloc_content :
    (runClient 65536 (scenario4 ++ [Op.malloc 4294967288, Op.store 1 0 16,
        Op.store 1 1 4])).map
        (fun c => (c.2, GET_SIZE c.1.mem (HDRP 1040),
          (List.range 16).map fun i => c.1.mem (1040 + i)))
      = some ([1040, 1064], 24, [1, 2, 3, 4, 5, 6, 7, 8, 9, 10, 11, 12, 13, 14, 15, 16])
    ∧ (runClient 65536 (scenario4 ++ [Op.malloc 4294967288, Op.store 1 0 16,
        Op.store 1 1 4, Op.realloc 0 64])).map
        (fun c => (c.2, (List.range 16).map fun i => c.1.mem (1040 + i)))
      = some ([1040, 1064, 1040], [1, 2, 3, 4, 0, 0, 0, 0, 9, 10, 11, 12, 13, 14, 15, 16]) :=
  ⟨by decide, by decide⟩

set_option maxRecDepth 100000 in
/-- Claim C6 as stated, for every history of calls, fails after requests at
which `getSize` wraps: after three calls `mm_malloc(4294967288)` the walk of
the heap meets the free block at `1040` and next to it the free block at
`1552`. -/
theorem wrapped_requests_leave_adjacent_free_blocks :
    (runClient 65536 [Op.malloc 4294967288, Op.malloc 4294967288,
        Op.malloc 4294967288]).map (fun c => (c.2, heapBlocks c.1))
      = some ([1040, 1552, 1552], [(1040, 512, 0), (1552, 8192, 0)]) := by
  decide

set_option maxRecDepth 100000 in
/-- Claim C7 as stated, for every history of calls, fails after a request at
which `getSize` wraps: after `mm_malloc(16)` and `mm_malloc(4294967288)` the
index holds the address `1552`, the break, where the heap has no block, and
the free block `1064` that the walk of the heap meets is not in the index. -/
theorem wrapped_request_breaks_index :
    (runClient 65536 [Op.malloc 16, Op.malloc 4294967288]).map
        (fun c => (c.1.mem_brk, indexWalk c.1, heapBlocks c.1))
      = some (1552, [1552], [(1040, 24, 1), (1064, 488, 0)]) := by
  decide

set_option maxRecDepth 100000 in
/-- Claim C18 as stated, for every history of calls, fails after a request at
which `getSize` wraps: after `mm_malloc(16) = 1040` and
`p = mm_malloc(4294967288) = 1064` the block of `p` has 488 bytes, its
predecessor `1040` is allocated and it ends at the epilogue; `mm_free(p)`
leaves at `1064` a free block of 976 bytes, which runs past the break 1552,
where the claim gives 488 bytes. -/
theorem wrapped_request_free_merges_wrongly :
    (runClient 65536 [Op.malloc 16, Op.malloc 4294967288]).map
        (fun c => (c.2, heapBlocks c.1, GET c.1.mem (c.1.mem_brk - 4)))
      = some ([1040, 1064], [(1040, 24, 1), (1064, 488, 0)], PACK 0 1)
    ∧ (runClient 65536 [Op.malloc 16, Op.malloc 4294967288, Op.free 1]).map
        (fun c => (c.1.mem_brk, heapBlocks c.1, GET c.1.mem (HDRP 1064)))
      = some (1552, [(1040, 24, 1), (1064, 976, 0)], PACK 976 0) :=
  ⟨by decide, by decide⟩

set_option maxRecDepth 100000 in
/-- Claim C20 as stated, for every history of calls, fails after a request at
which `getSize` wraps: after `p = mm_malloc(16) = 1040` and
`mm_malloc(4294967288) = 1064`, with the bytes 200 and 201 stored at `p + 4`
and `p + 5` and the word 1040 stored at `1064`, the block of `p` has 24 bytes,
its predecessor is allocated, its successor `1064` is free with 488 bytes and
`getSize(64) = 72`; `mm_realloc(p, 64)` returns `p` with the header
`PACK(512, 1)`, and the bytes at `p + 4` and `p + 5` are 0. -/
theorem wrapped_request_forward_growth_clobbers :
    (runClient 65536 [Op.malloc 16, Op.malloc 4294967288, Op.store 0 4 200, Op.store 0 5 201,
        Op.store 1 0 16, Op.store 1 1 4]).map
        (fun c => (c.2, GET_SIZE c.1.mem (HDRP 1040),
          GET_ALLOC c.1.mem (HDRP (PREV_BLKP c.1.mem 1040)),
          GET c.1.mem (HDRP (NEXT_BLKP c.1.mem 1040)), c.1.mem 1044, c.1.mem 1045))
      = some ([1040, 1064], 24, 1, PACK 488 0, 200, 201)
    ∧ getSize 64 = 72
    ∧ (runClient 65536 [Op.malloc 16, Op.malloc 4294967288, Op.store 0 4 200, Op.store 0 5 201,
        Op.store 1 0 16, Op.store 1 1 4, Op.realloc 0 64]).map
        (fun c => (c.2, GET c.1.mem (HDRP 1040), c.1.mem 1044, c.1.mem 1045))
      = some ([1040, 1064, 1040], PACK 512 1, 0, 0) :=
  ⟨by decide, by decide, by decide⟩

end MM
